import Mathlib

/-! # Chess engine: position state machine and move generator

A shallow embedding of `src/board.cpp` and `src/movegen.cpp`, and the properties of the
position record, of `makeMove` and of the legal-move enumeration proved about it.

* A `std::string` is a `List Char`, one `Char` per byte, and `code c` is the value the
  byte has in `int` arithmetic; the source compares characters with ASCII constants only.
* `int` is `Int`.  `std::stoi` fails outside the 32-bit range, as in C++; `++` on the two
  move counters is `wrapInt` of the exact result: exact inside the range of `int`,
  wrapped around outside it (signed overflow is undefined behaviour in C++; the build
  wraps).
* `board_` (`std::vector<std::string>`) is a `List (List Char)`; the class keeps it 8 x 8.
* Indexing `board_[r][c]` outside the 8 x 8 grid is undefined behaviour in C++.  The
  embedding makes such a read return the NUL character and such a write a no-op; the
  predicate `gridOK` and the on-board hypotheses of the theorems keep the results
  inside the defined part.
* A method that mutates the board returns the board afterwards; `makeMove` returns the
  flag and the board.  A constructor that can throw returns an `Option`.
* Loops over `0..7` are folds over `List.range 8`; `while` loops take fuel, eight
  iterations being enough to leave the grid in any direction.
-/

namespace Chess

/-! ## Data model (`board.h`) -/

/-- The `Board` class of `board.h`: the grid and the game-state fields. -/
structure Board where
  board_ : List (List Char)
  white_to_move_ : Bool
  white_can_castle_kingside_ : Bool
  white_can_castle_queenside_ : Bool
  black_can_castle_kingside_ : Bool
  black_can_castle_queenside_ : Bool
  en_passant_target_ : List Char
  halfmove_clock_ : Int
  fullmove_number_ : Int
deriving DecidableEq, Repr

/-- The character code of a `char`, as the `int` it promotes to in arithmetic. -/
def code (c : Char) : Int := (c.toNat : Int)

/-- The value an `int` holds after an operation whose exact result is `x`: `x` itself
inside the range -2147483648 .. 2147483647, the two's-complement wrap-around outside it. -/
def wrapInt (x : Int) : Int := (x + 2147483648) % 4294967296 - 2147483648

/-- The raw read `g[r][c]`; NUL outside the grid. -/
def cellAt (g : List (List Char)) (r c : Int) : Char :=
  if 0 ≤ r ∧ 0 ≤ c then (g.getD r.toNat []).getD c.toNat (Char.ofNat 0) else Char.ofNat 0

/-- The raw write `g[r][c] = v`; nothing is written outside the grid. -/
def setCell (g : List (List Char)) (r c : Int) (v : Char) : List (List Char) :=
  if 0 ≤ r ∧ 0 ≤ c then g.modify (fun row => row.set c.toNat v) r.toNat else g

/-- The constant `WHITE_PIECES`. -/
def WHITE_PIECES : List Char := ['P', 'N', 'B', 'R', 'Q', 'K']

/-- The constant `BLACK_PIECES`. -/
def BLACK_PIECES : List Char := ['p', 'n', 'b', 'r', 'q', 'k']

/-- The default constructor `Board::Board()`. -/
def Board.start : Board where
  board_ := ["rnbqkbnr".toList, "pppppppp".toList, "........".toList, "........".toList,
             "........".toList, "........".toList, "PPPPPPPP".toList, "RNBQKBNR".toList]
  white_to_move_ := true
  white_can_castle_kingside_ := true
  white_can_castle_queenside_ := true
  black_can_castle_kingside_ := true
  black_can_castle_queenside_ := true
  en_passant_target_ := "-".toList
  halfmove_clock_ := 0
  fullmove_number_ := 1

/-- The method `Board::isValidSquare`. -/
def isValidSquare (row col : Int) : Bool :=
  decide (row ≥ 0) && decide (row < 8) && decide (col ≥ 0) && decide (col < 8)

/-- The method `Board::isWhitePiece`. -/
def isWhitePiece (piece : Char) : Bool := decide (piece ∈ WHITE_PIECES)

/-- The method `Board::isBlackPiece`. -/
def isBlackPiece (piece : Char) : Bool := decide (piece ∈ BLACK_PIECES)

/-- The method `Board::isOpponentPiece`. -/
def isOpponentPiece (piece : Char) (white_player : Bool) : Bool :=
  if white_player then isBlackPiece piece else isWhitePiece piece

/-- The method `Board::isFriendlyPiece`. -/
def isFriendlyPiece (piece : Char) (white_player : Bool) : Bool :=
  if white_player then isWhitePiece piece else isBlackPiece piece

/-- The method `Board::getPiece(int, int)`. -/
def Board.getPiece (b : Board) (row col : Int) : Char :=
  if !isValidSquare row col then Char.ofNat 0 else cellAt b.board_ row col

/-- The method `Board::getPosition`, the pair `{row, col}`. -/
def getPosition (square : List Char) : Int × Int :=
  match square with
  | [f, r] =>
    let file := code f - code 'a'
    let rank := code r - code '1'
    (7 - rank, file)
  | _ => (-1, -1)

/-- The method `Board::getPiece(const std::string&)`. -/
def Board.getPieceAt (b : Board) (square : List Char) : Char :=
  let pos := getPosition square
  b.getPiece pos.1 pos.2

/-- The method `Board::getSquare`. -/
def getSquare (row col : Int) : List Char :=
  if !isValidSquare row col then []
  else [Char.ofNat (code 'a' + col).toNat, Char.ofNat (code '1' + (7 - row)).toNat]

/-- The pawn block of `Board::makeMove`: en-passant capture, the new en-passant target,
promotion.  `b` is the board after the piece has been relocated. -/
def pawnStep (b : Board) (piece : Char) (to_sq : List Char) (from_pos to_pos : Int × Int) :
    Board :=
  -- En passant capture: remove captured pawn
  let b1 : Board :=
    if to_sq = b.en_passant_target_ then
      let captured_row := if b.white_to_move_ then to_pos.1 + 1 else to_pos.1 - 1
      { b with board_ := setCell b.board_ captured_row to_pos.2 '.' }
    else b
  -- Set en passant target for double pawn move
  let b2 : Board :=
    if (from_pos.1 - to_pos.1).natAbs = 2 then
      let ep_row := Int.tdiv (from_pos.1 + to_pos.1) 2
      { b1 with en_passant_target_ := getSquare ep_row to_pos.2 }
    else { b1 with en_passant_target_ := ['-'] }
  -- Pawn promotion (always to queen)
  if (piece = 'P' ∧ to_pos.1 = 0) ∨ (piece = 'p' ∧ to_pos.1 = 7) then
    { b2 with board_ := setCell b2.board_ to_pos.1 to_pos.2 (if b2.white_to_move_ then 'Q' else 'q') }
  else b2

/-- The king block of `Board::makeMove`: the rook relocation of a castling move and the
castling rights of the king's colour. -/
def kingStep (b : Board) (piece : Char) (from_pos to_pos : Int × Int) : Board :=
  let b1 : Board :=
    if (to_pos.2 - from_pos.2).natAbs = 2 then
      if to_pos.2 = 6 then
        let rook_row : Int := if piece = 'K' then 7 else 0
        let g := setCell b.board_ rook_row 5 (cellAt b.board_ rook_row 7)
        { b with board_ := setCell g rook_row 7 '.' }
      else if to_pos.2 = 2 then
        let rook_row : Int := if piece = 'K' then 7 else 0
        let g := setCell b.board_ rook_row 3 (cellAt b.board_ rook_row 0)
        { b with board_ := setCell g rook_row 0 '.' }
      else b
    else b
  if piece = 'K' then
    { b1 with white_can_castle_kingside_ := false, white_can_castle_queenside_ := false }
  else
    { b1 with black_can_castle_kingside_ := false, black_can_castle_queenside_ := false }

/-- The rook block of `Board::makeMove`: the castling right of the corner the rook leaves. -/
def rookStep (b : Board) (from_sq : List Char) : Board :=
  if from_sq = ['a', '1'] then { b with white_can_castle_queenside_ := false }
  else if from_sq = ['h', '1'] then { b with white_can_castle_kingside_ := false }
  else if from_sq = ['a', '8'] then { b with black_can_castle_queenside_ := false }
  else if from_sq = ['h', '8'] then { b with black_can_castle_kingside_ := false }
  else b

/-- The part of `Board::makeMove` after the three rejections: the move is made. -/
def Board.applyMove (b : Board) (from_sq to_sq : List Char) (from_pos to_pos : Int × Int)
    (piece : Char) : Board :=
  -- Make the move
  let b1 : Board :=
    { b with board_ := setCell (setCell b.board_ to_pos.1 to_pos.2 piece)
                         from_pos.1 from_pos.2 '.' }
  -- Handle special moves
  let b2 : Board :=
    if piece = 'P' ∨ piece = 'p' then pawnStep b1 piece to_sq from_pos to_pos
    else { b1 with en_passant_target_ := ['-'] }
  -- Handle castling
  let b3 : Board :=
    if piece = 'K' ∨ piece = 'k' then kingStep b2 piece from_pos to_pos else b2
  -- Update castling rights for rook moves
  let b4 : Board := if piece = 'R' ∨ piece = 'r' then rookStep b3 from_sq else b3
  -- Update move counters
  let b5 : Board :=
    if piece = 'P' ∨ piece = 'p' ∨ b4.getPiece to_pos.1 to_pos.2 ≠ '.' then
      { b4 with halfmove_clock_ := 0 }
    else { b4 with halfmove_clock_ := wrapInt (b4.halfmove_clock_ + 1) }
  let b6 : Board :=
    if !b5.white_to_move_ then { b5 with fullmove_number_ := wrapInt (b5.fullmove_number_ + 1) }
    else b5
  { b6 with white_to_move_ := !b6.white_to_move_ }

/-- The method `Board::makeMove`: the returned flag and the board afterwards. -/
def Board.makeMove (b : Board) (move : List Char) : Bool × Board :=
  if move.length < 4 then (false, b) else
  let from_sq := move.take 2
  let to_sq := (move.drop 2).take 2
  let from_pos := getPosition from_sq
  let to_pos := getPosition to_sq
  if from_pos.1 = -1 ∨ to_pos.1 = -1 then (false, b) else
  let piece := b.getPiece from_pos.1 from_pos.2
  if piece = '.' then (false, b) else
  -- Check if it is the correct player's turn
  if b.white_to_move_ ≠ isWhitePiece piece then (false, b) else
  (true, b.applyMove from_sq to_sq from_pos to_pos piece)

/-- The method `Board::copy`: a board with the same nine fields. -/
def Board.copy (b : Board) : Board :=
  { board_ := b.board_
    white_to_move_ := b.white_to_move_
    white_can_castle_kingside_ := b.white_can_castle_kingside_
    white_can_castle_queenside_ := b.white_can_castle_queenside_
    black_can_castle_kingside_ := b.black_can_castle_kingside_
    black_can_castle_queenside_ := b.black_can_castle_queenside_
    en_passant_target_ := b.en_passant_target_
    halfmove_clock_ := b.halfmove_clock_
    fullmove_number_ := b.fullmove_number_ }

/-- The function `std::tolower` in the C locale. -/
def tolower (c : Char) : Char :=
  if code 'A' ≤ code c ∧ code c ≤ code 'Z' then Char.ofNat (c.toNat + 32) else c

/-- The `while` loop of `Board::isPathClear`, at most `fuel` iterations; `none` when the
fuel runs out. -/
def isPathClearLoop (g : List (List Char)) (to_row to_col dr dc : Int) :
    Nat → Int → Int → Option Bool
  | 0, _, _ => none
  | fuel + 1, r, c =>
    if r ≠ to_row ∨ c ≠ to_col then
      if cellAt g r c ≠ '.' then some false
      else isPathClearLoop g to_row to_col dr dc fuel (r + dr) (c + dc)
    else some true

/-- The method `Board::isPathClear`; eight iterations reach any square of the grid. -/
def Board.isPathClear (b : Board) (from_row from_col to_row to_col : Int) : Option Bool :=
  let dr : Int := if to_row > from_row then 1 else if to_row < from_row then -1 else 0
  let dc : Int := if to_col > from_col then 1 else if to_col < from_col then -1 else 0
  isPathClearLoop b.board_ to_row to_col dr dc 8 (from_row + dr) (from_col + dc)

/-- The method `Board::canPieceAttackSquare`; a path test that does not finish counts as
no attack. -/
def Board.canPieceAttackSquare (b : Board) (piece : Char)
    (from_row from_col to_row to_col : Int) : Bool :=
  let dr := to_row - from_row
  let dc := to_col - from_col
  let lower := tolower piece
  if lower = 'p' then
    let direction : Int := if piece = 'P' then -1 else 1
    decide (dr = direction ∧ dc.natAbs = 1)
  else if lower = 'r' then
    decide (dr = 0 ∨ dc = 0) && (b.isPathClear from_row from_col to_row to_col == some true)
  else if lower = 'n' then
    decide ((dr.natAbs = 2 ∧ dc.natAbs = 1) ∨ (dr.natAbs = 1 ∧ dc.natAbs = 2))
  else if lower = 'b' then
    decide (dr.natAbs = dc.natAbs) && (b.isPathClear from_row from_col to_row to_col == some true)
  else if lower = 'q' then
    decide ((dr = 0 ∨ dc = 0) ∨ dr.natAbs = dc.natAbs) &&
      (b.isPathClear from_row from_col to_row to_col == some true)
  else if lower = 'k' then
    decide (dr.natAbs ≤ 1 ∧ dc.natAbs ≤ 1)
  else false

/-- The king search of `Board::isInCheck`: the first square in row-major order that holds
`king`, or `(-1, -1)`. -/
def findKing (g : List (List Char)) (king : Char) : Int × Int :=
  (List.range 8).foldl (fun (k : Int × Int) (i : Nat) =>
    if k.1 ≠ -1 then k else
    (List.range 8).foldl (fun (k : Int × Int) (j : Nat) =>
      if k.1 ≠ -1 then k else
      if cellAt g i j = king then ((i : Int), (j : Int)) else k) k) (-1, -1)

/-- The method `Board::isInCheck`. -/
def Board.isInCheck (b : Board) (white_player : Bool) : Bool :=
  let king : Char := if white_player then 'K' else 'k'
  let k := findKing b.board_ king
  if k.1 = -1 then false else
  (List.range 8).any fun (i : Nat) =>
    (List.range 8).any fun (j : Nat) =>
      let piece := cellAt b.board_ i j
      if piece = '.' ∨ isFriendlyPiece piece white_player then false
      else b.canPieceAttackSquare piece i j k.1 k.2

/-- The method `Board::canCastleKingside`. -/
def Board.canCastleKingside (b : Board) (white_player : Bool) : Bool :=
  if white_player then b.white_can_castle_kingside_ else b.black_can_castle_kingside_

/-- The method `Board::canCastleQueenside`. -/
def Board.canCastleQueenside (b : Board) (white_player : Bool) : Bool :=
  if white_player then b.white_can_castle_queenside_ else b.black_can_castle_queenside_

/-! ## Move generator (`movegen.cpp`) -/

/-- The function `MoveGenerator::positionToSquare`. -/
def positionToSquare (row col : Int) : List Char :=
  if row < 0 ∨ row ≥ 8 ∨ col < 0 ∨ col ≥ 8 then []
  else [Char.ofNat (code 'a' + col).toNat, Char.ofNat (code '1' + (7 - row)).toNat]

/-- The function `MoveGenerator::squareToPosition`. -/
def squareToPosition (square : List Char) : Int × Int :=
  match square with
  | [f, r] =>
    let file := code f - code 'a'
    let rank := code r - code '1'
    (7 - rank, file)
  | _ => (-1, -1)

/-- The test `c >= 'A' && c <= 'Z'` the move generator uses for "white". -/
def isUpper (c : Char) : Bool := decide (code c ≥ code 'A') && decide (code c ≤ code 'Z')

/-- The function `MoveGenerator::generatePawnMoves`. -/
def generatePawnMoves (board : Board) (row col : Int) (white_piece : Bool) : List (List Char) :=
  let direction : Int := if white_piece then -1 else 1
  let start_row : Int := if white_piece then 6 else 1
  -- Forward moves
  let new_row := row + direction
  let moves : List (List Char) :=
    if new_row ≥ 0 ∧ new_row < 8 ∧ board.getPiece new_row col = '.' then
      let moves := [positionToSquare new_row col]
      if row = start_row then
        let new_row := row + 2 * direction
        if new_row ≥ 0 ∧ new_row < 8 ∧ board.getPiece new_row col = '.' then
          moves ++ [positionToSquare new_row col]
        else moves
      else moves
    else []
  -- Captures
  ([-1, 1] : List Int).foldl (fun moves dc =>
    let new_col := col + dc
    let new_row := row + direction
    if new_row ≥ 0 ∧ new_row < 8 ∧ new_col ≥ 0 ∧ new_col < 8 then
      let target := board.getPiece new_row new_col
      if target ≠ '.' then
        let target_white := isUpper target
        if target_white ≠ white_piece then moves ++ [positionToSquare new_row new_col]
        else moves
      else if positionToSquare new_row new_col = board.en_passant_target_ then
        moves ++ [positionToSquare new_row new_col]
      else moves
    else moves) moves

/-- The `while` loop of `generateRookMoves` and `generateBishopMoves`: the walk from
`(new_row, new_col)` in direction `(dr, dc)`, at most `fuel` iterations. -/
def slideLoop (board : Board) (white_piece : Bool) (dr dc : Int) :
    Nat → Int → Int → List (List Char) → List (List Char)
  | 0, _, _, moves => moves
  | fuel + 1, new_row, new_col, moves =>
    if new_row ≥ 0 ∧ new_row < 8 ∧ new_col ≥ 0 ∧ new_col < 8 then
      let target := board.getPiece new_row new_col
      if target = '.' then
        slideLoop board white_piece dr dc fuel (new_row + dr) (new_col + dc)
          (moves ++ [positionToSquare new_row new_col])
      else
        let target_white := isUpper target
        if target_white ≠ white_piece then moves ++ [positionToSquare new_row new_col]
        else moves
    else moves

/-- The function `MoveGenerator::generateRookMoves`. -/
def generateRookMoves (board : Board) (row col : Int) (white_piece : Bool) : List (List Char) :=
  ([(-1, 0), (1, 0), (0, -1), (0, 1)] : List (Int × Int)).foldl (fun moves dir =>
    slideLoop board white_piece dir.1 dir.2 8 (row + dir.1) (col + dir.2) moves) []

/-- The function `MoveGenerator::generateBishopMoves`. -/
def generateBishopMoves (board : Board) (row col : Int) (white_piece : Bool) :
    List (List Char) :=
  ([(-1, -1), (-1, 1), (1, -1), (1, 1)] : List (Int × Int)).foldl (fun moves dir =>
    slideLoop board white_piece dir.1 dir.2 8 (row + dir.1) (col + dir.2) moves) []

/-- The loop body shared by `generateKnightMoves` and the one-square part of
`generateKingMoves`: one offset of the table. -/
def stepMove (board : Board) (row col : Int) (white_piece : Bool)
    (moves : List (List Char)) (off : Int × Int) : List (List Char) :=
  let new_row := row + off.1
  let new_col := col + off.2
  if new_row ≥ 0 ∧ new_row < 8 ∧ new_col ≥ 0 ∧ new_col < 8 then
    let target := board.getPiece new_row new_col
    if target = '.' then moves ++ [positionToSquare new_row new_col]
    else
      let target_white := isUpper target
      if target_white ≠ white_piece then moves ++ [positionToSquare new_row new_col]
      else moves
  else moves

/-- The function `MoveGenerator::generateKnightMoves`. -/
def generateKnightMoves (board : Board) (row col : Int) (white_piece : Bool) :
    List (List Char) :=
  ([(-2, -1), (-2, 1), (-1, -2), (-1, 2), (1, -2), (1, 2), (2, -1), (2, 1)] :
    List (Int × Int)).foldl (stepMove board row col white_piece) []

/-- The function `MoveGenerator::generateQueenMoves`. -/
def generateQueenMoves (board : Board) (row col : Int) (white_piece : Bool) :
    List (List Char) :=
  generateRookMoves board row col white_piece ++ generateBishopMoves board row col white_piece

/-- The function `MoveGenerator::generateKingMoves`. -/
def generateKingMoves (board : Board) (row col : Int) (white_piece : Bool) : List (List Char) :=
  let moves :=
    ([(-1, -1), (-1, 0), (-1, 1), (0, -1), (0, 1), (1, -1), (1, 0), (1, 1)] :
      List (Int × Int)).foldl (stepMove board row col white_piece) []
  -- Castling moves
  if !board.isInCheck white_piece then
    -- Kingside castling
    let moves :=
      if board.canCastleKingside white_piece ∧
          board.getPiece row (col + 1) = '.' ∧ board.getPiece row (col + 2) = '.' then
        let temp_board :=
          (board.copy.makeMove (positionToSquare row col ++ positionToSquare row (col + 1))).2
        if !temp_board.isInCheck white_piece then moves ++ [positionToSquare row (col + 2)]
        else moves
      else moves
    -- Queenside castling
    if board.canCastleQueenside white_piece ∧
        board.getPiece row (col - 1) = '.' ∧ board.getPiece row (col - 2) = '.' ∧
        board.getPiece row (col - 3) = '.' then
      let temp_board :=
        (board.copy.makeMove (positionToSquare row col ++ positionToSquare row (col - 1))).2
      if !temp_board.isInCheck white_piece then moves ++ [positionToSquare row (col - 2)]
      else moves
    else moves
  else moves

/-- The function `MoveGenerator::generatePseudoLegalMoves`. -/
def generatePseudoLegalMoves (board : Board) (row col : Int) : List (List Char) :=
  let piece := board.getPiece row col
  if piece = '.' then [] else
  let white_piece := isUpper piece
  let lower := tolower piece
  if lower = 'p' then generatePawnMoves board row col white_piece
  else if lower = 'r' then generateRookMoves board row col white_piece
  else if lower = 'n' then generateKnightMoves board row col white_piece
  else if lower = 'b' then generateBishopMoves board row col white_piece
  else if lower = 'q' then generateQueenMoves board row col white_piece
  else if lower = 'k' then generateKingMoves board row col white_piece
  else []

/-- The innermost loop body of `generateLegalMoves`: try `from_square + to_square` on a
copy and keep it when the mover is not left in check. -/
def tryMove (board : Board) (white_player : Bool) (from_square : List Char)
    (legal_moves : List (List Char)) (to_square : List Char) : List (List Char) :=
  let full_move := from_square ++ to_square
  let temp := board.copy.makeMove full_move
  if temp.1 then
    if !temp.2.isInCheck white_player then legal_moves ++ [full_move] else legal_moves
  else legal_moves

/-- The body of the two square loops of `generateLegalMoves` at square `(row, col)`. -/
def scanSquare (board : Board) (white_player : Bool) (row col : Int)
    (legal_moves : List (List Char)) : List (List Char) :=
  let piece := board.getPiece row col
  if piece = '.' then legal_moves else
  let is_white_piece := isUpper piece
  if is_white_piece ≠ white_player then legal_moves else
  let pseudo_moves := generatePseudoLegalMoves board row col
  let from_square := positionToSquare row col
  pseudo_moves.foldl (tryMove board white_player from_square) legal_moves

/-- The function `MoveGenerator::generateLegalMoves`. -/
def generateLegalMoves (board : Board) (white_player : Bool) : List (List Char) :=
  (List.range 8).foldl (fun legal_moves (row : Nat) =>
    (List.range 8).foldl (fun legal_moves (col : Nat) =>
      scanSquare board white_player row col legal_moves) legal_moves) []

/-! ## Textual position record (`Board::Board(const std::string&)`, `Board::toFEN`) -/

/-- The function `std::isspace` in the C locale. -/
def isspace (c : Char) : Bool :=
  decide (code c = 32) || (decide (9 ≤ code c) && decide (code c ≤ 13))

/-- The function `std::isdigit`. -/
def isdigit (c : Char) : Bool := decide (code '0' ≤ code c) && decide (code c ≤ code '9')

/-- One `iss >> token`: skip white space, read up to the next white space; the token and
the rest of the stream.  At the end of the stream the token stays empty. -/
def extract (s : List Char) : List Char × List Char :=
  let s1 := s.dropWhile isspace
  (s1.takeWhile (fun c => !isspace c), s1.dropWhile (fun c => !isspace c))

/-- The optional sign `std::stoi` accepts: whether it is a minus, and the rest. -/
def stoiSign : List Char → Bool × List Char
  | '-' :: t => (true, t)
  | '+' :: t => (false, t)
  | s => (false, s)

/-- The function `std::stoi`: white space, an optional sign, then decimal digits; `none`
when it throws (`std::invalid_argument` without a digit, `std::out_of_range` outside
`int`). -/
def stoi (s : List Char) : Option Int :=
  let s1 := s.dropWhile isspace
  let signed := stoiSign s1
  let ds := signed.2.takeWhile isdigit
  if ds = [] then none else
  let v : Int := ds.foldl (fun acc c => acc * 10 + (code c - code '0')) 0
  let v : Int := if signed.1 then -v else v
  if v < -2147483648 ∨ v > 2147483647 then none else some v

/-- The function `std::to_string(int)`. -/
def to_string (n : Int) : List Char :=
  if n < 0 then '-' :: Nat.toDigits 10 n.natAbs else Nat.toDigits 10 n.toNat

/-- The loop body of the board part of the constructor: the state is the grid, `row`
and `col`. -/
def parseStep (st : List (List Char) × Int × Int) (c : Char) : List (List Char) × Int × Int :=
  if c = '/' then (st.1, st.2.1 + 1, 0)
  else if isdigit c then (st.1, st.2.1, st.2.2 + (code c - code '0'))
  else (setCell st.1 st.2.1 st.2.2 c, st.2.1, st.2.2 + 1)

/-- The constructor `Board::Board(const std::string& fen)`; `none` when `std::stoi`
throws. -/
def Board.ofFEN (fen : List Char) : Option Board :=
  let e1 := extract fen
  let e2 := extract e1.2
  let e3 := extract e2.2
  let e4 := extract e3.2
  let e5 := extract e4.2
  let e6 := extract e5.2
  let board_part := e1.1
  let active_color := e2.1
  let castling := e3.1
  let en_passant := e4.1
  let halfmove := e5.1
  let fullmove := e6.1
  -- Parse board position
  let grid := (board_part.foldl parseStep
    (List.replicate 8 (List.replicate 8 '.'), 0, 0)).1
  -- Parse game state
  match stoi halfmove with
  | none => none
  | some hm =>
    match stoi fullmove with
    | none => none
    | some fm =>
      some { board_ := grid
             white_to_move_ := decide (active_color = ['w'])
             white_can_castle_kingside_ := decide ('K' ∈ castling)
             white_can_castle_queenside_ := decide ('Q' ∈ castling)
             black_can_castle_kingside_ := decide ('k' ∈ castling)
             black_can_castle_queenside_ := decide ('q' ∈ castling)
             en_passant_target_ := en_passant
             halfmove_clock_ := hm
             fullmove_number_ := fm }

/-- The text `toFEN` appends when a run of `empty_count` empty squares ends. -/
def flushEmpty (st : List Char × Int) : List Char :=
  if st.2 > 0 then st.1 ++ to_string st.2 else st.1

/-- The inner loop body of `toFEN` on one cell: the state is `fen` and `empty_count`. -/
def fenCell (st : List Char × Int) (c : Char) : List Char × Int :=
  if c = '.' then (st.1, st.2 + 1) else (flushEmpty st ++ [c], 0)

/-- The outer loop body of `toFEN`: row `i` appended to `fen`. -/
def fenRow (g : List (List Char)) (fen : List Char) (i : Nat) : List Char :=
  let st := (List.range 8).foldl (fun st (j : Nat) => fenCell st (cellAt g i j)) (fen, 0)
  let fen := flushEmpty st
  if i < 7 then fen ++ ['/'] else fen

/-- The method `Board::toFEN`. -/
def Board.toFEN (b : Board) : List Char :=
  -- Board position
  let fen := (List.range 8).foldl (fenRow b.board_) []
  -- Active color
  let fen := fen ++ (if b.white_to_move_ then [' ', 'w', ' '] else [' ', 'b', ' '])
  -- Castling rights
  let castling : List Char := []
  let castling := if b.white_can_castle_kingside_ then castling ++ ['K'] else castling
  let castling := if b.white_can_castle_queenside_ then castling ++ ['Q'] else castling
  let castling := if b.black_can_castle_kingside_ then castling ++ ['k'] else castling
  let castling := if b.black_can_castle_queenside_ then castling ++ ['q'] else castling
  let castling := if castling = [] then ['-'] else castling
  let fen := fen ++ (castling ++ [' '])
  -- En passant target
  let fen := fen ++ (b.en_passant_target_ ++ [' '])
  -- Halfmove clock and fullmove number
  fen ++ (to_string b.halfmove_clock_ ++ [' '] ++ to_string b.fullmove_number_)

/-! ## Well-formed position records -/

/-- The fields of `s` between occurrences of `sep`. -/
def splitOn (sep : Char) : List Char → List (List Char)
  | [] => [[]]
  | c :: s =>
    if c = sep then [] :: splitOn sep s
    else
      match splitOn sep s with
      | [] => [[c]]
      | f :: fs => (c :: f) :: fs

/-- The twelve piece letters. -/
def pieceLetters : List Char := WHITE_PIECES ++ BLACK_PIECES

/-- The digits that count empty files in a rank. -/
def fileDigits : List Char := ['1', '2', '3', '4', '5', '6', '7', '8']

/-- The number of files a rank field covers. -/
def rankWidth : List Char → Int
  | [] => 0
  | c :: r => (if c ∈ fileDigits then code c - code '0' else 1) + rankWidth r

/-- No two digits are adjacent: every run of empty files is written as one digit. -/
def maximalRuns : List Char → Bool
  | c :: d :: r => !(decide (c ∈ fileDigits) && decide (d ∈ fileDigits)) && maximalRuns (d :: r)
  | _ => true

/-- A well-formed rank: piece letters and file digits, maximal digit runs, 8 files. -/
def rankOK (r : List Char) : Bool :=
  r.all (fun c => decide (c ∈ pieceLetters) || decide (c ∈ fileDigits)) &&
    maximalRuns r && decide (rankWidth r = 8)

/-- A well-formed castling field: `-`, or a non-empty subset of `KQkq` in that order. -/
def castlingOK (s : List Char) : Bool :=
  decide (s = ['-']) || (decide (s ≠ []) && decide (s ∈ ['K', 'Q', 'k', 'q'].sublists))

/-- A square name: a file `a`-`h` and a rank `1`-`8`. -/
def squareOK (s : List Char) : Bool :=
  match s with
  | [f, r] => decide (code 'a' ≤ code f) && decide (code f ≤ code 'h') &&
              decide (code '1' ≤ code r) && decide (code r ≤ code '8')
  | _ => false

/-- A decimal counter: digits only, not empty, no leading zero. -/
def counterOK (s : List Char) : Bool :=
  match s with
  | [] => false
  | [c] => isdigit c
  | c :: t => isdigit c && decide (c ≠ '0') && t.all isdigit

/-- The value of a string of decimal digits. -/
def decimalValue (s : List Char) : Int :=
  s.foldl (fun acc c => acc * 10 + (code c - code '0')) 0

/-- A well-formed six-field position record: eight `/`-separated well-formed ranks,
active colour `w` or `b`, a castling field, an en-passant square or `-`, two decimal
counters, single spaces between the fields. -/
def wellFormedFEN (R : List Char) : Bool :=
  match splitOn ' ' R with
  | [board_part, active_color, castling, en_passant, halfmove, fullmove] =>
    decide ((splitOn '/' board_part).length = 8) && (splitOn '/' board_part).all rankOK &&
    (decide (active_color = ['w']) || decide (active_color = ['b'])) &&
    castlingOK castling &&
    (decide (en_passant = ['-']) || squareOK en_passant) &&
    counterOK halfmove && counterOK fullmove
  | _ => false

/-- The two counters of a record fit an `int`. -/
def countersFitInt (R : List Char) : Bool :=
  match splitOn ' ' R with
  | [_, _, _, _, halfmove, fullmove] =>
    decide (decimalValue halfmove ≤ 2147483647) && decide (decimalValue fullmove ≤ 2147483647)
  | _ => false


/-! ## Specification-side definitions for the legal-move enumeration -/

/-- The 64 squares in row-major order: rows 0..7 and, inside a row, columns 0..7. -/
def rowMajorSquares : List (Nat × Nat) :=
  (List.range 8).flatMap fun row => (List.range 8).map fun col => (row, col)

/-- The filter of the legal-move enumeration: `makeMove` on a copy succeeds and leaves the
mover not in check. -/
def keepsKingSafe (board : Board) (white_player : Bool) (m : List Char) : Bool :=
  (board.copy.makeMove m).1 && !(board.copy.makeMove m).2.isInCheck white_player

/-- The pseudo-legal moves `from + to` of the square `sq` when it holds a piece of the
colour `white_player`, in the order `generatePseudoLegalMoves` returns the destinations. -/
def pseudoMovesAt (board : Board) (white_player : Bool) (sq : Nat × Nat) : List (List Char) :=
  if isFriendlyPiece (board.getPiece sq.1 sq.2) white_player then
    (generatePseudoLegalMoves board sq.1 sq.2).map fun to_square =>
      positionToSquare sq.1 sq.2 ++ to_square
  else []

/-- The pseudo-legal enumeration of a colour: all squares in row-major order. -/
def pseudoEnumeration (board : Board) (white_player : Bool) : List (List Char) :=
  rowMajorSquares.flatMap (pseudoMovesAt board white_player)

/-- Generate-then-filter, as the specification words it. -/
def legalMovesSpec (board : Board) (white_player : Bool) : List (List Char) :=
  rowMajorSquares.flatMap fun sq =>
    (pseudoMovesAt board white_player sq).filter (keepsKingSafe board white_player)

/-- The row-major index of the source square of a move. -/
def sourceIndex (m : List Char) : Int :=
  (getPosition (m.take 2)).1 * 8 + (getPosition (m.take 2)).2



/-! ## Well-formed boards -/

/-- The class invariant of `board_`: 8 rows of 8 cells. -/
def gridOK (g : List (List Char)) : Bool :=
  decide (g.length = 8) && g.all fun row => decide (row.length = 8)

/-- Every cell is a piece letter or `.`. -/
def cellsOK (g : List (List Char)) : Bool :=
  g.all fun row => row.all fun c => decide (c ∈ pieceLetters) || decide (c = '.')

/-- A position with a pinned bishop: white king e1, white bishop e2, black rook e8,
black king a8; White to move. -/
def pinnedBishop : Board where
  board_ := ["k...r...".toList, "........".toList, "........".toList, "........".toList,
             "........".toList, "........".toList, "....B...".toList, "....K...".toList]
  white_to_move_ := true
  white_can_castle_kingside_ := false
  white_can_castle_queenside_ := false
  black_can_castle_kingside_ := false
  black_can_castle_queenside_ := false
  en_passant_target_ := ['-']
  halfmove_clock_ := 0
  fullmove_number_ := 1

/-- A position after 1. e4 a6 2. e5 d5: White may capture en passant on d6. -/
def enPassantReady : Board where
  board_ := ["rnbqkbnr".toList, ".pp.pppp".toList, "p.......".toList, "...pP...".toList,
             "........".toList, "........".toList, "PPPP.PPP".toList, "RNBQKBNR".toList]
  white_to_move_ := true
  white_can_castle_kingside_ := true
  white_can_castle_queenside_ := true
  black_can_castle_kingside_ := true
  black_can_castle_queenside_ := true
  en_passant_target_ := ['d', '6']
  halfmove_clock_ := 0
  fullmove_number_ := 3

/-! ## Definitions used to state and prove the round trip -/

/-- The fields `fs` joined with `sep` between them. -/
def joinWith (sep : Char) : List (List Char) → List Char
  | [] => []
  | [f] => f
  | f :: g :: fs => f ++ sep :: joinWith sep (g :: fs)

/-- The eight cells a rank field stands for: a digit is that many empty cells. -/
def expandRank : List Char → List Char
  | [] => []
  | c :: r =>
    (if c ∈ fileDigits then List.replicate (c.toNat - 48) '.' else [c]) ++ expandRank r

/-- The value of a string of decimal digits as a natural number (`decimalValue` without
the `int` arithmetic). -/
def natValue (s : List Char) : Nat :=
  s.foldl (fun acc c => acc * 10 + (c.toNat - 48)) 0

/-! ## Derived game state (`board.cpp`) -/

/-- The method `Board::isCheckmate`. -/
def Board.isCheckmate (b : Board) (white_player : Bool) : Bool :=
  if !b.isInCheck white_player then false
  else (generateLegalMoves b white_player).isEmpty

/-- The method `Board::isStalemate`. -/
def Board.isStalemate (b : Board) (white_player : Bool) : Bool :=
  if b.isInCheck white_player then false
  else (generateLegalMoves b white_player).isEmpty

/-- The method `Board::isGameOver`. -/
def Board.isGameOver (b : Board) : Bool :=
  b.isCheckmate b.white_to_move_ || b.isStalemate b.white_to_move_

/-- A sequence of `makeMove` calls on one board, the flags ignored. -/
def Board.playMoves (b : Board) (moves : List (List Char)) : Board :=
  moves.foldl (fun b m => (b.makeMove m).2) b

/-! ## Evaluator (`eval.cpp`) -/

/-- The constant `Evaluator::PIECE_VALUES`: P, N, B, R, Q, K. -/
def PIECE_VALUES : List Int := [100, 320, 330, 500, 900, 20000]

/-- The constant `Evaluator::PAWN_TABLE`. -/
def PAWN_TABLE : List (List Int) :=
  [[ 0,  0,  0,  0,  0,  0,  0,  0],
   [50, 50, 50, 50, 50, 50, 50, 50],
   [10, 10, 20, 30, 30, 20, 10, 10],
   [ 5,  5, 10, 25, 25, 10,  5,  5],
   [ 0,  0,  0, 20, 20,  0,  0,  0],
   [ 5, -5,-10,  0,  0,-10, -5,  5],
   [ 5, 10, 10,-20,-20, 10, 10,  5],
   [ 0,  0,  0,  0,  0,  0,  0,  0]]

/-- The constant `Evaluator::KNIGHT_TABLE`. -/
def KNIGHT_TABLE : List (List Int) :=
  [[-50,-40,-30,-30,-30,-30,-40,-50],
   [-40,-20,  0,  0,  0,  0,-20,-40],
   [-30,  0, 10, 15, 15, 10,  0,-30],
   [-30,  5, 15, 20, 20, 15,  5,-30],
   [-30,  0, 15, 20, 20, 15,  0,-30],
   [-30,  5, 10, 15, 15, 10,  5,-30],
   [-40,-20,  0,  5,  5,  0,-20,-40],
   [-50,-40,-30,-30,-30,-30,-40,-50]]

/-- The constant `Evaluator::BISHOP_TABLE`. -/
def BISHOP_TABLE : List (List Int) :=
  [[-20,-10,-10,-10,-10,-10,-10,-20],
   [-10,  0,  0,  0,  0,  0,  0,-10],
   [-10,  0,  5, 10, 10,  5,  0,-10],
   [-10,  5,  5, 10, 10,  5,  5,-10],
   [-10,  0, 10, 10, 10, 10,  0,-10],
   [-10, 10, 10, 10, 10, 10, 10,-10],
   [-10,  5,  0,  0,  0,  0,  5,-10],
   [-20,-10,-10,-10,-10,-10,-10,-20]]

/-- The constant `Evaluator::ROOK_TABLE`. -/
def ROOK_TABLE : List (List Int) :=
  [[ 0,  0,  0,  0,  0,  0,  0,  0],
   [ 5, 10, 10, 10, 10, 10, 10,  5],
   [-5,  0,  0,  0,  0,  0,  0, -5],
   [-5,  0,  0,  0,  0,  0,  0, -5],
   [-5,  0,  0,  0,  0,  0,  0, -5],
   [-5,  0,  0,  0,  0,  0,  0, -5],
   [-5,  0,  0,  0,  0,  0,  0, -5],
   [ 0,  0,  0,  5,  5,  0,  0,  0]]

/-- The constant `Evaluator::QUEEN_TABLE`. -/
def QUEEN_TABLE : List (List Int) :=
  [[-20,-10,-10, -5, -5,-10,-10,-20],
   [-10,  0,  0,  0,  0,  0,  0,-10],
   [-10,  0,  5,  5,  5,  5,  0,-10],
   [ -5,  0,  5,  5,  5,  5,  0, -5],
   [  0,  0,  5,  5,  5,  5,  0, -5],
   [-10,  5,  5,  5,  5,  5,  0,-10],
   [-10,  0,  5,  0,  0,  0,  0,-10],
   [-20,-10,-10, -5, -5,-10,-10,-20]]

/-- The constant `Evaluator::KING_MIDDLE_GAME_TABLE`. -/
def KING_MIDDLE_GAME_TABLE : List (List Int) :=
  [[-30,-40,-40,-50,-50,-40,-40,-30],
   [-30,-40,-40,-50,-50,-40,-40,-30],
   [-30,-40,-40,-50,-50,-40,-40,-30],
   [-30,-40,-40,-50,-50,-40,-40,-30],
   [-20,-30,-30,-40,-40,-30,-30,-20],
   [-10,-20,-20,-20,-20,-20,-20,-10],
   [ 20, 20,  0,  0,  0,  0, 20, 20],
   [ 20, 30, 10,  0,  0, 10, 30, 20]]

/-- The constant `Evaluator::KING_END_GAME_TABLE`. -/
def KING_END_GAME_TABLE : List (List Int) :=
  [[-50,-40,-30,-20,-20,-30,-40,-50],
   [-30,-20,-10,  0,  0,-10,-20,-30],
   [-30,-10, 20, 30, 30, 20,-10,-30],
   [-30,-10, 30, 40, 40, 30,-10,-30],
   [-30,-10, 30, 40, 40, 30,-10,-30],
   [-30,-10, 20, 30, 30, 20,-10,-30],
   [-30,-30,  0,  0,  0,  0,-30,-30],
   [-50,-30,-30,-30,-30,-30,-30,-50]]

/-- The read `TABLE[row][col]` of a piece-square table; 0 outside the table (undefined
behaviour in C++, not reached from the square loops). -/
def tableAt (t : List (List Int)) (row col : Int) : Int :=
  if 0 ≤ row ∧ 0 ≤ col then (t.getD row.toNat []).getD col.toNat 0 else 0

/-- The function `Evaluator::getPieceValue`. -/
def getPieceValue (piece : Char) : Int :=
  let lower := tolower piece
  if lower = 'p' then PIECE_VALUES.getD 0 0
  else if lower = 'n' then PIECE_VALUES.getD 1 0
  else if lower = 'b' then PIECE_VALUES.getD 2 0
  else if lower = 'r' then PIECE_VALUES.getD 3 0
  else if lower = 'q' then PIECE_VALUES.getD 4 0
  else if lower = 'k' then PIECE_VALUES.getD 5 0
  else 0

/-- The function `Evaluator::getMaterialValue`. -/
def getMaterialValue (board : Board) (white_player : Bool) : Int :=
  (List.range 8).foldl (fun (material : Int) (row : Nat) =>
    (List.range 8).foldl (fun (material : Int) (col : Nat) =>
      let piece := board.getPiece row col
      if piece = '.' then material else
      let is_white := isUpper piece
      if is_white = white_player then material + getPieceValue piece else material)
      material) 0

/-- The function `Evaluator::isEndgame`. -/
def isEndgame (board : Board) : Bool :=
  let total_material :=
    (List.range 8).foldl (fun (total : Int) (row : Nat) =>
      (List.range 8).foldl (fun (total : Int) (col : Nat) =>
        let piece := board.getPiece row col
        if piece ≠ '.' ∧ tolower piece ≠ 'k' then total + getPieceValue piece else total)
        total) 0
  decide (total_material <
    2 * PIECE_VALUES.getD 3 0 + 2 * PIECE_VALUES.getD 2 0 + 2 * PIECE_VALUES.getD 1 0)

/-- The function `Evaluator::getPieceSquareValue`. -/
def getPieceSquareValue (piece : Char) (row col : Int) : Int :=
  let is_white := isUpper piece
  let actual_row := if is_white then row else 7 - row
  let lower := tolower piece
  if lower = 'p' then tableAt PAWN_TABLE actual_row col
  else if lower = 'n' then tableAt KNIGHT_TABLE actual_row col
  else if lower = 'b' then tableAt BISHOP_TABLE actual_row col
  else if lower = 'r' then tableAt ROOK_TABLE actual_row col
  else if lower = 'q' then tableAt QUEEN_TABLE actual_row col
  else if lower = 'k' then
    if isEndgame Board.start then tableAt KING_END_GAME_TABLE actual_row col
    else tableAt KING_MIDDLE_GAME_TABLE actual_row col
  else 0

/-- The function `Evaluator::getPositionalValue`. -/
def getPositionalValue (board : Board) (white_player : Bool) : Int :=
  (List.range 8).foldl (fun (positional : Int) (row : Nat) =>
    (List.range 8).foldl (fun (positional : Int) (col : Nat) =>
      let piece := board.getPiece row col
      if piece = '.' then positional else
      let is_white := isUpper piece
      if is_white = white_player then positional + getPieceSquareValue piece row col
      else positional) positional) 0

/-- The function `Evaluator::isDoubledPawn`. -/
def isDoubledPawn (board : Board) (col : Int) (white_player : Bool) : Bool :=
  let pawn : Char := if white_player then 'P' else 'p'
  let count := (List.range 8).foldl (fun (count : Int) (row : Nat) =>
    if board.getPiece row col = pawn then count + 1 else count) 0
  decide (count > 1)

/-- The function `Evaluator::isIsolatedPawn`. -/
def isIsolatedPawn (board : Board) (_row col : Int) (white_player : Bool) : Bool :=
  let pawn : Char := if white_player then 'P' else 'p'
  !(([-1, 1] : List Int).any fun dc =>
    let adj_col := col + dc
    decide (adj_col ≥ 0 ∧ adj_col < 8) &&
      (List.range 8).any fun (r : Nat) => decide (board.getPiece r adj_col = pawn))

/-- The inner `for` loop of `isPassedPawn`: whether an enemy pawn stands on `check_col`
from row `r` on in the given direction; at most `fuel` iterations. -/
def enemyPawnAhead (board : Board) (enemy_pawn : Char) (check_col direction : Int) :
    Nat → Int → Bool
  | 0, _ => false
  | fuel + 1, r =>
    if r ≥ 0 ∧ r < 8 then
      if board.getPiece r check_col = enemy_pawn then true
      else enemyPawnAhead board enemy_pawn check_col direction fuel (r + direction)
    else false

/-- The function `Evaluator::isPassedPawn`. -/
def isPassedPawn (board : Board) (row col : Int) (white_player : Bool) : Bool :=
  let enemy_pawn : Char := if white_player then 'p' else 'P'
  let direction : Int := if white_player then -1 else 1
  !(([-1, 0, 1] : List Int).any fun dc =>
    let check_col := col + dc
    decide (check_col ≥ 0 ∧ check_col < 8) &&
      enemyPawnAhead board enemy_pawn check_col direction 8 (row + direction))

/-- The function `Evaluator::evaluatePawnStructure`. -/
def evaluatePawnStructure (board : Board) (white_player : Bool) : Int :=
  (List.range 8).foldl (fun (score : Int) (row : Nat) =>
    (List.range 8).foldl (fun (score : Int) (col : Nat) =>
      let piece := board.getPiece row col
      if piece ≠ (if white_player then 'P' else 'p') then score else
      let score := if isDoubledPawn board col white_player then score - 10 else score
      let score := if isIsolatedPawn board row col white_player then score - 20 else score
      if isPassedPawn board row col white_player then
        let rank : Int := if white_player then 7 - (row : Int) else row
        score + (20 + rank * 10)
      else score) score) 0

/-- The function `Evaluator::evaluateKingSafety`. -/
def evaluateKingSafety (_board : Board) (_white_player : Bool) : Int := 0

/-- The function `Evaluator::evaluateMobility`. -/
def evaluateMobility (board : Board) (white_player : Bool) : Int :=
  ((generateLegalMoves board white_player).length : Int) * 2

/-- The function `Evaluator::evaluateEndgame`.  The source computes
`std::abs(row - 3.5) + std::abs(col - 3.5)` in `double` and converts to `int`; the two
terms are half-integers, so the sum is the integer `(|2 row - 7| + |2 col - 7|) / 2`
exactly.  The `break` leaves the column loop only, so a king counts once per row. -/
def evaluateEndgame (board : Board) (white_player : Bool) : Int :=
  (List.range 8).foldl (fun (score : Int) (row : Nat) =>
    ((List.range 8).foldl (fun (st : Int × Bool) (col : Nat) =>
      if st.2 then st else
      let piece := board.getPiece row col
      if piece = (if white_player then 'K' else 'k') then
        let center_distance : Int :=
          Int.tdiv ((((2 * (row : Int) - 7).natAbs + (2 * (col : Int) - 7).natAbs : Nat)) : Int) 2
        (st.1 + (7 - center_distance) * 10, true)
      else st) (score, false)).1) 0

/-- The function `Evaluator::evaluate`. -/
def evaluate (board : Board) (white_perspective : Bool) : Int :=
  let score : Int := 0
  let score := score + (getMaterialValue board true - getMaterialValue board false)
  let score := score + (getPositionalValue board true - getPositionalValue board false)
  let score := score + (evaluatePawnStructure board true - evaluatePawnStructure board false)
  let score :=
    if !isEndgame board then
      score + (evaluateKingSafety board true - evaluateKingSafety board false)
    else score
  let score := score + (evaluateMobility board true - evaluateMobility board false)
  let score :=
    if isEndgame board then score + (evaluateEndgame board true - evaluateEndgame board false)
    else score
  if white_perspective then score else -score

/-! ## Search engine (`search.h`, `search.cpp`) -/

/-- The constant `INFINITY_SCORE`. -/
def INFINITY_SCORE : Int := 100000

/-- The constant `MATE_SCORE`. -/
def MATE_SCORE : Int := 50000

/-- The enumeration `TranspositionEntry::NodeType`. -/
inductive NodeType where
  | EXACT
  | LOWER_BOUND
  | UPPER_BOUND
deriving DecidableEq, Repr

/-- The struct `TranspositionEntry`. -/
structure TranspositionEntry where
  score : Int
  depth : Int
  type : NodeType
  best_move : List Char
deriving DecidableEq, Repr

/-- The struct `SearchResult`; `time_taken` in milliseconds. -/
structure SearchResult where
  best_move : List Char
  score : Int
  depth : Int
  nodes_searched : Int
  time_taken : Int
deriving DecidableEq, Repr

/-- The class `SearchEngine`.  The `std::unordered_map` is an association list with at
most one pair per key; times are in milliseconds and clock ticks.  The last field is not
a C++ member: it counts the readings of `std::chrono::steady_clock::now()` taken so far,
the `n`-th reading being `clock n` for a clock `clock : Nat → Int` given from outside. -/
structure SearchEngine where
  transposition_table_ : List (List Char × TranspositionEntry)
  max_depth_ : Int
  max_time_ : Int
  time_up_ : Bool
  nodes_searched_ : Int
  start_time_ : Int
  clock_reads_ : Nat
deriving DecidableEq, Repr

/-- The clock ticks (nanoseconds) in one millisecond, for `duration_cast`. -/
def TICKS_PER_MS : Int := 1000000

/-- The constructor `SearchEngine::SearchEngine(max_depth, max_time)`; `start_time_` is
not initialised by the source and is written before it is read. -/
def SearchEngine.new (max_depth max_time : Int) : SearchEngine :=
  { transposition_table_ := []
    max_depth_ := max_depth
    max_time_ := max_time
    time_up_ := false
    nodes_searched_ := 0
    start_time_ := 0
    clock_reads_ := 0 }

/-- One reading of `std::chrono::steady_clock::now()`. -/
def SearchEngine.now (e : SearchEngine) (clock : Nat → Int) : Int × SearchEngine :=
  (clock e.clock_reads_, { e with clock_reads_ := e.clock_reads_ + 1 })

/-- The method `SearchEngine::isTimeUp`. -/
def SearchEngine.isTimeUp (e : SearchEngine) (clock : Nat → Int) : Bool × SearchEngine :=
  if e.time_up_ then (true, e) else
  let t := e.now clock
  let elapsed := Int.tdiv (t.1 - e.start_time_) TICKS_PER_MS
  (decide (elapsed ≥ e.max_time_), t.2)

/-- The method `SearchEngine::storeTransposition`: `transposition_table_[key] = entry`. -/
def SearchEngine.storeTransposition (e : SearchEngine) (position_key : List Char)
    (score depth : Int) (type : NodeType) (best_move : List Char) : SearchEngine :=
  let entry : TranspositionEntry :=
    { score := score, depth := depth, type := type, best_move := best_move }
  { e with transposition_table_ :=
      (position_key, entry) :: e.transposition_table_.filter fun kv => kv.1 ≠ position_key }

/-- The call `transposition_table_.find(key)`. -/
def SearchEngine.findEntry (e : SearchEngine) (position_key : List Char) :
    Option TranspositionEntry :=
  (e.transposition_table_.find? fun kv => kv.1 = position_key).map Prod.snd

/-- The method `SearchEngine::probeTransposition`: `some score` when it returns true and
writes `score`, `none` when it returns false; and the engine afterwards. -/
def SearchEngine.probeTransposition (e : SearchEngine) (position_key : List Char)
    (depth alpha beta : Int) : Option Int × SearchEngine :=
  match e.findEntry position_key with
  | none => (none, e)
  | some entry =>
    if entry.depth < depth then (none, e) else
    match entry.type with
    | NodeType.EXACT => (some entry.score, e)
    | NodeType.LOWER_BOUND => if entry.score ≥ beta then (some entry.score, e) else (none, e)
    | NodeType.UPPER_BOUND => if entry.score ≤ alpha then (some entry.score, e) else (none, e)

/-- The method `SearchEngine::getPositionKey`. -/
def getPositionKey (board : Board) : List Char :=
  let key := (List.range 8).foldl (fun (key : List Char) (row : Nat) =>
    (List.range 8).foldl (fun (key : List Char) (col : Nat) =>
      key ++ [board.getPiece row col]) key) []
  key ++ (if board.white_to_move_ then ['w'] else ['b'])

/-- The method `SearchEngine::getMoveScore`. -/
def getMoveScore (board : Board) (move : List Char) (white_player : Bool) : Int :=
  if move.length ≥ 4 then
    let from_pos := squareToPosition (move.take 2)
    let to_pos := squareToPosition ((move.drop 2).take 2)
    if from_pos.1 ≥ 0 ∧ to_pos.1 ≥ 0 then
      let moving_piece := board.getPiece from_pos.1 from_pos.2
      let target_piece := board.getPiece to_pos.1 to_pos.2
      -- Prioritize captures
      let score : Int :=
        if target_piece ≠ '.' then getPieceValue target_piece - getPieceValue moving_piece
        else 0
      -- Prioritize center control
      let center_bonus : Int :=
        if to_pos.1 ≥ 3 ∧ to_pos.1 ≤ 4 ∧ to_pos.2 ≥ 3 ∧ to_pos.2 ≤ 4 then 10 else 0
      let score := score + center_bonus
      -- Prioritize piece development
      if (tolower moving_piece = 'n' ∨ tolower moving_piece = 'b') ∧
          ((white_player = true ∧ from_pos.1 = 7) ∨ (white_player = false ∧ from_pos.1 = 0)) then
        score + 20
      else score
    else 0
  else 0

/-- The method `SearchEngine::orderMoves`.  `std::sort` leaves the order of moves with
equal scores unspecified; the embedding sorts stably (insertion sort, highest first). -/
def orderMoves (board : Board) (moves : List (List Char)) (white_player : Bool) :
    List (List Char) :=
  let scored_moves := moves.map fun move => (move, getMoveScore board move white_player)
  let sorted := scored_moves.insertionSort fun a b => a.2 ≥ b.2
  sorted.map Prod.fst

/-- The capture test of `quiescenceSearch`: the destination is not empty. -/
def isCaptureMove (board : Board) (move : List Char) : Bool :=
  if move.length ≥ 4 then
    let to_pos := squareToPosition ((move.drop 2).take 2)
    if to_pos.1 ≥ 0 ∧ to_pos.2 ≥ 0 then
      let target := board.getPiece to_pos.1 to_pos.2
      decide (target ≠ '.')
    else false
  else false

/-- The move loop of the maximizing side in `quiescenceSearch`; `child` is the recursive
call on the position after a move.  The state is `alpha` and the engine. -/
def quiescenceMaxLoop (clock : Nat → Int)
    (child : Board → Int → Int → SearchEngine → Option (Int × SearchEngine))
    (board : Board) (beta : Int) :
    List (List Char) → Int → SearchEngine → Option (Int × SearchEngine)
  | [], alpha, e => some (alpha, e)
  | move :: rest, alpha, e =>
    let up := e.isTimeUp clock
    if up.1 then some (alpha, up.2) else
    let temp_board := board.copy.makeMove move
    if !temp_board.1 then quiescenceMaxLoop clock child board beta rest alpha up.2 else
    match child temp_board.2 alpha beta up.2 with
    | none => none
    | some r =>
      let alpha := max alpha r.1
      if beta ≤ alpha then some (alpha, r.2)
      else quiescenceMaxLoop clock child board beta rest alpha r.2

/-- The move loop of the minimizing side in `quiescenceSearch`.  The state is `beta` and
the engine. -/
def quiescenceMinLoop (clock : Nat → Int)
    (child : Board → Int → Int → SearchEngine → Option (Int × SearchEngine))
    (board : Board) (alpha : Int) :
    List (List Char) → Int → SearchEngine → Option (Int × SearchEngine)
  | [], beta, e => some (beta, e)
  | move :: rest, beta, e =>
    let up := e.isTimeUp clock
    if up.1 then some (beta, up.2) else
    let temp_board := board.copy.makeMove move
    if !temp_board.1 then quiescenceMinLoop clock child board alpha rest beta up.2 else
    match child temp_board.2 alpha beta up.2 with
    | none => none
    | some r =>
      let beta := min beta r.1
      if beta ≤ alpha then some (beta, r.2)
      else quiescenceMinLoop clock child board alpha rest beta r.2

/-- The method `SearchEngine::quiescenceSearch`, recursion depth at most `fuel`; `none`
when the fuel runs out. -/
def quiescenceSearch (clock : Nat → Int) :
    Nat → Board → Int → Int → Bool → SearchEngine → Option (Int × SearchEngine)
  | 0, _, _, _, _, _ => none
  | fuel + 1, board, alpha, beta, maximizing_player, e =>
    let e : SearchEngine := { e with nodes_searched_ := e.nodes_searched_ + 1 }
    let up := e.isTimeUp clock
    if up.1 then some (0, up.2) else
    let e := up.2
    let stand_pat := evaluate board maximizing_player
    if maximizing_player = true ∧ stand_pat ≥ beta then some (beta, e) else
    if maximizing_player = false ∧ stand_pat ≤ alpha then some (alpha, e) else
    let alpha := if maximizing_player then max alpha stand_pat else alpha
    let beta := if maximizing_player then beta else min beta stand_pat
    -- Generate only capture moves for quiescence search
    let legal_moves := generateLegalMoves board maximizing_player
    let capture_moves := legal_moves.filter (isCaptureMove board)
    if capture_moves.isEmpty then some (stand_pat, e) else
    let ordered_captures := orderMoves board capture_moves maximizing_player
    if maximizing_player then
      quiescenceMaxLoop clock
        (fun b a be en => quiescenceSearch clock fuel b a be (!maximizing_player) en)
        board beta ordered_captures alpha e
    else
      quiescenceMinLoop clock
        (fun b a be en => quiescenceSearch clock fuel b a be (!maximizing_player) en)
        board alpha ordered_captures beta e

/-- The state of the move loops of `alphaBeta`. -/
structure LoopState where
  best_eval : Int
  best_move : List Char
  alpha : Int
  beta : Int
  engine : SearchEngine
deriving DecidableEq, Repr

/-- The move loop of the maximizing side in `alphaBeta`; `best_eval` is `max_eval`. -/
def alphaBetaMaxLoop (clock : Nat → Int)
    (child : Board → Int → Int → SearchEngine → Option (Int × SearchEngine))
    (board : Board) : List (List Char) → LoopState → Option LoopState
  | [], st => some st
  | move :: rest, st =>
    let up := st.engine.isTimeUp clock
    if up.1 then some { st with engine := up.2 } else
    let temp_board := board.copy.makeMove move
    if !temp_board.1 then alphaBetaMaxLoop clock child board rest { st with engine := up.2 }
    else
    match child temp_board.2 st.alpha st.beta up.2 with
    | none => none
    | some r =>
      let eval := r.1
      let st1 : LoopState :=
        if eval > st.best_eval then
          { st with best_eval := eval, best_move := move, engine := r.2 }
        else { st with engine := r.2 }
      let st2 : LoopState := { st1 with alpha := max st1.alpha eval }
      if st2.beta ≤ st2.alpha then some st2
      else alphaBetaMaxLoop clock child board rest st2

/-- The move loop of the minimizing side in `alphaBeta`; `best_eval` is `min_eval`. -/
def alphaBetaMinLoop (clock : Nat → Int)
    (child : Board → Int → Int → SearchEngine → Option (Int × SearchEngine))
    (board : Board) : List (List Char) → LoopState → Option LoopState
  | [], st => some st
  | move :: rest, st =>
    let up := st.engine.isTimeUp clock
    if up.1 then some { st with engine := up.2 } else
    let temp_board := board.copy.makeMove move
    if !temp_board.1 then alphaBetaMinLoop clock child board rest { st with engine := up.2 }
    else
    match child temp_board.2 st.alpha st.beta up.2 with
    | none => none
    | some r =>
      let eval := r.1
      let st1 : LoopState :=
        if eval < st.best_eval then
          { st with best_eval := eval, best_move := move, engine := r.2 }
        else { st with engine := r.2 }
      let st2 : LoopState := { st1 with beta := min st1.beta eval }
      if st2.beta ≤ st2.alpha then some st2
      else alphaBetaMinLoop clock child board rest st2

/-- The bound kind `alphaBeta` stores: tested against `alpha` and `beta` as they are
after the move loop. -/
def storedType (value alpha beta : Int) : NodeType :=
  if value ≤ alpha then NodeType.UPPER_BOUND
  else if value ≥ beta then NodeType.LOWER_BOUND
  else NodeType.EXACT

/-- The method `SearchEngine::alphaBeta`, recursion depth at most `fuel`, the quiescence
search with `qfuel`; `none` when a fuel runs out. -/
def alphaBeta (clock : Nat → Int) (qfuel : Nat) :
    Nat → Board → Int → Int → Int → Bool → SearchEngine → Option (Int × SearchEngine)
  | 0, _, _, _, _, _, _ => none
  | fuel + 1, board, depth, alpha, beta, maximizing_player, e =>
    let e : SearchEngine := { e with nodes_searched_ := e.nodes_searched_ + 1 }
    let up := e.isTimeUp clock
    if up.1 = true ∨ depth < 0 then some (evaluate board maximizing_player, up.2) else
    let e := up.2
    -- Check for terminal positions
    if board.isCheckmate maximizing_player then
      some ((if maximizing_player then -MATE_SCORE - depth else MATE_SCORE + depth), e)
    else
    if board.isStalemate maximizing_player = true ∨ depth = 0 then
      if depth = 0 then quiescenceSearch clock qfuel board alpha beta maximizing_player e
      else some (0, e)
    else
    -- Probe transposition table
    let position_key := getPositionKey board
    let probe := e.probeTransposition position_key depth alpha beta
    match probe.1 with
    | some tt_score => some (tt_score, probe.2)
    | none =>
      let e := probe.2
      let legal_moves := generateLegalMoves board maximizing_player
      if legal_moves.isEmpty then
        some ((if board.isInCheck maximizing_player then
                (if maximizing_player then -MATE_SCORE - depth else MATE_SCORE + depth)
               else 0), e)
      else
      let ordered_moves := orderMoves board legal_moves maximizing_player
      let child := fun (b : Board) (a be : Int) (en : SearchEngine) =>
        alphaBeta clock qfuel fuel b (depth - 1) a be (!maximizing_player) en
      if maximizing_player then
        match alphaBetaMaxLoop clock child board ordered_moves
            { best_eval := -INFINITY_SCORE, best_move := [], alpha := alpha, beta := beta,
              engine := e } with
        | none => none
        | some st =>
          -- Store in transposition table
          let type := storedType st.best_eval st.alpha st.beta
          some (st.best_eval,
            st.engine.storeTransposition position_key st.best_eval depth type st.best_move)
      else
        match alphaBetaMinLoop clock child board ordered_moves
            { best_eval := INFINITY_SCORE, best_move := [], alpha := alpha, beta := beta,
              engine := e } with
        | none => none
        | some st =>
          let type := storedType st.best_eval st.alpha st.beta
          some (st.best_eval,
            st.engine.storeTransposition position_key st.best_eval depth type st.best_move)

/-- The move loop of one depth of `iterativeDeepening`; `best_eval` and `best_move` are
`best_score_this_depth` and `best_move_this_depth`. -/
def rootLoop (clock : Nat → Int)
    (child : Board → Int → Int → SearchEngine → Option (Int × SearchEngine))
    (board : Board) (white_player : Bool) : List (List Char) → LoopState → Option LoopState
  | [], st => some st
  | move :: rest, st =>
    let up := st.engine.isTimeUp clock
    if up.1 then some { st with engine := up.2 } else
    let temp_board := board.copy.makeMove move
    if !temp_board.1 then rootLoop clock child board white_player rest { st with engine := up.2 }
    else
    match child temp_board.2 st.alpha st.beta up.2 with
    | none => none
    | some r =>
      let score := r.1
      let st1 : LoopState :=
        if white_player then
          let s : LoopState :=
            if score > st.best_eval then
              { st with best_eval := score, best_move := move, engine := r.2 }
            else { st with engine := r.2 }
          { s with alpha := max s.alpha score }
        else
          let s : LoopState :=
            if score < st.best_eval then
              { st with best_eval := score, best_move := move, engine := r.2 }
            else { st with engine := r.2 }
          { s with beta := min s.beta score }
      if st1.beta ≤ st1.alpha then some st1
      else rootLoop clock child board white_player rest st1

/-- The depth loop of `iterativeDeepening` from `depth` on, at most `fuel` iterations;
the state is `best_result` and the engine. -/
def deepeningLoop (clock : Nat → Int) (qfuel : Nat) (board : Board) (white_player : Bool)
    (legal_moves : List (List Char)) :
    Nat → Int → SearchResult → SearchEngine → Option (SearchResult × SearchEngine)
  | 0, _, best_result, e => some (best_result, e)
  | fuel + 1, depth, best_result, e =>
    if ¬(depth ≤ e.max_depth_) then some (best_result, e) else
    let up := e.isTimeUp clock
    if up.1 then some (best_result, up.2) else
    let e := up.2
    let ordered_moves := orderMoves board legal_moves white_player
    let child := fun (b : Board) (a be : Int) (en : SearchEngine) =>
      alphaBeta clock qfuel (depth.toNat + 1) b (depth - 1) a be (!white_player) en
    match rootLoop clock child board white_player ordered_moves
        { best_eval := (if white_player then -INFINITY_SCORE else INFINITY_SCORE),
          best_move := [], alpha := -INFINITY_SCORE, beta := INFINITY_SCORE, engine := e } with
    | none => none
    | some st =>
      let up := st.engine.isTimeUp clock
      let best_result : SearchResult :=
        if !up.1 ∧ !st.best_move.isEmpty then
          { best_result with best_move := st.best_move, score := st.best_eval, depth := depth }
        else best_result
      deepeningLoop clock qfuel board white_player legal_moves fuel (depth + 1) best_result up.2

/-- The method `SearchEngine::iterativeDeepening`: the result and the engine afterwards;
`none` when the quiescence fuel `qfuel` runs out.  The two fields of `best_result` the
source leaves uninitialised until the end start as 0. -/
def iterativeDeepening (clock : Nat → Int) (qfuel : Nat) (e : SearchEngine) (board : Board)
    (white_player : Bool) : Option (SearchResult × SearchEngine) :=
  let t0 := e.now clock
  let e : SearchEngine := { t0.2 with start_time_ := t0.1, time_up_ := false, nodes_searched_ := 0 }
  let best_result : SearchResult :=
    { best_move := []
      score := if white_player then -INFINITY_SCORE else INFINITY_SCORE
      depth := 0
      nodes_searched := 0
      time_taken := 0 }
  let legal_moves := generateLegalMoves board white_player
  if legal_moves.isEmpty then
    let t1 := e.now clock
    some ({ best_result with
              nodes_searched := e.nodes_searched_
              time_taken := Int.tdiv (t1.1 - e.start_time_) TICKS_PER_MS }, t1.2)
  else
  -- If only one legal move, return it immediately
  if legal_moves.length = 1 then
    let t1 := e.now clock
    some ({ best_result with
              best_move := legal_moves.headD []
              score := 0
              depth := 1
              nodes_searched := 1
              time_taken := Int.tdiv (t1.1 - e.start_time_) TICKS_PER_MS }, t1.2)
  else
  -- Iterative deepening
  match deepeningLoop clock qfuel board white_player legal_moves e.max_depth_.toNat 1
      best_result e with
  | none => none
  | some r =>
    let t1 := r.2.now clock
    some ({ r.1 with
              nodes_searched := r.2.nodes_searched_
              time_taken := Int.tdiv (t1.1 - r.2.start_time_) TICKS_PER_MS }, t1.2)

/-- The method `SearchEngine::findBestMove`. -/
def findBestMove (clock : Nat → Int) (qfuel : Nat) (e : SearchEngine) (board : Board)
    (white_player : Bool) : Option (SearchResult × SearchEngine) :=
  iterativeDeepening clock qfuel e board white_player

/-! ## Definitions used to state the claims on castling rights, play and time -/

/-- The four castling rights: white kingside, white queenside, black kingside, black
queenside. -/
def Board.rights (b : Board) : Bool × Bool × Bool × Bool :=
  (b.white_can_castle_kingside_, b.white_can_castle_queenside_,
   b.black_can_castle_kingside_, b.black_can_castle_queenside_)

/-- Whether every `makeMove` of the sequence returns true. -/
def Board.allAccepted (b : Board) : List (List Char) → Bool
  | [] => true
  | m :: ms => (b.makeMove m).1 && Board.allAccepted (b.makeMove m).2 ms

/-- The clock that has run for a millisecond by its second reading. -/
def lateClock (n : Nat) : Int := if n = 0 then 0 else 1000000

/-! ## Positions used as examples -/

/-- The position after the fool's-mate plies f2f3, e7e5, g2g4, d8h4. -/
def foolsMate : Board :=
  Board.start.playMoves ["f2f3".toList, "e7e5".toList, "g2g4".toList, "d8h4".toList]

/-- The position after the six plies e2e4, e7e5, d1h5, b8c6, f1c4, d7d6. -/
def scholarSetup : Board :=
  Board.start.playMoves ["e2e4".toList, "e7e5".toList, "d1h5".toList, "b8c6".toList,
    "f1c4".toList, "d7d6".toList]

/-- A position with exactly one legal move for White: the king on h1 is checked by an
unprotected queen on g2 and can only capture it. -/
def loneCapture : Board where
  board_ := ["k.......".toList, "........".toList, "........".toList, "........".toList,
             "........".toList, "........".toList, "......q.".toList, ".......K".toList]
  white_to_move_ := true
  white_can_castle_kingside_ := false
  white_can_castle_queenside_ := false
  black_can_castle_kingside_ := false
  black_can_castle_queenside_ := false
  en_passant_target_ := ['-']
  halfmove_clock_ := 0
  fullmove_number_ := 1

/-- A white pawn on e7 about to promote; the kings stand on a1 and h8. -/
def promotionReady : Board where
  board_ := [".......k".toList, "....P...".toList, "........".toList, "........".toList,
             "........".toList, "........".toList, "........".toList, "K.......".toList]
  white_to_move_ := true
  white_can_castle_kingside_ := false
  white_can_castle_queenside_ := false
  black_can_castle_kingside_ := false
  black_can_castle_queenside_ := false
  en_passant_target_ := ['-']
  halfmove_clock_ := 0
  fullmove_number_ := 1

/-- A position in which both sides may castle on both wings. -/
def castleReady : Board where
  board_ := ["r...k..r".toList, "pppppppp".toList, "........".toList, "........".toList,
             "........".toList, "........".toList, "PPPPPPPP".toList, "R...K..R".toList]
  white_to_move_ := true
  white_can_castle_kingside_ := true
  white_can_castle_queenside_ := true
  black_can_castle_kingside_ := true
  black_can_castle_queenside_ := true
  en_passant_target_ := ['-']
  halfmove_clock_ := 0
  fullmove_number_ := 1

/-- A stalemate: Black to move, king h8, against the white king f7 and queen g6. -/
def queenStalemate : Board where
  board_ := [".......k".toList, ".....K..".toList, "......Q.".toList, "........".toList,
             "........".toList, "........".toList, "........".toList, "........".toList]
  white_to_move_ := false
  white_can_castle_kingside_ := false
  white_can_castle_queenside_ := false
  black_can_castle_kingside_ := false
  black_can_castle_queenside_ := false
  en_passant_target_ := ['-']
  halfmove_clock_ := 0
  fullmove_number_ := 1

/-- The two bare kings, White on g2 and Black on a8, Black to move. -/
def bareKings : Board where
  board_ := ["k.......".toList, "........".toList, "........".toList, "........".toList,
             "........".toList, "........".toList, "......K.".toList, "........".toList]
  white_to_move_ := false
  white_can_castle_kingside_ := false
  white_can_castle_queenside_ := false
  black_can_castle_kingside_ := false
  black_can_castle_queenside_ := false
  en_passant_target_ := ['-']
  halfmove_clock_ := 0
  fullmove_number_ := 1

/-- The squares a sliding piece reaches along the walk `sqs` (the successive squares in
one direction, nearest first): the squares up to the board edge or the first occupied
square, that first occupied square included exactly when it holds an enemy piece. -/
def reachedSquares (board : Board) (white_piece : Bool) (sqs : List (Int × Int)) :
    List (Int × Int) :=
  let onBoard := sqs.takeWhile fun sq => isValidSquare sq.1 sq.2
  let free := onBoard.takeWhile fun sq => decide (board.getPiece sq.1 sq.2 = '.')
  match onBoard.drop free.length with
  | [] => free
  | blocker :: _ =>
    if isOpponentPiece (board.getPiece blocker.1 blocker.2) white_piece then free ++ [blocker]
    else free

/-- The first `n` squares of the walk from `(row, col)` in direction `(dr, dc)`, the
square `(row, col)` itself excluded. -/
def raySquares (n : Nat) (row col dr dc : Int) : List (Int × Int) :=
  (List.range n).map fun (k : Nat) => (row + ((k : Int) + 1) * dr, col + ((k : Int) + 1) * dc)

/-- The destinations of a sliding piece on `(row, col)` in direction `dir`; seven steps
cross the board. -/
def rayMoves (board : Board) (white_piece : Bool) (row col : Int) (dir : Int × Int) :
    List (List Char) :=
  (reachedSquares board white_piece (raySquares 7 row col dir.1 dir.2)).map
    fun sq => positionToSquare sq.1 sq.2

/-- The square `(tr, tc)` lies `n + 1` steps from `(row, col)` in direction `dir`, and the
`n` squares strictly between them are empty. -/
def clearLine (board : Board) (row col : Int) (dir : Int × Int) (n : Nat) (tr tc : Int) :
    Prop :=
  tr = row + ((n : Int) + 1) * dir.1 ∧ tc = col + ((n : Int) + 1) * dir.2 ∧
  ∀ m : Nat, m < n →
    board.getPiece (row + ((m : Int) + 1) * dir.1) (col + ((m : Int) + 1) * dir.2) = '.'

/-! ## Definitions used to state the claim on the search from the starting position -/

/-- The number of occupied squares of the grid. -/
def pieceCount (g : List (List Char)) : Nat :=
  rowMajorSquares.countP fun sq => decide (cellAt g sq.1 sq.2 ≠ '.')

/-- The time budget of the engine never expires on the clock: the flag `time_up_` is not
set, and at every reading fewer than `max_time_` milliseconds have passed since
`start_time_`. -/
def SearchEngine.neverExpires (e : SearchEngine) (clock : Nat → Int) : Prop :=
  e.time_up_ = false ∧ ∀ n : Nat, Int.tdiv (clock n - e.start_time_) TICKS_PER_MS < e.max_time_

/-! ## Definitions used to state the claims on the move generator -/

/-- The destinations of a pawn of colour `white_piece` on `(row, col)` as the
specification words them: the square one row forward if it is empty; the square two rows
forward if the pawn is on its start row and both squares ahead are empty; each of the two
forward-diagonal squares of the board (left, then right) that holds an enemy piece, or is
empty and is the en-passant target. -/
def pawnDestinations (board : Board) (row col : Int) (white_piece : Bool) : List (List Char) :=
  let direction : Int := if white_piece then -1 else 1
  let start_row : Int := if white_piece then 6 else 1
  (if board.getPiece (row + direction) col = '.' then [positionToSquare (row + direction) col]
   else []) ++
  (if row = start_row ∧ board.getPiece (row + direction) col = '.' ∧
      board.getPiece (row + 2 * direction) col = '.' then
     [positionToSquare (row + 2 * direction) col]
   else []) ++
  (([col + -1, col + 1] : List Int).filter fun c =>
      isValidSquare (row + direction) c &&
      (isOpponentPiece (board.getPiece (row + direction) c) white_piece ||
        (decide (board.getPiece (row + direction) c = '.') &&
          decide (positionToSquare (row + direction) c = board.en_passant_target_)))).map
    fun c => positionToSquare (row + direction) c

/-- The squares at the offsets `offs` from `(row, col)` that lie on the board and are not
occupied by a piece of the colour `white_piece`, in the order of `offs`. -/
def offsetDestinations (board : Board) (row col : Int) (white_piece : Bool)
    (offs : List (Int × Int)) : List (List Char) :=
  (offs.filter fun off =>
      isValidSquare (row + off.1) (col + off.2) &&
      !isFriendlyPiece (board.getPiece (row + off.1) (col + off.2)) white_piece).map
    fun off => positionToSquare (row + off.1) (col + off.2)

/-- The castling part of `generateKingMoves`: what the function appends after the eight
one-square steps. -/
def castlingPart (board : Board) (row col : Int) (white_piece : Bool) : List (List Char) :=
  if !board.isInCheck white_piece then
    (if board.canCastleKingside white_piece ∧
        board.getPiece row (col + 1) = '.' ∧ board.getPiece row (col + 2) = '.' then
      if !(board.copy.makeMove
          (positionToSquare row col ++ positionToSquare row (col + 1))).2.isInCheck white_piece
      then [positionToSquare row (col + 2)] else []
    else []) ++
    (if board.canCastleQueenside white_piece ∧
        board.getPiece row (col - 1) = '.' ∧ board.getPiece row (col - 2) = '.' ∧
        board.getPiece row (col - 3) = '.' then
      if !(board.copy.makeMove
          (positionToSquare row col ++ positionToSquare row (col - 1))).2.isInCheck white_piece
      then [positionToSquare row (col - 2)] else []
    else [])
  else []

/-- The board with the piece of `(row, col)` moved `dc` files along its row: the grid a
one-square king step leaves. -/
def kingShifted (board : Board) (row col dc : Int) : Board :=
  { board with
    board_ := setCell (setCell board.board_ row (col + dc) (board.getPiece row col)) row col '.' }

/-! ## Definitions used to state the claims on castling rooks, cancellation and score signs -/

/-- Whether every move of the sequence is, when its turn comes, one of the legal moves
`generateLegalMoves` lists for the side to move. -/
def Board.legalPlay : Board → List (List Char) → Bool
  | _, [] => true
  | b, m :: ms =>
    decide (m ∈ generateLegalMoves b b.white_to_move_) && Board.legalPlay (b.makeMove m).2 ms

/-- The eight plies e2e3, b7b6, f1a6, c8b7, g1h3, b7g2, a2a3, g2h1: a black bishop
captures the rook h1, which has not moved. -/
def rookCaptureLine : List (List Char) :=
  ["e2e3".toList, "b7b6".toList, "f1a6".toList, "c8b7".toList, "g1h3".toList,
   "b7g2".toList, "a2a3".toList, "g2h1".toList]

/-- The position after `rookCaptureLine`, White to move: the white king on e1 keeps the
kingside castling right, f1 and g1 are empty, and h1 holds a black bishop. -/
def capturedRook : Board := Board.start.playMoves rookCaptureLine

/-- A clock that stands still for its first `N` readings and shows two seconds from then
on: a deadline of less than two seconds falls between reading `N - 1` and reading `N`. -/
def deadlineClock (N : Nat) (n : Nat) : Int := if n < N then 0 else 2000000000

/-- A quiet position with Black to move in which White is a queen up: black king a8,
white king a1, white queen b1. -/
def queenUp : Board where
  board_ := ["k.......".toList, "........".toList, "........".toList, "........".toList,
             "........".toList, "........".toList, "........".toList, "KQ......".toList]
  white_to_move_ := false
  white_can_castle_kingside_ := false
  white_can_castle_queenside_ := false
  black_can_castle_kingside_ := false
  black_can_castle_queenside_ := false
  en_passant_target_ := ['-']
  halfmove_clock_ := 0
  fullmove_number_ := 1

/-! ## Helper lemmas: folds and the grid -/

theorem copy_eq (b : Board) : b.copy = b := rfl

theorem foldl_append_eq_flatMap {α β : Type} (f : α → List β) (l : List α) (init : List β) :
    l.foldl (fun acc a => acc ++ f a) init = init ++ l.flatMap f := by
  induction l generalizing init with
  | nil => simp
  | cons a l ih => simp [List.foldl_cons, ih, List.flatMap_cons, List.append_assoc]

theorem tryMove_foldl (board : Board) (white_player : Bool) (from_square : List Char)
    (pseudo acc : List (List Char)) :
    pseudo.foldl (tryMove board white_player from_square) acc =
      acc ++ (pseudo.map fun to_square => from_square ++ to_square).filter
        (keepsKingSafe board white_player) := by
  induction pseudo generalizing acc with
  | nil => simp
  | cons t pseudo ih =>
    rw [List.foldl_cons, ih]
    simp only [List.map_cons, List.filter_cons]
    unfold tryMove keepsKingSafe
    by_cases h1 : (board.copy.makeMove (from_square ++ t)).1 = true
    · by_cases h2 : (board.copy.makeMove (from_square ++ t)).2.isInCheck white_player = true
      · simp [h1, h2]
      · simp only [Bool.not_eq_true] at h2
        simp [h1, h2]
    · simp [h1]

theorem isUpper_of_white {c : Char} (h : c ∈ WHITE_PIECES) : isUpper c = true := by
  simp only [WHITE_PIECES, List.mem_cons, List.mem_singleton, List.not_mem_nil, or_false] at h
  rcases h with h | h | h | h | h | h <;> subst h <;> decide

theorem not_isUpper_of_black {c : Char} (h : c ∈ BLACK_PIECES) : isUpper c = false := by
  simp only [BLACK_PIECES, List.mem_cons, List.mem_singleton, List.not_mem_nil, or_false] at h
  rcases h with h | h | h | h | h | h <;> subst h <;> decide

theorem tolower_of_upper {c : Char} (h : isUpper c = true) :
    tolower c = Char.ofNat (c.toNat + 32) := by
  unfold isUpper at h
  simp only [Bool.and_eq_true, decide_eq_true_eq] at h
  unfold tolower
  rw [if_pos ⟨h.1, h.2⟩]

theorem tolower_of_not_upper {c : Char} (h : isUpper c = false) : tolower c = c := by
  unfold isUpper at h
  unfold tolower
  rw [if_neg]
  intro hc
  simp [hc.1, hc.2] at h

/-- A property checked on every character code of a range holds for each character in
the range. -/
theorem char_range_cases (P : Char → Prop) (lo len : Nat)
    (hP : ∀ n ∈ List.range' lo len, P (Char.ofNat n)) (c : Char)
    (h1 : lo ≤ c.toNat) (h2 : c.toNat < lo + len) : P c := by
  have h := hP c.toNat (by simp only [List.mem_range'_1]; omega)
  rwa [Char.ofNat_toNat] at h

theorem code_eq (c : Char) : code c = (c.toNat : Int) := rfl

theorem upper_lower_piece (c : Char) (hu : isUpper c = true)
    (hl : tolower c ∈ BLACK_PIECES) : c ∈ WHITE_PIECES := by
  have hb : 65 ≤ c.toNat ∧ c.toNat < 65 + 26 := by
    unfold isUpper at hu
    simp only [Bool.and_eq_true, decide_eq_true_eq, code_eq] at hu
    have e1 : ('A' : Char).toNat = 65 := rfl
    have e2 : ('Z' : Char).toNat = 90 := rfl
    rw [e1] at hu
    rw [e2] at hu
    omega
  revert hl hu
  exact char_range_cases
    (fun c => isUpper c = true → tolower c ∈ BLACK_PIECES → c ∈ WHITE_PIECES) 65 26
    (by decide) c hb.1 hb.2

theorem pseudo_nil_of_not_piece (board : Board) (row col : Int)
    (hw : board.getPiece row col ∉ WHITE_PIECES) (hb : board.getPiece row col ∉ BLACK_PIECES) :
    generatePseudoLegalMoves board row col = [] := by
  have hl : tolower (board.getPiece row col) ∉ BLACK_PIECES := by
    intro hl
    cases hu : isUpper (board.getPiece row col) with
    | true => exact hw (upper_lower_piece _ hu hl)
    | false =>
      rw [tolower_of_not_upper hu] at hl
      exact hb hl
  simp only [BLACK_PIECES, List.mem_cons, List.mem_singleton, List.not_mem_nil, or_false,
    not_or] at hl
  unfold generatePseudoLegalMoves
  simp [hl.1, hl.2.1, hl.2.2.1, hl.2.2.2.1, hl.2.2.2.2.1, hl.2.2.2.2.2]

theorem scanSquare_eq (board : Board) (white_player : Bool) (row col : Nat)
    (acc : List (List Char)) :
    scanSquare board white_player row col acc =
      acc ++ (pseudoMovesAt board white_player (row, col)).filter
        (keepsKingSafe board white_player) := by
  unfold scanSquare pseudoMovesAt
  simp only
  by_cases hdot : board.getPiece row col = '.'
  · have hnf : isFriendlyPiece '.' white_player = false := by cases white_player <;> decide
    simp [hdot, hnf]
  · rw [if_neg hdot]
    by_cases hf : isFriendlyPiece (board.getPiece row col) white_player = true
    · have hcol : isUpper (board.getPiece row col) = white_player := by
        unfold isFriendlyPiece isWhitePiece isBlackPiece at hf
        cases white_player with
        | true =>
          simp only [if_true, decide_eq_true_eq] at hf
          exact isUpper_of_white hf
        | false =>
          simp only [Bool.false_eq_true, if_false, decide_eq_true_eq] at hf
          exact not_isUpper_of_black hf
      rw [if_neg (by simp [hcol]), if_pos hf, tryMove_foldl]
    · rw [if_neg hf]
      simp only [List.filter_nil, List.append_nil]
      by_cases hcol : isUpper (board.getPiece row col) = white_player
      · rw [if_neg (by simp [hcol])]
        have hnil : generatePseudoLegalMoves board row col = [] := by
          unfold isFriendlyPiece isWhitePiece isBlackPiece at hf
          cases white_player with
          | true =>
            simp only [if_true, decide_eq_true_eq] at hf
            refine pseudo_nil_of_not_piece board row col hf ?_
            intro hb
            rw [not_isUpper_of_black hb] at hcol
            exact Bool.noConfusion hcol
          | false =>
            simp only [Bool.false_eq_true, if_false, decide_eq_true_eq] at hf
            refine pseudo_nil_of_not_piece board row col ?_ hf
            intro hw
            rw [isUpper_of_white hw] at hcol
            exact Bool.noConfusion hcol
        rw [hnil]
        rfl
      · rw [if_pos (by simpa using hcol)]

theorem flatMap_pairs {β : Type} (F : Nat × Nat → List β) (rows cols : List Nat) :
    (rows.flatMap fun row => cols.flatMap fun col => F (row, col)) =
      (rows.flatMap fun row => cols.map fun col => (row, col)).flatMap F := by
  induction rows with
  | nil => rfl
  | cons r rows ih =>
    rw [List.flatMap_cons, List.flatMap_cons, List.flatMap_append, ih, List.flatMap_map]

theorem generateLegalMoves_eq_spec (board : Board) (white_player : Bool) :
    generateLegalMoves board white_player = legalMovesSpec board white_player := by
  unfold generateLegalMoves legalMovesSpec rowMajorSquares
  have inner : ∀ (row : Nat) (cols : List Nat) (acc : List (List Char)),
      cols.foldl (fun legal_moves (col : Nat) =>
        scanSquare board white_player row col legal_moves) acc =
      acc ++ cols.flatMap (fun col =>
        (pseudoMovesAt board white_player (row, col)).filter
          (keepsKingSafe board white_player)) := by
    intro row cols
    induction cols with
    | nil => intro acc; simp
    | cons c cols ih =>
      intro acc
      rw [List.foldl_cons, ih, scanSquare_eq]
      simp [List.flatMap_cons, List.append_assoc]
  have outer : ∀ (rows : List Nat) (acc : List (List Char)),
      rows.foldl (fun legal_moves (row : Nat) =>
        (List.range 8).foldl (fun legal_moves (col : Nat) =>
          scanSquare board white_player row col legal_moves) legal_moves) acc =
      acc ++ rows.flatMap (fun row => (List.range 8).flatMap (fun col =>
        (pseudoMovesAt board white_player (row, col)).filter
          (keepsKingSafe board white_player))) := by
    intro rows
    induction rows with
    | nil => intro acc; simp
    | cons r rows ih =>
      intro acc
      rw [List.foldl_cons, ih, inner]
      simp [List.flatMap_cons, List.append_assoc]
  rw [outer, List.nil_append]
  exact flatMap_pairs (fun sq => (pseudoMovesAt board white_player sq).filter
    (keepsKingSafe board white_player)) (List.range 8) (List.range 8)

theorem sublist_flatMap_filter {α β : Type} (f : α → List β) (p : β → Bool) (l : List α) :
    List.Sublist (l.flatMap fun a => (f a).filter p) (l.flatMap f) := by
  induction l with
  | nil => exact List.Sublist.refl _
  | cons a l ih =>
    rw [List.flatMap_cons, List.flatMap_cons]
    exact List.Sublist.append (List.filter_sublist _) ih

theorem rowMajor_index_increasing :
    List.Pairwise (fun a b : Nat × Nat => a.1 * 8 + a.2 < b.1 * 8 + b.2) rowMajorSquares := by
  decide

theorem rowMajor_bound : ∀ sq ∈ rowMajorSquares, sq.1 < 8 ∧ sq.2 < 8 := by decide

theorem sourceIndex_positionToSquare :
    ∀ sq ∈ rowMajorSquares, (positionToSquare sq.1 sq.2).length = 2 ∧
      getPosition (positionToSquare sq.1 sq.2) = ((sq.1 : Int), (sq.2 : Int)) := by
  decide

theorem sourceIndex_of_mem (board : Board) (white_player : Bool) (sq : Nat × Nat)
    (hsq : sq ∈ rowMajorSquares) (m : List Char)
    (hm : m ∈ pseudoMovesAt board white_player sq) :
    sourceIndex m = ((sq.1 * 8 + sq.2 : Nat) : Int) := by
  unfold pseudoMovesAt at hm
  split at hm
  · rw [List.mem_map] at hm
    obtain ⟨t, _, rfl⟩ := hm
    obtain ⟨hlen, hpos⟩ := sourceIndex_positionToSquare sq hsq
    unfold sourceIndex
    rw [List.take_left' hlen, hpos]
    push_cast
    rfl
  · exact absurd hm (List.not_mem_nil m)

/-! ## Helper lemmas: reading and writing cells -/

theorem cellAt_eq (g : List (List Char)) (r c : Int) :
    cellAt g r c =
      if 0 ≤ r ∧ 0 ≤ c then ((g[r.toNat]?).getD [])[c.toNat]?.getD (Char.ofNat 0)
      else Char.ofNat 0 := by
  unfold cellAt
  simp only [List.getD_eq_getElem?_getD]

theorem cellAt_setCell_ne (g : List (List Char)) (r c r1 c1 : Int) (v : Char)
    (hne : ¬(r = r1 ∧ c = c1)) : cellAt (setCell g r c v) r1 c1 = cellAt g r1 c1 := by
  rw [cellAt_eq, cellAt_eq]
  unfold setCell
  by_cases h1 : 0 ≤ r1 ∧ 0 ≤ c1
  · rw [if_pos h1, if_pos h1]
    by_cases h : 0 ≤ r ∧ 0 ≤ c
    · rw [if_pos h, List.getElem?_modify]
      by_cases hr : r.toNat = r1.toNat
      · have hc : c.toNat ≠ c1.toNat := by
          intro hc
          apply hne
          omega
        cases hrow : g[r1.toNat]? with
        | none => simp [hr]
        | some row => simp [hr, List.getElem?_set, hc]
      · cases hrow : g[r1.toNat]? with
        | none => simp [hr]
        | some row => simp [hr]
    · rw [if_neg h]
  · rw [if_neg h1, if_neg h1]

theorem gridOK_row {g : List (List Char)} (hg : gridOK g = true) (r : Nat) (hr : r < 8) :
    ∃ row, g[r]? = some row ∧ row ∈ g ∧ row.length = 8 := by
  unfold gridOK at hg
  simp only [Bool.and_eq_true, decide_eq_true_eq, List.all_eq_true] at hg
  have hlt : r < g.length := by omega
  refine ⟨g[r], List.getElem?_eq_getElem hlt, List.getElem_mem hlt, hg.2 _ (List.getElem_mem hlt)⟩

theorem cellAt_setCell_same (g : List (List Char)) (hg : gridOK g = true) (r c : Int) (v : Char)
    (hv : isValidSquare r c = true) : cellAt (setCell g r c v) r c = v := by
  unfold isValidSquare at hv
  simp only [Bool.and_eq_true, decide_eq_true_eq, ge_iff_le] at hv
  obtain ⟨⟨⟨h0r, hr8⟩, h0c⟩, hc8⟩ := hv
  obtain ⟨row, hrow, _, hlen⟩ := gridOK_row hg r.toNat (by omega)
  rw [cellAt_eq]
  unfold setCell
  rw [if_pos ⟨h0r, h0c⟩, if_pos ⟨h0r, h0c⟩, List.getElem?_modify, hrow]
  have hc : c.toNat < row.length := by omega
  simp [List.getElem?_set, hc]

theorem gridOK_setCell (g : List (List Char)) (r c : Int) (v : Char) :
    gridOK (setCell g r c v) = gridOK g := by
  unfold setCell
  split
  · unfold gridOK
    rw [List.length_modify]
    congr 1
    rw [Bool.eq_iff_iff]
    simp only [List.all_eq_true, decide_eq_true_eq]
    have key : ∀ (i : Nat) (row : List Char), g[i]? = some row →
        (List.modify (fun row => row.set c.toNat v) r.toNat g)[i]? =
          some (if r.toNat = i then row.set c.toNat v else row) := by
      intro i row hi
      rw [List.getElem?_modify, hi]
      rfl
    constructor
    · intro h row hrow
      obtain ⟨i, hi⟩ := List.mem_iff_getElem?.mp hrow
      have hmem := List.mem_iff_getElem?.mpr ⟨i, key i row hi⟩
      have hlen := h _ hmem
      split at hlen
      · rwa [List.length_set] at hlen
      · exact hlen
    · intro h row hrow
      obtain ⟨i, hi⟩ := List.mem_iff_getElem?.mp hrow
      rw [List.getElem?_modify] at hi
      cases hgi : g[i]? with
      | none => rw [hgi] at hi; exact Option.noConfusion hi
      | some row0 =>
        rw [hgi] at hi
        have hrow0 := h row0 (List.mem_iff_getElem?.mpr ⟨i, hgi⟩)
        simp only [Option.map_eq_map, Option.map_some', Option.some.injEq] at hi
        rw [← hi]
        split
        · rw [List.length_set]; exact hrow0
        · exact hrow0
  · rfl

theorem getPiece_valid (b : Board) (r c : Int) (hv : isValidSquare r c = true) :
    b.getPiece r c = cellAt b.board_ r c := by
  unfold Board.getPiece
  simp [hv]

theorem cellAt_mem {g : List (List Char)} (hg : gridOK g = true) (r c : Int)
    (hv : isValidSquare r c = true) : ∃ row ∈ g, cellAt g r c ∈ row := by
  unfold isValidSquare at hv
  simp only [Bool.and_eq_true, decide_eq_true_eq, ge_iff_le] at hv
  obtain ⟨⟨⟨h0r, hr8⟩, h0c⟩, hc8⟩ := hv
  obtain ⟨row, hrow, hmem, hlen⟩ := gridOK_row hg r.toNat (by omega)
  refine ⟨row, hmem, ?_⟩
  rw [cellAt_eq, if_pos ⟨h0r, h0c⟩, hrow]
  have hc : c.toNat < row.length := by omega
  simp only [Option.getD_some, List.getElem?_eq_getElem hc]
  exact List.getElem_mem hc

theorem cell_piece_or_dot {g : List (List Char)} (hg : gridOK g = true)
    (hc : cellsOK g = true) (r c : Int) (hv : isValidSquare r c = true) :
    cellAt g r c ∈ pieceLetters ∨ cellAt g r c = '.' := by
  obtain ⟨row, hrow, hmem⟩ := cellAt_mem hg r c hv
  unfold cellsOK at hc
  simp only [List.all_eq_true, Bool.or_eq_true, decide_eq_true_eq] at hc
  exact hc row hrow _ hmem

/-! ## Helper lemmas: square names -/

theorem squareOK_position {s : List Char} (hs : squareOK s = true) :
    s.length = 2 ∧ isValidSquare (getPosition s).1 (getPosition s).2 = true ∧
      (getPosition s).1 ≠ -1 := by
  match s, hs with
  | [f, k], hs =>
    unfold squareOK at hs
    simp only [Bool.and_eq_true, decide_eq_true_eq, code_eq] at hs
    have ea : ('a' : Char).toNat = 97 := rfl
    have eh : ('h' : Char).toNat = 104 := rfl
    have e1 : ('1' : Char).toNat = 49 := rfl
    have e8 : ('8' : Char).toNat = 56 := rfl
    rw [ea, eh, e1, e8] at hs
    refine ⟨rfl, ?_, ?_⟩
    · unfold isValidSquare getPosition
      simp only [code_eq, ea, e1, Bool.and_eq_true, decide_eq_true_eq, ge_iff_le]
      omega
    · unfold getPosition
      simp only [code_eq, ea, e1]
      omega

/-! ## Helper lemmas: `makeMove` -/

theorem makeMove_true_iff (b : Board) (move : List Char) :
    (b.makeMove move).1 = true ↔
      4 ≤ move.length ∧ (getPosition (move.take 2)).1 ≠ -1 ∧
      (getPosition ((move.drop 2).take 2)).1 ≠ -1 ∧
      b.getPiece (getPosition (move.take 2)).1 (getPosition (move.take 2)).2 ≠ '.' ∧
      b.white_to_move_ =
        isWhitePiece (b.getPiece (getPosition (move.take 2)).1 (getPosition (move.take 2)).2) := by
  unfold Board.makeMove
  simp only
  split
  · simp; omega
  · split
    · rename_i h1 h2
      simp only [Bool.false_eq_true, false_iff, not_and]
      intro _ ha hb
      rcases h2 with h2 | h2
      · exact absurd h2 ha
      · exact absurd h2 hb
    · split
      · rename_i h1 h2 h3
        simp [h3]
      · split
        · rename_i h1 h2 h3 h4
          simp only [Bool.false_eq_true, false_iff, not_and]
          intro _ _ _ _ h5
          exact h4 h5
        · rename_i h1 h2 h3 h4
          simp only [not_or, ne_eq, Decidable.not_not] at h2 h4
          simp only [true_iff]
          exact ⟨by omega, h2.1, h2.2, h3, h4⟩

theorem makeMove_of_true (b : Board) (move : List Char) (h : (b.makeMove move).1 = true) :
    (b.makeMove move).2 =
      b.applyMove (move.take 2) ((move.drop 2).take 2) (getPosition (move.take 2))
        (getPosition ((move.drop 2).take 2))
        (b.getPiece (getPosition (move.take 2)).1 (getPosition (move.take 2)).2) := by
  obtain ⟨h1, h2, h3, h4, h5⟩ := (makeMove_true_iff b move).mp h
  unfold Board.makeMove
  simp only
  rw [if_neg (by omega), if_neg (by simp [h2, h3]), if_neg h4, if_neg (by simp [← h5])]

theorem makeMove_of_false (b : Board) (move : List Char) (h : (b.makeMove move).1 = false) :
    (b.makeMove move).2 = b := by
  unfold Board.makeMove at h ⊢
  simp only at h ⊢
  split
  · rfl
  · split
    · rfl
    · split
      · rfl
      · split
        · rfl
        · rename_i h1 h2 h3 h4
          rw [if_neg h1, if_neg h2, if_neg h3, if_neg h4] at h
          exact Bool.noConfusion h

theorem pawnStep_white_to_move (b : Board) (piece : Char) (ts : List Char) (fp tp : Int × Int) :
    (pawnStep b piece ts fp tp).white_to_move_ = b.white_to_move_ := by
  unfold pawnStep
  simp only
  split_ifs <;> rfl

theorem pawnStep_fullmove (b : Board) (piece : Char) (ts : List Char) (fp tp : Int × Int) :
    (pawnStep b piece ts fp tp).fullmove_number_ = b.fullmove_number_ := by
  unfold pawnStep
  simp only
  split_ifs <;> rfl

theorem pawnStep_board (b : Board) (piece : Char) (ts : List Char) (fp tp : Int × Int)
    (hpromo : ¬((piece = 'P' ∧ tp.1 = 0) ∨ (piece = 'p' ∧ tp.1 = 7))) :
    (pawnStep b piece ts fp tp).board_ =
      if ts = b.en_passant_target_ then
        setCell b.board_ (if b.white_to_move_ then tp.1 + 1 else tp.1 - 1) tp.2 '.'
      else b.board_ := by
  unfold pawnStep
  simp only
  rw [if_neg hpromo]
  split_ifs <;> rfl

theorem kingStep_white_to_move (b : Board) (piece : Char) (fp tp : Int × Int) :
    (kingStep b piece fp tp).white_to_move_ = b.white_to_move_ := by
  unfold kingStep
  simp only
  split_ifs <;> rfl

theorem kingStep_fullmove (b : Board) (piece : Char) (fp tp : Int × Int) :
    (kingStep b piece fp tp).fullmove_number_ = b.fullmove_number_ := by
  unfold kingStep
  simp only
  split_ifs <;> rfl

theorem kingStep_board (b : Board) (piece : Char) (fp tp : Int × Int)
    (h : (tp.2 - fp.2).natAbs ≠ 2) : (kingStep b piece fp tp).board_ = b.board_ := by
  unfold kingStep
  simp only
  rw [if_neg h]
  split_ifs <;> rfl

theorem rookStep_white_to_move (b : Board) (fs : List Char) :
    (rookStep b fs).white_to_move_ = b.white_to_move_ := by
  unfold rookStep
  split_ifs <;> rfl

theorem rookStep_fullmove (b : Board) (fs : List Char) :
    (rookStep b fs).fullmove_number_ = b.fullmove_number_ := by
  unfold rookStep
  split_ifs <;> rfl

theorem rookStep_board (b : Board) (fs : List Char) : (rookStep b fs).board_ = b.board_ := by
  unfold rookStep
  split_ifs <;> rfl

theorem rookStep_halfmove (b : Board) (fs : List Char) :
    (rookStep b fs).halfmove_clock_ = b.halfmove_clock_ := by
  unfold rookStep
  split_ifs <;> rfl

theorem kingStep_halfmove (b : Board) (piece : Char) (fp tp : Int × Int) :
    (kingStep b piece fp tp).halfmove_clock_ = b.halfmove_clock_ := by
  unfold kingStep
  simp only
  split_ifs <;> rfl

theorem pawnStep_halfmove (b : Board) (piece : Char) (ts : List Char) (fp tp : Int × Int) :
    (pawnStep b piece ts fp tp).halfmove_clock_ = b.halfmove_clock_ := by
  unfold pawnStep
  simp only
  split_ifs <;> rfl

theorem applyMove_white_to_move (b : Board) (fs ts : List Char) (fp tp : Int × Int)
    (piece : Char) : (b.applyMove fs ts fp tp piece).white_to_move_ = !b.white_to_move_ := by
  unfold Board.applyMove
  simp only
  split_ifs <;>
    simp only [pawnStep_white_to_move, kingStep_white_to_move, rookStep_white_to_move]

theorem wrapInt_in_range (x : Int) (hlo : -2147483648 ≤ x) (hhi : x ≤ 2147483647) :
    wrapInt x = x := by
  unfold wrapInt
  omega

theorem applyMove_fullmove (b : Board) (fs ts : List Char) (fp tp : Int × Int)
    (piece : Char) :
    (b.applyMove fs ts fp tp piece).fullmove_number_ =
      if b.white_to_move_ then b.fullmove_number_ else wrapInt (b.fullmove_number_ + 1) := by
  unfold Board.applyMove
  simp only [apply_ite Board.fullmove_number_, apply_ite Board.white_to_move_,
    pawnStep_white_to_move, kingStep_white_to_move, rookStep_white_to_move,
    pawnStep_fullmove, kingStep_fullmove, rookStep_fullmove, ite_self]
  cases b.white_to_move_ <;> simp

/-- C2: every move returned by `generateLegalMoves b c` can be applied to a copy of `b`
(`makeMove` returns true), and in the resulting position `isInCheck c` is false: no legal
move leaves the mover's own king in check. -/
theorem legal_moves_leave_king_safe (b : Board) (c : Bool) (m : List Char)
    (hm : m ∈ generateLegalMoves b c) :
    (b.copy.makeMove m).1 = true ∧ (b.copy.makeMove m).2.isInCheck c = false := by
  rw [generateLegalMoves_eq_spec] at hm
  unfold legalMovesSpec at hm
  rw [List.mem_flatMap] at hm
  obtain ⟨sq, _, hsq⟩ := hm
  rw [List.mem_filter] at hsq
  have hk := hsq.2
  unfold keepsKingSafe at hk
  simp only [Bool.and_eq_true, Bool.not_eq_true'] at hk
  exact hk

set_option maxRecDepth 1000000 in
/-- Witness for C2: the move e2e4 of the starting position. -/
theorem legal_moves_leave_king_safe_witness :
    "e2e4".toList ∈ generateLegalMoves Board.start true ∧
    (Board.start.copy.makeMove "e2e4".toList).1 = true ∧
    (Board.start.copy.makeMove "e2e4".toList).2.isInCheck true = false :=
  ⟨by decide, legal_moves_leave_king_safe Board.start true "e2e4".toList (by decide)⟩

set_option maxRecDepth 1000000 in
/-- C3: in the starting position `generateLegalMoves` for White returns exactly 20 moves,
16 that start on a pawn and 4 that start on a knight, and after White's first move e2e4
`generateLegalMoves` for Black also returns exactly 20 moves. -/
theorem start_position_twenty_moves :
    (generateLegalMoves Board.start true).length = 20 ∧
    ((generateLegalMoves Board.start true).filter
      (fun m => Board.start.getPieceAt (m.take 2) = 'P')).length = 16 ∧
    ((generateLegalMoves Board.start true).filter
      (fun m => Board.start.getPieceAt (m.take 2) = 'N')).length = 4 ∧
    (Board.start.makeMove "e2e4".toList).1 = true ∧
    (generateLegalMoves (Board.start.makeMove "e2e4".toList).2 false).length = 20 := by
  decide

/-- C4: `generateLegalMoves b c` is exactly the generate-then-filter list: the squares in
row-major order, for each square holding a piece of colour `c` its pseudo-legal
destinations in the order `generatePseudoLegalMoves` returns them, `from + to` kept exactly
when `makeMove` on a copy succeeds and leaves `c` not in check.  Hence the source squares
appear in non-decreasing row-major order and the result is a subsequence of the
pseudo-legal enumeration. -/
theorem generateLegalMoves_generate_then_filter (b : Board) (c : Bool) :
    generateLegalMoves b c = legalMovesSpec b c ∧
    List.Pairwise (fun m1 m2 => sourceIndex m1 ≤ sourceIndex m2) (generateLegalMoves b c) ∧
    List.Sublist (generateLegalMoves b c) (pseudoEnumeration b c) := by
  refine ⟨generateLegalMoves_eq_spec b c, ?_, ?_⟩
  · rw [generateLegalMoves_eq_spec]
    unfold legalMovesSpec
    rw [List.pairwise_flatMap]
    constructor
    · intro sq hsq
      rw [List.pairwise_iff_forall_sublist]
      intro m1 m2 hsub
      have h1 : m1 ∈ pseudoMovesAt b c sq :=
        (List.mem_filter.mp (hsub.subset (List.mem_cons_self _ _))).1
      have h2 : m2 ∈ pseudoMovesAt b c sq :=
        (List.mem_filter.mp (hsub.subset (List.mem_cons_of_mem _ (List.mem_singleton_self _)))).1
      rw [sourceIndex_of_mem b c sq hsq m1 h1, sourceIndex_of_mem b c sq hsq m2 h2]
    · have hmem : ∀ sq ∈ rowMajorSquares, sq ∈ rowMajorSquares := fun _ h => h
      refine List.Pairwise.imp_of_mem ?_ rowMajor_index_increasing
      intro a1 a2 ha1 ha2 hlt m1 hm1 m2 hm2
      rw [sourceIndex_of_mem b c a1 ha1 m1 (List.mem_filter.mp hm1).1,
        sourceIndex_of_mem b c a2 ha2 m2 (List.mem_filter.mp hm2).1]
      exact_mod_cast hlt.le
  · rw [generateLegalMoves_eq_spec]
    exact sublist_flatMap_filter _ _ _

/-! ## Claims on `makeMove` -/

theorem friendly_iff_turn (piece : Char) (w : Bool)
    (hp : piece ∈ pieceLetters ∨ piece = '.') :
    (piece ≠ '.' ∧ w = isWhitePiece piece) ↔ isFriendlyPiece piece w = true := by
  simp only [pieceLetters, WHITE_PIECES, BLACK_PIECES, List.cons_append, List.nil_append,
    List.mem_cons, List.mem_singleton, List.not_mem_nil, or_false] at hp
  rcases hp with (h | h | h | h | h | h | h | h | h | h | h | h) | h <;> subst h <;>
    cases w <;> decide

/-- C5: on every 8 x 8 board whose cells are piece letters or `.`, and for every move
string whose first four characters name two on-board squares (such a string has length at
least 4), `makeMove` returns true if and only if the source square holds a piece of the
side to move.  No geometric or check legality is examined: in the starting position the
rook move a1b2 (diagonal, onto a friendly pawn) succeeds, and with a pinned bishop the move
e2d3 succeeds and leaves the mover in check.  A string shorter than 4 characters returns
false. -/
theorem makeMove_accepts_iff_own_piece (b : Board) (move : List Char)
    (hg : gridOK b.board_ = true) (hc : cellsOK b.board_ = true)
    (hs : squareOK (move.take 2) = true) (ht : squareOK ((move.drop 2).take 2) = true) :
    4 ≤ move.length ∧
    ((b.makeMove move).1 = true ↔
      isFriendlyPiece (b.getPieceAt (move.take 2)) b.white_to_move_ = true) ∧
    ((Board.start.makeMove "a1b2".toList).1 = true ∧
      (pinnedBishop.makeMove "e2d3".toList).1 = true ∧
      (pinnedBishop.makeMove "e2d3".toList).2.isInCheck true = true) ∧
    (∀ short : List Char, short.length < 4 → (b.makeMove short).1 = false) := by
  obtain ⟨hl1, hv1, hn1⟩ := squareOK_position hs
  obtain ⟨hl2, hv2, hn2⟩ := squareOK_position ht
  have h4 : 4 ≤ move.length := by
    simp only [List.length_take, List.length_drop] at hl2
    omega
  refine ⟨h4, ?_, by decide, ?_⟩
  · rw [makeMove_true_iff]
    have hp := cell_piece_or_dot hg hc _ _ hv1
    rw [← getPiece_valid b _ _ hv1] at hp
    unfold Board.getPieceAt
    simp only
    rw [← friendly_iff_turn _ _ hp]
    constructor
    · intro h
      exact ⟨h.2.2.2.1, h.2.2.2.2⟩
    · intro h
      exact ⟨h4, hn1, hn2, h.1, h.2⟩
  · intro short hshort
    unfold Board.makeMove
    rw [if_pos hshort]

/-- Witness for C5: the diagonal rook move a1b2 in the starting position. -/
theorem makeMove_accepts_iff_own_piece_witness :
    4 ≤ "a1b2".toList.length ∧
    ((Board.start.makeMove "a1b2".toList).1 = true ↔
      isFriendlyPiece (Board.start.getPieceAt ("a1b2".toList.take 2))
        Board.start.white_to_move_ = true) ∧
    ((Board.start.makeMove "a1b2".toList).1 = true ∧
      (pinnedBishop.makeMove "e2d3".toList).1 = true ∧
      (pinnedBishop.makeMove "e2d3".toList).2.isInCheck true = true) ∧
    (∀ short : List Char, short.length < 4 → (Board.start.makeMove short).1 = false) :=
  makeMove_accepts_iff_own_piece Board.start "a1b2".toList (by decide) (by decide)
    (by decide) (by decide)

theorem char_toNat_inj {c d : Char} (h : c.toNat = d.toNat) : c = d := by
  rw [← Char.ofNat_toNat c, ← Char.ofNat_toNat d, h]

theorem getPosition_inj {s t : List Char} (hs : squareOK s = true) (ht : squareOK t = true)
    (h : getPosition s = getPosition t) : s = t := by
  match s, t, hs, ht, h with
  | [f, k], [f1, k1], _, _, h =>
    unfold getPosition at h
    simp only [code_eq, Prod.mk.injEq] at h
    have e1 : f.toNat = f1.toNat := by omega
    have e2 : k.toNat = k1.toNat := by omega
    rw [char_toNat_inj e1, char_toNat_inj e2]
  | [], _, hs, _, _ => exact absurd hs (by decide)
  | [_], _, hs, _, _ => exact absurd hs (by simp [squareOK])
  | _ :: _ :: _ :: _, _, hs, _, _ => exact absurd hs (by simp [squareOK])
  | [_, _], [], _, ht, _ => exact absurd ht (by decide)
  | [_, _], [_], _, ht, _ => exact absurd ht (by simp [squareOK])
  | [_, _], _ :: _ :: _ :: _, _, ht, _ => exact absurd ht (by simp [squareOK])

theorem getPiece_invalid (b : Board) (r c : Int) (hv : ¬isValidSquare r c = true) :
    b.getPiece r c = Char.ofNat 0 := by
  unfold Board.getPiece
  simp [hv]

theorem applyMove_board_plain (b : Board) (fs ts : List Char) (fp tp : Int × Int)
    (piece : Char)
    (hep : ¬((piece = 'P' ∨ piece = 'p') ∧ ts = b.en_passant_target_))
    (hcastle : ¬((piece = 'K' ∨ piece = 'k') ∧ (tp.2 - fp.2).natAbs = 2))
    (hpromo : ¬((piece = 'P' ∧ tp.1 = 0) ∨ (piece = 'p' ∧ tp.1 = 7))) :
    (b.applyMove fs ts fp tp piece).board_ =
      setCell (setCell b.board_ tp.1 tp.2 piece) fp.1 fp.2 '.' := by
  unfold Board.applyMove
  simp only [apply_ite Board.board_, rookStep_board, ite_self]
  by_cases hp : piece = 'P' ∨ piece = 'p'
  · have hk : ¬(piece = 'K' ∨ piece = 'k') := by
      rcases hp with hp | hp <;> subst hp <;> decide
    rw [if_neg hk, if_pos hp, pawnStep_board _ _ _ _ _ hpromo, if_neg]
    intro h
    exact hep ⟨hp, h⟩
  · by_cases hk : piece = 'K' ∨ piece = 'k'
    · rw [if_pos hk, kingStep_board, if_neg hp]
      intro h
      exact hcastle ⟨hk, h⟩
    · rw [if_neg hk, if_neg hp]

/-- C7 (amended): after a successful `makeMove` from square `s` to a different square `t`
(both on an 8 x 8 board) that is not a pawn move onto the en-passant target, not a two-file
king move and not a promotion, `t` holds the piece that stood on `s`, `s` is empty, every
other square is unchanged and the side to move is flipped.  The fullmove number is
unchanged when White made the move; when Black made it, it is the `int` result of the
increment, which is the number grown by 1 whenever the number was an `int` below
2147483647, the largest one (from 2147483647 the increment wraps to -2147483648). -/
theorem makeMove_plain_move_frame (b : Board) (move : List Char)
    (hg : gridOK b.board_ = true)
    (hs : squareOK (move.take 2) = true) (ht : squareOK ((move.drop 2).take 2) = true)
    (hok : (b.makeMove move).1 = true)
    (hne : move.take 2 ≠ (move.drop 2).take 2)
    (hep : ¬((b.getPieceAt (move.take 2) = 'P' ∨ b.getPieceAt (move.take 2) = 'p') ∧
      (move.drop 2).take 2 = b.en_passant_target_))
    (hcastle : ¬((b.getPieceAt (move.take 2) = 'K' ∨ b.getPieceAt (move.take 2) = 'k') ∧
      ((getPosition ((move.drop 2).take 2)).2 - (getPosition (move.take 2)).2).natAbs = 2))
    (hpromo : ¬((b.getPieceAt (move.take 2) = 'P' ∧ (getPosition ((move.drop 2).take 2)).1 = 0) ∨
      (b.getPieceAt (move.take 2) = 'p' ∧ (getPosition ((move.drop 2).take 2)).1 = 7))) :
    (b.makeMove move).2.getPieceAt ((move.drop 2).take 2) = b.getPieceAt (move.take 2) ∧
    (b.makeMove move).2.getPieceAt (move.take 2) = '.' ∧
    (∀ r c : Int, (r, c) ≠ getPosition (move.take 2) →
      (r, c) ≠ getPosition ((move.drop 2).take 2) →
      (b.makeMove move).2.getPiece r c = b.getPiece r c) ∧
    (b.makeMove move).2.white_to_move_ = (!b.white_to_move_) ∧
    (b.makeMove move).2.fullmove_number_ =
      (if b.white_to_move_ then b.fullmove_number_ else wrapInt (b.fullmove_number_ + 1)) ∧
    (-2147483648 ≤ b.fullmove_number_ → b.fullmove_number_ < 2147483647 →
      (b.makeMove move).2.fullmove_number_ =
        (if b.white_to_move_ then b.fullmove_number_ else b.fullmove_number_ + 1)) ∧
    (b.fullmove_number_ = 2147483647 → b.white_to_move_ = false →
      (b.makeMove move).2.fullmove_number_ = -2147483648) := by
  obtain ⟨_, hv1, _⟩ := squareOK_position hs
  obtain ⟨_, hv2, _⟩ := squareOK_position ht
  have hpos : getPosition (move.take 2) ≠ getPosition ((move.drop 2).take 2) :=
    fun h => hne (getPosition_inj hs ht h)
  have hboard := applyMove_board_plain b (move.take 2) ((move.drop 2).take 2)
    (getPosition (move.take 2)) (getPosition ((move.drop 2).take 2))
    (b.getPieceAt (move.take 2)) hep hcastle hpromo
  rw [makeMove_of_true b move hok]
  refine ⟨?_, ?_, ?_, applyMove_white_to_move _ _ _ _ _ _, applyMove_fullmove _ _ _ _ _ _,
    ?_, ?_⟩
  rotate_left 3
  · intro hlo hhi
    rw [applyMove_fullmove, wrapInt_in_range _ (by omega) (by omega)]
  · intro hmax hb
    rw [applyMove_fullmove, hmax, hb]
    decide
  · unfold Board.getPieceAt at hboard ⊢
    simp only at hboard ⊢
    rw [getPiece_valid _ _ _ hv2, hboard, cellAt_setCell_ne, cellAt_setCell_same _ hg _ _ _ hv2]
    intro h
    exact hpos (Prod.ext h.1 h.2)
  · unfold Board.getPieceAt at hboard ⊢
    simp only at hboard ⊢
    rw [getPiece_valid _ _ _ hv1, hboard, cellAt_setCell_same _ _ _ _ _ hv1]
    rw [gridOK_setCell]
    exact hg
  · intro r c h1 h2
    unfold Board.getPieceAt at hboard
    simp only at hboard
    by_cases hv : isValidSquare r c = true
    · rw [getPiece_valid _ _ _ hv, getPiece_valid _ _ _ hv, hboard, cellAt_setCell_ne,
        cellAt_setCell_ne]
      · intro h
        exact h2 (Prod.ext h.1.symm h.2.symm)
      · intro h
        exact h1 (Prod.ext h.1.symm h.2.symm)
    · rw [getPiece_invalid _ _ _ hv, getPiece_invalid _ _ _ hv]

set_option maxRecDepth 1000000 in
/-- Witness for C7 (amended): the knight move g8f6 of Black after e2e4 from the starting
position; the fullmove number grows from 1 to 2. -/
theorem makeMove_plain_move_frame_witness :
    (Board.start.makeMove "e2e4".toList).2.white_to_move_ = false ∧
    (Board.start.makeMove "e2e4".toList).2.fullmove_number_ = 1 ∧
    ((Board.start.makeMove "e2e4".toList).2.makeMove "g8f6".toList).2.getPieceAt "f6".toList
      = 'n' ∧
    ((Board.start.makeMove "e2e4".toList).2.makeMove "g8f6".toList).2.getPieceAt "g8".toList
      = '.' ∧
    (∀ r c : Int, (r, c) ≠ getPosition "g8".toList → (r, c) ≠ getPosition "f6".toList →
      ((Board.start.makeMove "e2e4".toList).2.makeMove "g8f6".toList).2.getPiece r c =
        (Board.start.makeMove "e2e4".toList).2.getPiece r c) ∧
    ((Board.start.makeMove "e2e4".toList).2.makeMove "g8f6".toList).2.white_to_move_ = true ∧
    ((Board.start.makeMove "e2e4".toList).2.makeMove "g8f6".toList).2.fullmove_number_ = 2 :=
  have h := makeMove_plain_move_frame (Board.start.makeMove "e2e4".toList).2 "g8f6".toList
    (by decide) (by decide) (by decide) (by decide) (by decide) (by decide) (by decide)
    (by decide)
  ⟨by decide, by decide, h.1, h.2.1, h.2.2.1, h.2.2.2.1,
    h.2.2.2.2.2.1 (by decide) (by decide)⟩

/-- Counterexample to C7 as stated: in the starting position the move e2e2 (source and
destination the same square) succeeds, is neither an en-passant capture, a two-file king
move nor a promotion, and leaves e2 empty: the destination does not hold the pawn. -/
theorem makeMove_same_square_loses_piece :
    (Board.start.makeMove "e2e2".toList).1 = true ∧
    Board.start.getPieceAt "e2".toList = 'P' ∧
    "e2".toList ≠ Board.start.en_passant_target_ ∧
    (getPosition "e2".toList).1 ≠ 0 ∧
    (Board.start.makeMove "e2e2".toList).2.getPieceAt "e2".toList = '.' := by
  decide

theorem mem_rowMajorSquares (r c : Nat) (hr : r < 8) (hc : c < 8) :
    (r, c) ∈ rowMajorSquares := by
  unfold rowMajorSquares
  simp only [List.mem_flatMap, List.mem_map, List.mem_range, Prod.mk.injEq]
  exact ⟨r, hr, c, hc, rfl, rfl⟩

theorem getSquare_table :
    ∀ sq ∈ rowMajorSquares, squareOK (getSquare sq.1 sq.2) = true ∧
      getPosition (getSquare sq.1 sq.2) = ((sq.1 : Int), (sq.2 : Int)) := by
  decide

theorem getSquare_valid (r c : Int) (hv : isValidSquare r c = true) :
    squareOK (getSquare r c) = true ∧ getPosition (getSquare r c) = (r, c) := by
  unfold isValidSquare at hv
  simp only [Bool.and_eq_true, decide_eq_true_eq, ge_iff_le] at hv
  obtain ⟨⟨⟨h0r, hr8⟩, h0c⟩, hc8⟩ := hv
  have h := getSquare_table (r.toNat, c.toNat) (mem_rowMajorSquares _ _ (by omega) (by omega))
  have e1 : ((r.toNat : Nat) : Int) = r := Int.toNat_of_nonneg h0r
  have e2 : ((c.toNat : Nat) : Int) = c := Int.toNat_of_nonneg h0c
  simp only [e1, e2] at h
  exact h

/-- C6 (the code at the failing inputs): in the starting position `makeMove "e2i4"`
(destination file `i`, column 8) is not rejected: it returns true and the position has
changed; and with Black to move `makeMove "i1a1"` (source file `i`) returns true and puts
the NUL character read off the board on a1. -/
theorem makeMove_off_board_accepted :
    (Board.start.makeMove "e2i4".toList).1 = true ∧
    (Board.start.makeMove "e2i4".toList).2 ≠ Board.start ∧
    (Board.start.makeMove "e2i4".toList).2.getPieceAt "e2".toList = '.' ∧
    ((Board.start.makeMove "e2e4".toList).2.makeMove "i1a1".toList).1 = true ∧
    ((Board.start.makeMove "e2e4".toList).2.makeMove "i1a1".toList).2.getPieceAt "a1".toList
      = Char.ofNat 0 := by
  decide

theorem kingStep_cell (b : Board) (piece : Char) (fp tp : Int × Int) :
    cellAt (kingStep b piece fp tp).board_ tp.1 tp.2 = cellAt b.board_ tp.1 tp.2 := by
  have h5 : ∀ (g : List (List Char)) (r : Int) (v : Char), tp.2 = 6 →
      cellAt (setCell (setCell g r 5 v) r 7 '.') tp.1 tp.2 = cellAt g tp.1 tp.2 := by
    intro g r v h6
    rw [cellAt_setCell_ne _ _ _ _ _ _ (by rw [h6]; intro h; exact absurd h.2 (by decide)),
      cellAt_setCell_ne _ _ _ _ _ _ (by rw [h6]; intro h; exact absurd h.2 (by decide))]
  have h3 : ∀ (g : List (List Char)) (r : Int) (v : Char), tp.2 = 2 →
      cellAt (setCell (setCell g r 3 v) r 0 '.') tp.1 tp.2 = cellAt g tp.1 tp.2 := by
    intro g r v h2
    rw [cellAt_setCell_ne _ _ _ _ _ _ (by rw [h2]; intro h; exact absurd h.2 (by decide)),
      cellAt_setCell_ne _ _ _ _ _ _ (by rw [h2]; intro h; exact absurd h.2 (by decide))]
  unfold kingStep
  simp only
  split_ifs <;> simp only [] <;> first
    | rfl
    | (apply h5; assumption)
    | (apply h3; assumption)

theorem applyMove_halfmove_reset (b : Board) (fs ts : List Char) (fp tp : Int × Int)
    (piece : Char) (hg : gridOK b.board_ = true) (hv : isValidSquare tp.1 tp.2 = true)
    (hne : fp ≠ tp) (hp : piece ≠ '.') :
    (b.applyMove fs ts fp tp piece).halfmove_clock_ = 0 := by
  unfold Board.applyMove
  simp only [apply_ite Board.halfmove_clock_, ite_self]
  by_cases hpawn : piece = 'P' ∨ piece = 'p'
  · rw [if_pos]
    rcases hpawn with h | h
    · exact Or.inl h
    · exact Or.inr (Or.inl h)
  · rw [if_pos]
    right; right
    simp only [if_neg hpawn]
    have hcell : cellAt (setCell (setCell b.board_ tp.1 tp.2 piece) fp.1 fp.2 '.') tp.1 tp.2
        = piece := by
      rw [cellAt_setCell_ne _ _ _ _ _ _ (fun h => hne (Prod.ext h.1 h.2)),
        cellAt_setCell_same _ hg _ _ _ hv]
    rw [getPiece_valid _ _ _ hv]
    split_ifs <;> simp only [rookStep_board, kingStep_cell, hcell] <;> exact hp

/-- C8 (the code at the failing input): from the starting position the knight move g1f3,
neither a pawn move nor a capture, leaves the halfmove clock at 0, not 1, as `toFEN`
shows; and on every 8 x 8 board every successful `makeMove` between two different on-board
squares leaves the halfmove clock at 0, because the destination is tested after the moved
piece has been written on it. -/
theorem makeMove_quiet_move_resets_clock :
    ((Board.start.makeMove "g1f3".toList).1 = true ∧
      Board.start.getPieceAt "g1".toList = 'N' ∧
      Board.start.getPieceAt "f3".toList = '.' ∧
      Board.start.halfmove_clock_ = 0 ∧
      (Board.start.makeMove "g1f3".toList).2.halfmove_clock_ = 0 ∧
      (Board.start.makeMove "g1f3".toList).2.toFEN =
        "rnbqkbnr/pppppppp/8/8/8/5N2/PPPPPPPP/RNBQKB1R b KQkq - 0 1".toList) ∧
    (∀ (b : Board) (move : List Char), gridOK b.board_ = true →
      squareOK (move.take 2) = true → squareOK ((move.drop 2).take 2) = true →
      move.take 2 ≠ (move.drop 2).take 2 → (b.makeMove move).1 = true →
      (b.makeMove move).2.halfmove_clock_ = 0) := by
  refine ⟨by decide, ?_⟩
  intro b move hg hs ht hne hok
  obtain ⟨_, hv2, _⟩ := squareOK_position ht
  obtain ⟨_, _, _, hp, _⟩ := (makeMove_true_iff b move).mp hok
  rw [makeMove_of_true b move hok]
  exact applyMove_halfmove_reset b _ _ _ _ _ hg hv2
    (fun h => hne (getPosition_inj hs ht h)) hp

theorem cellAt_setCell_eq (g : List (List Char)) (hg : gridOK g = true) (r c r1 c1 : Int)
    (v : Char) (h : r = r1 ∧ c = c1) (hv : isValidSquare r c = true) :
    cellAt (setCell g r c v) r1 c1 = v := by
  obtain ⟨rfl, rfl⟩ := h
  exact cellAt_setCell_same g hg r c v hv

theorem applyMove_board_en_passant (b : Board) (fs ts : List Char) (fp tp : Int × Int)
    (piece : Char) (hp : piece = 'P' ∨ piece = 'p') (hep : ts = b.en_passant_target_)
    (hpromo : ¬((piece = 'P' ∧ tp.1 = 0) ∨ (piece = 'p' ∧ tp.1 = 7))) :
    (b.applyMove fs ts fp tp piece).board_ =
      setCell (setCell (setCell b.board_ tp.1 tp.2 piece) fp.1 fp.2 '.')
        (if b.white_to_move_ then tp.1 + 1 else tp.1 - 1) tp.2 '.' := by
  unfold Board.applyMove
  simp only [apply_ite Board.board_, rookStep_board, ite_self]
  have hk : ¬(piece = 'K' ∨ piece = 'k') := by
    rcases hp with hp | hp <;> subst hp <;> decide
  rw [if_neg hk, if_pos hp, pawnStep_board _ _ _ _ _ hpromo, if_pos hep]

/-- C10: when a pawn of the side to move is moved onto the current en-passant target
square left by the opponent's two-square advance (a target on row 2 when White moves, on
row 5 when Black moves), `makeMove` relocates the pawn and empties the square on the
destination file one row behind the target from the mover's point of view (row 3 for
White, row 4 for Black), where the pawn that had just advanced stands; all other squares
are unchanged. -/
theorem makeMove_en_passant_capture (b : Board) (move : List Char)
    (hg : gridOK b.board_ = true)
    (hs : squareOK (move.take 2) = true) (ht : squareOK ((move.drop 2).take 2) = true)
    (hok : (b.makeMove move).1 = true)
    (hp : b.getPieceAt (move.take 2) = 'P' ∨ b.getPieceAt (move.take 2) = 'p')
    (hep : (move.drop 2).take 2 = b.en_passant_target_)
    (hrow : (getPosition ((move.drop 2).take 2)).1 = if b.white_to_move_ then 2 else 5)
    (hdiag : (getPosition (move.take 2)).1 = (if b.white_to_move_ then 3 else 4) ∧
      ((getPosition ((move.drop 2).take 2)).2 - (getPosition (move.take 2)).2).natAbs = 1) :
    (b.makeMove move).2.getPieceAt ((move.drop 2).take 2) = b.getPieceAt (move.take 2) ∧
    (b.makeMove move).2.getPieceAt (move.take 2) = '.' ∧
    (b.makeMove move).2.getPiece (if b.white_to_move_ then 3 else 4)
      (getPosition ((move.drop 2).take 2)).2 = '.' ∧
    (∀ r c : Int, (r, c) ≠ getPosition (move.take 2) →
      (r, c) ≠ getPosition ((move.drop 2).take 2) →
      (r, c) ≠ ((if b.white_to_move_ then 3 else 4), (getPosition ((move.drop 2).take 2)).2) →
      (b.makeMove move).2.getPiece r c = b.getPiece r c) := by
  obtain ⟨_, hv1, _⟩ := squareOK_position hs
  obtain ⟨_, hv2, _⟩ := squareOK_position ht
  obtain ⟨_, _, _, _, hturn⟩ := (makeMove_true_iff b move).mp hok
  have hwhite : b.white_to_move_ = decide (b.getPieceAt (move.take 2) = 'P') := by
    unfold Board.getPieceAt at hp ⊢
    simp only at hp ⊢
    rw [hturn]
    rcases hp with hp | hp <;> rw [hp] <;> decide
  have hpromo : ¬((b.getPieceAt (move.take 2) = 'P' ∧
        (getPosition ((move.drop 2).take 2)).1 = 0) ∨
      (b.getPieceAt (move.take 2) = 'p' ∧ (getPosition ((move.drop 2).take 2)).1 = 7)) := by
    rw [hrow]
    cases b.white_to_move_ <;> simp
  have hboard := applyMove_board_en_passant b (move.take 2) ((move.drop 2).take 2)
    (getPosition (move.take 2)) (getPosition ((move.drop 2).take 2))
    (b.getPieceAt (move.take 2)) hp hep hpromo
  have hcap : (if b.white_to_move_ then (getPosition ((move.drop 2).take 2)).1 + 1
      else (getPosition ((move.drop 2).take 2)).1 - 1) =
      (if b.white_to_move_ then (3 : Int) else 4) := by
    rw [hrow]
    cases b.white_to_move_ <;> rfl
  rw [hcap] at hboard
  have hcapne : (if b.white_to_move_ then (3 : Int) else 4) ≠
      (getPosition ((move.drop 2).take 2)).1 := by
    rw [hrow]
    cases b.white_to_move_ <;> decide
  have hvcap : isValidSquare (if b.white_to_move_ then (3 : Int) else 4)
      (getPosition ((move.drop 2).take 2)).2 = true := by
    unfold isValidSquare at hv2 ⊢
    simp only [Bool.and_eq_true, decide_eq_true_eq, ge_iff_le] at hv2 ⊢
    cases b.white_to_move_ <;> simp <;> omega
  have hg1 : gridOK (setCell b.board_ (getPosition ((move.drop 2).take 2)).1
      (getPosition ((move.drop 2).take 2)).2 (b.getPieceAt (move.take 2))) = true := by
    rw [gridOK_setCell]; exact hg
  have hg2 : gridOK (setCell (setCell b.board_ (getPosition ((move.drop 2).take 2)).1
      (getPosition ((move.drop 2).take 2)).2 (b.getPieceAt (move.take 2)))
      (getPosition (move.take 2)).1 (getPosition (move.take 2)).2 '.') = true := by
    rw [gridOK_setCell]; exact hg1
  rw [makeMove_of_true b move hok]
  unfold Board.getPieceAt at hboard hg1 hg2 ⊢
  simp only at hboard hg1 hg2 ⊢
  refine ⟨?_, ?_, ?_, ?_⟩
  · rw [getPiece_valid _ _ _ hv2, hboard, cellAt_setCell_ne _ _ _ _ _ _ (fun h => hcapne h.1)]
    by_cases hsame : getPosition (move.take 2) = getPosition ((move.drop 2).take 2)
    · exfalso
      have h2 := hdiag.2
      rw [hsame] at h2
      simp at h2
    · rw [cellAt_setCell_ne _ _ _ _ _ _ (fun h => hsame (Prod.ext h.1 h.2)),
        cellAt_setCell_same _ hg _ _ _ hv2]
  · rw [getPiece_valid _ _ _ hv1, hboard]
    by_cases hsame : ((if b.white_to_move_ then (3 : Int) else 4),
        (getPosition ((move.drop 2).take 2)).2) = getPosition (move.take 2)
    · have e1 : (if b.white_to_move_ then (3 : Int) else 4) = (getPosition (move.take 2)).1 :=
        congrArg Prod.fst hsame
      have e2 : (getPosition ((move.drop 2).take 2)).2 = (getPosition (move.take 2)).2 := by
        rw [← hsame]
      exact cellAt_setCell_eq _ hg2 _ _ _ _ _ ⟨e1, e2⟩ hvcap
    · rw [cellAt_setCell_ne _ _ _ _ _ _ (fun h => hsame (Prod.ext h.1 h.2)),
        cellAt_setCell_same _ hg1 _ _ _ hv1]
  · rw [getPiece_valid _ _ _ hvcap, hboard]
    exact cellAt_setCell_same _ hg2 _ _ _ hvcap
  · intro r c h1 h2 h3
    by_cases hv : isValidSquare r c = true
    · rw [getPiece_valid _ _ _ hv, getPiece_valid _ _ _ hv, hboard,
        cellAt_setCell_ne _ _ _ _ _ _ (fun h => h3 (Prod.ext h.1.symm h.2.symm)),
        cellAt_setCell_ne _ _ _ _ _ _ (fun h => h1 (Prod.ext h.1.symm h.2.symm)),
        cellAt_setCell_ne _ _ _ _ _ _ (fun h => h2 (Prod.ext h.1.symm h.2.symm))]
    · rw [getPiece_invalid _ _ _ hv, getPiece_invalid _ _ _ hv]

/-- Witness for C10: the capture e5d6 after 1. e4 a6 2. e5 d5. -/
theorem makeMove_en_passant_capture_witness :
    (enPassantReady.makeMove "e5d6".toList).2.getPieceAt "d6".toList = 'P' ∧
    (enPassantReady.makeMove "e5d6".toList).2.getPieceAt "e5".toList = '.' ∧
    (enPassantReady.makeMove "e5d6".toList).2.getPiece 3 3 = '.' ∧
    (∀ r c : Int, (r, c) ≠ getPosition "e5".toList → (r, c) ≠ getPosition "d6".toList →
      (r, c) ≠ (3, 3) →
      (enPassantReady.makeMove "e5d6".toList).2.getPiece r c = enPassantReady.getPiece r c) :=
  makeMove_en_passant_capture enPassantReady "e5d6".toList (by decide) (by decide)
    (by decide) (by decide) (by decide) (by decide) (by decide) (by decide)

/-! ## Helper lemmas: the textual position record -/

theorem splitOn_ne_nil (sep : Char) (s : List Char) : splitOn sep s ≠ [] := by
  cases s with
  | nil => simp [splitOn]
  | cons c s =>
    unfold splitOn
    split
    · simp
    · split <;> simp

theorem joinWith_splitOn (sep : Char) (s : List Char) : joinWith sep (splitOn sep s) = s := by
  induction s with
  | nil => rfl
  | cons c s ih =>
    unfold splitOn
    split
    · rename_i h
      cases hsp : splitOn sep s with
      | nil => exact absurd hsp (splitOn_ne_nil sep s)
      | cons f fs =>
        rw [hsp] at ih
        simp only [joinWith, List.nil_append, ih, h]
    · cases hsp : splitOn sep s with
      | nil => exact absurd hsp (splitOn_ne_nil sep s)
      | cons f fs =>
        rw [hsp] at ih
        simp only
        cases fs with
        | nil =>
          simp only [joinWith] at ih ⊢
          rw [ih]
        | cons g gs =>
          simp only [joinWith] at ih ⊢
          rw [← ih]
          rfl

theorem splitOn_no_sep (sep : Char) (s : List Char) : ∀ f ∈ splitOn sep s, sep ∉ f := by
  induction s with
  | nil =>
    intro f hf
    simp only [splitOn, List.mem_singleton] at hf
    subst hf
    exact List.not_mem_nil _
  | cons c s ih =>
    intro f hf
    unfold splitOn at hf
    split at hf
    · rcases List.mem_cons.mp hf with h | h
      · subst h; exact List.not_mem_nil _
      · exact ih f h
    · rename_i hc
      cases hsp : splitOn sep s with
      | nil => exact absurd hsp (splitOn_ne_nil sep s)
      | cons g gs =>
        rw [hsp] at hf ih
        simp only at hf
        rcases List.mem_cons.mp hf with h | h
        · subst h
          intro hmem
          rcases List.mem_cons.mp hmem with h1 | h1
          · exact hc h1.symm
          · exact ih g (List.mem_cons_self _ _) h1
        · exact ih f (List.mem_cons_of_mem _ h)

theorem toDigitsCore_append (fuel n : Nat) (ds : List Char) :
    Nat.toDigitsCore 10 fuel n ds = Nat.toDigitsCore 10 fuel n [] ++ ds := by
  induction fuel generalizing n ds with
  | zero => simp [Nat.toDigitsCore]
  | succ fuel ih =>
    simp only [Nat.toDigitsCore]
    split
    · simp
    · rw [ih (n / 10) (Nat.digitChar (n % 10) :: ds), ih (n / 10) [Nat.digitChar (n % 10)]]
      simp

theorem toDigitsCore_fuel (fuel1 fuel2 n : Nat) (h1 : n < fuel1) (h2 : n < fuel2) :
    Nat.toDigitsCore 10 fuel1 n [] = Nat.toDigitsCore 10 fuel2 n [] := by
  induction fuel1 generalizing n fuel2 with
  | zero => omega
  | succ fuel1 ih =>
    cases fuel2 with
    | zero => omega
    | succ fuel2 =>
      simp only [Nat.toDigitsCore]
      split
      · rfl
      · rename_i hn
        have hlt : n / 10 < n := Nat.div_lt_self (by omega) (by decide)
        rw [toDigitsCore_append fuel1, toDigitsCore_append fuel2,
          ih fuel2 (n / 10) (by omega) (by omega)]

theorem toDigits_step (n d : Nat) (hn : 0 < n) (hd : d < 10) :
    Nat.toDigits 10 (10 * n + d) = Nat.toDigits 10 n ++ [Nat.digitChar d] := by
  unfold Nat.toDigits
  rw [Nat.toDigitsCore]
  have e1 : (10 * n + d) / 10 = n := by omega
  have e2 : (10 * n + d) % 10 = d := by omega
  simp only [e1, e2]
  rw [if_neg (by omega), toDigitsCore_append,
    toDigitsCore_fuel (10 * n + d) (n + 1) n (by omega) (by omega)]

theorem isdigit_bounds {c : Char} (h : isdigit c = true) : 48 ≤ c.toNat ∧ c.toNat < 48 + 10 := by
  unfold isdigit at h
  simp only [Bool.and_eq_true, decide_eq_true_eq, code_eq] at h
  have e0 : ('0' : Char).toNat = 48 := rfl
  have e9 : ('9' : Char).toNat = 57 := rfl
  rw [e0, e9] at h
  omega

theorem digitChar_of_isdigit (c : Char) (h : isdigit c = true) :
    Nat.digitChar (c.toNat - 48) = c := by
  have hb := isdigit_bounds h
  exact char_range_cases (fun c => Nat.digitChar (c.toNat - 48) = c) 48 10 (by decide) c
    hb.1 hb.2

theorem natValue_append (s : List Char) (c : Char) :
    natValue (s ++ [c]) = natValue s * 10 + (c.toNat - 48) := by
  unfold natValue
  rw [List.foldl_append]
  rfl

/-- Digits with a non-zero leading digit: positive value and `toDigits` gives them back. -/
theorem toDigits_natValue_pos (s : List Char) (c : Char) (hc : isdigit c = true)
    (hc0 : c ≠ '0') (hs : ∀ x ∈ s, isdigit x = true) :
    0 < natValue (c :: s) ∧ Nat.toDigits 10 (natValue (c :: s)) = c :: s := by
  induction s using List.reverseRecOn with
  | nil =>
    have hb := isdigit_bounds hc
    have hne : c.toNat ≠ 48 := by
      intro h
      apply hc0
      rw [← Char.ofNat_toNat c, h]
    have hv : natValue [c] = c.toNat - 48 := by
      simp [natValue]
    rw [hv]
    refine ⟨by omega, ?_⟩
    have : Nat.toDigits 10 (c.toNat - 48) = [Nat.digitChar (c.toNat - 48)] := by
      unfold Nat.toDigits
      rw [Nat.toDigitsCore]
      have e1 : (c.toNat - 48) / 10 = 0 := by omega
      have e2 : (c.toNat - 48) % 10 = c.toNat - 48 := by omega
      simp [e1, e2]
    rw [this, digitChar_of_isdigit c hc]
  | append_singleton s d ih =>
    have hs1 : ∀ x ∈ s, isdigit x = true := fun x hx => hs x (List.mem_append_left _ hx)
    have hd : isdigit d = true := hs d (List.mem_append_right _ (List.mem_singleton_self d))
    obtain ⟨hpos, hdig⟩ := ih hs1
    have hb := isdigit_bounds hd
    have e : natValue (c :: (s ++ [d])) = 10 * natValue (c :: s) + (d.toNat - 48) := by
      rw [← List.cons_append, natValue_append]
      omega
    rw [e]
    refine ⟨by omega, ?_⟩
    rw [toDigits_step _ _ hpos (by omega), hdig, digitChar_of_isdigit d hd]
    rfl

theorem counterOK_cases {s : List Char} (h : counterOK s = true) :
    (∃ c, s = [c] ∧ isdigit c = true) ∨
    (∃ c t, s = c :: t ∧ isdigit c = true ∧ c ≠ '0' ∧ ∀ x ∈ t, isdigit x = true) := by
  match s, h with
  | [c], h =>
    left
    exact ⟨c, rfl, by simpa [counterOK] using h⟩
  | c :: d :: t, h =>
    right
    unfold counterOK at h
    simp only [Bool.and_eq_true, decide_eq_true_eq, List.all_eq_true] at h
    exact ⟨c, d :: t, rfl, h.1.1, h.1.2, h.2⟩

theorem toDigits_natValue (s : List Char) (h : counterOK s = true) :
    Nat.toDigits 10 (natValue s) = s := by
  rcases counterOK_cases h with ⟨c, rfl, hc⟩ | ⟨c, t, rfl, hc, hc0, ht⟩
  · have hb := isdigit_bounds hc
    exact char_range_cases (fun c => Nat.toDigits 10 (natValue [c]) = [c]) 48 10 (by decide) c
      hb.1 hb.2
  · exact (toDigits_natValue_pos t c hc hc0 ht).2

theorem decimalValue_eq (s : List Char) (h : ∀ x ∈ s, isdigit x = true) :
    decimalValue s = (natValue s : Int) := by
  unfold decimalValue natValue
  induction s using List.reverseRecOn with
  | nil => rfl
  | append_singleton s d ih =>
    have hs1 : ∀ x ∈ s, isdigit x = true := fun x hx => h x (List.mem_append_left _ hx)
    have hd : isdigit d = true := h d (List.mem_append_right _ (List.mem_singleton_self d))
    have hb := isdigit_bounds hd
    rw [List.foldl_append, List.foldl_append, ih hs1]
    simp only [List.foldl_cons, List.foldl_nil, code_eq]
    have e0 : ('0' : Char).toNat = 48 := rfl
    rw [e0]
    push_cast
    omega

theorem counterOK_digits {s : List Char} (h : counterOK s = true) :
    s ≠ [] ∧ ∀ x ∈ s, isdigit x = true := by
  rcases counterOK_cases h with ⟨c, rfl, hc⟩ | ⟨c, t, rfl, hc, _, ht⟩
  · exact ⟨by simp, by simpa using hc⟩
  · refine ⟨by simp, ?_⟩
    intro x hx
    rcases List.mem_cons.mp hx with h1 | h1
    · rw [h1]; exact hc
    · exact ht x h1

theorem isdigit_not_space {c : Char} (h : isdigit c = true) : isspace c = false := by
  have hb := isdigit_bounds h
  unfold isspace
  simp only [code_eq, Bool.or_eq_false_iff, decide_eq_false_iff_not, Bool.and_eq_false_iff]
  omega

theorem takeWhile_all {α : Type} (p : α → Bool) (l : List α) (h : ∀ x ∈ l, p x = true) :
    l.takeWhile p = l := by
  induction l with
  | nil => rfl
  | cons a l ih =>
    rw [List.takeWhile_cons, h a (List.mem_cons_self _ _),
      ih (fun x hx => h x (List.mem_cons_of_mem _ hx))]
    rfl

theorem stoi_counter (s : List Char) (h : counterOK s = true)
    (hfit : decimalValue s ≤ 2147483647) :
    stoi s = some (decimalValue s) ∧ to_string (decimalValue s) = s := by
  obtain ⟨hne, hdig⟩ := counterOK_digits h
  have hval := decimalValue_eq s hdig
  constructor
  · unfold stoi
    obtain ⟨c, t, rfl⟩ := List.exists_cons_of_ne_nil hne
    have hc : isdigit c = true := hdig c (List.mem_cons_self _ _)
    have hsp : isspace c = false := isdigit_not_space hc
    have hdrop : (c :: t).dropWhile isspace = c :: t := by
      rw [List.dropWhile_cons, hsp]
      rfl
    have hminus : c ≠ '-' := by
      intro hm; subst hm; exact absurd hc (by decide)
    have hplus : c ≠ '+' := by
      intro hm; subst hm; exact absurd hc (by decide)
    have hmatch : stoiSign (c :: t) = (false, c :: t) := by
      unfold stoiSign
      split
      · rename_i heq
        exact absurd (List.cons.inj heq).1 hminus
      · rename_i heq
        exact absurd (List.cons.inj heq).1 hplus
      · rfl
    simp only [hdrop, hmatch]
    simp only [takeWhile_all isdigit (c :: t) hdig]
    rw [if_neg (by simp)]
    simp only [Bool.false_eq_true, if_false]
    have hv2 : List.foldl (fun acc c => acc * 10 + (code c - code '0')) 0 (c :: t) =
        decimalValue (c :: t) := rfl
    rw [hv2, if_neg]
    rw [hval] at hfit ⊢
    omega
  · unfold to_string
    rw [hval, if_neg (by omega), Int.toNat_ofNat]
    exact toDigits_natValue s h

theorem pieceLetter_facts {c : Char} (h : c ∈ pieceLetters) :
    c ≠ '.' ∧ c ∉ fileDigits ∧ c ≠ '/' ∧ isdigit c = false ∧ isspace c = false := by
  simp only [pieceLetters, WHITE_PIECES, BLACK_PIECES, List.cons_append, List.nil_append,
    List.mem_cons, List.mem_singleton, List.not_mem_nil, or_false] at h
  rcases h with h | h | h | h | h | h | h | h | h | h | h | h <;> subst h <;> decide

theorem fileDigit_facts {c : Char} (h : c ∈ fileDigits) :
    c ≠ '/' ∧ isdigit c = true ∧ isspace c = false ∧ 0 < c.toNat - 48 ∧
      code c - code '0' = ((c.toNat - 48 : Nat) : Int) ∧
      to_string ((c.toNat - 48 : Nat) : Int) = [c] := by
  simp only [fileDigits, List.mem_cons, List.mem_singleton, List.not_mem_nil, or_false] at h
  rcases h with h | h | h | h | h | h | h | h <;> subst h <;> decide

theorem foldl_fenCell_dots (k : Nat) (fen : List Char) (n : Int) :
    (List.replicate k '.').foldl fenCell (fen, n) = (fen, n + k) := by
  induction k generalizing n with
  | zero => simp
  | succ k ih =>
    rw [List.replicate_succ, List.foldl_cons]
    have : fenCell (fen, n) '.' = (fen, n + 1) := by
      unfold fenCell
      simp
    rw [this, ih]
    congr 1
    push_cast
    omega

theorem render_rank (r : List Char)
    (htok : ∀ c ∈ r, c ∈ pieceLetters ∨ c ∈ fileDigits) (hmax : maximalRuns r = true) :
    (∀ fen, flushEmpty ((expandRank r).foldl fenCell (fen, 0)) = fen ++ r) ∧
    (∀ fen d, d ∈ fileDigits → (∀ c t, r = c :: t → c ∉ fileDigits) →
      flushEmpty ((expandRank r).foldl fenCell (fen, ((d.toNat - 48 : Nat) : Int))) =
        fen ++ d :: r) := by
  induction r with
  | nil =>
    constructor
    · intro fen
      simp [expandRank, flushEmpty]
    · intro fen d hd _
      obtain ⟨_, _, _, hpos, _, hstr⟩ := fileDigit_facts hd
      simp only [expandRank, List.foldl_nil, flushEmpty]
      rw [if_pos (by exact_mod_cast hpos), hstr]
  | cons c r ih =>
    have htok' : ∀ x ∈ r, x ∈ pieceLetters ∨ x ∈ fileDigits :=
      fun x hx => htok x (List.mem_cons_of_mem _ hx)
    have hmax' : maximalRuns r = true := by
      cases r with
      | nil => rfl
      | cons d r =>
        unfold maximalRuns at hmax
        simp only [Bool.and_eq_true] at hmax
        exact hmax.2
    obtain ⟨ih1, ih2⟩ := ih htok' hmax'
    rcases htok c (List.mem_cons_self _ _) with hc | hc
    · -- a piece letter
      obtain ⟨hdot, hnd, _, _, _⟩ := pieceLetter_facts hc
      have hexp : expandRank (c :: r) = c :: expandRank r := by
        simp [expandRank, hnd]
      constructor
      · intro fen
        rw [hexp, List.foldl_cons]
        have : fenCell (fen, 0) c = (fen ++ [c], 0) := by
          unfold fenCell flushEmpty
          simp [hdot]
        rw [this, ih1]
        simp
      · intro fen d hd _
        obtain ⟨_, _, _, hpos, _, hstr⟩ := fileDigit_facts hd
        rw [hexp, List.foldl_cons]
        have : fenCell (fen, ((d.toNat - 48 : Nat) : Int)) c = (fen ++ [d] ++ [c], 0) := by
          unfold fenCell flushEmpty
          simp only [if_neg hdot]
          rw [if_pos (by exact_mod_cast hpos), hstr]
        rw [this, ih1]
        simp
    · -- a digit
      have hexp : expandRank (c :: r) = List.replicate (c.toNat - 48) '.' ++ expandRank r := by
        simp [expandRank, hc]
      constructor
      · intro fen
        rw [hexp, List.foldl_append, foldl_fenCell_dots, Int.zero_add]
        apply ih2 fen c hc
        intro x t hr
        subst hr
        unfold maximalRuns at hmax
        simp only [Bool.and_eq_true, Bool.not_eq_true', Bool.and_eq_false_iff,
          decide_eq_false_iff_not] at hmax
        rcases hmax.1 with h | h
        · exact absurd hc h
        · exact h
      · intro fen d _ hhead
        exact absurd hc (hhead c r rfl)

theorem expandRank_length (r : List Char)
    (htok : ∀ c ∈ r, c ∈ pieceLetters ∨ c ∈ fileDigits) :
    ((expandRank r).length : Int) = rankWidth r := by
  induction r with
  | nil => rfl
  | cons c r ih =>
    have htok' : ∀ x ∈ r, x ∈ pieceLetters ∨ x ∈ fileDigits :=
      fun x hx => htok x (List.mem_cons_of_mem _ hx)
    rcases htok c (List.mem_cons_self _ _) with hc | hc
    · obtain ⟨_, hnd, _, _, _⟩ := pieceLetter_facts hc
      simp only [expandRank, rankWidth, if_neg hnd, List.length_append, List.length_singleton]
      rw [← ih htok']
      push_cast
      omega
    · obtain ⟨_, _, _, _, hval, _⟩ := fileDigit_facts hc
      simp only [expandRank, rankWidth, if_pos hc, List.length_append, List.length_replicate]
      rw [← ih htok', hval]
      push_cast
      rfl

theorem range_foldl_getD {β : Type} (f : β → Char → β) (row : List Char) (d : Char) (init : β) :
    (List.range row.length).foldl (fun st (j : Nat) => f st (row.getD j d)) init =
      row.foldl f init := by
  induction row using List.reverseRecOn generalizing init with
  | nil => rfl
  | append_singleton row c ih =>
    rw [List.length_append, List.length_singleton, List.range_succ, List.foldl_append,
      List.foldl_append]
    simp only [List.foldl_cons, List.foldl_nil]
    have h1 : (row ++ [c]).getD row.length d = c := by
      simp [List.getD_eq_getElem?_getD]
    rw [h1]
    congr 1
    rw [← ih init]
    apply List.foldl_ext
    intro st j hj
    have hj' : j < row.length := List.mem_range.mp hj
    congr 1
    simp [List.getD_eq_getElem?_getD, List.getElem?_append_left hj']

theorem setCell_at (above below : List (List Char)) (row : List Char) (j : Nat) (v : Char) :
    setCell (above ++ row :: below) (above.length : Int) (j : Int) v =
      above ++ row.set j v :: below := by
  unfold setCell
  rw [if_pos ⟨Int.natCast_nonneg _, Int.natCast_nonneg _⟩]
  simp only [Int.toNat_ofNat]
  induction above with
  | nil => rfl
  | cons a above ih =>
    simp only [List.cons_append, List.length_cons, List.modify_succ_cons, ih]

theorem parse_rank (r : List Char) (htok : ∀ c ∈ r, c ∈ pieceLetters ∨ c ∈ fileDigits) :
    ∀ (done : List Char) (k : Nat) (above below : List (List Char)),
      r.foldl parseStep
        (above ++ (done ++ List.replicate ((expandRank r).length + k) '.') :: below,
          (above.length : Int), (done.length : Int)) =
      (above ++ (done ++ expandRank r ++ List.replicate k '.') :: below,
        (above.length : Int), ((done.length + (expandRank r).length : Nat) : Int)) := by
  induction r with
  | nil =>
    intro done k above below
    simp [expandRank]
  | cons c r ih =>
    intro done k above below
    have htok' : ∀ x ∈ r, x ∈ pieceLetters ∨ x ∈ fileDigits :=
      fun x hx => htok x (List.mem_cons_of_mem _ hx)
    rw [List.foldl_cons]
    rcases htok c (List.mem_cons_self _ _) with hc | hc
    · obtain ⟨_, hnd, hsl, hdig, _⟩ := pieceLetter_facts hc
      have hexp : expandRank (c :: r) = c :: expandRank r := by
        simp [expandRank, hnd]
      rw [hexp]
      have hrep : List.replicate ((c :: expandRank r).length + k) '.' =
          '.' :: List.replicate ((expandRank r).length + k) '.' := by
        rw [List.length_cons, Nat.add_right_comm, List.replicate_succ]
      have hset : (done ++ '.' :: List.replicate ((expandRank r).length + k) '.').set
          done.length c = (done ++ [c]) ++ List.replicate ((expandRank r).length + k) '.' := by
        rw [List.set_append_right _ _ (Nat.le_refl _), Nat.sub_self, List.set_cons_zero,
          List.append_assoc]
        rfl
      have hstep : parseStep (above ++ (done ++ List.replicate ((c :: expandRank r).length + k)
            '.') :: below, (above.length : Int), (done.length : Int)) c =
          (above ++ ((done ++ [c]) ++ List.replicate ((expandRank r).length + k) '.') :: below,
            (above.length : Int), ((done ++ [c]).length : Int)) := by
        unfold parseStep
        simp only [if_neg hsl, hdig, Bool.false_eq_true, if_false]
        rw [hrep, setCell_at, hset, List.length_append, List.length_singleton]
        push_cast
        rfl
      rw [hstep, ih htok' (done ++ [c]) k above below]
      simp only [List.length_append, List.length_singleton, List.length_cons, List.append_assoc,
        List.singleton_append, List.cons_append, Prod.mk.injEq, true_and]
      refine ⟨by simp, ?_⟩
      simp only [List.length_nil]
      push_cast
      omega
    · obtain ⟨hsl, hdig, _, _, hval, _⟩ := fileDigit_facts hc
      have hexp : expandRank (c :: r) = List.replicate (c.toNat - 48) '.' ++ expandRank r := by
        simp [expandRank, hc]
      rw [hexp]
      have hrep : List.replicate ((List.replicate (c.toNat - 48) '.' ++ expandRank r).length + k)
          '.' = List.replicate (c.toNat - 48) '.' ++
            List.replicate ((expandRank r).length + k) '.' := by
        rw [List.length_append, List.length_replicate, Nat.add_assoc, List.replicate_add]
      have hstep : parseStep (above ++ (done ++ List.replicate
            ((List.replicate (c.toNat - 48) '.' ++ expandRank r).length + k) '.') :: below,
          (above.length : Int), (done.length : Int)) c =
          (above ++ ((done ++ List.replicate (c.toNat - 48) '.') ++
            List.replicate ((expandRank r).length + k) '.') :: below,
            (above.length : Int), ((done ++ List.replicate (c.toNat - 48) '.').length : Int)) := by
        unfold parseStep
        simp only [if_neg hsl, hdig, if_true, hval]
        rw [hrep, List.append_assoc, List.length_append, List.length_replicate]
        push_cast
        rfl
      rw [hstep, ih htok' (done ++ List.replicate (c.toNat - 48) '.') k above below]
      simp only [List.length_append, List.length_replicate, List.append_assoc,
        Prod.mk.injEq, true_and]
      push_cast
      omega

theorem rankOK_facts {r : List Char} (h : rankOK r = true) :
    (∀ c ∈ r, c ∈ pieceLetters ∨ c ∈ fileDigits) ∧ maximalRuns r = true ∧
      (expandRank r).length = 8 := by
  unfold rankOK at h
  simp only [Bool.and_eq_true, List.all_eq_true, Bool.or_eq_true, decide_eq_true_eq] at h
  refine ⟨h.1.1, h.1.2, ?_⟩
  have := expandRank_length r h.1.1
  rw [h.2] at this
  exact_mod_cast this

theorem parse_ranks (ranks : List (List Char)) (hok : ∀ r ∈ ranks, rankOK r = true)
    (hne : ranks ≠ []) :
    ∀ (above : List (List Char)) (n : Nat),
      ((joinWith '/' ranks).foldl parseStep
        (above ++ List.replicate (ranks.length + n) (List.replicate 8 '.'),
          (above.length : Int), 0)).1 =
      above ++ ranks.map expandRank ++ List.replicate n (List.replicate 8 '.') := by
  induction ranks with
  | nil => exact absurd rfl hne
  | cons r rest ih =>
    intro above n
    obtain ⟨htok, _, hlen⟩ := rankOK_facts (hok r (List.mem_cons_self _ _))
    have hrank := parse_rank r htok [] 0 above
      (List.replicate (rest.length + n) (List.replicate 8 '.'))
    rw [hlen] at hrank
    have hrep : List.replicate ((r :: rest).length + n) (List.replicate 8 '.') =
        List.replicate 8 '.' :: List.replicate (rest.length + n) (List.replicate 8 '.') := by
      rw [List.length_cons, Nat.add_right_comm, List.replicate_succ]
    have h0 : (([] : List Char).length : Int) = 0 := rfl
    rw [hrep]
    rw [h0] at hrank
    simp only [List.nil_append, List.length_nil, Nat.zero_add, Nat.add_zero,
      List.replicate_zero, List.append_nil] at hrank
    cases rest with
    | nil =>
      simp only [joinWith, List.map_cons, List.map_nil]
      rw [hrank]
      simp
    | cons r2 rest =>
      have hok' : ∀ x ∈ r2 :: rest, rankOK x = true :=
        fun x hx => hok x (List.mem_cons_of_mem _ hx)
      have ih' := ih hok' (by simp) (above ++ [expandRank r]) n
      simp only [joinWith, List.foldl_append, List.foldl_cons]
      rw [hrank]
      have hslash : parseStep (above ++ expandRank r ::
            List.replicate ((r2 :: rest).length + n) (List.replicate 8 '.'),
          (above.length : Int), ((8 : Nat) : Int)) '/' =
          ((above ++ [expandRank r]) ++
            List.replicate ((r2 :: rest).length + n) (List.replicate 8 '.'),
            ((above ++ [expandRank r]).length : Int), 0) := by
        unfold parseStep
        simp
      rw [hslash, ih']
      simp

theorem extract_space (s : List Char) : extract (' ' :: s) = extract s := by
  unfold extract
  have h : isspace ' ' = true := by decide
  simp only [List.dropWhile_cons, h, if_true]

theorem takeWhile_field (tok rest : List Char) (hns : ∀ c ∈ tok, isspace c = false) :
    (tok ++ ' ' :: rest).takeWhile (fun c => !isspace c) = tok ∧
    (tok ++ ' ' :: rest).dropWhile (fun c => !isspace c) = ' ' :: rest := by
  induction tok with
  | nil =>
    have h : isspace ' ' = true := by decide
    simp [List.takeWhile_cons, List.dropWhile_cons, h]
  | cons c tok ih =>
    have hc := hns c (List.mem_cons_self _ _)
    obtain ⟨ih1, ih2⟩ := ih (fun x hx => hns x (List.mem_cons_of_mem _ hx))
    simp only [List.cons_append, List.takeWhile_cons, List.dropWhile_cons, hc, Bool.not_false,
      if_true, ih1, ih2, and_self]

theorem extract_field (tok rest : List Char) (hne : tok ≠ [])
    (hns : ∀ c ∈ tok, isspace c = false) :
    extract (tok ++ ' ' :: rest) = (tok, ' ' :: rest) := by
  obtain ⟨c, t, rfl⟩ := List.exists_cons_of_ne_nil hne
  have hc := hns c (List.mem_cons_self _ _)
  unfold extract
  have hdrop : (c :: t ++ ' ' :: rest).dropWhile isspace = c :: t ++ ' ' :: rest := by
    simp only [List.cons_append, List.dropWhile_cons, hc, Bool.false_eq_true, if_false]
  simp only [hdrop]
  obtain ⟨h1, h2⟩ := takeWhile_field (c :: t) rest hns
  rw [h1, h2]

theorem extract_last (tok : List Char) (hne : tok ≠ [])
    (hns : ∀ c ∈ tok, isspace c = false) : (extract tok).1 = tok := by
  obtain ⟨c, t, rfl⟩ := List.exists_cons_of_ne_nil hne
  have hc := hns c (List.mem_cons_self _ _)
  unfold extract
  have hdrop : (c :: t).dropWhile isspace = c :: t := by
    simp only [List.dropWhile_cons, hc, Bool.false_eq_true, if_false]
  simp only [hdrop]
  exact takeWhile_all _ _ (fun x hx => by simp [hns x hx])

theorem castlingOK_cases {s : List Char} (h : castlingOK s = true) :
    s ∈ [['-'], ['q'], ['k'], ['k', 'q'], ['Q'], ['Q', 'q'], ['Q', 'k'], ['Q', 'k', 'q'],
      ['K'], ['K', 'q'], ['K', 'k'], ['K', 'k', 'q'], ['K', 'Q'], ['K', 'Q', 'q'],
      ['K', 'Q', 'k'], ['K', 'Q', 'k', 'q']] := by
  unfold castlingOK at h
  simp only [Bool.or_eq_true, Bool.and_eq_true, decide_eq_true_eq] at h
  rcases h with h | ⟨hne, h⟩
  · subst h
    decide
  · have hall : ∀ x ∈ ['K', 'Q', 'k', 'q'].sublists, x = [] ∨
        x ∈ [['-'], ['q'], ['k'], ['k', 'q'], ['Q'], ['Q', 'q'], ['Q', 'k'], ['Q', 'k', 'q'],
          ['K'], ['K', 'q'], ['K', 'k'], ['K', 'k', 'q'], ['K', 'Q'], ['K', 'Q', 'q'],
          ['K', 'Q', 'k'], ['K', 'Q', 'k', 'q']] := by decide
    rcases hall s h with h1 | h1
    · exact absurd h1 hne
    · exact h1

theorem cellAt_row (g : List (List Char)) (i j : Nat) (row : List Char)
    (hrow : g[i]? = some row) :
    cellAt g (i : Int) (j : Int) = row.getD j (Char.ofNat 0) := by
  unfold cellAt
  rw [if_pos ⟨Int.natCast_nonneg _, Int.natCast_nonneg _⟩]
  simp only [Int.toNat_ofNat, List.getD_eq_getElem?_getD, hrow, Option.getD_some]

theorem fenRow_eq (g : List (List Char)) (i : Nat) (r fen : List Char)
    (hrow : g[i]? = some (expandRank r)) (hok : rankOK r = true) :
    fenRow g fen i = fen ++ r ++ (if i < 7 then ['/'] else []) := by
  obtain ⟨htok, hmax, hlen⟩ := rankOK_facts hok
  unfold fenRow
  have hfold : (List.range 8).foldl (fun st (j : Nat) => fenCell st (cellAt g i j)) (fen, 0) =
      (expandRank r).foldl fenCell (fen, 0) := by
    rw [← range_foldl_getD fenCell (expandRank r) (Char.ofNat 0) (fen, 0), hlen]
    apply List.foldl_ext
    intro st j _
    rw [cellAt_row g i j _ hrow]
  simp only [hfold, (render_rank r htok hmax).1 fen]
  split <;> simp

theorem fen_board_part (ranks : List (List Char)) (hlen : ranks.length = 8)
    (hok : ∀ r ∈ ranks, rankOK r = true) :
    (List.range 8).foldl (fenRow (ranks.map expandRank)) [] = joinWith '/' ranks := by
  match ranks, hlen, hok with
  | [r0, r1, r2, r3, r4, r5, r6, r7], _, hok =>
    have hr : List.range 8 = [0, 1, 2, 3, 4, 5, 6, 7] := by decide
    rw [hr]
    simp only [List.foldl_cons, List.foldl_nil]
    rw [fenRow_eq _ 0 r0 _ rfl (hok _ (by simp)), fenRow_eq _ 1 r1 _ rfl (hok _ (by simp)),
      fenRow_eq _ 2 r2 _ rfl (hok _ (by simp)), fenRow_eq _ 3 r3 _ rfl (hok _ (by simp)),
      fenRow_eq _ 4 r4 _ rfl (hok _ (by simp)), fenRow_eq _ 5 r5 _ rfl (hok _ (by simp)),
      fenRow_eq _ 6 r6 _ rfl (hok _ (by simp)), fenRow_eq _ 7 r7 _ rfl (hok _ (by simp))]
    simp [joinWith]

theorem board_part_chars (ranks : List (List Char)) (hok : ∀ r ∈ ranks, rankOK r = true) :
    ∀ c ∈ joinWith '/' ranks, isspace c = false := by
  induction ranks with
  | nil => intro c hc; exact absurd hc (List.not_mem_nil c)
  | cons r rest ih =>
    have hr : ∀ c ∈ r, isspace c = false := by
      intro c hc
      obtain ⟨htok, _, _⟩ := rankOK_facts (hok r (List.mem_cons_self _ _))
      rcases htok c hc with h | h
      · exact (pieceLetter_facts h).2.2.2.2
      · exact (fileDigit_facts h).2.2.1
    cases rest with
    | nil => simpa [joinWith] using hr
    | cons r2 rest =>
      intro c hc
      simp only [joinWith, List.mem_append, List.mem_cons] at hc
      rcases hc with h | h | h
      · exact hr c h
      · subst h; decide
      · exact ih (fun x hx => hok x (List.mem_cons_of_mem _ hx)) c h

theorem squareOK_chars {s : List Char} (h : squareOK s = true) :
    s ≠ [] ∧ ∀ c ∈ s, isspace c = false := by
  match s, h with
  | [f, k], h =>
    unfold squareOK at h
    simp only [Bool.and_eq_true, decide_eq_true_eq, code_eq] at h
    have ea : ('a' : Char).toNat = 97 := rfl
    have e1 : ('1' : Char).toNat = 49 := rfl
    rw [ea, e1] at h
    refine ⟨by simp, ?_⟩
    intro c hc
    unfold isspace
    simp only [code_eq, Bool.or_eq_false_iff, decide_eq_false_iff_not, Bool.and_eq_false_iff]
    simp only [List.mem_cons, List.mem_singleton, List.not_mem_nil, or_false] at hc
    rcases hc with hc | hc <;> subst hc <;> omega

theorem joinWith_six (a b c d e f : List Char) :
    joinWith ' ' [a, b, c, d, e, f] =
      a ++ ' ' :: (b ++ ' ' :: (c ++ ' ' :: (d ++ ' ' :: (e ++ ' ' :: f)))) := rfl

/-- The castling field written by `toFEN` from the four flags read by the constructor. -/
theorem castling_round_trip (ca : List Char) (h : castlingOK ca = true) :
    (let castling : List Char := []
     let castling := if decide ('K' ∈ ca) then castling ++ ['K'] else castling
     let castling := if decide ('Q' ∈ ca) then castling ++ ['Q'] else castling
     let castling := if decide ('k' ∈ ca) then castling ++ ['k'] else castling
     let castling := if decide ('q' ∈ ca) then castling ++ ['q'] else castling
     if castling = [] then ['-'] else castling) = ca := by
  have hc := castlingOK_cases h
  simp only [List.mem_cons, List.mem_singleton, List.not_mem_nil, or_false] at hc
  rcases hc with h | h | h | h | h | h | h | h | h | h | h | h | h | h | h | h <;>
    subst h <;> decide

theorem castling_chars {ca : List Char} (h : castlingOK ca = true) :
    ca ≠ [] ∧ ∀ c ∈ ca, isspace c = false := by
  have hc := castlingOK_cases h
  simp only [List.mem_cons, List.mem_singleton, List.not_mem_nil, or_false] at hc
  rcases hc with h | h | h | h | h | h | h | h | h | h | h | h | h | h | h | h <;>
    subst h <;> decide

theorem fen_round_trip_fields (bp ac ca ep hm fm : List Char)
    (hbp : ((splitOn '/' bp).length = 8) ∧ ∀ r ∈ splitOn '/' bp, rankOK r = true)
    (hac : ac = ['w'] ∨ ac = ['b'])
    (hca : castlingOK ca = true)
    (hep : ep = ['-'] ∨ squareOK ep = true)
    (hhm : counterOK hm = true) (hfm : counterOK fm = true)
    (hfit1 : decimalValue hm ≤ 2147483647) (hfit2 : decimalValue fm ≤ 2147483647) :
    (Board.ofFEN (joinWith ' ' [bp, ac, ca, ep, hm, fm])).map Board.toFEN =
      some (joinWith ' ' [bp, ac, ca, ep, hm, fm]) := by
  -- the fields contain no white space and are not empty
  have hbpj : joinWith '/' (splitOn '/' bp) = bp := joinWith_splitOn '/' bp
  have hbp_sp : ∀ c ∈ bp, isspace c = false := by
    rw [← hbpj]
    exact board_part_chars _ hbp.2
  have hbp_ne : bp ≠ [] := by
    intro h
    rw [h] at hbp
    exact absurd hbp.1 (by decide)
  have hac_ne : ac ≠ [] ∧ ∀ c ∈ ac, isspace c = false := by
    rcases hac with h | h <;> subst h <;> decide
  have hca_ne := castling_chars hca
  have hep_ne : ep ≠ [] ∧ ∀ c ∈ ep, isspace c = false := by
    rcases hep with h | h
    · subst h; decide
    · exact squareOK_chars h
  obtain ⟨hhm_ne, hhm_dig⟩ := counterOK_digits hhm
  obtain ⟨hfm_ne, hfm_dig⟩ := counterOK_digits hfm
  have hhm_sp : ∀ c ∈ hm, isspace c = false := fun c hc => isdigit_not_space (hhm_dig c hc)
  have hfm_sp : ∀ c ∈ fm, isspace c = false := fun c hc => isdigit_not_space (hfm_dig c hc)
  -- the six extractions
  rw [joinWith_six]
  have e1 := extract_field bp (ac ++ ' ' :: (ca ++ ' ' :: (ep ++ ' ' :: (hm ++ ' ' :: fm))))
    hbp_ne hbp_sp
  have e2 := extract_field ac (ca ++ ' ' :: (ep ++ ' ' :: (hm ++ ' ' :: fm))) hac_ne.1 hac_ne.2
  have e3 := extract_field ca (ep ++ ' ' :: (hm ++ ' ' :: fm)) hca_ne.1 hca_ne.2
  have e4 := extract_field ep (hm ++ ' ' :: fm) hep_ne.1 hep_ne.2
  have e5 := extract_field hm fm hhm_ne hhm_sp
  have e6 := extract_last fm hfm_ne hfm_sp
  obtain ⟨s1, t1⟩ := stoi_counter hm hhm hfit1
  obtain ⟨s2, t2⟩ := stoi_counter fm hfm hfit2
  -- the grid
  have hgrid : (bp.foldl parseStep (List.replicate 8 (List.replicate 8 '.'), 0, 0)).1 =
      (splitOn '/' bp).map expandRank := by
    have h := parse_ranks (splitOn '/' bp) hbp.2 (splitOn_ne_nil _ _) [] 0
    rw [hbpj, hbp.1] at h
    simpa using h
  unfold Board.ofFEN
  simp only [e1, extract_space, e2, e3, e4, e5, e6, s1, s2, Option.map_some', Option.some.injEq]
  unfold Board.toFEN
  simp only [hgrid, fen_board_part _ hbp.1 hbp.2, hbpj, t1, t2]
  have hcast := castling_round_trip ca hca
  simp only at hcast
  rw [hcast]
  rcases hac with h | h <;> subst h <;> simp

/-! ## Claim on the textual position record -/

/-- C1 (amended): for every well-formed six-field position record `R` whose two counters
are at most 2147483647 (the largest `int`), constructing a `Board` from `R` succeeds and
`toFEN()` returns exactly `R`. -/
theorem fen_round_trip (R : List Char) (hwf : wellFormedFEN R = true)
    (hfit : countersFitInt R = true) : (Board.ofFEN R).map Board.toFEN = some R := by
  unfold wellFormedFEN at hwf
  unfold countersFitInt at hfit
  split at hwf
  · rename_i bp ac ca ep hm fm hsplit
    rw [hsplit] at hfit
    simp only [Bool.and_eq_true, decide_eq_true_eq, Bool.or_eq_true, List.all_eq_true] at hwf hfit
    obtain ⟨⟨⟨⟨⟨⟨h8, hranks⟩, hac⟩, hca⟩, hep⟩, hhm⟩, hfm⟩ := hwf
    have hR : joinWith ' ' [bp, ac, ca, ep, hm, fm] = R := by
      rw [← hsplit]
      exact joinWith_splitOn ' ' R
    rw [← hR]
    exact fen_round_trip_fields bp ac ca ep hm fm ⟨h8, hranks⟩ hac hca hep hhm hfm hfit.1 hfit.2
  · exact absurd hwf (by decide)

/-- Witness for C1 (amended): the record of the starting position. -/
theorem fen_round_trip_witness :
    (Board.ofFEN "rnbqkbnr/pppppppp/8/8/8/8/PPPPPPPP/RNBQKBNR w KQkq - 0 1".toList).map
        Board.toFEN =
      some "rnbqkbnr/pppppppp/8/8/8/8/PPPPPPPP/RNBQKBNR w KQkq - 0 1".toList :=
  fen_round_trip "rnbqkbnr/pppppppp/8/8/8/8/PPPPPPPP/RNBQKBNR w KQkq - 0 1".toList
    (by decide) (by decide)

/-- Counterexample to C1 as stated: a well-formed record whose fullmove counter is
2147483648; `std::stoi` throws `std::out_of_range`, so no `Board` is constructed. -/
theorem fen_round_trip_counter_overflow :
    wellFormedFEN
      "rnbqkbnr/pppppppp/8/8/8/8/PPPPPPPP/RNBQKBNR w KQkq - 0 2147483648".toList = true ∧
    Board.ofFEN
      "rnbqkbnr/pppppppp/8/8/8/8/PPPPPPPP/RNBQKBNR w KQkq - 0 2147483648".toList = none := by
  decide

/-! ## Helper lemmas: promotion, castling, castling rights -/

theorem makeMove_suffix (b : Board) (m x : List Char) (h4 : 4 ≤ m.length) :
    b.makeMove (m ++ x) = b.makeMove m := by
  have h1 : (m ++ x).take 2 = m.take 2 := List.take_append_of_le_length (by omega)
  have hd : 2 ≤ (m.drop 2).length := by
    rw [List.length_drop]
    omega
  have h2 : ((m ++ x).drop 2).take 2 = (m.drop 2).take 2 := by
    rw [List.drop_append_of_le_length (by omega)]
    exact List.take_append_of_le_length hd
  have hl1 : ¬((m ++ x).length < 4) := by
    rw [List.length_append]
    omega
  have hl2 : ¬(m.length < 4) := by omega
  simp only [Board.makeMove, if_neg hl1, if_neg hl2, h1, h2]

theorem pawnStep_board_promotion (b : Board) (piece : Char) (ts : List Char)
    (fp tp : Int × Int) (hpromo : (piece = 'P' ∧ tp.1 = 0) ∨ (piece = 'p' ∧ tp.1 = 7)) :
    ∃ g, gridOK g = gridOK b.board_ ∧
      (pawnStep b piece ts fp tp).board_ =
        setCell g tp.1 tp.2 (if b.white_to_move_ then 'Q' else 'q') := by
  unfold pawnStep
  simp only
  rw [if_pos hpromo]
  by_cases hep : ts = b.en_passant_target_
  · refine ⟨setCell b.board_ (if b.white_to_move_ then tp.1 + 1 else tp.1 - 1) tp.2 '.',
      gridOK_setCell _ _ _ _, ?_⟩
    simp only [if_pos hep]
    split_ifs <;> rfl
  · refine ⟨b.board_, rfl, ?_⟩
    simp only [if_neg hep]
    split_ifs <;> rfl

theorem applyMove_board_pawn (b : Board) (fs ts : List Char) (fp tp : Int × Int)
    (piece : Char) (hp : piece = 'P' ∨ piece = 'p') :
    (b.applyMove fs ts fp tp piece).board_ =
      (pawnStep { b with board_ := setCell (setCell b.board_ tp.1 tp.2 piece) fp.1 fp.2 '.' }
        piece ts fp tp).board_ := by
  have hk : ¬(piece = 'K' ∨ piece = 'k') := by
    rcases hp with hp | hp <;> subst hp <;> decide
  unfold Board.applyMove
  simp only [apply_ite Board.board_, rookStep_board, ite_self]
  rw [if_neg hk, if_pos hp]

theorem applyMove_board_king (b : Board) (fs ts : List Char) (fp tp : Int × Int)
    (piece : Char) (hk : piece = 'K' ∨ piece = 'k') :
    (b.applyMove fs ts fp tp piece).board_ =
      (kingStep { b with board_ := setCell (setCell b.board_ tp.1 tp.2 piece) fp.1 fp.2 '.',
                         en_passant_target_ := ['-'] } piece fp tp).board_ := by
  have hp : ¬(piece = 'P' ∨ piece = 'p') := by
    rcases hk with hk | hk <;> subst hk <;> decide
  unfold Board.applyMove
  simp only [apply_ite Board.board_, rookStep_board, ite_self]
  rw [if_pos hk, if_neg hp]

/-- C11: a promotion character after the four square characters changes nothing: for every
board, every move `m` of at least four characters and every suffix `x`, `makeMove (m ++ x)`
returns the same flag and leaves the same position as `makeMove m`; and when `makeMove`
moves a pawn onto the far row of an 8 x 8 board (row 0 for a white pawn, row 7 for a black
pawn) the destination holds a queen of the mover's colour. -/
theorem makeMove_promotes_to_queen (b : Board) (m x : List Char) (h4 : 4 ≤ m.length) :
    b.makeMove (m ++ x) = b.makeMove m ∧
    (gridOK b.board_ = true → squareOK ((m.drop 2).take 2) = true →
      (b.makeMove m).1 = true →
      (b.getPieceAt (m.take 2) = 'P' ∧ (getPosition ((m.drop 2).take 2)).1 = 0 →
        (b.makeMove (m ++ x)).2.getPieceAt ((m.drop 2).take 2) = 'Q') ∧
      (b.getPieceAt (m.take 2) = 'p' ∧ (getPosition ((m.drop 2).take 2)).1 = 7 →
        (b.makeMove (m ++ x)).2.getPieceAt ((m.drop 2).take 2) = 'q')) := by
  refine ⟨makeMove_suffix b m x h4, ?_⟩
  intro hg ht hok
  obtain ⟨_, hv2, _⟩ := squareOK_position ht
  obtain ⟨_, _, _, _, hturn⟩ := (makeMove_true_iff b m).mp hok
  rw [makeMove_suffix b m x h4, makeMove_of_true b m hok]
  have key : ∀ piece : Char, b.getPieceAt (m.take 2) = piece →
      (piece = 'P' ∧ (getPosition ((m.drop 2).take 2)).1 = 0) ∨
        (piece = 'p' ∧ (getPosition ((m.drop 2).take 2)).1 = 7) →
      (b.applyMove (m.take 2) ((m.drop 2).take 2) (getPosition (m.take 2))
        (getPosition ((m.drop 2).take 2))
        (b.getPiece (getPosition (m.take 2)).1 (getPosition (m.take 2)).2)).getPieceAt
          ((m.drop 2).take 2) = (if isWhitePiece piece then 'Q' else 'q') := by
    intro piece hpiece hpromo
    have hpiece2 : b.getPiece (getPosition (m.take 2)).1 (getPosition (m.take 2)).2 = piece :=
      hpiece
    rw [hpiece2] at hturn ⊢
    have hp : piece = 'P' ∨ piece = 'p' := hpromo.elim (fun h => Or.inl h.1) (fun h => Or.inr h.1)
    obtain ⟨g, hgg, hboard⟩ := pawnStep_board_promotion
      { b with board_ := (setCell (setCell b.board_ (getPosition ((m.drop 2).take 2)).1
          (getPosition ((m.drop 2).take 2)).2 piece) (getPosition (m.take 2)).1
          (getPosition (m.take 2)).2 '.') }
      piece ((m.drop 2).take 2) (getPosition (m.take 2))
      (getPosition ((m.drop 2).take 2)) hpromo
    simp only at hgg hboard
    rw [gridOK_setCell, gridOK_setCell, hg] at hgg
    unfold Board.getPieceAt
    simp only
    rw [getPiece_valid _ _ _ hv2, applyMove_board_pawn _ _ _ _ _ _ hp, hboard,
      cellAt_setCell_same _ hgg _ _ _ hv2, hturn]
  constructor
  · intro h
    exact key 'P' h.1 (Or.inl ⟨rfl, h.2⟩)
  · intro h
    exact key 'p' h.1 (Or.inr ⟨rfl, h.2⟩)

set_option maxRecDepth 1000000 in
/-- Witness for C11: the pawn move e7e8 with the promotion character `n`. -/
theorem makeMove_promotes_to_queen_witness :
    promotionReady.makeMove ("e7e8".toList ++ "n".toList) = promotionReady.makeMove "e7e8".toList ∧
    (promotionReady.makeMove ("e7e8".toList ++ "n".toList)).2.getPieceAt "e8".toList = 'Q' :=
  ⟨(makeMove_promotes_to_queen promotionReady "e7e8".toList "n".toList (by decide)).1,
   ((makeMove_promotes_to_queen promotionReady "e7e8".toList "n".toList (by decide)).2
      (by decide) (by decide) (by decide)).1 ⟨by decide, by decide⟩⟩

theorem cellAt_setCell_if (g : List (List Char)) (hg : gridOK g = true) (r c r1 c1 : Int)
    (v : Char) (hv : isValidSquare r c = true) :
    cellAt (setCell g r c v) r1 c1 = if r = r1 ∧ c = c1 then v else cellAt g r1 c1 := by
  split
  · rename_i h
    exact cellAt_setCell_eq g hg r c r1 c1 v h hv
  · rename_i h
    exact cellAt_setCell_ne g r c r1 c1 v h

/-- The squares of a castling move after `applyMove`: the king from column 4 to column 6
or 2 of row `r`, the rook from the corner to the square the king crossed. -/
theorem applyMove_castle (b : Board) (fs ts : List Char) (piece : Char) (r : Int)
    (hg : gridOK b.board_ = true) (hk : piece = 'K' ∨ piece = 'k')
    (hr : r = if piece = 'K' then 7 else 0) :
    (cellAt (b.applyMove fs ts (r, 4) (r, 6) piece).board_ r 6 = piece ∧
      cellAt (b.applyMove fs ts (r, 4) (r, 6) piece).board_ r 4 = '.' ∧
      cellAt (b.applyMove fs ts (r, 4) (r, 6) piece).board_ r 5 = cellAt b.board_ r 7 ∧
      cellAt (b.applyMove fs ts (r, 4) (r, 6) piece).board_ r 7 = '.') ∧
    (cellAt (b.applyMove fs ts (r, 4) (r, 2) piece).board_ r 2 = piece ∧
      cellAt (b.applyMove fs ts (r, 4) (r, 2) piece).board_ r 4 = '.' ∧
      cellAt (b.applyMove fs ts (r, 4) (r, 2) piece).board_ r 3 = cellAt b.board_ r 0 ∧
      cellAt (b.applyMove fs ts (r, 4) (r, 2) piece).board_ r 0 = '.') := by
  have hv : ∀ c : Int, 0 ≤ c → c < 8 → isValidSquare r c = true := by
    intro c h0 h8
    unfold isValidSquare
    rw [hr]
    split <;> simp [h0, h8]
  have hgs : ∀ (g : List (List Char)) (r c : Int) (v : Char),
      gridOK g = true → gridOK (setCell g r c v) = true := by
    intro g r c v h
    rw [gridOK_setCell]
    exact h
  have e1 : ((6 : Int) - 4).natAbs = 2 := by decide
  have e2 : ((2 : Int) - 4).natAbs = 2 := by decide
  have n26 : ¬((2 : Int) = 6) := by decide
  rw [applyMove_board_king _ _ _ _ _ _ hk, applyMove_board_king _ _ _ _ _ _ hk]
  unfold kingStep
  simp only [e1, e2, if_true, n26, if_false, ← hr]
  constructor
  · have key : ∀ c : Int, cellAt (setCell (setCell (setCell (setCell b.board_ r 6 piece) r 4 '.')
        r 5 (cellAt (setCell (setCell b.board_ r 6 piece) r 4 '.') r 7)) r 7 '.') r c =
        if c = 7 then '.' else if c = 5 then cellAt b.board_ r 7 else if c = 4 then '.'
          else if c = 6 then piece else cellAt b.board_ r c := by
      intro c
      rw [cellAt_setCell_if _ (hgs _ _ _ _ (hgs _ _ _ _ (hgs _ _ _ _ hg))) _ _ _ _ _
          (hv 7 (by decide) (by decide)),
        cellAt_setCell_if _ (hgs _ _ _ _ (hgs _ _ _ _ hg)) _ _ _ _ _
          (hv 5 (by decide) (by decide)),
        cellAt_setCell_if _ (hgs _ _ _ _ hg) _ _ _ _ _ (hv 4 (by decide) (by decide)),
        cellAt_setCell_if _ hg _ _ _ _ _ (hv 6 (by decide) (by decide)),
        cellAt_setCell_if _ (hgs _ _ _ _ hg) _ _ _ _ _ (hv 4 (by decide) (by decide)),
        cellAt_setCell_if _ hg _ _ _ _ _ (hv 6 (by decide) (by decide))]
      simp only [true_and, eq_comm (a := c)]
      simp
    split <;> simp only [key] <;> simp
  · have key : ∀ c : Int, cellAt (setCell (setCell (setCell (setCell b.board_ r 2 piece) r 4 '.')
        r 3 (cellAt (setCell (setCell b.board_ r 2 piece) r 4 '.') r 0)) r 0 '.') r c =
        if c = 0 then '.' else if c = 3 then cellAt b.board_ r 0 else if c = 4 then '.'
          else if c = 2 then piece else cellAt b.board_ r c := by
      intro c
      rw [cellAt_setCell_if _ (hgs _ _ _ _ (hgs _ _ _ _ (hgs _ _ _ _ hg))) _ _ _ _ _
          (hv 0 (by decide) (by decide)),
        cellAt_setCell_if _ (hgs _ _ _ _ (hgs _ _ _ _ hg)) _ _ _ _ _
          (hv 3 (by decide) (by decide)),
        cellAt_setCell_if _ (hgs _ _ _ _ hg) _ _ _ _ _ (hv 4 (by decide) (by decide)),
        cellAt_setCell_if _ hg _ _ _ _ _ (hv 2 (by decide) (by decide)),
        cellAt_setCell_if _ (hgs _ _ _ _ hg) _ _ _ _ _ (hv 4 (by decide) (by decide)),
        cellAt_setCell_if _ hg _ _ _ _ _ (hv 2 (by decide) (by decide))]
      simp only [true_and, eq_comm (a := c)]
      simp
    split <;> simp only [key] <;> simp

theorem take_four {move : List Char} {a b c d : Char} (h : move.take 4 = [a, b, c, d]) :
    move.take 2 = [a, b] ∧ (move.drop 2).take 2 = [c, d] := by
  match move, h with
  | [], h => simp at h
  | [_], h => simp at h
  | [_, _], h => simp at h
  | [_, _, _], h => simp at h
  | x :: y :: z :: w :: rest, h =>
    simp only [List.take_succ_cons, List.take_zero, List.cons.injEq, and_true] at h
    obtain ⟨rfl, rfl, rfl, rfl⟩ := h
    exact ⟨rfl, rfl⟩

/-- One castling move on the squares of row `r`: the statement of C12 for a king `piece`
standing on column 4 of its home row. -/
theorem makeMove_castle_row (b : Board) (move : List Char) (piece : Char) (r : Int)
    (from_sq to_sq : List Char) (tc : Int)
    (hg : gridOK b.board_ = true) (hok : (b.makeMove move).1 = true)
    (hk : piece = 'K' ∨ piece = 'k') (hr : r = if piece = 'K' then 7 else 0)
    (hfrom : move.take 2 = from_sq) (hto : (move.drop 2).take 2 = to_sq)
    (hfp : getPosition from_sq = (r, 4)) (htp : getPosition to_sq = (r, tc))
    (hpiece : b.getPiece r 4 = piece) :
    (tc = 6 →
      (b.makeMove move).2.getPiece r 6 = piece ∧ (b.makeMove move).2.getPiece r 4 = '.' ∧
      (b.makeMove move).2.getPiece r 5 = b.getPiece r 7 ∧
      (b.makeMove move).2.getPiece r 7 = '.') ∧
    (tc = 2 →
      (b.makeMove move).2.getPiece r 2 = piece ∧ (b.makeMove move).2.getPiece r 4 = '.' ∧
      (b.makeMove move).2.getPiece r 3 = b.getPiece r 0 ∧
      (b.makeMove move).2.getPiece r 0 = '.') := by
  have hv : ∀ c : Int, 0 ≤ c → c < 8 → isValidSquare r c = true := by
    intro c h0 h8
    unfold isValidSquare
    rw [hr]
    split <;> simp [h0, h8]
  rw [makeMove_of_true b move hok, hfrom, hto, hfp, htp]
  simp only
  rw [hpiece]
  obtain ⟨h6, h2⟩ := applyMove_castle b from_sq to_sq piece r hg hk hr
  constructor
  · intro h
    subst h
    rw [getPiece_valid _ _ _ (hv 6 (by decide) (by decide)),
      getPiece_valid _ _ _ (hv 4 (by decide) (by decide)),
      getPiece_valid _ _ _ (hv 5 (by decide) (by decide)),
      getPiece_valid _ _ _ (hv 7 (by decide) (by decide)),
      getPiece_valid _ _ _ (hv 7 (by decide) (by decide))]
    exact h6
  · intro h
    subst h
    rw [getPiece_valid _ _ _ (hv 2 (by decide) (by decide)),
      getPiece_valid _ _ _ (hv 4 (by decide) (by decide)),
      getPiece_valid _ _ _ (hv 3 (by decide) (by decide)),
      getPiece_valid _ _ _ (hv 0 (by decide) (by decide)),
      getPiece_valid _ _ _ (hv 0 (by decide) (by decide))]
    exact h2

/-- C12: when `makeMove` moves a king from its home square two files sideways on an 8 x 8
board, the piece on the matching corner (the rook) is relocated next to the king and the
corner is emptied: e1g1 moves h1 to f1, e1c1 moves a1 to d1, e8g8 moves h8 to f8, e8c8
moves a8 to d8; the king ends on the destination square and e1 (or e8) is empty. -/
theorem makeMove_castling_relocates_rook (b : Board) (move : List Char)
    (hg : gridOK b.board_ = true) (hok : (b.makeMove move).1 = true) :
    (move.take 4 = "e1g1".toList → b.getPieceAt "e1".toList = 'K' →
      (b.makeMove move).2.getPieceAt "g1".toList = 'K' ∧
      (b.makeMove move).2.getPieceAt "e1".toList = '.' ∧
      (b.makeMove move).2.getPieceAt "f1".toList = b.getPieceAt "h1".toList ∧
      (b.makeMove move).2.getPieceAt "h1".toList = '.') ∧
    (move.take 4 = "e1c1".toList → b.getPieceAt "e1".toList = 'K' →
      (b.makeMove move).2.getPieceAt "c1".toList = 'K' ∧
      (b.makeMove move).2.getPieceAt "e1".toList = '.' ∧
      (b.makeMove move).2.getPieceAt "d1".toList = b.getPieceAt "a1".toList ∧
      (b.makeMove move).2.getPieceAt "a1".toList = '.') ∧
    (move.take 4 = "e8g8".toList → b.getPieceAt "e8".toList = 'k' →
      (b.makeMove move).2.getPieceAt "g8".toList = 'k' ∧
      (b.makeMove move).2.getPieceAt "e8".toList = '.' ∧
      (b.makeMove move).2.getPieceAt "f8".toList = b.getPieceAt "h8".toList ∧
      (b.makeMove move).2.getPieceAt "h8".toList = '.') ∧
    (move.take 4 = "e8c8".toList → b.getPieceAt "e8".toList = 'k' →
      (b.makeMove move).2.getPieceAt "c8".toList = 'k' ∧
      (b.makeMove move).2.getPieceAt "e8".toList = '.' ∧
      (b.makeMove move).2.getPieceAt "d8".toList = b.getPieceAt "a8".toList ∧
      (b.makeMove move).2.getPieceAt "a8".toList = '.') := by
  refine ⟨?_, ?_, ?_, ?_⟩
  · intro hm hp
    obtain ⟨h1, h2⟩ := take_four hm
    exact (makeMove_castle_row b move 'K' 7 _ _ 6 hg hok (Or.inl rfl) rfl h1 h2 rfl rfl hp).1 rfl
  · intro hm hp
    obtain ⟨h1, h2⟩ := take_four hm
    exact (makeMove_castle_row b move 'K' 7 _ _ 2 hg hok (Or.inl rfl) rfl h1 h2 rfl rfl hp).2 rfl
  · intro hm hp
    obtain ⟨h1, h2⟩ := take_four hm
    exact (makeMove_castle_row b move 'k' 0 _ _ 6 hg hok (Or.inr rfl) rfl h1 h2 rfl rfl hp).1 rfl
  · intro hm hp
    obtain ⟨h1, h2⟩ := take_four hm
    exact (makeMove_castle_row b move 'k' 0 _ _ 2 hg hok (Or.inr rfl) rfl h1 h2 rfl rfl hp).2 rfl

set_option maxRecDepth 1000000 in
/-- Witness for C12: White castles kingside. -/
theorem makeMove_castling_relocates_rook_witness :
    (castleReady.makeMove "e1g1".toList).2.getPieceAt "g1".toList = 'K' ∧
    (castleReady.makeMove "e1g1".toList).2.getPieceAt "e1".toList = '.' ∧
    (castleReady.makeMove "e1g1".toList).2.getPieceAt "f1".toList = 'R' ∧
    (castleReady.makeMove "e1g1".toList).2.getPieceAt "h1".toList = '.' :=
  (makeMove_castling_relocates_rook castleReady "e1g1".toList (by decide) (by decide)).1
    (by decide) (by decide)

theorem pawnStep_rights (b : Board) (piece : Char) (ts : List Char) (fp tp : Int × Int) :
    (pawnStep b piece ts fp tp).rights = b.rights := by
  unfold pawnStep Board.rights
  simp only
  split_ifs <;> rfl

theorem kingStep_rights (b : Board) (piece : Char) (fp tp : Int × Int) :
    (kingStep b piece fp tp).rights =
      if piece = 'K' then (false, false, b.black_can_castle_kingside_, b.black_can_castle_queenside_)
      else (b.white_can_castle_kingside_, b.white_can_castle_queenside_, false, false) := by
  unfold kingStep Board.rights
  simp only
  split_ifs <;> rfl

theorem rookStep_rights (b : Board) (fs : List Char) :
    (rookStep b fs).rights =
      if fs = ['a', '1'] then
        (b.white_can_castle_kingside_, false, b.black_can_castle_kingside_,
          b.black_can_castle_queenside_)
      else if fs = ['h', '1'] then
        (false, b.white_can_castle_queenside_, b.black_can_castle_kingside_,
          b.black_can_castle_queenside_)
      else if fs = ['a', '8'] then
        (b.white_can_castle_kingside_, b.white_can_castle_queenside_,
          b.black_can_castle_kingside_, false)
      else if fs = ['h', '8'] then
        (b.white_can_castle_kingside_, b.white_can_castle_queenside_, false,
          b.black_can_castle_queenside_)
      else b.rights := by
  unfold rookStep Board.rights
  split_ifs <;> rfl

theorem applyMove_rights (b : Board) (fs ts : List Char) (fp tp : Int × Int) (piece : Char) :
    (b.applyMove fs ts fp tp piece).rights =
      if piece = 'K' ∨ piece = 'k' then
        (kingStep b piece fp tp).rights
      else if piece = 'R' ∨ piece = 'r' then (rookStep b fs).rights
      else b.rights := by
  have hproj : ∀ (x : Board) (w : Bool), ({ x with white_to_move_ := w } : Board).rights
      = x.rights := fun _ _ => rfl
  have hproj2 : ∀ (x : Board) (w : Int), ({ x with halfmove_clock_ := w } : Board).rights
      = x.rights := fun _ _ => rfl
  have hproj3 : ∀ (x : Board) (w : Int), ({ x with fullmove_number_ := w } : Board).rights
      = x.rights := fun _ _ => rfl
  unfold Board.applyMove
  simp only [hproj, apply_ite Board.rights, hproj2, hproj3, ite_self]
  by_cases hk : piece = 'K' ∨ piece = 'k'
  · have hp : ¬(piece = 'P' ∨ piece = 'p') := by
      rcases hk with hk | hk <;> subst hk <;> decide
    have hr : ¬(piece = 'R' ∨ piece = 'r') := by
      rcases hk with hk | hk <;> subst hk <;> decide
    simp only [if_pos hk, if_neg hp, if_neg hr]
    rw [kingStep_rights, kingStep_rights]
  · simp only [if_neg hk]
    by_cases hr : piece = 'R' ∨ piece = 'r'
    · have hp : ¬(piece = 'P' ∨ piece = 'p') := by
        rcases hr with hr | hr <;> subst hr <;> decide
      simp only [if_pos hr, if_neg hp]
      rw [rookStep_rights, rookStep_rights]
      rfl
    · simp only [if_neg hr]
      split
      · rw [pawnStep_rights]
        rfl
      · rfl

theorem makeMove_rights (b : Board) (move : List Char) :
    (b.makeMove move).2.rights =
      if (b.makeMove move).1 = true then
        if b.getPieceAt (move.take 2) = 'K' ∨ b.getPieceAt (move.take 2) = 'k' then
          (if b.getPieceAt (move.take 2) = 'K' then
            (false, false, b.black_can_castle_kingside_, b.black_can_castle_queenside_)
          else (b.white_can_castle_kingside_, b.white_can_castle_queenside_, false, false))
        else if b.getPieceAt (move.take 2) = 'R' ∨ b.getPieceAt (move.take 2) = 'r' then
          (rookStep b (move.take 2)).rights
        else b.rights
      else b.rights := by
  by_cases hok : (b.makeMove move).1 = true
  · rw [if_pos hok, makeMove_of_true b move hok, applyMove_rights, kingStep_rights]
    rfl
  · rw [if_neg hok, makeMove_of_false b move (by simpa using hok)]

theorem rights_monotone_step (b : Board) (move : List Char) :
    ((b.makeMove move).2.white_can_castle_kingside_ = true →
      b.white_can_castle_kingside_ = true) ∧
    ((b.makeMove move).2.white_can_castle_queenside_ = true →
      b.white_can_castle_queenside_ = true) ∧
    ((b.makeMove move).2.black_can_castle_kingside_ = true →
      b.black_can_castle_kingside_ = true) ∧
    ((b.makeMove move).2.black_can_castle_queenside_ = true →
      b.black_can_castle_queenside_ = true) := by
  have h := makeMove_rights b move
  rw [rookStep_rights] at h
  unfold Board.rights at h
  split_ifs at h <;>
    simp only [Prod.mk.injEq] at h <;>
    obtain ⟨h1, h2, h3, h4⟩ := h <;>
    rw [h1, h2, h3, h4] <;> simp

theorem rights_monotone (moves : List (List Char)) : ∀ b : Board,
    ((b.playMoves moves).white_can_castle_kingside_ = true →
      b.white_can_castle_kingside_ = true) ∧
    ((b.playMoves moves).white_can_castle_queenside_ = true →
      b.white_can_castle_queenside_ = true) ∧
    ((b.playMoves moves).black_can_castle_kingside_ = true →
      b.black_can_castle_kingside_ = true) ∧
    ((b.playMoves moves).black_can_castle_queenside_ = true →
      b.black_can_castle_queenside_ = true) := by
  induction moves with
  | nil => intro b; exact ⟨id, id, id, id⟩
  | cons m moves ih =>
    intro b
    have h1 := ih (b.makeMove m).2
    have h2 := rights_monotone_step b m
    have e : b.playMoves (m :: moves) = (b.makeMove m).2.playMoves moves := rfl
    rw [e]
    exact ⟨fun h => h2.1 (h1.1 h), fun h => h2.2.1 (h1.2.1 h), fun h => h2.2.2.1 (h1.2.2.1 h),
      fun h => h2.2.2.2 (h1.2.2.2 h)⟩

/-- C13: castling rights change only as follows under `makeMove`: a rejected move leaves
all four unchanged; an accepted king move clears both rights of that king's colour and
keeps the other two; an accepted rook move starting on a1, h1, a8 or h8 clears only
white-queenside, white-kingside, black-queenside or black-kingside respectively; every
other accepted move leaves all four unchanged.  Consequently over any sequence of
`makeMove` calls a right that is set at the end was set at the start: each right only goes
from true to false. -/
theorem castling_rights_only_cleared (b : Board) (move : List Char) :
    ((b.makeMove move).1 = false → (b.makeMove move).2.rights = b.rights) ∧
    ((b.makeMove move).1 = true →
      (b.getPieceAt (move.take 2) = 'K' → (b.makeMove move).2.rights =
        (false, false, b.black_can_castle_kingside_, b.black_can_castle_queenside_)) ∧
      (b.getPieceAt (move.take 2) = 'k' → (b.makeMove move).2.rights =
        (b.white_can_castle_kingside_, b.white_can_castle_queenside_, false, false)) ∧
      (b.getPieceAt (move.take 2) = 'R' ∨ b.getPieceAt (move.take 2) = 'r' →
        (move.take 2 = "a1".toList → (b.makeMove move).2.rights =
          (b.white_can_castle_kingside_, false, b.black_can_castle_kingside_,
            b.black_can_castle_queenside_)) ∧
        (move.take 2 = "h1".toList → (b.makeMove move).2.rights =
          (false, b.white_can_castle_queenside_, b.black_can_castle_kingside_,
            b.black_can_castle_queenside_)) ∧
        (move.take 2 = "a8".toList → (b.makeMove move).2.rights =
          (b.white_can_castle_kingside_, b.white_can_castle_queenside_,
            b.black_can_castle_kingside_, false)) ∧
        (move.take 2 = "h8".toList → (b.makeMove move).2.rights =
          (b.white_can_castle_kingside_, b.white_can_castle_queenside_, false,
            b.black_can_castle_queenside_)) ∧
        (move.take 2 ∉ ["a1".toList, "h1".toList, "a8".toList, "h8".toList] →
          (b.makeMove move).2.rights = b.rights)) ∧
      (b.getPieceAt (move.take 2) ∉ ['K', 'k', 'R', 'r'] →
        (b.makeMove move).2.rights = b.rights)) ∧
    (∀ moves : List (List Char),
      ((b.playMoves moves).white_can_castle_kingside_ = true →
        b.white_can_castle_kingside_ = true) ∧
      ((b.playMoves moves).white_can_castle_queenside_ = true →
        b.white_can_castle_queenside_ = true) ∧
      ((b.playMoves moves).black_can_castle_kingside_ = true →
        b.black_can_castle_kingside_ = true) ∧
      ((b.playMoves moves).black_can_castle_queenside_ = true →
        b.black_can_castle_queenside_ = true)) := by
  refine ⟨?_, ?_, fun moves => rights_monotone moves b⟩
  · intro h
    rw [makeMove_of_false b move h]
  · intro hok
    have h := makeMove_rights b move
    rw [if_pos hok] at h
    refine ⟨?_, ?_, ?_, ?_⟩
    · intro hp
      rw [h, hp]
      rfl
    · intro hp
      rw [h, hp]
      rfl
    · intro hr
      have hk : ¬(b.getPieceAt (move.take 2) = 'K' ∨ b.getPieceAt (move.take 2) = 'k') := by
        rcases hr with hr | hr <;> rw [hr] <;> decide
      rw [if_neg hk, if_pos hr, rookStep_rights] at h
      refine ⟨?_, ?_, ?_, ?_, ?_⟩
      · intro hs
        rw [h, hs]
        rfl
      · intro hs
        rw [h, hs]
        rfl
      · intro hs
        rw [h, hs]
        rfl
      · intro hs
        rw [h, hs]
        rfl
      · intro hs
        simp only [List.mem_cons, List.mem_singleton, List.not_mem_nil, or_false, not_or] at hs
        have e1 : "a1".toList = ['a', '1'] := rfl
        have e2 : "h1".toList = ['h', '1'] := rfl
        have e3 : "a8".toList = ['a', '8'] := rfl
        have e4 : "h8".toList = ['h', '8'] := rfl
        rw [e1, e2, e3, e4] at hs
        rw [h, if_neg hs.1, if_neg hs.2.1, if_neg hs.2.2.1, if_neg hs.2.2.2]
    · intro hn
      simp only [List.mem_cons, List.mem_singleton, List.not_mem_nil, or_false, not_or] at hn
      rw [h, if_neg (fun hh => hh.elim hn.1 hn.2.1), if_neg (fun hh => hh.elim hn.2.2.1 hn.2.2.2)]

/-! ## Claims on checkmate, stalemate and game over -/

/-- C14: checkmate and stalemate are derived from the check status and the legal-move
list: `isCheckmate c` is true exactly when `isInCheck c` holds and `generateLegalMoves c`
is empty, `isStalemate c` exactly when `isInCheck c` is false and `generateLegalMoves c` is
empty; the two are never true together, and `isGameOver` is true exactly when the side to
move has no legal move. -/
theorem checkmate_stalemate_derived (b : Board) (c : Bool) :
    (b.isCheckmate c = true ↔ (b.isInCheck c = true ∧ generateLegalMoves b c = [])) ∧
    (b.isStalemate c = true ↔ (b.isInCheck c = false ∧ generateLegalMoves b c = [])) ∧
    ¬(b.isCheckmate c = true ∧ b.isStalemate c = true) ∧
    (b.isGameOver = true ↔ generateLegalMoves b b.white_to_move_ = []) := by
  have hmate : ∀ c, b.isCheckmate c = true ↔
      (b.isInCheck c = true ∧ generateLegalMoves b c = []) := by
    intro c
    unfold Board.isCheckmate
    cases h : b.isInCheck c <;> simp [List.isEmpty_iff]
  have hstale : ∀ c, b.isStalemate c = true ↔
      (b.isInCheck c = false ∧ generateLegalMoves b c = []) := by
    intro c
    unfold Board.isStalemate
    cases h : b.isInCheck c <;> simp [List.isEmpty_iff]
  refine ⟨hmate c, hstale c, ?_, ?_⟩
  · rintro ⟨h1, h2⟩
    have a := ((hmate c).mp h1).1
    have d := ((hstale c).mp h2).1
    rw [a] at d
    exact Bool.noConfusion d
  · unfold Board.isGameOver
    rw [Bool.or_eq_true, hmate, hstale]
    constructor
    · rintro (h | h) <;> exact h.2
    · intro h
      cases hc : b.isInCheck b.white_to_move_
      · exact Or.inr ⟨rfl, h⟩
      · exact Or.inl ⟨rfl, h⟩

set_option maxRecDepth 1000000 in
/-- C15 (the code at the failing input): after the six plies e2e4, e7e5, d1h5, b8c6, f1c4,
d7d6, all accepted, it is White's turn; `generateLegalMoves` for Black is empty because
every trial `makeMove` is rejected for moving the wrong colour, Black is not in check, and
so `isStalemate(false)` is true (`isCheckmate(false)` is false). -/
theorem scholar_setup_reports_stalemate :
    Board.start.allAccepted ["e2e4".toList, "e7e5".toList, "d1h5".toList, "b8c6".toList,
      "f1c4".toList, "d7d6".toList] = true ∧
    scholarSetup.white_to_move_ = true ∧
    scholarSetup.isInCheck false = false ∧
    generateLegalMoves scholarSetup false = [] ∧
    scholarSetup.isCheckmate false = false ∧
    scholarSetup.isStalemate false = true := by
  decide

set_option maxRecDepth 1000000 in
/-- C16: after the fool's-mate plies f2f3, e7e5, g2g4, d8h4 (all accepted) White is in
check, `generateLegalMoves` for White is empty, `isCheckmate(true)` is true and
`isStalemate(true)` is false. -/
theorem fools_mate_is_checkmate :
    Board.start.allAccepted ["f2f3".toList, "e7e5".toList, "g2g4".toList, "d8h4".toList]
      = true ∧
    foolsMate.isInCheck true = true ∧
    generateLegalMoves foolsMate true = [] ∧
    foolsMate.isCheckmate true = true ∧
    foolsMate.isStalemate true = false := by
  decide

/-! ## Claims on the search engine -/

/-- C17: if the searched side has exactly one legal move, `iterativeDeepening` returns
that move with score 0, depth 1 and node count 1, whatever the clock, the configured
maximum depth and time budget and the transposition cache; no position is searched: the
engine's own node counter is 0, its cache is unchanged and the clock was read twice. -/
theorem single_legal_move_returned_at_once (clock : Nat → Int) (qfuel : Nat)
    (e : SearchEngine) (board : Board) (white_player : Bool) (m : List Char)
    (h : generateLegalMoves board white_player = [m]) :
    ∃ r, iterativeDeepening clock qfuel e board white_player = some r ∧
      r.1.best_move = m ∧ r.1.score = 0 ∧ r.1.depth = 1 ∧ r.1.nodes_searched = 1 ∧
      r.2.nodes_searched_ = 0 ∧ r.2.transposition_table_ = e.transposition_table_ ∧
      r.2.max_depth_ = e.max_depth_ ∧ r.2.max_time_ = e.max_time_ ∧
      r.2.clock_reads_ = e.clock_reads_ + 2 := by
  unfold iterativeDeepening
  simp only [h, List.isEmpty_cons, Bool.false_eq_true, if_false, List.length_singleton,
    if_true, List.headD_cons]
  exact ⟨_, rfl, rfl, rfl, rfl, rfl, rfl, rfl, rfl, rfl, rfl⟩

set_option maxRecDepth 1000000 in
/-- Witness for C17: the king on h1 can only capture the queen on g2. -/
theorem single_legal_move_returned_at_once_witness :
    generateLegalMoves loneCapture true = ["h1g2".toList] ∧
    ∃ r, iterativeDeepening (fun _ => 0) 0 (SearchEngine.new 6 5000) loneCapture true = some r ∧
      r.1.best_move = "h1g2".toList ∧ r.1.score = 0 ∧ r.1.depth = 1 ∧ r.1.nodes_searched = 1 ∧
      r.2.nodes_searched_ = 0 ∧
      r.2.transposition_table_ = (SearchEngine.new 6 5000).transposition_table_ ∧
      r.2.max_depth_ = (SearchEngine.new 6 5000).max_depth_ ∧
      r.2.max_time_ = (SearchEngine.new 6 5000).max_time_ ∧
      r.2.clock_reads_ = (SearchEngine.new 6 5000).clock_reads_ + 2 :=
  ⟨by decide,
   single_legal_move_returned_at_once (fun _ => 0) 0 (SearchEngine.new 6 5000) loneCapture true
     "h1g2".toList (by decide)⟩

/-- C18: if the searched side has no legal move, `iterativeDeepening` returns (no error,
whatever the fuel) a result whose best move is the empty string, with depth 0, node count
0 and the score -100000 for White or +100000 for Black. -/
theorem no_legal_move_empty_result (clock : Nat → Int) (qfuel : Nat)
    (e : SearchEngine) (board : Board) (white_player : Bool)
    (h : generateLegalMoves board white_player = []) :
    ∃ r, iterativeDeepening clock qfuel e board white_player = some r ∧
      r.1.best_move = [] ∧ r.1.depth = 0 ∧ r.1.nodes_searched = 0 ∧
      r.1.score = (if white_player then -100000 else 100000) := by
  unfold iterativeDeepening
  simp only [h, List.isEmpty_nil, if_true]
  exact ⟨_, rfl, rfl, rfl, rfl, rfl⟩

set_option maxRecDepth 1000000 in
/-- Witness for C18: White after the fool's mate. -/
theorem no_legal_move_empty_result_witness :
    ∃ r, iterativeDeepening (fun _ => 0) 0 (SearchEngine.new 6 5000) foolsMate true = some r ∧
      r.1.best_move = [] ∧ r.1.depth = 0 ∧ r.1.nodes_searched = 0 ∧
      r.1.score = (if true then -100000 else 100000) :=
  no_legal_move_empty_result (fun _ => 0) 0 (SearchEngine.new 6 5000) foolsMate true
    (by decide)

theorem deepeningLoop_time_up (clock : Nat → Int) (qfuel : Nat) (board : Board)
    (white_player : Bool) (legal_moves : List (List Char)) (fuel : Nat)
    (best_result : SearchResult) (e : SearchEngine) (hup : (e.isTimeUp clock).1 = true) :
    ∃ r, deepeningLoop clock qfuel board white_player legal_moves fuel 1 best_result e = some r ∧
      r.1 = best_result := by
  cases fuel with
  | zero => exact ⟨_, rfl, rfl⟩
  | succ fuel =>
    unfold deepeningLoop
    by_cases hd : (1 : Int) ≤ e.max_depth_
    · simp only [hd, not_true_eq_false, if_false, hup, if_true]
      exact ⟨_, rfl, rfl⟩
    · simp only [hd, not_false_eq_true, if_true]
      exact ⟨_, rfl, rfl⟩

set_option maxRecDepth 1000000 in
/-- C19 (the code at the failing input): in the starting position White has 20 legal
moves; with maximum depth 3, a time budget of 1 ms and a clock that has run for 1 ms when
the depth loop first polls it, `iterativeDeepening` starts no depth and returns the empty
best move (score -100000, depth 0).  In general, whenever the searched side has at least
two legal moves and the budget has elapsed between the first two readings of the clock,
the best move returned is empty. -/
theorem time_up_returns_empty_move :
    ((generateLegalMoves Board.start true).length = 20 ∧
      (SearchEngine.new 3 1).max_depth_ = 3 ∧ (SearchEngine.new 3 1).max_time_ = 1 ∧
      (iterativeDeepening lateClock 70 (SearchEngine.new 3 1) Board.start true).map
          (fun r => r.1) =
        some { best_move := [], score := -100000, depth := 0, nodes_searched := 0,
               time_taken := 1 }) ∧
    (∀ (clock : Nat → Int) (qfuel : Nat) (e : SearchEngine) (board : Board)
      (white_player : Bool), 2 ≤ (generateLegalMoves board white_player).length →
      Int.tdiv (clock (e.clock_reads_ + 1) - clock e.clock_reads_) TICKS_PER_MS ≥ e.max_time_ →
      ∃ r, iterativeDeepening clock qfuel e board white_player = some r ∧
        r.1.best_move = []) := by
  refine ⟨by decide, ?_⟩
  intro clock qfuel e board white_player h2 hlate
  unfold iterativeDeepening
  have hne : (generateLegalMoves board white_player).isEmpty = false := by
    cases hl : generateLegalMoves board white_player with
    | nil => rw [hl] at h2; simp at h2
    | cons a l => rfl
  have hn1 : ¬((generateLegalMoves board white_player).length = 1) := by omega
  simp only [hne, Bool.false_eq_true, if_false, hn1]
  have hup : (SearchEngine.isTimeUp
      { (e.now clock).2 with start_time_ := (e.now clock).1, time_up_ := false,
                             nodes_searched_ := 0 } clock).1 = true := by
    unfold SearchEngine.isTimeUp SearchEngine.now
    simp only [Bool.false_eq_true, if_false, decide_eq_true_eq]
    exact hlate
  obtain ⟨r, hr, hbest⟩ := deepeningLoop_time_up clock qfuel board white_player
    (generateLegalMoves board white_player) e.max_depth_.toNat
    { best_move := [], score := if white_player then -INFINITY_SCORE else INFINITY_SCORE,
      depth := 0, nodes_searched := 0, time_taken := 0 } _ hup
  simp only [SearchEngine.now] at hr ⊢
  rw [hr]
  refine ⟨_, rfl, ?_⟩
  simp only [hbest]

theorem probe_closed_form (e : SearchEngine) (key : List Char) (depth alpha beta : Int) :
    e.probeTransposition key depth alpha beta =
      ((e.findEntry key).bind fun entry =>
        if entry.depth ≥ depth ∧
          (entry.type = NodeType.EXACT ∨
           (entry.type = NodeType.LOWER_BOUND ∧ entry.score ≥ beta) ∨
           (entry.type = NodeType.UPPER_BOUND ∧ entry.score ≤ alpha))
        then some entry.score else none, e) := by
  unfold SearchEngine.probeTransposition
  cases hf : e.findEntry key with
  | none => rfl
  | some entry =>
    simp only [Option.some_bind]
    by_cases hd : entry.depth < depth
    · rw [if_pos hd, if_neg]
      intro h
      omega
    · have hge : entry.depth ≥ depth := by omega
      rw [if_neg hd]
      cases ht : entry.type with
      | EXACT => simp [hge]
      | LOWER_BOUND =>
        by_cases hb : entry.score ≥ beta
        · simp [hge, hb]
        · simp [hge, hb]
      | UPPER_BOUND =>
        by_cases ha : entry.score ≤ alpha
        · simp [hge, ha]
        · simp [hge, ha]

/-- C20: `probeTransposition(key, depth, alpha, beta)` succeeds exactly when the cache has
an entry for `key` whose stored depth is at least `depth` and whose kind is EXACT, or
LOWER_BOUND with stored score at least `beta`, or UPPER_BOUND with stored score at most
`alpha`; on success the reported score is the stored score; the engine, and so the cache,
is the same after the probe. -/
theorem probeTransposition_spec (e : SearchEngine) (key : List Char) (depth alpha beta : Int) :
    (∀ s : Int, (e.probeTransposition key depth alpha beta).1 = some s ↔
      ∃ entry, e.findEntry key = some entry ∧ entry.depth ≥ depth ∧
        (entry.type = NodeType.EXACT ∨
         (entry.type = NodeType.LOWER_BOUND ∧ entry.score ≥ beta) ∨
         (entry.type = NodeType.UPPER_BOUND ∧ entry.score ≤ alpha)) ∧
        s = entry.score) ∧
    ((e.probeTransposition key depth alpha beta).1 = none ↔
      ¬∃ entry, e.findEntry key = some entry ∧ entry.depth ≥ depth ∧
        (entry.type = NodeType.EXACT ∨
         (entry.type = NodeType.LOWER_BOUND ∧ entry.score ≥ beta) ∨
         (entry.type = NodeType.UPPER_BOUND ∧ entry.score ≤ alpha))) ∧
    (e.probeTransposition key depth alpha beta).2 = e := by
  rw [probe_closed_form]
  refine ⟨?_, ?_, rfl⟩
  · intro s
    simp only
    cases hf : e.findEntry key with
    | none => simp
    | some entry =>
      simp only [Option.some_bind, Option.some.injEq, exists_eq_left']
      constructor
      · intro h
        split at h
        · rename_i hc
          exact ⟨hc.1, hc.2, (Option.some.inj h).symm⟩
        · exact Option.noConfusion h
      · rintro ⟨h1, h2, h3⟩
        rw [if_pos ⟨h1, h2⟩, h3]
  · simp only
    cases hf : e.findEntry key with
    | none => simp
    | some entry =>
      simp only [Option.some_bind, Option.some.injEq, exists_eq_left']
      constructor
      · intro h
        split at h
        · exact Option.noConfusion h
        · rename_i hc
          exact hc
      · intro h
        rw [if_neg h]

/-! ## Helper lemmas: the clock and terminal positions in `alphaBeta` -/

theorem isTimeUp_nodes (e : SearchEngine) (clock : Nat → Int) (n : Int) :
    (SearchEngine.isTimeUp { e with nodes_searched_ := n } clock).1 = (e.isTimeUp clock).1 ∧
    (SearchEngine.isTimeUp { e with nodes_searched_ := n } clock).2 =
      { (e.isTimeUp clock).2 with nodes_searched_ := n } := by
  unfold SearchEngine.isTimeUp SearchEngine.now
  by_cases h : e.time_up_ = true
  · simp [h]
  · simp [h]

theorem isTimeUp_table (e : SearchEngine) (clock : Nat → Int) :
    (e.isTimeUp clock).2.transposition_table_ = e.transposition_table_ := by
  unfold SearchEngine.isTimeUp SearchEngine.now
  by_cases h : e.time_up_ = true
  · simp [h]
  · simp [h]

theorem stalemate_not_checkmate (b : Board) (c : Bool) (h : b.isStalemate c = true) :
    b.isCheckmate c = false := by
  unfold Board.isStalemate at h
  unfold Board.isCheckmate
  cases hc : b.isInCheck c with
  | true => rw [hc] at h; simp at h
  | false => simp

theorem alphaBeta_mate_core (clock : Nat → Int) (qfuel fuel : Nat) (board : Board)
    (depth alpha beta : Int) (mp : Bool) (e : SearchEngine)
    (hd : 0 ≤ depth) (ht : (e.isTimeUp clock).1 = false)
    (hm : board.isCheckmate mp = true) :
    alphaBeta clock qfuel (fuel + 1) board depth alpha beta mp e =
      some ((if mp then -MATE_SCORE - depth else MATE_SCORE + depth),
        { (e.isTimeUp clock).2 with nodes_searched_ := e.nodes_searched_ + 1 }) := by
  have hn := isTimeUp_nodes e clock (e.nodes_searched_ + 1)
  have hnd : ¬depth < 0 := by omega
  unfold alphaBeta
  simp only [hn.1, hn.2, ht, hnd, hm, Bool.false_eq_true, or_self, if_false, if_true]


theorem alphaBeta_stalemate_core (clock : Nat → Int) (qfuel fuel : Nat) (board : Board)
    (depth alpha beta : Int) (mp : Bool) (e : SearchEngine)
    (hd : 0 ≤ depth) (ht : (e.isTimeUp clock).1 = false)
    (hs : board.isStalemate mp = true) :
    alphaBeta clock qfuel (fuel + 1) board depth alpha beta mp e =
      if depth = 0 then
        quiescenceSearch clock qfuel board alpha beta mp
          { (e.isTimeUp clock).2 with nodes_searched_ := e.nodes_searched_ + 1 }
      else
        some (0, { (e.isTimeUp clock).2 with nodes_searched_ := e.nodes_searched_ + 1 }) := by
  have hn := isTimeUp_nodes e clock (e.nodes_searched_ + 1)
  have hnd : ¬depth < 0 := by omega
  unfold alphaBeta
  simp only [hn.1, hn.2, ht, hnd, hs, stalemate_not_checkmate board mp hs,
    Bool.false_eq_true, or_self, if_false, if_true, true_or]

theorem quiescence_no_moves (clock : Nat → Int) (qfuel : Nat) (board : Board)
    (alpha beta : Int) (mp : Bool) (e : SearchEngine)
    (ht : (e.isTimeUp clock).1 = false) (hl : generateLegalMoves board mp = []) :
    quiescenceSearch clock (qfuel + 1) board alpha beta mp e =
      some ((if mp = true ∧ evaluate board mp ≥ beta then beta
             else if mp = false ∧ evaluate board mp ≤ alpha then alpha
             else evaluate board mp),
        { (e.isTimeUp clock).2 with nodes_searched_ := e.nodes_searched_ + 1 }) := by
  have hn := isTimeUp_nodes e clock (e.nodes_searched_ + 1)
  unfold quiescenceSearch
  simp only [hn.1, hn.2, ht, hl, Bool.false_eq_true, if_false, List.filter_nil,
    List.isEmpty_nil, if_true]
  by_cases h1 : mp = true ∧ evaluate board mp ≥ beta
  · rw [if_pos h1, if_pos h1]
  · rw [if_neg h1, if_neg h1]
    by_cases h2 : mp = false ∧ evaluate board mp ≤ alpha
    · rw [if_pos h2, if_pos h2]
    · rw [if_neg h2, if_neg h2]

theorem stalemate_no_moves (b : Board) (c : Bool) (h : b.isStalemate c = true) :
    generateLegalMoves b c = [] := by
  unfold Board.isStalemate at h
  cases hc : b.isInCheck c with
  | true => rw [hc] at h; simp at h
  | false =>
    rw [hc] at h
    simpa using h

/-! ## Claims on terminal positions in `alphaBeta` -/

/-- C23: for every remaining depth `d ≥ 0`, with the time budget not expired at the
poll, `alphaBeta` on a position in which the side `mp` is checkmated returns (with any
fuel of at least 1) the score `-(50000 + d)` when White is the mated side and
`50000 + d` when Black is; the cache is not consulted: the result is the same for every
engine and the cache is unchanged.  The magnitude is `50000 + d`, below the sentinel
100000 for `d < 50000`, and strictly larger for a larger remaining depth. -/
theorem alphaBeta_checkmate_score (clock : Nat → Int) (qfuel fuel : Nat) (board : Board)
    (depth alpha beta : Int) (mp : Bool) (e : SearchEngine)
    (hd : 0 ≤ depth) (ht : (e.isTimeUp clock).1 = false)
    (hm : board.isCheckmate mp = true) :
    ∃ r, alphaBeta clock qfuel (fuel + 1) board depth alpha beta mp e = some r ∧
      r.1 = (if mp then -(50000 + depth) else 50000 + depth) ∧
      r.2.transposition_table_ = e.transposition_table_ ∧
      (r.1.natAbs : Int) = 50000 + depth ∧
      (depth < 50000 → (r.1.natAbs : Int) < INFINITY_SCORE) ∧
      ∀ (clock2 : Nat → Int) (qfuel2 fuel2 : Nat) (board2 : Board)
        (depth2 alpha2 beta2 : Int) (mp2 : Bool) (e2 : SearchEngine),
        depth < depth2 → (e2.isTimeUp clock2).1 = false → board2.isCheckmate mp2 = true →
        ∃ r2, alphaBeta clock2 qfuel2 (fuel2 + 1) board2 depth2 alpha2 beta2 mp2 e2 = some r2 ∧
          r.1.natAbs < r2.1.natAbs := by
  refine ⟨_, alphaBeta_mate_core clock qfuel fuel board depth alpha beta mp e hd ht hm, ?_,
    isTimeUp_table e clock, ?_, ?_, ?_⟩
  · cases mp
    · simp only [MATE_SCORE, if_false, Bool.false_eq_true]
    · simp only [MATE_SCORE, if_true]
      omega
  · cases mp <;> simp only [MATE_SCORE, if_true, if_false, Bool.false_eq_true] <;> omega
  · intro h
    cases mp <;> simp only [MATE_SCORE, INFINITY_SCORE, if_true, if_false, Bool.false_eq_true]
      <;> omega
  · intro clock2 qfuel2 fuel2 board2 depth2 alpha2 beta2 mp2 e2 hlt ht2 hm2
    refine ⟨_, alphaBeta_mate_core clock2 qfuel2 fuel2 board2 depth2 alpha2 beta2 mp2 e2
      (by omega) ht2 hm2, ?_⟩
    cases mp <;> cases mp2 <;>
      simp only [MATE_SCORE, if_true, if_false, Bool.false_eq_true] <;> omega

set_option maxRecDepth 1000000 in
/-- Witness for C23: White is checkmated after the fool's-mate plies; searched with
remaining depth 2 the score is -50002. -/
theorem alphaBeta_checkmate_score_witness :
    foolsMate.isCheckmate true = true ∧
    ∃ r, alphaBeta (fun _ => 0) 1 1 foolsMate 2 (-100000) 100000 true
        (SearchEngine.new 3 1000) = some r ∧ r.1 = -50002 :=
  ⟨by decide,
   (alphaBeta_checkmate_score (fun _ => 0) 1 0 foolsMate 2 (-100000) 100000 true
      (SearchEngine.new 3 1000) (by decide) (by decide) (by decide)).imp
     fun _ h => ⟨h.1, h.2.1⟩⟩

set_option maxRecDepth 1000000 in
/-- C24 (the code at the failing input): with Black to move, king h8 against king f7 and
queen g6, Black is stalemated.  `alphaBeta` with the full window and the time budget not
expired returns 0 at remaining depth 1, by the exit the source marks `// Stalemate`, but
-870 at remaining depth 0: inside that exit the test `depth == 0` comes first and hands
the stalemate to `quiescenceSearch`.  The checkmate exit just before it is honoured at
depth 0: a checkmated White scores -50000 there.  In general, for a stalemated side and
a time budget not expired at the poll, `alphaBeta` returns 0 at every remaining depth
above 0 and what `quiescenceSearch` returns at remaining depth 0. -/
theorem alphaBeta_stalemate_depth_zero_not_zero :
    queenStalemate.white_to_move_ = false ∧
    queenStalemate.isInCheck false = false ∧
    generateLegalMoves queenStalemate false = [] ∧
    queenStalemate.isStalemate false = true ∧
    ((SearchEngine.new 3 1000).isTimeUp (fun _ => 0)).1 = false ∧
    (alphaBeta (fun _ => 0) 1 1 queenStalemate 0 (-100000) 100000 false
      (SearchEngine.new 3 1000)).map Prod.fst = some (-870) ∧
    (alphaBeta (fun _ => 0) 1 1 queenStalemate 1 (-100000) 100000 false
      (SearchEngine.new 3 1000)).map Prod.fst = some 0 ∧
    foolsMate.isCheckmate true = true ∧
    (alphaBeta (fun _ => 0) 1 1 foolsMate 0 (-100000) 100000 true
      (SearchEngine.new 3 1000)).map Prod.fst = some (-50000) ∧
    (∀ (clock : Nat → Int) (qfuel fuel : Nat) (board : Board) (depth alpha beta : Int)
        (mp : Bool) (e : SearchEngine),
      0 ≤ depth → (e.isTimeUp clock).1 = false → board.isStalemate mp = true →
      alphaBeta clock qfuel (fuel + 1) board depth alpha beta mp e =
        if depth = 0 then
          quiescenceSearch clock qfuel board alpha beta mp
            { (e.isTimeUp clock).2 with nodes_searched_ := e.nodes_searched_ + 1 }
        else
          some (0, { (e.isTimeUp clock).2 with nodes_searched_ := e.nodes_searched_ + 1 })) := by
  refine ⟨by decide, by decide, by decide, by decide, by decide, by decide, by decide,
    by decide, by decide, ?_⟩
  intro clock qfuel fuel board depth alpha beta mp e hd ht hs
  exact alphaBeta_stalemate_core clock qfuel fuel board depth alpha beta mp e hd ht hs

set_option maxRecDepth 1000000 in
/-- C25: the default-constructed board is the standard starting position: black pieces on
rows 0 and 1 and white pieces on rows 6 and 7, with `r` at (0,0), `k` at (0,4), `R` at
(7,0), `K` at (7,4) and pawns on rows 1 and 6; rows 2 to 5 are empty; White is to move,
all four castling rights are set, there is no en-passant target, the halfmove clock is 0
and the fullmove number 1; and `toFEN` gives the standard record. -/
theorem default_board_is_start_position :
    Board.start.board_ =
      ["rnbqkbnr".toList, "pppppppp".toList, "........".toList, "........".toList,
       "........".toList, "........".toList, "PPPPPPPP".toList, "RNBQKBNR".toList] ∧
    (∀ c ∈ List.range 8,
      isBlackPiece (Board.start.getPiece 0 (c : Nat)) = true ∧
      Board.start.getPiece 1 (c : Nat) = 'p' ∧
      (∀ r ∈ [2, 3, 4, 5], Board.start.getPiece (r : Nat) (c : Nat) = '.') ∧
      Board.start.getPiece 6 (c : Nat) = 'P' ∧
      isWhitePiece (Board.start.getPiece 7 (c : Nat)) = true) ∧
    Board.start.getPiece 0 0 = 'r' ∧ Board.start.getPiece 0 4 = 'k' ∧
    Board.start.getPiece 7 0 = 'R' ∧ Board.start.getPiece 7 4 = 'K' ∧
    Board.start.getPieceAt "e1".toList = 'K' ∧ Board.start.getPieceAt "e8".toList = 'k' ∧
    Board.start.white_to_move_ = true ∧
    Board.start.rights = (true, true, true, true) ∧
    Board.start.en_passant_target_ = "-".toList ∧
    Board.start.halfmove_clock_ = 0 ∧
    Board.start.fullmove_number_ = 1 ∧
    Board.start.toFEN = "rnbqkbnr/pppppppp/8/8/8/8/PPPPPPPP/RNBQKBNR w KQkq - 0 1".toList := by
  decide

set_option maxRecDepth 1000000 in
/-- C28: in the starting position the material of White equals the material of Black, and
`evaluate(board, true)` is 40, of absolute value below 100 centipawns. -/
theorem start_position_roughly_equal :
    getMaterialValue Board.start true = getMaterialValue Board.start false ∧
    evaluate Board.start true = 40 ∧
    (evaluate Board.start true).natAbs < 100 := by
  decide

theorem positionToSquare_eq_getSquare (row col : Int) :
    positionToSquare row col = getSquare row col := by
  unfold positionToSquare getSquare isValidSquare
  by_cases h : row < 0 ∨ row ≥ 8 ∨ col < 0 ∨ col ≥ 8
  · rw [if_pos h, if_pos]
    simp only [Bool.not_eq_true', Bool.and_eq_false_iff, decide_eq_false_iff_not]
    omega
  · rw [if_neg h, if_neg]
    simp only [Bool.not_eq_true', Bool.and_eq_false_iff, decide_eq_false_iff_not]
    omega

theorem squareToPosition_eq_getPosition (square : List Char) :
    squareToPosition square = getPosition square := rfl

theorem getSquare_invalid (row col : Int) (hv : isValidSquare row col = false) :
    getSquare row col = [] := by
  unfold getSquare
  simp [hv]

theorem getPosition_valid_name (s : List Char)
    (hv : isValidSquare (getPosition s).1 (getPosition s).2 = true) : squareOK s = true := by
  match s, hv with
  | [f, k], hv =>
    unfold isValidSquare getPosition at hv
    simp only [code_eq, Bool.and_eq_true, decide_eq_true_eq, ge_iff_le] at hv
    have ea : ('a' : Char).toNat = 97 := rfl
    have eh : ('h' : Char).toNat = 104 := rfl
    have e1 : ('1' : Char).toNat = 49 := rfl
    have e8 : ('8' : Char).toNat = 56 := rfl
    rw [ea, e1] at hv
    unfold squareOK
    simp only [code_eq, Bool.and_eq_true, decide_eq_true_eq, ea, eh, e1, e8]
    omega
  | [], hv => exact absurd hv (by decide)
  | [_], hv => exact absurd hv (by simp [getPosition, isValidSquare])
  | _ :: _ :: _ :: _, hv => exact absurd hv (by simp [getPosition, isValidSquare])

/-- C26: square names and coordinates convert consistently.  `positionToSquare` and
`squareToPosition` are the same functions as `getSquare` and `getPosition`; on an on-board
coordinate `getSquare` gives a square name (file `a`-`h`, rank `1`-`8`) that `getPosition`
maps back, and on a square name `getPosition` gives an on-board coordinate that
`getSquare` maps back, column = file - `a` and row = `8` - rank, so a8 = (0,0) and
e2 = (6,4); `getSquare` is the empty string off the board; `getPosition` sends every
string that is not a square name off the board, and to (-1,-1) when its length is not
2. -/
theorem square_names_convert_consistently :
    (∀ row col, positionToSquare row col = getSquare row col) ∧
    (∀ s, squareToPosition s = getPosition s) ∧
    (∀ row col, isValidSquare row col = true →
      squareOK (getSquare row col) = true ∧ getPosition (getSquare row col) = (row, col)) ∧
    (∀ s, squareOK s = true →
      isValidSquare (getPosition s).1 (getPosition s).2 = true ∧
      getSquare (getPosition s).1 (getPosition s).2 = s) ∧
    (∀ f k, getPosition [f, k] = (code '8' - code k, code f - code 'a')) ∧
    getPosition "a8".toList = (0, 0) ∧ getPosition "e2".toList = (6, 4) ∧
    getSquare 0 0 = "a8".toList ∧ getSquare 6 4 = "e2".toList ∧
    (∀ row col, isValidSquare row col = false → getSquare row col = []) ∧
    (∀ s, squareOK s = false →
      isValidSquare (getPosition s).1 (getPosition s).2 = false) ∧
    (∀ s, s.length ≠ 2 → getPosition s = (-1, -1)) := by
  refine ⟨positionToSquare_eq_getSquare, squareToPosition_eq_getPosition, getSquare_valid,
    ?_, ?_, by decide, by decide, by decide, by decide, getSquare_invalid, ?_, ?_⟩
  · intro s hs
    have hv := (squareOK_position hs).2.1
    refine ⟨hv, ?_⟩
    have h := getSquare_valid _ _ hv
    exact getPosition_inj h.1 hs h.2
  · intro f k
    unfold getPosition
    simp only [code_eq, Prod.mk.injEq, and_true]
    have e1 : ('1' : Char).toNat = 49 := rfl
    have e8 : ('8' : Char).toNat = 56 := rfl
    rw [e1, e8]
    omega
  · intro s hs
    cases hv : isValidSquare (getPosition s).1 (getPosition s).2 with
    | false => rfl
    | true => rw [getPosition_valid_name s hv] at hs; exact absurd hs (by decide)
  · intro s hs
    match s, hs with
    | [], _ => rfl
    | [_], _ => rfl
    | [_, _], hs => exact absurd rfl hs
    | _ :: _ :: _ :: _, _ => rfl

/-! ## Helper lemmas: the bound kind stored by `alphaBeta` -/

theorem storedType_upper (value alpha beta : Int) (h : value ≤ alpha) :
    storedType value alpha beta = NodeType.UPPER_BOUND := by
  unfold storedType
  rw [if_pos h]

theorem storedType_not_exact (value alpha beta : Int) (h : beta ≤ value) :
    storedType value alpha beta ≠ NodeType.EXACT := by
  unfold storedType
  by_cases h1 : value ≤ alpha
  · rw [if_pos h1]; decide
  · rw [if_neg h1, if_pos h]; decide

theorem alphaBetaMaxLoop_invariant (clock : Nat → Int)
    (child : Board → Int → Int → SearchEngine → Option (Int × SearchEngine)) (board : Board)
    (I : LoopState → Prop)
    (htime : ∀ st, I st → I { st with engine := (st.engine.isTimeUp clock).2 })
    (hstep : ∀ st move r, I st → (st.engine.isTimeUp clock).1 = false →
      (board.copy.makeMove move).1 = true →
      child (board.copy.makeMove move).2 st.alpha st.beta (st.engine.isTimeUp clock).2
        = some r →
      I { best_eval := if r.1 > st.best_eval then r.1 else st.best_eval
          best_move := if r.1 > st.best_eval then move else st.best_move
          alpha := max st.alpha r.1
          beta := st.beta
          engine := r.2 }) :
    ∀ (moves : List (List Char)) (st st1 : LoopState),
      alphaBetaMaxLoop clock child board moves st = some st1 → I st → I st1 := by
  intro moves
  induction moves with
  | nil =>
    intro st st1 h hI
    simp only [alphaBetaMaxLoop, Option.some.injEq] at h
    rw [← h]; exact hI
  | cons move rest ih =>
    intro st st1 h hI
    by_cases hup : (st.engine.isTimeUp clock).1 = true
    · simp only [alphaBetaMaxLoop, hup, if_true, Option.some.injEq] at h
      rw [← h]; exact htime st hI
    · have hup1 : (st.engine.isTimeUp clock).1 = false := by simpa using hup
      cases hmv : (board.copy.makeMove move).1 with
      | false =>
        simp only [alphaBetaMaxLoop, hup1, hmv, Bool.false_eq_true, if_false, Bool.not_false,
          if_true] at h
        exact ih _ _ h (htime st hI)
      | true =>
        cases hc : child (board.copy.makeMove move).2 st.alpha st.beta
            (st.engine.isTimeUp clock).2 with
        | none =>
          simp only [alphaBetaMaxLoop, hup1, hmv, hc, Bool.false_eq_true, if_false,
            Bool.not_true] at h
          exact Option.noConfusion h
        | some r =>
          have hn := hstep st move r hI hup1 hmv hc
          simp only [alphaBetaMaxLoop, hup1, hmv, hc, Bool.false_eq_true, if_false,
            Bool.not_true] at h
          by_cases hgt : r.1 > st.best_eval
          · simp only [hgt, if_true] at h hn
            by_cases hcut : st.beta ≤ max st.alpha r.1
            · simp only [hcut, if_true, Option.some.injEq] at h
              rw [← h]; exact hn
            · simp only [hcut, if_false] at h
              exact ih _ _ h hn
          · simp only [hgt, if_false] at h hn
            by_cases hcut : st.beta ≤ max st.alpha r.1
            · simp only [hcut, if_true, Option.some.injEq] at h
              rw [← h]; exact hn
            · simp only [hcut, if_false] at h
              exact ih _ _ h hn


theorem alphaBetaMinLoop_invariant (clock : Nat → Int)
    (child : Board → Int → Int → SearchEngine → Option (Int × SearchEngine)) (board : Board)
    (I : LoopState → Prop)
    (htime : ∀ st, I st → I { st with engine := (st.engine.isTimeUp clock).2 })
    (hstep : ∀ st move r, I st → (st.engine.isTimeUp clock).1 = false →
      (board.copy.makeMove move).1 = true →
      child (board.copy.makeMove move).2 st.alpha st.beta (st.engine.isTimeUp clock).2
        = some r →
      I { best_eval := if r.1 < st.best_eval then r.1 else st.best_eval
          best_move := if r.1 < st.best_eval then move else st.best_move
          alpha := st.alpha
          beta := min st.beta r.1
          engine := r.2 }) :
    ∀ (moves : List (List Char)) (st st1 : LoopState),
      alphaBetaMinLoop clock child board moves st = some st1 → I st → I st1 := by
  intro moves
  induction moves with
  | nil =>
    intro st st1 h hI
    simp only [alphaBetaMinLoop, Option.some.injEq] at h
    rw [← h]; exact hI
  | cons move rest ih =>
    intro st st1 h hI
    by_cases hup : (st.engine.isTimeUp clock).1 = true
    · simp only [alphaBetaMinLoop, hup, if_true, Option.some.injEq] at h
      rw [← h]; exact htime st hI
    · have hup1 : (st.engine.isTimeUp clock).1 = false := by simpa using hup
      cases hmv : (board.copy.makeMove move).1 with
      | false =>
        simp only [alphaBetaMinLoop, hup1, hmv, Bool.false_eq_true, if_false, Bool.not_false,
          if_true] at h
        exact ih _ _ h (htime st hI)
      | true =>
        cases hc : child (board.copy.makeMove move).2 st.alpha st.beta
            (st.engine.isTimeUp clock).2 with
        | none =>
          simp only [alphaBetaMinLoop, hup1, hmv, hc, Bool.false_eq_true, if_false,
            Bool.not_true] at h
          exact Option.noConfusion h
        | some r =>
          have hn := hstep st move r hI hup1 hmv hc
          simp only [alphaBetaMinLoop, hup1, hmv, hc, Bool.false_eq_true, if_false,
            Bool.not_true] at h
          by_cases hgt : r.1 < st.best_eval
          · simp only [hgt, if_true] at h hn
            by_cases hcut : min st.beta r.1 ≤ st.alpha
            · simp only [hcut, if_true, Option.some.injEq] at h
              rw [← h]; exact hn
            · simp only [hcut, if_false] at h
              exact ih _ _ h hn
          · simp only [hgt, if_false] at h hn
            by_cases hcut : min st.beta r.1 ≤ st.alpha
            · simp only [hcut, if_true, Option.some.injEq] at h
              rw [← h]; exact hn
            · simp only [hcut, if_false] at h
              exact ih _ _ h hn

theorem probeTransposition_engine (e : SearchEngine) (key : List Char)
    (depth alpha beta : Int) : (e.probeTransposition key depth alpha beta).2 = e := by
  unfold SearchEngine.probeTransposition
  split
  · rfl
  · split
    · rfl
    · split
      · rfl
      · split <;> rfl
      · split <;> rfl

set_option maxRecDepth 1000000 in
/-- C21 (the code at the failing inputs): the bound kind is decided against `alpha` and
`beta` as the move loop left them, not as the node was called.  With the full window
(-100000, 100000) and the time budget not expired, the maximizing node of the position
with the lone capture h1g2 returns -14, strictly inside the window, and stores it as
`UPPER_BOUND`; the minimizing node of the two bare kings returns 16 and stores it as
`LOWER_BOUND`; neither is stored as `EXACT`.  In general a maximizing move loop that
starts with `max_eval ≤ alpha` ends with `max_eval ≤ alpha`, so the kind stored is
`UPPER_BOUND` whatever the value; a minimizing move loop that starts with
`beta ≤ min_eval` ends so, and the kind stored is never `EXACT`. -/
theorem alphaBeta_bound_kind_uses_final_window :
    ((alphaBeta (fun _ => 0) 2 2 loneCapture 1 (-100000) 100000 true
        (SearchEngine.new 1 1000)).map fun r =>
          (r.1, r.2.transposition_table_.map fun kv => (kv.2.score, kv.2.depth, kv.2.type)))
      = some (-14, [(-14, 1, NodeType.UPPER_BOUND)]) ∧
    ((alphaBeta (fun _ => 0) 2 2 bareKings 1 (-100000) 100000 false
        (SearchEngine.new 1 1000)).map fun r =>
          (r.1, r.2.transposition_table_.map fun kv => (kv.2.score, kv.2.depth, kv.2.type)))
      = some (16, [(16, 1, NodeType.LOWER_BOUND)]) ∧
    (∀ (clock : Nat → Int)
        (child : Board → Int → Int → SearchEngine → Option (Int × SearchEngine))
        (board : Board) (moves : List (List Char)) (st st1 : LoopState),
      alphaBetaMaxLoop clock child board moves st = some st1 → st.best_eval ≤ st.alpha →
      st1.best_eval ≤ st1.alpha ∧
      storedType st1.best_eval st1.alpha st1.beta = NodeType.UPPER_BOUND) ∧
    (∀ (clock : Nat → Int)
        (child : Board → Int → Int → SearchEngine → Option (Int × SearchEngine))
        (board : Board) (moves : List (List Char)) (st st1 : LoopState),
      alphaBetaMinLoop clock child board moves st = some st1 → st.beta ≤ st.best_eval →
      st1.beta ≤ st1.best_eval ∧
      storedType st1.best_eval st1.alpha st1.beta ≠ NodeType.EXACT) := by
  refine ⟨by decide, by decide, ?_, ?_⟩
  · intro clock child board moves st st1 h hb
    have hinv := alphaBetaMaxLoop_invariant clock child board (fun s => s.best_eval ≤ s.alpha)
      (fun _ hs => hs)
      (fun s move r hs _ _ _ => by
        show (if r.1 > s.best_eval then r.1 else s.best_eval) ≤ max s.alpha r.1
        split
        · exact le_max_right _ _
        · exact le_trans hs (le_max_left _ _))
      moves st st1 h hb
    exact ⟨hinv, storedType_upper _ _ _ hinv⟩
  · intro clock child board moves st st1 h hb
    have hinv := alphaBetaMinLoop_invariant clock child board (fun s => s.beta ≤ s.best_eval)
      (fun _ hs => hs)
      (fun s move r hs _ _ _ => by
        show min s.beta r.1 ≤ (if r.1 < s.best_eval then r.1 else s.best_eval)
        split
        · exact min_le_right _ _
        · exact le_trans (min_le_left _ _) hs)
      moves st st1 h hb
    exact ⟨hinv, storedType_not_exact _ _ _ hinv⟩

theorem slideLoop_acc (board : Board) (wp : Bool) (dr dc : Int) :
    ∀ (fuel : Nat) (r c : Int) (moves : List (List Char)),
      slideLoop board wp dr dc fuel r c moves =
        moves ++ slideLoop board wp dr dc fuel r c [] := by
  intro fuel
  induction fuel with
  | zero => intro r c moves; simp [slideLoop]
  | succ fuel ih =>
    intro r c moves
    simp only [slideLoop]
    split
    · split
      · rw [ih _ _ (moves ++ _), ih _ _ ([] ++ _)]
        simp
      · split <;> simp
    · simp

theorem reachedSquares_nil (board : Board) (wp : Bool) : reachedSquares board wp [] = [] := rfl

theorem reachedSquares_invalid (board : Board) (wp : Bool) (sq : Int × Int)
    (rest : List (Int × Int)) (h : isValidSquare sq.1 sq.2 = false) :
    reachedSquares board wp (sq :: rest) = [] := by
  simp [reachedSquares, List.takeWhile_cons, h]

theorem reachedSquares_free (board : Board) (wp : Bool) (sq : Int × Int)
    (rest : List (Int × Int)) (h : isValidSquare sq.1 sq.2 = true)
    (he : board.getPiece sq.1 sq.2 = '.') :
    reachedSquares board wp (sq :: rest) = sq :: reachedSquares board wp rest := by
  simp only [reachedSquares, List.takeWhile_cons, h, he, if_true, decide_True, List.length_cons,
    List.drop_succ_cons]
  cases hd : List.drop
      (List.takeWhile (fun sq => decide (board.getPiece sq.1 sq.2 = '.'))
        (List.takeWhile (fun sq => isValidSquare sq.1 sq.2) rest)).length
      (List.takeWhile (fun sq => isValidSquare sq.1 sq.2) rest) with
  | nil => simp only []
  | cons blocker tl =>
    simp only []
    split <;> simp

theorem reachedSquares_blocked (board : Board) (wp : Bool) (sq : Int × Int)
    (rest : List (Int × Int)) (h : isValidSquare sq.1 sq.2 = true)
    (he : board.getPiece sq.1 sq.2 ≠ '.') :
    reachedSquares board wp (sq :: rest) =
      if isOpponentPiece (board.getPiece sq.1 sq.2) wp then [sq] else [] := by
  simp [reachedSquares, List.takeWhile_cons, h, he]


theorem walk_succ (n : Nat) (r c dr dc : Int) :
    (List.range (n + 1)).map (fun (k : Nat) => (r + (k : Int) * dr, c + (k : Int) * dc)) =
      (r, c) :: (List.range n).map
        (fun (k : Nat) => ((r + dr) + (k : Int) * dr, (c + dc) + (k : Int) * dc)) := by
  rw [List.range_succ_eq_map, List.map_cons, List.map_map]
  congr 1
  · simp
  · apply List.map_congr_left
    intro k _
    simp only [Function.comp, Nat.succ_eq_add_one, Nat.cast_add, Nat.cast_one, Prod.mk.injEq]
    constructor <;> ring

theorem opponent_iff_case (t : Char) (wp : Bool) (ht : t ∈ pieceLetters) :
    (isUpper t ≠ wp) ↔ isOpponentPiece t wp = true := by
  simp only [pieceLetters, WHITE_PIECES, BLACK_PIECES, List.cons_append, List.nil_append,
    List.mem_cons, List.mem_singleton, List.not_mem_nil, or_false] at ht
  rcases ht with h | h | h | h | h | h | h | h | h | h | h | h <;> subst h <;>
    cases wp <;> decide

theorem slideLoop_eq_reached (board : Board) (wp : Bool) (dr dc : Int)
    (hg : gridOK board.board_ = true) (hc : cellsOK board.board_ = true) :
    ∀ (fuel : Nat) (r c : Int),
      slideLoop board wp dr dc fuel r c [] =
        (reachedSquares board wp ((List.range fuel).map
          (fun (k : Nat) => (r + (k : Int) * dr, c + (k : Int) * dc)))).map
          (fun sq => positionToSquare sq.1 sq.2) := by
  intro fuel
  induction fuel with
  | zero => intro r c; rfl
  | succ fuel ih =>
    intro r c
    rw [walk_succ]
    simp only [slideLoop]
    by_cases hv : isValidSquare r c = true
    · have hb : r ≥ 0 ∧ r < 8 ∧ c ≥ 0 ∧ c < 8 := by
        unfold isValidSquare at hv
        simp only [Bool.and_eq_true, decide_eq_true_eq] at hv
        exact ⟨hv.1.1.1, hv.1.1.2, hv.1.2, hv.2⟩
      rw [if_pos hb]
      by_cases he : board.getPiece r c = '.'
      · rw [if_pos he, reachedSquares_free board wp (r, c) _ hv he, slideLoop_acc, ih]
        simp
      · rw [if_neg he, reachedSquares_blocked board wp (r, c) _ hv he]
        have hp : board.getPiece r c ∈ pieceLetters := by
          rw [getPiece_valid board r c hv] at he ⊢
          rcases cell_piece_or_dot hg hc r c hv with h | h
          · exact h
          · exact absurd h he
        have hiff := opponent_iff_case _ wp hp
        by_cases ho : isOpponentPiece (board.getPiece r c) wp = true
        · rw [if_pos (hiff.2 ho)]
          simp [ho]
        · rw [if_neg (fun h => ho (hiff.1 h))]
          simp [ho]
    · have hb : ¬(r ≥ 0 ∧ r < 8 ∧ c ≥ 0 ∧ c < 8) := by
        intro hb
        apply hv
        unfold isValidSquare
        simp only [Bool.and_eq_true, decide_eq_true_eq]
        exact ⟨⟨⟨hb.1, hb.2.1⟩, hb.2.2.1⟩, hb.2.2.2⟩
      rw [if_neg hb, reachedSquares_invalid board wp (r, c) _ (by simpa using hv)]
      rfl


theorem takeWhile_append_stop {α : Type} (p : α → Bool) (l1 l2 : List α)
    (h : ∀ x ∈ l2.head?, p x = false) :
    (l1 ++ l2).takeWhile p = l1.takeWhile p := by
  induction l1 with
  | nil =>
    cases l2 with
    | nil => rfl
    | cons x t =>
      have hx := h x (by simp)
      simp [List.takeWhile_cons, hx]
  | cons a t ih =>
    simp only [List.cons_append, List.takeWhile_cons]
    split
    · rw [ih]
    · rfl

theorem reachedSquares_congr (board : Board) (wp : Bool) (s1 s2 : List (Int × Int))
    (h : s1.takeWhile (fun sq => isValidSquare sq.1 sq.2) =
      s2.takeWhile (fun sq => isValidSquare sq.1 sq.2)) :
    reachedSquares board wp s1 = reachedSquares board wp s2 := by
  unfold reachedSquares
  simp only [h]

theorem raySquares_eq_walk (n : Nat) (row col dr dc : Int) :
    raySquares n row col dr dc =
      (List.range n).map
        (fun (k : Nat) => ((row + dr) + (k : Int) * dr, (col + dc) + (k : Int) * dc)) := by
  unfold raySquares
  apply List.map_congr_left
  intro k _
  simp only [Prod.mk.injEq]
  constructor <;> ring

/-- Seven steps are enough: a longer walk from a square of the board reaches the same
squares. -/
theorem reachedSquares_walk (board : Board) (wp : Bool) (row col dr dc : Int)
    (hv : isValidSquare row col = true) (hd : dr ≠ 0 ∨ dc ≠ 0) (m : Nat) :
    reachedSquares board wp (raySquares (7 + m) row col dr dc) =
      reachedSquares board wp (raySquares 7 row col dr dc) := by
  apply reachedSquares_congr
  unfold raySquares
  rw [List.range_add, List.map_append]
  apply takeWhile_append_stop
  intro x hx
  cases m with
  | zero => simp at hx
  | succ m =>
    rw [List.range_succ_eq_map] at hx
    simp only [List.map_cons, List.head?_cons, Option.mem_def, Option.some.injEq] at hx
    rw [← hx]
    unfold isValidSquare at hv ⊢
    simp only [Bool.and_eq_true, decide_eq_true_eq] at hv
    simp only [Bool.and_eq_false_iff, decide_eq_false_iff_not, Nat.cast_ofNat, add_zero,
      Nat.cast_zero]
    omega

theorem slideLoop_eq_rayMoves (board : Board) (wp : Bool) (row col : Int) (dir : Int × Int)
    (hg : gridOK board.board_ = true) (hc : cellsOK board.board_ = true)
    (hv : isValidSquare row col = true) (hd : dir.1 ≠ 0 ∨ dir.2 ≠ 0) (m : Nat) :
    slideLoop board wp dir.1 dir.2 (7 + m) (row + dir.1) (col + dir.2) [] =
      rayMoves board wp row col dir := by
  rw [slideLoop_eq_reached board wp dir.1 dir.2 hg hc, ← raySquares_eq_walk,
    reachedSquares_walk board wp row col dir.1 dir.2 hv hd]
  rfl


theorem slideLoop_eight (board : Board) (wp : Bool) (row col : Int) (dir : Int × Int)
    (hg : gridOK board.board_ = true) (hc : cellsOK board.board_ = true)
    (hv : isValidSquare row col = true) (hd : dir.1 ≠ 0 ∨ dir.2 ≠ 0)
    (moves : List (List Char)) :
    slideLoop board wp dir.1 dir.2 8 (row + dir.1) (col + dir.2) moves =
      moves ++ rayMoves board wp row col dir := by
  rw [slideLoop_acc]
  exact congrArg _ (slideLoop_eq_rayMoves board wp row col dir hg hc hv hd 1)

theorem generateRookMoves_eq_rays (board : Board) (wp : Bool) (row col : Int)
    (hg : gridOK board.board_ = true) (hc : cellsOK board.board_ = true)
    (hv : isValidSquare row col = true) :
    generateRookMoves board row col wp =
      ([(-1, 0), (1, 0), (0, -1), (0, 1)] : List (Int × Int)).flatMap
        (rayMoves board wp row col) := by
  unfold generateRookMoves
  simp only [List.foldl_cons, List.foldl_nil]
  rw [slideLoop_eight board wp row col (-1, 0) hg hc hv (by decide),
    slideLoop_eight board wp row col (1, 0) hg hc hv (by decide),
    slideLoop_eight board wp row col (0, -1) hg hc hv (by decide),
    slideLoop_eight board wp row col (0, 1) hg hc hv (by decide)]
  simp [List.flatMap_cons]

theorem generateBishopMoves_eq_rays (board : Board) (wp : Bool) (row col : Int)
    (hg : gridOK board.board_ = true) (hc : cellsOK board.board_ = true)
    (hv : isValidSquare row col = true) :
    generateBishopMoves board row col wp =
      ([(-1, -1), (-1, 1), (1, -1), (1, 1)] : List (Int × Int)).flatMap
        (rayMoves board wp row col) := by
  unfold generateBishopMoves
  simp only [List.foldl_cons, List.foldl_nil]
  rw [slideLoop_eight board wp row col (-1, -1) hg hc hv (by decide),
    slideLoop_eight board wp row col (-1, 1) hg hc hv (by decide),
    slideLoop_eight board wp row col (1, -1) hg hc hv (by decide),
    slideLoop_eight board wp row col (1, 1) hg hc hv (by decide)]
  simp [List.flatMap_cons]

theorem pseudo_rook (board : Board) (row col : Int)
    (hp : board.getPiece row col = 'R' ∨ board.getPiece row col = 'r') :
    generatePseudoLegalMoves board row col =
      generateRookMoves board row col (isWhitePiece (board.getPiece row col)) := by
  unfold generatePseudoLegalMoves
  rcases hp with h | h <;> rw [h] <;> rfl

theorem pseudo_bishop (board : Board) (row col : Int)
    (hp : board.getPiece row col = 'B' ∨ board.getPiece row col = 'b') :
    generatePseudoLegalMoves board row col =
      generateBishopMoves board row col (isWhitePiece (board.getPiece row col)) := by
  unfold generatePseudoLegalMoves
  rcases hp with h | h <;> rw [h] <;> rfl

theorem pseudo_queen (board : Board) (row col : Int)
    (hp : board.getPiece row col = 'Q' ∨ board.getPiece row col = 'q') :
    generatePseudoLegalMoves board row col =
      generateQueenMoves board row col (isWhitePiece (board.getPiece row col)) := by
  unfold generatePseudoLegalMoves
  rcases hp with h | h <;> rw [h] <;> rfl


/-! ## Claim on the sliding pieces -/

/-- C30: on a board of 8 x 8 cells that are piece letters or `.`, for a rook, bishop or
queen on a square `(row, col)` of the board, `generatePseudoLegalMoves` returns, direction
after direction (up, down, left, right for the rook; the four diagonals for the bishop;
all eight for the queen, the rook's four first), the squares reached by stepping from the
piece until the board edge or the first occupied square, that square included exactly
when it holds an enemy piece; the queen's list is the rook's list followed by the
bishop's.  The walk of the source stops by itself: seven steps or more give the same
list. -/
theorem sliding_moves_follow_rays (board : Board) (row col : Int)
    (hg : gridOK board.board_ = true) (hc : cellsOK board.board_ = true)
    (hv : isValidSquare row col = true) :
    (∀ wp, generateRookMoves board row col wp =
      ([(-1, 0), (1, 0), (0, -1), (0, 1)] : List (Int × Int)).flatMap
        (rayMoves board wp row col)) ∧
    (∀ wp, generateBishopMoves board row col wp =
      ([(-1, -1), (-1, 1), (1, -1), (1, 1)] : List (Int × Int)).flatMap
        (rayMoves board wp row col)) ∧
    (∀ wp, generateQueenMoves board row col wp =
      generateRookMoves board row col wp ++ generateBishopMoves board row col wp) ∧
    (board.getPiece row col = 'R' ∨ board.getPiece row col = 'r' →
      generatePseudoLegalMoves board row col =
        ([(-1, 0), (1, 0), (0, -1), (0, 1)] : List (Int × Int)).flatMap
          (rayMoves board (isWhitePiece (board.getPiece row col)) row col)) ∧
    (board.getPiece row col = 'B' ∨ board.getPiece row col = 'b' →
      generatePseudoLegalMoves board row col =
        ([(-1, -1), (-1, 1), (1, -1), (1, 1)] : List (Int × Int)).flatMap
          (rayMoves board (isWhitePiece (board.getPiece row col)) row col)) ∧
    (board.getPiece row col = 'Q' ∨ board.getPiece row col = 'q' →
      generatePseudoLegalMoves board row col =
        ([(-1, 0), (1, 0), (0, -1), (0, 1), (-1, -1), (-1, 1), (1, -1), (1, 1)] :
          List (Int × Int)).flatMap
          (rayMoves board (isWhitePiece (board.getPiece row col)) row col)) ∧
    (∀ (wp : Bool) (dir : Int × Int) (m : Nat), dir.1 ≠ 0 ∨ dir.2 ≠ 0 →
      slideLoop board wp dir.1 dir.2 (7 + m) (row + dir.1) (col + dir.2) [] =
        rayMoves board wp row col dir) := by
  refine ⟨fun wp => generateRookMoves_eq_rays board wp row col hg hc hv,
    fun wp => generateBishopMoves_eq_rays board wp row col hg hc hv, fun _ => rfl, ?_, ?_, ?_,
    fun wp dir m hd => slideLoop_eq_rayMoves board wp row col dir hg hc hv hd m⟩
  · intro hp
    rw [pseudo_rook board row col hp, generateRookMoves_eq_rays board _ row col hg hc hv]
  · intro hp
    rw [pseudo_bishop board row col hp, generateBishopMoves_eq_rays board _ row col hg hc hv]
  · intro hp
    rw [pseudo_queen board row col hp]
    unfold generateQueenMoves
    rw [generateRookMoves_eq_rays board _ row col hg hc hv,
      generateBishopMoves_eq_rays board _ row col hg hc hv, ← List.flatMap_append]
    rfl

set_option maxRecDepth 1000000 in
/-- Witness for C30: the white queen on g6 of the stalemate position (kings f7 and h8)
has the 21 destinations of its eight rays; the ray towards its own king on f7 is empty. -/
theorem sliding_moves_follow_rays_witness :
    gridOK queenStalemate.board_ = true ∧ cellsOK queenStalemate.board_ = true ∧
    isValidSquare 2 6 = true ∧ queenStalemate.getPiece 2 6 = 'Q' ∧
    generatePseudoLegalMoves queenStalemate 2 6 =
      ([(-1, 0), (1, 0), (0, -1), (0, 1), (-1, -1), (-1, 1), (1, -1), (1, 1)] :
        List (Int × Int)).flatMap
        (rayMoves queenStalemate (isWhitePiece (queenStalemate.getPiece 2 6)) 2 6) ∧
    (generatePseudoLegalMoves queenStalemate 2 6).length = 21 :=
  ⟨by decide, by decide, by decide, by decide,
   (sliding_moves_follow_rays queenStalemate 2 6 (by decide) (by decide) (by decide)).2.2.2.2.2.1
     (Or.inl (by decide)),
   by decide⟩

/-! ## Helper lemmas: the king search of `isInCheck` -/

theorem kingScan_fixed (g : List (List Char)) (king : Char) (i : Nat) (cols : List Nat)
    (k : Int × Int) (hk : k.1 ≠ -1) :
    cols.foldl (fun (k : Int × Int) (j : Nat) =>
      if k.1 ≠ -1 then k else
      if cellAt g i j = king then ((i : Int), (j : Int)) else k) k = k := by
  induction cols with
  | nil => rfl
  | cons j cols ih => rw [List.foldl_cons, if_pos hk, ih]

theorem kingScan_none (g : List (List Char)) (king : Char) (i : Nat) (cols : List Nat)
    (k : Int × Int) (h : ∀ j ∈ cols, cellAt g i j ≠ king) :
    cols.foldl (fun (k : Int × Int) (j : Nat) =>
      if k.1 ≠ -1 then k else
      if cellAt g i j = king then ((i : Int), (j : Int)) else k) k = k := by
  induction cols with
  | nil => rfl
  | cons j cols ih =>
    rw [List.foldl_cons, if_neg (h j (List.mem_cons_self _ _)), ite_self]
    exact ih (fun j1 hj1 => h j1 (List.mem_cons_of_mem _ hj1))

theorem kingScan_found (g : List (List Char)) (king : Char) (i : Nat) (pre post : List Nat)
    (j0 : Nat) (k : Int × Int) (hk : k.1 = -1) (h0 : cellAt g i j0 = king)
    (h : ∀ j ∈ pre, cellAt g i j ≠ king) :
    (pre ++ j0 :: post).foldl (fun (k : Int × Int) (j : Nat) =>
      if k.1 ≠ -1 then k else
      if cellAt g i j = king then ((i : Int), (j : Int)) else k) k = ((i : Int), (j0 : Int)) := by
  rw [List.foldl_append, kingScan_none g king i pre k h, List.foldl_cons,
    if_neg (by simp [hk]), if_pos h0]
  exact kingScan_fixed g king i post _ (by simp)

theorem range_split (n j0 : Nat) (h : j0 < n) :
    List.range n = List.range j0 ++ j0 :: (List.range' (j0 + 1) (n - j0 - 1)) := by
  rw [List.range_eq_range', List.range_eq_range']
  have e : n = (n - j0 - 1 + 1) + j0 := by omega
  conv_lhs => rw [e]
  rw [← List.range'_append_1, List.range'_succ]
  simp

theorem findKing_none (g : List (List Char)) (king : Char)
    (h : ∀ i j : Nat, i < 8 → j < 8 → cellAt g i j ≠ king) : findKing g king = (-1, -1) := by
  unfold findKing
  have hrow : ∀ (rows : List Nat), (∀ i ∈ rows, i < 8) → ∀ k : Int × Int, k = (-1, -1) →
      rows.foldl (fun (k : Int × Int) (i : Nat) =>
        if k.1 ≠ -1 then k else
        (List.range 8).foldl (fun (k : Int × Int) (j : Nat) =>
          if k.1 ≠ -1 then k else
          if cellAt g i j = king then ((i : Int), (j : Int)) else k) k) k = (-1, -1) := by
    intro rows
    induction rows with
    | nil => intro _ k hk; exact hk
    | cons i rows ih =>
      intro hb k hk
      rw [List.foldl_cons, if_neg (by rw [hk]; simp),
        kingScan_none g king i (List.range 8) k
          (fun j hj => h i j (hb i (List.mem_cons_self _ _)) (List.mem_range.1 hj))]
      exact ih (fun i1 hi1 => hb i1 (List.mem_cons_of_mem _ hi1)) k hk
  exact hrow (List.range 8) (fun i hi => List.mem_range.1 hi) _ rfl

theorem findKing_first (g : List (List Char)) (king : Char) (kr kc : Nat)
    (hr : kr < 8) (hc : kc < 8) (h0 : cellAt g kr kc = king)
    (hfirst : ∀ i j : Nat, i < 8 → j < 8 → (i < kr ∨ (i = kr ∧ j < kc)) →
      cellAt g i j ≠ king) :
    findKing g king = ((kr : Int), (kc : Int)) := by
  obtain ⟨row, hrow⟩ : ∃ row : Int × Int → Nat → Int × Int, row = fun (k : Int × Int) (i : Nat) =>
      if k.1 ≠ -1 then k else
        (List.range 8).foldl (fun (k : Int × Int) (j : Nat) =>
          if k.1 ≠ -1 then k else
          if cellAt g i j = king then ((i : Int), (j : Int)) else k) k := ⟨_, rfl⟩
  have hfix : ∀ (i : Nat) (k : Int × Int), k.1 ≠ -1 → row k i = k := by
    intro i k hk
    rw [hrow]
    simp only [if_pos hk]
  have hnone : ∀ i : Nat, i < kr → row (-1, -1) i = (-1, -1) := by
    intro i hi
    rw [hrow]
    simp only [if_neg (show ¬((-1 : Int) ≠ -1) by simp)]
    exact kingScan_none g king i (List.range 8) _
      (fun j hj => hfirst i j (by omega) (List.mem_range.1 hj) (Or.inl hi))
  have hfound : row (-1, -1) kr = ((kr : Int), (kc : Int)) := by
    rw [hrow]
    simp only [if_neg (show ¬((-1 : Int) ≠ -1) by simp)]
    rw [range_split 8 kc hc]
    exact kingScan_found g king kr _ _ kc _ rfl h0
      (fun j hj => hfirst kr j hr (by have := List.mem_range.1 hj; omega)
        (Or.inr ⟨rfl, List.mem_range.1 hj⟩))
  have hpre : ∀ (rows : List Nat), (∀ i ∈ rows, i < kr) →
      rows.foldl row (-1, -1) = (-1, -1) := by
    intro rows
    induction rows with
    | nil => intro _; rfl
    | cons i rows ih =>
      intro hb
      rw [List.foldl_cons, hnone i (hb i (List.mem_cons_self _ _))]
      exact ih (fun i1 hi1 => hb i1 (List.mem_cons_of_mem _ hi1))
  have hpost : ∀ (rows : List Nat) (k : Int × Int), k.1 ≠ -1 → rows.foldl row k = k := by
    intro rows
    induction rows with
    | nil => intro _ _; rfl
    | cons i rows ih =>
      intro k hk
      rw [List.foldl_cons, hfix i k hk]
      exact ih k hk
  have hdef : findKing g king = (List.range 8).foldl row (-1, -1) := by
    rw [hrow]; rfl
  rw [hdef, range_split 8 kr hr, List.foldl_append, List.foldl_cons,
    hpre (List.range kr) (fun i hi => List.mem_range.1 hi), hfound]
  exact hpost _ _ (by simp)

theorem positionToSquare_inj (r c r1 c1 : Int) (hv : isValidSquare r c = true)
    (h : positionToSquare r c = positionToSquare r1 c1) : r = r1 ∧ c = c1 := by
  rw [positionToSquare_eq_getSquare, positionToSquare_eq_getSquare] at h
  have h1 := getSquare_valid r c hv
  cases hv1 : isValidSquare r1 c1 with
  | false =>
    rw [getSquare_invalid r1 c1 hv1] at h
    rw [h] at h1
    exact absurd h1.1 (by decide)
  | true =>
    have h2 := getSquare_valid r1 c1 hv1
    have e : getPosition (getSquare r c) = getPosition (getSquare r1 c1) := by rw [h]
    rw [h1.2, h2.2] at e
    exact ⟨congrArg Prod.fst e, congrArg Prod.snd e⟩

theorem isValidSquare_iff (r c : Int) :
    isValidSquare r c = true ↔ (r ≥ 0 ∧ r < 8 ∧ c ≥ 0 ∧ c < 8) := by
  unfold isValidSquare
  simp only [Bool.and_eq_true, decide_eq_true_eq]
  constructor
  · rintro ⟨⟨⟨h1, h2⟩, h3⟩, h4⟩; exact ⟨h1, h2, h3, h4⟩
  · rintro ⟨h1, h2, h3, h4⟩; exact ⟨⟨⟨h1, h2⟩, h3⟩, h4⟩

theorem stepMove_foldl_mem (board : Board) (row col : Int) (wp : Bool) (sq : List Char) :
    ∀ (offs : List (Int × Int)) (acc : List (List Char)),
      sq ∈ offs.foldl (stepMove board row col wp) acc ↔
        sq ∈ acc ∨ ∃ off ∈ offs, isValidSquare (row + off.1) (col + off.2) = true ∧
          (board.getPiece (row + off.1) (col + off.2) = '.' ∨
            isUpper (board.getPiece (row + off.1) (col + off.2)) ≠ wp) ∧
          sq = positionToSquare (row + off.1) (col + off.2) := by
  intro offs
  induction offs with
  | nil => intro acc; simp
  | cons off offs ih =>
    intro acc
    rw [List.foldl_cons, ih]
    have hstep : sq ∈ stepMove board row col wp acc off ↔
        sq ∈ acc ∨ (isValidSquare (row + off.1) (col + off.2) = true ∧
          (board.getPiece (row + off.1) (col + off.2) = '.' ∨
            isUpper (board.getPiece (row + off.1) (col + off.2)) ≠ wp) ∧
          sq = positionToSquare (row + off.1) (col + off.2)) := by
      unfold stepMove
      simp only [← isValidSquare_iff]
      by_cases hv : isValidSquare (row + off.1) (col + off.2) = true
      · rw [if_pos hv]
        by_cases he : board.getPiece (row + off.1) (col + off.2) = '.'
        · rw [if_pos he]
          simp [hv, he]
        · rw [if_neg he]
          by_cases hu : isUpper (board.getPiece (row + off.1) (col + off.2)) ≠ wp
          · rw [if_pos hu]; simp [hv, he, hu]
          · rw [if_neg hu]; simp [hv, he, hu]
      · rw [if_neg hv]; simp [hv]
    constructor
    · rintro (h | ⟨o, ho, hh⟩)
      · rcases hstep.1 h with h | h
        · exact Or.inl h
        · exact Or.inr ⟨off, List.mem_cons_self _ _, h⟩
      · exact Or.inr ⟨o, List.mem_cons_of_mem _ ho, hh⟩
    · rintro (h | ⟨o, ho, hh⟩)
      · exact Or.inl (hstep.2 (Or.inl h))
      · rcases List.mem_cons.1 ho with e | ho
        · subst e
          exact Or.inl (hstep.2 (Or.inr hh))
        · exact Or.inr ⟨o, ho, hh⟩

/-- A square of the board that holds an enemy piece is a destination of the offset table
exactly when it lies at one of the offsets. -/
theorem stepMove_target (board : Board) (row col kr kc : Int) (wp : Bool)
    (offs : List (Int × Int)) (hk : isValidSquare kr kc = true)
    (hopp : isUpper (board.getPiece kr kc) ≠ wp) :
    positionToSquare kr kc ∈ offs.foldl (stepMove board row col wp) [] ↔
      (kr - row, kc - col) ∈ offs := by
  rw [stepMove_foldl_mem]
  constructor
  · rintro (h | ⟨off, hoff, hv, _, heq⟩)
    · exact absurd h (List.not_mem_nil _)
    · have := positionToSquare_inj kr kc _ _ hk heq
      have e : (kr - row, kc - col) = off := by
        ext <;> simp only <;> omega
      rw [e]; exact hoff
  · intro h
    refine Or.inr ⟨_, h, ?_, ?_, ?_⟩
    · simp only [add_sub_cancel]; exact hk
    · simp only [add_sub_cancel]; exact Or.inr hopp
    · simp only [add_sub_cancel]

/-- The capture step of `generatePawnMoves` for the column `col + dc`: an occupied enemy
square of the board is a destination afterwards exactly when it was one before or is the
square the step looks at. -/
theorem pawn_capture_step (board : Board) (row col kr kc : Int) (wp : Bool) (dir dc : Int)
    (moves : List (List Char)) (hk : isValidSquare kr kc = true)
    (hne : board.getPiece kr kc ≠ '.') (hopp : isUpper (board.getPiece kr kc) ≠ wp) :
    positionToSquare kr kc ∈
      (if row + dir ≥ 0 ∧ row + dir < 8 ∧ col + dc ≥ 0 ∧ col + dc < 8 then
        if board.getPiece (row + dir) (col + dc) ≠ '.' then
          if isUpper (board.getPiece (row + dir) (col + dc)) ≠ wp then
            moves ++ [positionToSquare (row + dir) (col + dc)]
          else moves
        else if positionToSquare (row + dir) (col + dc) = board.en_passant_target_ then
          moves ++ [positionToSquare (row + dir) (col + dc)]
        else moves
      else moves) ↔
    positionToSquare kr kc ∈ moves ∨ (kr = row + dir ∧ kc = col + dc) := by
  by_cases heq : kr = row + dir ∧ kc = col + dc
  · obtain ⟨e1, e2⟩ := heq
    subst e1 e2
    rw [if_pos ((isValidSquare_iff _ _).1 hk), if_pos hne, if_pos hopp]
    simp
  · have hne2 : ∀ l : List (List Char),
        positionToSquare kr kc ∈ l ++ [positionToSquare (row + dir) (col + dc)] ↔
          positionToSquare kr kc ∈ l := by
      intro l
      rw [List.mem_append, List.mem_singleton]
      constructor
      · rintro (h | h)
        · exact h
        · exact absurd (positionToSquare_inj kr kc _ _ hk h) heq
      · exact Or.inl
    constructor
    · intro h
      left
      split at h
      · split at h
        · split at h
          · exact (hne2 _).1 h
          · exact h
        · split at h
          · exact (hne2 _).1 h
          · exact h
      · exact h
    · rintro (h | h)
      · split
        · split
          · split
            · exact (hne2 _).2 h
            · exact h
          · split
            · exact (hne2 _).2 h
            · exact h
        · exact h
      · exact absurd h heq

theorem pawn_target (board : Board) (row col kr kc : Int) (wp : Bool)
    (hk : isValidSquare kr kc = true)
    (hne : board.getPiece kr kc ≠ '.') (hopp : isUpper (board.getPiece kr kc) ≠ wp) :
    positionToSquare kr kc ∈ generatePawnMoves board row col wp ↔
      kr = row + (if wp then -1 else 1) ∧ (kc = col + -1 ∨ kc = col + 1) := by
  unfold generatePawnMoves
  simp only [List.foldl_cons, List.foldl_nil]
  rw [pawn_capture_step board row col kr kc wp _ 1 _ hk hne hopp,
    pawn_capture_step board row col kr kc wp _ (-1) _ hk hne hopp]
  have hfwd : ∀ dir sr : Int, positionToSquare kr kc ∉
      (if row + dir ≥ 0 ∧ row + dir < 8 ∧ board.getPiece (row + dir) col = '.' then
        if row = sr then
          if row + 2 * dir ≥ 0 ∧ row + 2 * dir < 8 ∧
              board.getPiece (row + 2 * dir) col = '.' then
            [positionToSquare (row + dir) col] ++ [positionToSquare (row + 2 * dir) col]
          else [positionToSquare (row + dir) col]
        else [positionToSquare (row + dir) col]
      else []) := by
    have hsq : ∀ r1 : Int, board.getPiece r1 col = '.' →
        positionToSquare kr kc ≠ positionToSquare r1 col := by
      intro r1 he h
      have := positionToSquare_inj kr kc _ _ hk h
      rw [this.1, this.2] at hne
      exact hne he
    intro dir sr h
    by_cases h1 : row + dir ≥ 0 ∧ row + dir < 8 ∧ board.getPiece (row + dir) col = '.'
    · rw [if_pos h1] at h
      by_cases hs : row = sr
      · rw [if_pos hs] at h
        by_cases h2 : row + 2 * dir ≥ 0 ∧ row + 2 * dir < 8 ∧
            board.getPiece (row + 2 * dir) col = '.'
        · rw [if_pos h2, List.mem_append, List.mem_singleton, List.mem_singleton] at h
          rcases h with h | h
          · exact hsq _ h1.2.2 h
          · exact hsq _ h2.2.2 h
        · rw [if_neg h2, List.mem_singleton] at h
          exact hsq _ h1.2.2 h
      · rw [if_neg hs, List.mem_singleton] at h
        exact hsq _ h1.2.2 h
    · rw [if_neg h1] at h
      exact absurd h (List.not_mem_nil _)
  constructor
  · rintro ((h | h) | h)
    · exact absurd h (hfwd _ _)
    · exact ⟨h.1, Or.inl h.2⟩
    · exact ⟨h.1, Or.inr h.2⟩
  · rintro ⟨h1, h2 | h2⟩
    · exact Or.inl (Or.inr ⟨h1, h2⟩)
    · exact Or.inr ⟨h1, h2⟩


theorem king_target (board : Board) (row col kr kc : Int) (wp : Bool)
    (hk : isValidSquare kr kc = true)
    (hne : board.getPiece kr kc ≠ '.') (hopp : isUpper (board.getPiece kr kc) ≠ wp) :
    positionToSquare kr kc ∈ generateKingMoves board row col wp ↔
      (kr - row, kc - col) ∈
        ([(-1, -1), (-1, 0), (-1, 1), (0, -1), (0, 1), (1, -1), (1, 0), (1, 1)] :
          List (Int × Int)) := by
  have key : ∀ (X : List (List Char)) (c1 : Int), board.getPiece row c1 = '.' →
      (positionToSquare kr kc ∈ X ++ [positionToSquare row c1] ↔
        positionToSquare kr kc ∈ X) := by
    intro X c1 he
    rw [List.mem_append, List.mem_singleton]
    constructor
    · rintro (h | h)
      · exact h
      · have := positionToSquare_inj kr kc _ _ hk h
        rw [this.1, this.2] at hne
        exact absurd he hne
    · exact Or.inl
  rw [← stepMove_target board row col kr kc wp _ hk hopp]
  unfold generateKingMoves
  simp only []
  split
  · split
    · rename_i hQ
      split
      · rw [key _ _ hQ.2.2.1]
        split
        · rename_i hK
          split
          · rw [key _ _ hK.2.2]
          · rfl
        · rfl
      · split
        · rename_i hK
          split
          · rw [key _ _ hK.2.2]
          · rfl
        · rfl
    · split
      · rename_i hK
        split
        · rw [key _ _ hK.2.2]
        · rfl
      · rfl
  · rfl

theorem getPiece_dot_valid (b : Board) (r c : Int) (h : b.getPiece r c = '.') :
    isValidSquare r c = true := by
  cases hv : isValidSquare r c with
  | true => rfl
  | false =>
    rw [getPiece_invalid b r c (by simp [hv])] at h
    exact absurd h (by decide)

theorem reachedSquares_mem_iff (board : Board) (wp : Bool) (t : Int × Int)
    (htv : isValidSquare t.1 t.2 = true) (hne : board.getPiece t.1 t.2 ≠ '.')
    (hopp : isOpponentPiece (board.getPiece t.1 t.2) wp = true) :
    ∀ sqs : List (Int × Int), t ∈ reachedSquares board wp sqs ↔
      ∃ n : Nat, sqs[n]? = some t ∧
        ∀ m : Nat, m < n → ∀ s, sqs[m]? = some s → board.getPiece s.1 s.2 = '.' := by
  intro sqs
  induction sqs with
  | nil => simp [reachedSquares_nil]
  | cons sq rest ih =>
    by_cases hv : isValidSquare sq.1 sq.2 = true
    · by_cases he : board.getPiece sq.1 sq.2 = '.'
      · rw [reachedSquares_free board wp sq rest hv he, List.mem_cons, ih]
        constructor
        · rintro (h | ⟨n, hn, hall⟩)
          · rw [h] at hne; exact absurd he hne
          · refine ⟨n + 1, by simpa using hn, ?_⟩
            intro m hm s hs
            cases m with
            | zero =>
              simp only [List.getElem?_cons_zero, Option.some.injEq] at hs
              rw [← hs]; exact he
            | succ m =>
              simp only [List.getElem?_cons_succ] at hs
              exact hall m (by omega) s hs
        · rintro ⟨n, hn, hall⟩
          cases n with
          | zero =>
            simp only [List.getElem?_cons_zero, Option.some.injEq] at hn
            rw [← hn] at hne; exact absurd he hne
          | succ n =>
            right
            refine ⟨n, by simpa using hn, ?_⟩
            intro m hm s hs
            exact hall (m + 1) (by omega) s (by simpa using hs)
      · rw [reachedSquares_blocked board wp sq rest hv he]
        constructor
        · intro h
          split at h
          · rw [List.mem_singleton] at h
            exact ⟨0, by simp [h], fun m hm => absurd hm (Nat.not_lt_zero m)⟩
          · exact absurd h (List.not_mem_nil _)
        · rintro ⟨n, hn, hall⟩
          cases n with
          | zero =>
            simp only [List.getElem?_cons_zero, Option.some.injEq] at hn
            rw [hn, if_pos hopp, List.mem_singleton]
          | succ n =>
            exact absurd (hall 0 (by omega) sq (by simp)) he
    · rw [reachedSquares_invalid board wp sq rest (by simpa using hv)]
      constructor
      · intro h; exact absurd h (List.not_mem_nil _)
      · rintro ⟨n, hn, hall⟩
        cases n with
        | zero =>
          simp only [List.getElem?_cons_zero, Option.some.injEq] at hn
          rw [hn] at hv; exact absurd htv hv
        | succ n =>
          exact absurd (getPiece_dot_valid board _ _ (hall 0 (by omega) sq (by simp))) hv

theorem reachedSquares_valid (board : Board) (wp : Bool) :
    ∀ (sqs : List (Int × Int)) (s : Int × Int), s ∈ reachedSquares board wp sqs →
      isValidSquare s.1 s.2 = true := by
  intro sqs
  induction sqs with
  | nil => intro s h; exact absurd h (List.not_mem_nil _)
  | cons sq rest ih =>
    intro s h
    by_cases hv : isValidSquare sq.1 sq.2 = true
    · by_cases he : board.getPiece sq.1 sq.2 = '.'
      · rw [reachedSquares_free board wp sq rest hv he, List.mem_cons] at h
        rcases h with h | h
        · rw [h]; exact hv
        · exact ih s h
      · rw [reachedSquares_blocked board wp sq rest hv he] at h
        split at h
        · rw [List.mem_singleton] at h
          rw [h]; exact hv
        · exact absurd h (List.not_mem_nil _)
    · rw [reachedSquares_invalid board wp sq rest (by simpa using hv)] at h
      exact absurd h (List.not_mem_nil _)

theorem raySquares_getElem (n : Nat) (row col dr dc : Int) (k : Nat) (s : Int × Int) :
    (raySquares n row col dr dc)[k]? = some s ↔
      k < n ∧ s = (row + ((k : Int) + 1) * dr, col + ((k : Int) + 1) * dc) := by
  unfold raySquares
  rw [List.getElem?_map]
  by_cases hk : k < n
  · rw [List.getElem?_range hk]
    simp only [Option.map_some', Option.some.injEq, hk, true_and]
    exact eq_comm
  · rw [List.getElem?_eq_none (by simpa using hk)]
    simp [hk]


theorem clearLine_steps (board : Board) (row col kr kc : Int) (dir : Int × Int) (n : Nat)
    (hdir : dir ∈ ([(-1, 0), (1, 0), (0, -1), (0, 1), (-1, -1), (-1, 1), (1, -1), (1, 1)] :
      List (Int × Int)))
    (hv : isValidSquare row col = true) (hk : isValidSquare kr kc = true)
    (h : clearLine board row col dir n kr kc) : n < 7 := by
  rw [isValidSquare_iff] at hv hk
  obtain ⟨h1, h2, _⟩ := h
  simp only [List.mem_cons, List.mem_singleton, List.not_mem_nil, or_false] at hdir
  rcases hdir with e | e | e | e | e | e | e | e <;> subst e <;> simp only at h1 h2 <;> omega

theorem rayMoves_mem_iff (board : Board) (wp : Bool) (row col kr kc : Int) (dir : Int × Int)
    (hdir : dir ∈ ([(-1, 0), (1, 0), (0, -1), (0, 1), (-1, -1), (-1, 1), (1, -1), (1, 1)] :
      List (Int × Int)))
    (hv : isValidSquare row col = true) (hk : isValidSquare kr kc = true)
    (hne : board.getPiece kr kc ≠ '.')
    (hopp : isOpponentPiece (board.getPiece kr kc) wp = true) :
    positionToSquare kr kc ∈ rayMoves board wp row col dir ↔
      ∃ n : Nat, clearLine board row col dir n kr kc := by
  unfold rayMoves
  rw [List.mem_map]
  constructor
  · rintro ⟨s, hs, heq⟩
    have hsv := reachedSquares_valid board wp _ s hs
    have e := positionToSquare_inj s.1 s.2 kr kc hsv heq
    have es : s = (kr, kc) := by ext <;> simp only [e.1, e.2]
    rw [es] at hs
    obtain ⟨n, hn, hall⟩ := (reachedSquares_mem_iff board wp (kr, kc) hk hne hopp _).1 hs
    rw [raySquares_getElem] at hn
    refine ⟨n, congrArg Prod.fst hn.2, congrArg Prod.snd hn.2, ?_⟩
    intro m hm
    exact hall m hm _ ((raySquares_getElem _ _ _ _ _ _ _).2 ⟨by omega, rfl⟩)
  · rintro ⟨n, hcl⟩
    have hn7 := clearLine_steps board row col kr kc dir n hdir hv hk hcl
    refine ⟨(kr, kc), ?_, rfl⟩
    rw [reachedSquares_mem_iff board wp (kr, kc) hk hne hopp]
    refine ⟨n, (raySquares_getElem _ _ _ _ _ _ _).2 ⟨hn7, by rw [hcl.1, hcl.2.1]⟩, ?_⟩
    intro m hm s hs
    rw [raySquares_getElem] at hs
    rw [hs.2]
    exact hcl.2.2 m hm

theorem isPathClearLoop_iff (g : List (List Char)) (tr tc dr dc : Int) :
    ∀ (fuel : Nat) (r c : Int),
      isPathClearLoop g tr tc dr dc fuel r c = some true ↔
        ∃ n : Nat, n < fuel ∧ r + (n : Int) * dr = tr ∧ c + (n : Int) * dc = tc ∧
          ∀ m : Nat, m < n → cellAt g (r + (m : Int) * dr) (c + (m : Int) * dc) = '.' ∧
            ¬(r + (m : Int) * dr = tr ∧ c + (m : Int) * dc = tc) := by
  intro fuel
  induction fuel with
  | zero =>
    intro r c
    simp [isPathClearLoop]
  | succ fuel ih =>
    intro r c
    simp only [isPathClearLoop]
    by_cases hat : r ≠ tr ∨ c ≠ tc
    · rw [if_pos hat]
      by_cases hcell : cellAt g r c ≠ '.'
      · rw [if_pos hcell]
        constructor
        · intro h; exact absurd h (by simp)
        · rintro ⟨n, _, h1, h2, hall⟩
          cases n with
          | zero =>
            simp only [Nat.cast_zero, zero_mul, add_zero] at h1 h2
            exact absurd h1 (by rcases hat with h | h; exact h; rw [h1] at *; exact fun _ => h h2)
          | succ n =>
            have := (hall 0 (by omega)).1
            simp only [Nat.cast_zero, zero_mul, add_zero] at this
            exact absurd this hcell
      · rw [if_neg hcell, ih]
        have hc0 : cellAt g r c = '.' := by simpa using hcell
        constructor
        · rintro ⟨n, hn, h1, h2, hall⟩
          refine ⟨n + 1, by omega, by push_cast; rw [← h1]; ring, by push_cast; rw [← h2]; ring,
            ?_⟩
          intro m hm
          cases m with
          | zero =>
            simp only [Nat.cast_zero, zero_mul, add_zero]
            exact ⟨hc0, fun h => by rcases hat with h3 | h3; exact h3 h.1; exact h3 h.2⟩
          | succ m =>
            have := hall m (by omega)
            have e1 : r + ((m + 1 : Nat) : Int) * dr = r + dr + (m : Int) * dr := by
              push_cast; ring
            have e2 : c + ((m + 1 : Nat) : Int) * dc = c + dc + (m : Int) * dc := by
              push_cast; ring
            rw [e1, e2]
            exact this
        · rintro ⟨n, hn, h1, h2, hall⟩
          cases n with
          | zero =>
            simp only [Nat.cast_zero, zero_mul, add_zero] at h1 h2
            rcases hat with h3 | h3
            · exact absurd h1 h3
            · exact absurd h2 h3
          | succ n =>
            refine ⟨n, by omega, by rw [← h1]; push_cast; ring, by rw [← h2]; push_cast; ring,
              ?_⟩
            intro m hm
            have := hall (m + 1) (by omega)
            have e1 : r + ((m + 1 : Nat) : Int) * dr = r + dr + (m : Int) * dr := by
              push_cast; ring
            have e2 : c + ((m + 1 : Nat) : Int) * dc = c + dc + (m : Int) * dc := by
              push_cast; ring
            rw [e1, e2] at this
            exact this
    · rw [if_neg hat]
      have hat2 : r = tr ∧ c = tc := by
        constructor
        · by_contra h; exact hat (Or.inl h)
        · by_contra h; exact hat (Or.inr h)
      simp only [true_iff]
      exact ⟨0, by omega, by simp [hat2.1], by simp [hat2.2],
        fun m hm => absurd hm (Nat.not_lt_zero m)⟩

theorem isPathClear_iff (b : Board) (i j kr kc : Int)
    (hv : isValidSquare i j = true) (hk : isValidSquare kr kc = true)
    (hne : ¬(i = kr ∧ j = kc)) :
    b.isPathClear i j kr kc = some true ↔
      ∃ n : Nat, clearLine b i j
        ((if kr > i then 1 else if kr < i then -1 else 0),
         (if kc > j then 1 else if kc < j then -1 else 0)) n kr kc := by
  unfold Board.isPathClear
  simp only []
  rw [isPathClearLoop_iff]
  rw [isValidSquare_iff] at hv hk
  obtain ⟨sr, hsr⟩ : ∃ sr : Int, sr = (if kr > i then 1 else if kr < i then -1 else 0) :=
    ⟨_, rfl⟩
  obtain ⟨sc, hsc⟩ : ∃ sc : Int, sc = (if kc > j then 1 else if kc < j then -1 else 0) :=
    ⟨_, rfl⟩
  have hsr1 : (sr = 1 ∧ kr > i) ∨ (sr = -1 ∧ kr < i) ∨ (sr = 0 ∧ kr = i) := by
    rw [hsr]; split_ifs <;> omega
  have hsc1 : (sc = 1 ∧ kc > j) ∨ (sc = -1 ∧ kc < j) ∨ (sc = 0 ∧ kc = j) := by
    rw [hsc]; split_ifs <;> omega
  rw [← hsr, ← hsc]
  unfold clearLine
  simp only []
  constructor
  · rintro ⟨n, hn, h1, h2, hall⟩
    refine ⟨n, by rw [← h1]; ring, by rw [← h2]; ring, ?_⟩
    intro m hm
    have hm1 := hall m hm
    have e1 : i + ((m : Int) + 1) * sr = i + sr + (m : Int) * sr := by ring
    have e2 : j + ((m : Int) + 1) * sc = j + sc + (m : Int) * sc := by ring
    rw [e1, e2]
    rw [getPiece_valid]
    · exact hm1.1
    · rw [isValidSquare_iff]
      have hmn : (m : Int) < n := by exact_mod_cast hm
      rcases hsr1 with ⟨e, _⟩ | ⟨e, _⟩ | ⟨e, _⟩ <;> rcases hsc1 with ⟨f, _⟩ | ⟨f, _⟩ | ⟨f, _⟩ <;>
        subst e <;> subst f <;> simp only [mul_one, mul_neg, mul_zero, add_zero] at h1 h2 ⊢ <;>
        omega
  · rintro ⟨n, h1, h2, hall⟩
    have hn8 : n < 8 := by
      rcases hsr1 with ⟨e, _⟩ | ⟨e, _⟩ | ⟨e, _⟩ <;> rcases hsc1 with ⟨f, _⟩ | ⟨f, _⟩ | ⟨f, _⟩ <;>
        subst e <;> subst f <;> simp only [mul_one, mul_neg, mul_zero, add_zero] at h1 h2 <;>
        omega
    refine ⟨n, hn8, by rw [h1]; ring, by rw [h2]; ring, ?_⟩
    intro m hm
    have hm1 := hall m hm
    have e1 : i + ((m : Int) + 1) * sr = i + sr + (m : Int) * sr := by ring
    have e2 : j + ((m : Int) + 1) * sc = j + sc + (m : Int) * sc := by ring
    rw [e1, e2] at hm1
    refine ⟨?_, ?_⟩
    · rw [← getPiece_valid _ _ _ (getPiece_dot_valid _ _ _ hm1)]
      exact hm1
    · have hmn : (m : Int) < n := by exact_mod_cast hm
      rcases hsr1 with ⟨e, _⟩ | ⟨e, _⟩ | ⟨e, _⟩ <;> rcases hsc1 with ⟨f, _⟩ | ⟨f, _⟩ | ⟨f, _⟩ <;>
        subst e <;> subst f <;> simp only [mul_one, mul_neg, mul_zero, add_zero] at h1 h2 ⊢ <;>
        omega

theorem clearLine_sign (b : Board) (i j kr kc : Int) (dir : Int × Int) (n : Nat)
    (hdir : dir ∈ ([(-1, 0), (1, 0), (0, -1), (0, 1), (-1, -1), (-1, 1), (1, -1), (1, 1)] :
      List (Int × Int)))
    (h : clearLine b i j dir n kr kc) :
    dir = ((if kr > i then 1 else if kr < i then -1 else 0),
           (if kc > j then 1 else if kc < j then -1 else 0)) := by
  obtain ⟨h1, h2, _⟩ := h
  simp only [List.mem_cons, List.mem_singleton, List.not_mem_nil, or_false] at hdir
  rcases hdir with e | e | e | e | e | e | e | e <;> subst e <;>
    simp only [mul_one, mul_neg, mul_zero, add_zero] at h1 h2 <;>
    ext <;> simp only <;> split_ifs <;> omega

theorem lines_iff (b : Board) (i j kr kc : Int) (D : List (Int × Int))
    (hD : ∀ dir ∈ D, dir ∈ ([(-1, 0), (1, 0), (0, -1), (0, 1), (-1, -1), (-1, 1), (1, -1),
      (1, 1)] : List (Int × Int))) :
    (∃ dir ∈ D, ∃ n : Nat, clearLine b i j dir n kr kc) ↔
      (((if kr > i then 1 else if kr < i then -1 else 0),
        (if kc > j then 1 else if kc < j then -1 else 0)) ∈ D ∧
       ∃ n : Nat, clearLine b i j
        ((if kr > i then 1 else if kr < i then -1 else 0),
         (if kc > j then 1 else if kc < j then -1 else 0)) n kr kc) := by
  constructor
  · rintro ⟨dir, hd, n, hn⟩
    have e := clearLine_sign b i j kr kc dir n (hD dir hd) hn
    rw [← e]
    exact ⟨hd, n, hn⟩
  · rintro ⟨hd, n, hn⟩
    exact ⟨_, hd, n, hn⟩

theorem attack_rook (b : Board) (i j kr kc : Int)
    (hv : isValidSquare i j = true) (hk : isValidSquare kr kc = true)
    (hne : ¬(i = kr ∧ j = kc)) :
    (decide (kr - i = 0 ∨ kc - j = 0) && (b.isPathClear i j kr kc == some true)) = true ↔
      ∃ dir ∈ ([(-1, 0), (1, 0), (0, -1), (0, 1)] : List (Int × Int)),
        ∃ n : Nat, clearLine b i j dir n kr kc := by
  rw [lines_iff b i j kr kc _ (by decide), Bool.and_eq_true, decide_eq_true_eq,
    beq_iff_eq, isPathClear_iff b i j kr kc hv hk hne]
  apply and_congr_left
  intro _
  simp only [List.mem_cons, List.mem_singleton, List.not_mem_nil, or_false, Prod.mk.injEq]
  split_ifs <;> first | omega | (simp; omega)

theorem attack_bishop (b : Board) (i j kr kc : Int)
    (hv : isValidSquare i j = true) (hk : isValidSquare kr kc = true)
    (hne : ¬(i = kr ∧ j = kc)) :
    (decide ((kr - i).natAbs = (kc - j).natAbs) &&
        (b.isPathClear i j kr kc == some true)) = true ↔
      ∃ dir ∈ ([(-1, -1), (-1, 1), (1, -1), (1, 1)] : List (Int × Int)),
        ∃ n : Nat, clearLine b i j dir n kr kc := by
  rw [lines_iff b i j kr kc _ (by decide), Bool.and_eq_true, decide_eq_true_eq,
    beq_iff_eq, isPathClear_iff b i j kr kc hv hk hne]
  constructor
  · rintro ⟨h1, h2⟩
    refine ⟨?_, h2⟩
    simp only [List.mem_cons, List.mem_singleton, List.not_mem_nil, or_false, Prod.mk.injEq]
    split_ifs <;> omega
  · rintro ⟨h1, n, h2⟩
    refine ⟨?_, n, h2⟩
    obtain ⟨e1, e2, _⟩ := h2
    simp only [List.mem_cons, List.mem_singleton, List.not_mem_nil, or_false,
      Prod.mk.injEq] at h1
    split_ifs at h1 e1 e2 <;> simp only [mul_one, mul_neg, mul_zero, add_zero] at e1 e2 <;>
      first | omega | (simp at h1)

theorem attack_queen (b : Board) (i j kr kc : Int)
    (hv : isValidSquare i j = true) (hk : isValidSquare kr kc = true)
    (hne : ¬(i = kr ∧ j = kc)) :
    (decide ((kr - i = 0 ∨ kc - j = 0) ∨ (kr - i).natAbs = (kc - j).natAbs) &&
        (b.isPathClear i j kr kc == some true)) = true ↔
      ∃ dir ∈ ([(-1, 0), (1, 0), (0, -1), (0, 1), (-1, -1), (-1, 1), (1, -1), (1, 1)] :
          List (Int × Int)),
        ∃ n : Nat, clearLine b i j dir n kr kc := by
  rw [lines_iff b i j kr kc _ (fun _ h => h), Bool.and_eq_true, decide_eq_true_eq,
    beq_iff_eq, isPathClear_iff b i j kr kc hv hk hne]
  constructor
  · rintro ⟨h1, h2⟩
    refine ⟨?_, h2⟩
    simp only [List.mem_cons, List.mem_singleton, List.not_mem_nil, or_false, Prod.mk.injEq]
    split_ifs <;> omega
  · rintro ⟨h1, n, h2⟩
    refine ⟨?_, n, h2⟩
    obtain ⟨e1, e2, _⟩ := h2
    split_ifs at e1 e2 <;> simp only [mul_one, mul_neg, mul_zero, add_zero] at e1 e2 <;>
      omega

theorem pseudo_pawn (board : Board) (row col : Int)
    (hp : board.getPiece row col = 'P' ∨ board.getPiece row col = 'p') :
    generatePseudoLegalMoves board row col =
      generatePawnMoves board row col (isWhitePiece (board.getPiece row col)) := by
  unfold generatePseudoLegalMoves
  rcases hp with h | h <;> rw [h] <;> rfl

theorem pseudo_knight (board : Board) (row col : Int)
    (hp : board.getPiece row col = 'N' ∨ board.getPiece row col = 'n') :
    generatePseudoLegalMoves board row col =
      generateKnightMoves board row col (isWhitePiece (board.getPiece row col)) := by
  unfold generatePseudoLegalMoves
  rcases hp with h | h <;> rw [h] <;> rfl

theorem pseudo_king (board : Board) (row col : Int)
    (hp : board.getPiece row col = 'K' ∨ board.getPiece row col = 'k') :
    generatePseudoLegalMoves board row col =
      generateKingMoves board row col (isWhitePiece (board.getPiece row col)) := by
  unfold generatePseudoLegalMoves
  rcases hp with h | h <;> rw [h] <;> rfl

theorem knight_case (b : Board) (i j kr kc : Int) (wp : Bool)
    (hk : isValidSquare kr kc = true) (hopp : isUpper (b.getPiece kr kc) ≠ wp) :
    decide (((kr - i).natAbs = 2 ∧ (kc - j).natAbs = 1) ∨
        ((kr - i).natAbs = 1 ∧ (kc - j).natAbs = 2)) = true ↔
      positionToSquare kr kc ∈ generateKnightMoves b i j wp := by
  unfold generateKnightMoves
  rw [stepMove_target b i j kr kc wp _ hk hopp, decide_eq_true_eq]
  generalize kr - i = a
  generalize kc - j = c
  simp only [List.mem_cons, List.mem_singleton, List.not_mem_nil, or_false, Prod.mk.injEq]
  constructor
  · rintro (⟨h1, h2⟩ | ⟨h1, h2⟩)
    · have ha : a = 2 ∨ a = -2 := by omega
      have hc : c = 1 ∨ c = -1 := by omega
      rcases ha with e | e <;> rcases hc with f | f <;> subst e <;> subst f <;> simp
    · have ha : a = 1 ∨ a = -1 := by omega
      have hc : c = 2 ∨ c = -2 := by omega
      rcases ha with e | e <;> rcases hc with f | f <;> subst e <;> subst f <;> simp
  · rintro (⟨e, f⟩ | ⟨e, f⟩ | ⟨e, f⟩ | ⟨e, f⟩ | ⟨e, f⟩ | ⟨e, f⟩ | ⟨e, f⟩ | ⟨e, f⟩) <;>
      subst e <;> subst f <;> decide

theorem king_case (b : Board) (i j kr kc : Int) (wp : Bool)
    (hk : isValidSquare kr kc = true) (hne : b.getPiece kr kc ≠ '.')
    (hopp : isUpper (b.getPiece kr kc) ≠ wp) (hd : ¬(i = kr ∧ j = kc)) :
    decide ((kr - i).natAbs ≤ 1 ∧ (kc - j).natAbs ≤ 1) = true ↔
      positionToSquare kr kc ∈ generateKingMoves b i j wp := by
  rw [king_target b i j kr kc wp hk hne hopp, decide_eq_true_eq]
  simp only [List.mem_cons, List.mem_singleton, List.not_mem_nil, or_false, Prod.mk.injEq]
  omega

theorem pawn_case (b : Board) (i j kr kc : Int) (wp : Bool)
    (hk : isValidSquare kr kc = true) (hne : b.getPiece kr kc ≠ '.')
    (hopp : isUpper (b.getPiece kr kc) ≠ wp) :
    decide (kr - i = (if wp then -1 else 1) ∧ (kc - j).natAbs = 1) = true ↔
      positionToSquare kr kc ∈ generatePawnMoves b i j wp := by
  rw [pawn_target b i j kr kc wp hk hne hopp, decide_eq_true_eq]
  omega

theorem rays_mem (b : Board) (i j kr kc : Int) (wp : Bool) (D : List (Int × Int))
    (hD : ∀ dir ∈ D, dir ∈ ([(-1, 0), (1, 0), (0, -1), (0, 1), (-1, -1), (-1, 1), (1, -1),
      (1, 1)] : List (Int × Int)))
    (hv : isValidSquare i j = true) (hk : isValidSquare kr kc = true)
    (hne : b.getPiece kr kc ≠ '.')
    (hopp : isOpponentPiece (b.getPiece kr kc) wp = true) :
    positionToSquare kr kc ∈ D.flatMap (rayMoves b wp i j) ↔
      ∃ dir ∈ D, ∃ n : Nat, clearLine b i j dir n kr kc := by
  rw [List.mem_flatMap]
  constructor
  · rintro ⟨dir, hd, h⟩
    exact ⟨dir, hd, (rayMoves_mem_iff b wp i j kr kc dir (hD dir hd) hv hk hne hopp).1 h⟩
  · rintro ⟨dir, hd, h⟩
    exact ⟨dir, hd, (rayMoves_mem_iff b wp i j kr kc dir (hD dir hd) hv hk hne hopp).2 h⟩

/-- A piece attacks a square that holds an enemy piece exactly when the square is among
its pseudo-legal destinations. -/
theorem attack_iff_destination (b : Board) (hg : gridOK b.board_ = true)
    (hc : cellsOK b.board_ = true) (i j kr kc : Int)
    (hv : isValidSquare i j = true) (hk : isValidSquare kr kc = true)
    (hd : ¬(i = kr ∧ j = kc)) (hp : b.getPiece i j ∈ pieceLetters)
    (hne : b.getPiece kr kc ≠ '.')
    (hopp : isOpponentPiece (b.getPiece kr kc) (isWhitePiece (b.getPiece i j)) = true) :
    b.canPieceAttackSquare (b.getPiece i j) i j kr kc = true ↔
      positionToSquare kr kc ∈ generatePseudoLegalMoves b i j := by
  have ht : b.getPiece kr kc ∈ pieceLetters := by
    rw [getPiece_valid b kr kc hk] at hne ⊢
    rcases cell_piece_or_dot hg hc kr kc hk with h | h
    · exact h
    · exact absurd h hne
  have hup := (opponent_iff_case _ (isWhitePiece (b.getPiece i j)) ht).2 hopp
  simp only [pieceLetters, WHITE_PIECES, BLACK_PIECES, List.cons_append, List.nil_append,
    List.mem_cons, List.mem_singleton, List.not_mem_nil, or_false] at hp
  rcases hp with h | h | h | h | h | h | h | h | h | h | h | h
  · rw [pseudo_pawn b i j (Or.inl h)]
    rw [h] at hup hopp ⊢
    exact pawn_case b i j kr kc true hk hne hup
  · rw [pseudo_knight b i j (Or.inl h)]
    rw [h] at hup hopp ⊢
    exact knight_case b i j kr kc true hk hup
  · rw [pseudo_bishop b i j (Or.inl h), generateBishopMoves_eq_rays b _ i j hg hc hv,
      rays_mem b i j kr kc _ _ (by decide) hv hk hne hopp, h]
    exact attack_bishop b i j kr kc hv hk hd
  · rw [pseudo_rook b i j (Or.inl h), generateRookMoves_eq_rays b _ i j hg hc hv,
      rays_mem b i j kr kc _ _ (by decide) hv hk hne hopp, h]
    exact attack_rook b i j kr kc hv hk hd
  · rw [pseudo_queen b i j (Or.inl h)]
    unfold generateQueenMoves
    rw [generateRookMoves_eq_rays b _ i j hg hc hv,
      generateBishopMoves_eq_rays b _ i j hg hc hv, ← List.flatMap_append,
      rays_mem b i j kr kc _ _ (by decide) hv hk hne hopp, h]
    exact attack_queen b i j kr kc hv hk hd
  · rw [pseudo_king b i j (Or.inl h)]
    rw [h] at hup hopp ⊢
    exact king_case b i j kr kc true hk hne hup hd
  · rw [pseudo_pawn b i j (Or.inr h)]
    rw [h] at hup hopp ⊢
    exact pawn_case b i j kr kc false hk hne hup
  · rw [pseudo_knight b i j (Or.inr h)]
    rw [h] at hup hopp ⊢
    exact knight_case b i j kr kc false hk hup
  · rw [pseudo_bishop b i j (Or.inr h), generateBishopMoves_eq_rays b _ i j hg hc hv,
      rays_mem b i j kr kc _ _ (by decide) hv hk hne hopp, h]
    exact attack_bishop b i j kr kc hv hk hd
  · rw [pseudo_rook b i j (Or.inr h), generateRookMoves_eq_rays b _ i j hg hc hv,
      rays_mem b i j kr kc _ _ (by decide) hv hk hne hopp, h]
    exact attack_rook b i j kr kc hv hk hd
  · rw [pseudo_queen b i j (Or.inr h)]
    unfold generateQueenMoves
    rw [generateRookMoves_eq_rays b _ i j hg hc hv,
      generateBishopMoves_eq_rays b _ i j hg hc hv, ← List.flatMap_append,
      rays_mem b i j kr kc _ _ (by decide) hv hk hne hopp, h]
    exact attack_queen b i j kr kc hv hk hd
  · rw [pseudo_king b i j (Or.inr h)]
    rw [h] at hup hopp ⊢
    exact king_case b i j kr kc false hk hne hup hd

theorem opponent_letter_facts (p : Char) (c : Bool) (hp : p ∈ pieceLetters ∨ p = '.') :
    ((¬(p = '.' ∨ isFriendlyPiece p c = true)) ↔ isOpponentPiece p c = true) ∧
    (isOpponentPiece p c = true →
      p ∈ pieceLetters ∧ p ≠ (if c then 'K' else 'k') ∧
      isOpponentPiece (if c then 'K' else 'k') (isWhitePiece p) = true) := by
  simp only [pieceLetters, WHITE_PIECES, BLACK_PIECES, List.cons_append, List.nil_append,
    List.mem_cons, List.mem_singleton, List.not_mem_nil, or_false] at hp
  rcases hp with (h | h | h | h | h | h | h | h | h | h | h | h) | h <;> subst h <;>
    cases c <;> decide

theorem isInCheck_no_king (b : Board) (c : Bool)
    (h : ∀ i j : Nat, i < 8 → j < 8 → b.getPiece i j ≠ (if c then 'K' else 'k')) :
    b.isInCheck c = false := by
  unfold Board.isInCheck
  simp only []
  rw [findKing_none b.board_ _ (fun i j hi hj => by
    have := h i j hi hj
    rwa [getPiece_valid b i j ((isValidSquare_iff _ _).2 (by omega))] at this)]
  simp

theorem isInCheck_iff (b : Board) (c : Bool) (hg : gridOK b.board_ = true)
    (hc : cellsOK b.board_ = true) (kr kc : Nat) (hr : kr < 8) (hcol : kc < 8)
    (hking : b.getPiece kr kc = (if c then 'K' else 'k'))
    (hfirst : ∀ i j : Nat, i < 8 → j < 8 → (i < kr ∨ (i = kr ∧ j < kc)) →
      b.getPiece i j ≠ (if c then 'K' else 'k')) :
    b.isInCheck c = true ↔
      ∃ i j : Nat, i < 8 ∧ j < 8 ∧ isOpponentPiece (b.getPiece i j) c = true ∧
        positionToSquare kr kc ∈ generatePseudoLegalMoves b i j := by
  have hval : ∀ i j : Nat, i < 8 → j < 8 → isValidSquare i j = true :=
    fun i j hi hj => (isValidSquare_iff _ _).2 (by omega)
  have hcell : ∀ i j : Nat, i < 8 → j < 8 → cellAt b.board_ i j = b.getPiece i j :=
    fun i j hi hj => (getPiece_valid b i j (hval i j hi hj)).symm
  have hk := findKing_first b.board_ (if c then 'K' else 'k') kr kc hr hcol
    (by rw [hcell kr kc hr hcol]; exact hking)
    (fun i j hi hj hlt => by rw [hcell i j hi hj]; exact hfirst i j hi hj hlt)
  unfold Board.isInCheck
  simp only []
  rw [hk]
  have hk1 : ¬((kr : Int) = -1) := by omega
  simp only [hk1, if_false, List.any_eq_true, List.mem_range]
  constructor
  · rintro ⟨i, hi, j, hj, h⟩
    refine ⟨i, j, hi, hj, ?_⟩
    rw [hcell i j hi hj] at h
    have hp : b.getPiece i j ∈ pieceLetters ∨ b.getPiece i j = '.' := by
      rw [← hcell i j hi hj]; exact cell_piece_or_dot hg hc i j (hval i j hi hj)
    have hf := opponent_letter_facts _ c hp
    by_cases hfr : b.getPiece i j = '.' ∨ isFriendlyPiece (b.getPiece i j) c = true
    · rw [if_pos hfr] at h
      exact absurd h (by simp)
    · rw [if_neg hfr] at h
      have hopp := hf.1.1 hfr
      obtain ⟨hl, hnk, hko⟩ := hf.2 hopp
      refine ⟨hopp, ?_⟩
      rw [← hking] at hko hnk
      exact (attack_iff_destination b hg hc i j kr kc (hval i j hi hj) (hval kr kc hr hcol)
        (fun e => hnk (by rw [e.1, e.2])) hl
        (by rw [hking]; cases c <;> decide) hko).1 h
  · rintro ⟨i, j, hi, hj, hopp, hmem⟩
    refine ⟨i, hi, j, hj, ?_⟩
    rw [hcell i j hi hj]
    have hp : b.getPiece i j ∈ pieceLetters ∨ b.getPiece i j = '.' := by
      rw [← hcell i j hi hj]; exact cell_piece_or_dot hg hc i j (hval i j hi hj)
    have hf := opponent_letter_facts _ c hp
    rw [if_neg (hf.1.2 hopp)]
    obtain ⟨hl, hnk, hko⟩ := hf.2 hopp
    rw [← hking] at hko hnk
    exact (attack_iff_destination b hg hc i j kr kc (hval i j hi hj) (hval kr kc hr hcol)
      (fun e => hnk (by rw [e.1, e.2])) hl
      (by rw [hking]; cases c <;> decide) hko).2 hmem

/-! ## Claim on check detection -/

/-- C29: on a board of 8 x 8 cells that are piece letters or `.`, `isInCheck(c)` is false
when no king of colour `c` is on the board; otherwise, with `(kr, kc)` the first square
in row-major order that holds the king of colour `c`, it is true exactly when some piece
of the other colour has that square among its `generatePseudoLegalMoves` destinations.
In particular a rook, bishop or queen attacks another square exactly when the square lies
on one of its lines (orthogonal for the rook, diagonal for the bishop, either for the
queen) and every square strictly between them is empty. -/
theorem check_detection_agrees_with_geometry (b : Board) (c : Bool)
    (hg : gridOK b.board_ = true) (hc : cellsOK b.board_ = true) :
    ((∀ i j : Nat, i < 8 → j < 8 → b.getPiece i j ≠ (if c then 'K' else 'k')) →
      b.isInCheck c = false) ∧
    (∀ kr kc : Nat, kr < 8 → kc < 8 → b.getPiece kr kc = (if c then 'K' else 'k') →
      (∀ i j : Nat, i < 8 → j < 8 → (i < kr ∨ (i = kr ∧ j < kc)) →
        b.getPiece i j ≠ (if c then 'K' else 'k')) →
      (b.isInCheck c = true ↔
        ∃ i j : Nat, i < 8 ∧ j < 8 ∧ isOpponentPiece (b.getPiece i j) c = true ∧
          positionToSquare kr kc ∈ generatePseudoLegalMoves b i j)) ∧
    (∀ i j kr kc : Nat, i < 8 → j < 8 → kr < 8 → kc < 8 → ¬(i = kr ∧ j = kc) →
      ((b.getPiece i j = 'R' ∨ b.getPiece i j = 'r') →
        (b.canPieceAttackSquare (b.getPiece i j) i j kr kc = true ↔
          ∃ dir ∈ ([(-1, 0), (1, 0), (0, -1), (0, 1)] : List (Int × Int)),
            ∃ n : Nat, clearLine b i j dir n kr kc)) ∧
      ((b.getPiece i j = 'B' ∨ b.getPiece i j = 'b') →
        (b.canPieceAttackSquare (b.getPiece i j) i j kr kc = true ↔
          ∃ dir ∈ ([(-1, -1), (-1, 1), (1, -1), (1, 1)] : List (Int × Int)),
            ∃ n : Nat, clearLine b i j dir n kr kc)) ∧
      ((b.getPiece i j = 'Q' ∨ b.getPiece i j = 'q') →
        (b.canPieceAttackSquare (b.getPiece i j) i j kr kc = true ↔
          ∃ dir ∈ ([(-1, 0), (1, 0), (0, -1), (0, 1), (-1, -1), (-1, 1), (1, -1), (1, 1)] :
              List (Int × Int)),
            ∃ n : Nat, clearLine b i j dir n kr kc))) := by
  refine ⟨isInCheck_no_king b c, ?_, ?_⟩
  · intro kr kc hr hcol hking hfirst
    exact isInCheck_iff b c hg hc kr kc hr hcol hking hfirst
  · intro i j kr kc hi hj hr hcol hd
    have hv : isValidSquare i j = true := (isValidSquare_iff _ _).2 (by omega)
    have hk : isValidSquare kr kc = true := (isValidSquare_iff _ _).2 (by omega)
    have hd1 : ¬((i : Int) = kr ∧ (j : Int) = kc) := by omega
    refine ⟨?_, ?_, ?_⟩
    · rintro (h | h) <;> rw [h]
      · exact attack_rook b i j kr kc hv hk hd1
      · exact attack_rook b i j kr kc hv hk hd1
    · rintro (h | h) <;> rw [h]
      · exact attack_bishop b i j kr kc hv hk hd1
      · exact attack_bishop b i j kr kc hv hk hd1
    · rintro (h | h) <;> rw [h]
      · exact attack_queen b i j kr kc hv hk hd1
      · exact attack_queen b i j kr kc hv hk hd1

set_option maxRecDepth 1000000 in
/-- Witness for C29: after the fool's-mate plies the white king on e1 is in check, and
the black queen on h4 has e1 among its destinations. -/
theorem check_detection_agrees_with_geometry_witness :
    gridOK foolsMate.board_ = true ∧ cellsOK foolsMate.board_ = true ∧
    foolsMate.isInCheck true = true ∧
    isOpponentPiece (foolsMate.getPiece 4 7) true = true ∧
    positionToSquare 7 4 ∈ generatePseudoLegalMoves foolsMate 4 7 ∧
    (foolsMate.isInCheck true = true ↔
      ∃ i j : Nat, i < 8 ∧ j < 8 ∧ isOpponentPiece (foolsMate.getPiece i j) true = true ∧
        positionToSquare (7 : Nat) (4 : Nat) ∈ generatePseudoLegalMoves foolsMate i j) :=
  ⟨by decide, by decide, by decide, by decide, by decide,
   (check_detection_agrees_with_geometry foolsMate true (by decide) (by decide)).2.1 7 4
     (by decide) (by decide) (by decide)
     (fun i j hi hj hlt =>
       (by decide : ∀ i ∈ List.range 8, ∀ j ∈ List.range 8, (i < 7 ∨ (i = 7 ∧ j < 4)) →
         foolsMate.getPiece (i : Nat) (j : Nat) ≠ (if true = true then 'K' else 'k'))
       i (List.mem_range.2 hi) j (List.mem_range.2 hj) hlt)⟩

/-! ## Helper lemmas: the number of pieces -/

theorem rowMajorSquares_nodup : rowMajorSquares.Nodup := by decide

theorem pieceCount_setCell (g : List (List Char)) (hg : gridOK g = true) (r c : Int)
    (v : Char) (hv : isValidSquare r c = true) :
    pieceCount (setCell g r c v) + (if cellAt g r c ≠ '.' then 1 else 0) =
      pieceCount g + (if v ≠ '.' then 1 else 0) := by
  rw [isValidSquare_iff] at hv
  have hmem : (r.toNat, c.toNat) ∈ rowMajorSquares :=
    mem_rowMajorSquares _ _ (by omega) (by omega)
  have er : ((r.toNat : Nat) : Int) = r := Int.toNat_of_nonneg hv.1
  have ec : ((c.toNat : Nat) : Int) = c := Int.toNat_of_nonneg hv.2.2.1
  obtain ⟨rest, hperm⟩ : ∃ rest, rowMajorSquares.Perm ((r.toNat, c.toNat) :: rest) :=
    ⟨_, List.perm_cons_erase hmem⟩
  have hnd : (r.toNat, c.toNat) ∉ rest :=
    (List.nodup_cons.1 (hperm.nodup_iff.1 rowMajorSquares_nodup)).1
  unfold pieceCount
  rw [hperm.countP_eq, hperm.countP_eq, List.countP_cons, List.countP_cons]
  have hrest : rest.countP (fun sq => decide (cellAt (setCell g r c v) sq.1 sq.2 ≠ '.')) =
      rest.countP (fun sq => decide (cellAt g sq.1 sq.2 ≠ '.')) := by
    apply List.countP_congr
    intro sq hsq
    have hne : sq ≠ (r.toNat, c.toNat) := fun h => hnd (h ▸ hsq)
    rw [cellAt_setCell_ne g r c sq.1 sq.2 v (by
      intro h
      apply hne
      ext
      · simp only; omega
      · simp only; omega)]
  rw [hrest]
  simp only [er, ec]
  rw [cellAt_setCell_same g hg r c v ((isValidSquare_iff _ _).2 hv)]
  by_cases h1 : cellAt g r c ≠ '.' <;> by_cases h2 : v ≠ '.' <;> simp [h1, h2]

theorem pieceCount_setCell_invalid (g : List (List Char)) (r c : Int) (v : Char)
    (hv : isValidSquare r c = false) : pieceCount (setCell g r c v) = pieceCount g := by
  unfold pieceCount
  apply List.countP_congr
  intro sq hsq
  have hb := rowMajor_bound sq hsq
  rw [cellAt_setCell_ne g r c sq.1 sq.2 v (by
    intro h
    have : isValidSquare r c = true := (isValidSquare_iff _ _).2 (by omega)
    rw [hv] at this
    exact absurd this (by decide))]

theorem pieceCount_setCell_dot (g : List (List Char)) (hg : gridOK g = true) (r c : Int) :
    pieceCount (setCell g r c '.') ≤ pieceCount g := by
  cases hv : isValidSquare r c with
  | false => rw [pieceCount_setCell_invalid g r c '.' hv]
  | true =>
    have := pieceCount_setCell g hg r c '.' hv
    simp only [ne_eq, not_true_eq_false, if_false, add_zero] at this
    omega


theorem kingStep_pieceCount (b : Board) (piece : Char) (fp tp : Int × Int)
    (hg : gridOK b.board_ = true) :
    pieceCount (kingStep b piece fp tp).board_ ≤ pieceCount b.board_ ∧
    gridOK (kingStep b piece fp tp).board_ = true := by
  have castle : ∀ (rr c1 c2 : Int), isValidSquare rr c1 = true → isValidSquare rr c2 = true →
      c1 ≠ c2 →
      pieceCount (setCell (setCell b.board_ rr c1 (cellAt b.board_ rr c2)) rr c2 '.') ≤
        pieceCount b.board_ := by
    intro rr c1 c2 h1 h2 hne
    have e1 := pieceCount_setCell b.board_ hg rr c1 (cellAt b.board_ rr c2) h1
    have hg1 : gridOK (setCell b.board_ rr c1 (cellAt b.board_ rr c2)) = true := by
      rw [gridOK_setCell]; exact hg
    have e2 := pieceCount_setCell _ hg1 rr c2 '.' h2
    rw [cellAt_setCell_ne b.board_ rr c1 rr c2 _ (fun h => hne h.2)] at e2
    simp only [ne_eq, not_true_eq_false, if_false, add_zero] at e2
    split_ifs at e1 e2 <;> omega
  have hrow : ∀ rr : Int, rr = 7 ∨ rr = 0 → ∀ c1 : Int, 0 ≤ c1 → c1 < 8 →
      isValidSquare rr c1 = true := by
    intro rr hrr c1 h0 h8
    rw [isValidSquare_iff]
    omega
  have hrr : (if piece = 'K' then (7 : Int) else 0) = 7 ∨
      (if piece = 'K' then (7 : Int) else 0) = 0 := by
    split_ifs
    · exact Or.inl rfl
    · exact Or.inr rfl
  have hb : (kingStep b piece fp tp).board_ =
      if (tp.2 - fp.2).natAbs = 2 then
        if tp.2 = 6 then
          setCell (setCell b.board_ (if piece = 'K' then 7 else 0) 5
            (cellAt b.board_ (if piece = 'K' then 7 else 0) 7))
            (if piece = 'K' then 7 else 0) 7 '.'
        else if tp.2 = 2 then
          setCell (setCell b.board_ (if piece = 'K' then 7 else 0) 3
            (cellAt b.board_ (if piece = 'K' then 7 else 0) 0))
            (if piece = 'K' then 7 else 0) 0 '.'
        else b.board_
      else b.board_ := by
    unfold kingStep
    split_ifs <;> rfl
  rw [hb]
  by_cases h2 : (tp.2 - fp.2).natAbs = 2
  · rw [if_pos h2]
    by_cases h6 : tp.2 = 6
    · rw [if_pos h6]
      exact ⟨castle _ 5 7 (hrow _ hrr 5 (by omega) (by omega))
        (hrow _ hrr 7 (by omega) (by omega)) (by omega),
        by rw [gridOK_setCell, gridOK_setCell]; exact hg⟩
    · rw [if_neg h6]
      by_cases h3 : tp.2 = 2
      · rw [if_pos h3]
        exact ⟨castle _ 3 0 (hrow _ hrr 3 (by omega) (by omega))
          (hrow _ hrr 0 (by omega) (by omega)) (by omega),
          by rw [gridOK_setCell, gridOK_setCell]; exact hg⟩
      · rw [if_neg h3]
        exact ⟨le_refl _, hg⟩
  · rw [if_neg h2]
    exact ⟨le_refl _, hg⟩


theorem pawnStep_pieceCount (b : Board) (piece : Char) (ts : List Char) (fp tp : Int × Int)
    (hg : gridOK b.board_ = true) :
    pieceCount (pawnStep b piece ts fp tp).board_ ≤ pieceCount b.board_ + 1 ∧
    ((isValidSquare tp.1 tp.2 = true → cellAt b.board_ tp.1 tp.2 ≠ '.') →
      pieceCount (pawnStep b piece ts fp tp).board_ ≤ pieceCount b.board_) ∧
    gridOK (pawnStep b piece ts fp tp).board_ = true := by
  obtain ⟨g1, hg1def⟩ : ∃ g1, g1 = if ts = b.en_passant_target_ then
      setCell b.board_ (if b.white_to_move_ then tp.1 + 1 else tp.1 - 1) tp.2 '.'
      else b.board_ := ⟨_, rfl⟩
  have hb : (pawnStep b piece ts fp tp).board_ =
      if (piece = 'P' ∧ tp.1 = 0) ∨ (piece = 'p' ∧ tp.1 = 7) then
        setCell g1 tp.1 tp.2 (if b.white_to_move_ then 'Q' else 'q')
      else g1 := by
    rw [hg1def]
    by_cases hpromo : (piece = 'P' ∧ tp.1 = 0) ∨ (piece = 'p' ∧ tp.1 = 7)
    · rw [if_pos hpromo]
      unfold pawnStep
      simp only
      rw [if_pos hpromo]
      by_cases hep : ts = b.en_passant_target_
      · simp only [if_pos hep]
        split_ifs <;> rfl
      · simp only [if_neg hep]
        split_ifs <;> rfl
    · rw [if_neg hpromo]
      exact pawnStep_board b piece ts fp tp hpromo
  have hfacts : pieceCount g1 ≤ pieceCount b.board_ ∧ gridOK g1 = true ∧
      cellAt g1 tp.1 tp.2 = cellAt b.board_ tp.1 tp.2 := by
    rw [hg1def]
    by_cases hep : ts = b.en_passant_target_
    · rw [if_pos hep]
      refine ⟨pieceCount_setCell_dot b.board_ hg _ _, by rw [gridOK_setCell]; exact hg, ?_⟩
      apply cellAt_setCell_ne
      split_ifs <;> omega
    · rw [if_neg hep]
      exact ⟨le_refl _, hg, rfl⟩
  obtain ⟨hle, hgrid, hcell⟩ := hfacts
  rw [hb]
  have hq : (if b.white_to_move_ = true then 'Q' else 'q') ≠ '.' := by
    split_ifs <;> decide
  by_cases hp : (piece = 'P' ∧ tp.1 = 0) ∨ (piece = 'p' ∧ tp.1 = 7)
  · rw [if_pos hp]
    cases hv : isValidSquare tp.1 tp.2 with
    | false =>
      rw [pieceCount_setCell_invalid g1 _ _ _ hv, gridOK_setCell]
      exact ⟨by omega, fun _ => hle, hgrid⟩
    | true =>
      have e := pieceCount_setCell g1 hgrid tp.1 tp.2
        (if b.white_to_move_ then 'Q' else 'q') hv
      rw [if_pos hq, hcell] at e
      refine ⟨?_, ?_, by rw [gridOK_setCell]; exact hgrid⟩
      · by_cases hcl : cellAt b.board_ tp.1 tp.2 ≠ '.'
        · rw [if_pos hcl] at e
          omega
        · rw [if_neg hcl] at e
          omega
      · intro hne
        rw [if_pos (hne rfl)] at e
        omega
  · rw [if_neg hp]
    exact ⟨by omega, fun _ => hle, hgrid⟩

/-- The move of `makeMove` never adds a piece, and removes one when the destination is
not empty. -/
theorem applyMove_pieceCount (b : Board) (fs ts : List Char) (fp tp : Int × Int)
    (piece : Char) (hg : gridOK b.board_ = true) (hfv : isValidSquare fp.1 fp.2 = true)
    (hpiece : cellAt b.board_ fp.1 fp.2 = piece) (hne : piece ≠ '.') :
    pieceCount (b.applyMove fs ts fp tp piece).board_ ≤ pieceCount b.board_ ∧
    (b.getPiece tp.1 tp.2 ≠ '.' → ((piece = 'P' ∨ piece = 'p') → fp ≠ tp) →
      pieceCount (b.applyMove fs ts fp tp piece).board_ < pieceCount b.board_) ∧
    gridOK (b.applyMove fs ts fp tp piece).board_ = true := by
  obtain ⟨gA, hgA⟩ : ∃ gA, gA = setCell b.board_ tp.1 tp.2 piece := ⟨_, rfl⟩
  obtain ⟨gB, hgB⟩ : ∃ gB, gB = setCell gA fp.1 fp.2 '.' := ⟨_, rfl⟩
  have hgridA : gridOK gA = true := by rw [hgA, gridOK_setCell]; exact hg
  have hgridB : gridOK gB = true := by rw [hgB, gridOK_setCell]; exact hgridA
  have hcellA : cellAt gA fp.1 fp.2 = piece := by
    rw [hgA]
    by_cases h : tp.1 = fp.1 ∧ tp.2 = fp.2
    · exact cellAt_setCell_eq b.board_ hg _ _ _ _ _ h (by rw [h.1, h.2]; exact hfv)
    · rw [cellAt_setCell_ne _ _ _ _ _ _ h]; exact hpiece
  have eB := pieceCount_setCell gA hgridA fp.1 fp.2 '.' hfv
  rw [← hgB, hcellA, if_pos hne] at eB
  simp only [ne_eq, not_true_eq_false, if_false, add_zero] at eB
  -- the count after the relocation
  have hB1 : pieceCount gB ≤ pieceCount b.board_ ∧
      (b.getPiece tp.1 tp.2 ≠ '.' → pieceCount gB + 1 = pieceCount b.board_) := by
    cases hv : isValidSquare tp.1 tp.2 with
    | false =>
      have eA := pieceCount_setCell_invalid b.board_ tp.1 tp.2 piece hv
      rw [← hgA] at eA
      exact ⟨by omega, fun _ => by omega⟩
    | true =>
      have eA := pieceCount_setCell b.board_ hg tp.1 tp.2 piece hv
      rw [← hgA, if_pos hne] at eA
      constructor
      · by_cases hcl : cellAt b.board_ tp.1 tp.2 ≠ '.'
        · rw [if_pos hcl] at eA
          omega
        · rw [if_neg hcl] at eA
          omega
      · intro hc
        rw [getPiece_valid b _ _ hv] at hc
        rw [if_pos hc] at eA
        omega
  have hcellB : fp ≠ tp → isValidSquare tp.1 tp.2 = true → cellAt gB tp.1 tp.2 ≠ '.' := by
    intro hft hv
    rw [hgB, cellAt_setCell_ne _ _ _ _ _ _ (fun h => hft (Prod.ext h.1 h.2)), hgA,
      cellAt_setCell_same b.board_ hg _ _ _ hv]
    exact hne
  by_cases hp : piece = 'P' ∨ piece = 'p'
  · rw [applyMove_board_pawn b fs ts fp tp piece hp, ← hgA, ← hgB]
    have hpw := pawnStep_pieceCount { b with board_ := gB } piece ts fp tp hgridB
    refine ⟨?_, ?_, hpw.2.2⟩
    · by_cases hft : fp = tp
      · have h1 := hB1.2 (by
          rw [← hft, getPiece_valid b _ _ hfv, hpiece]; exact hne)
        have := hpw.1
        simp only at this
        omega
      · have := hpw.2.1 (hcellB hft)
        simp only at this
        omega
    · intro hcap hft
      have := hpw.2.1 (hcellB (hft hp))
      have h1 := hB1.2 hcap
      simp only at this
      omega
  · by_cases hk : piece = 'K' ∨ piece = 'k'
    · rw [applyMove_board_king b fs ts fp tp piece hk, ← hgA, ← hgB]
      have hks := kingStep_pieceCount { b with board_ := gB, en_passant_target_ := ['-'] }
        piece fp tp hgridB
      simp only at hks
      exact ⟨by omega, fun hcap _ => by have := hB1.2 hcap; omega, hks.2⟩
    · rw [applyMove_board_plain b fs ts fp tp piece (fun h => hp h.1) (fun h => hk h.1)
        (fun h => hp (h.elim (fun h1 => Or.inl h1.1) (fun h1 => Or.inr h1.1))), ← hgA, ← hgB]
      exact ⟨hB1.1, fun hcap _ => by have := hB1.2 hcap; omega, hgridB⟩

theorem legal_move_shape (board : Board) (wp : Bool) (m : List Char)
    (h : m ∈ generateLegalMoves board wp) :
    ∃ (r c : Nat) (t : List Char), r < 8 ∧ c < 8 ∧ m = positionToSquare r c ++ t ∧
      t ∈ generatePseudoLegalMoves board r c := by
  rw [generateLegalMoves_eq_spec] at h
  unfold legalMovesSpec at h
  rw [List.mem_flatMap] at h
  obtain ⟨sq, hsq, hm⟩ := h
  have hm1 := List.mem_of_mem_filter hm
  unfold pseudoMovesAt at hm1
  split at hm1
  · rw [List.mem_map] at hm1
    obtain ⟨t, ht, rfl⟩ := hm1
    have hb := rowMajor_bound sq hsq
    exact ⟨sq.1, sq.2, t, hb.1, hb.2, rfl, ht⟩
  · exact absurd hm1 (List.not_mem_nil _)

theorem pawn_capture_step_rows (board : Board) (row col : Int) (wp : Bool) (dir dc : Int)
    (hdir : dir ≠ 0) (moves : List (List Char))
    (hm : ∀ t ∈ moves, ∃ r1 c1 : Int, isValidSquare r1 c1 = true ∧ r1 ≠ row ∧
      t = positionToSquare r1 c1) :
    ∀ t ∈
      (if row + dir ≥ 0 ∧ row + dir < 8 ∧ col + dc ≥ 0 ∧ col + dc < 8 then
        if board.getPiece (row + dir) (col + dc) ≠ '.' then
          if isUpper (board.getPiece (row + dir) (col + dc)) ≠ wp then
            moves ++ [positionToSquare (row + dir) (col + dc)]
          else moves
        else if positionToSquare (row + dir) (col + dc) = board.en_passant_target_ then
          moves ++ [positionToSquare (row + dir) (col + dc)]
        else moves
      else moves),
      ∃ r1 c1 : Int, isValidSquare r1 c1 = true ∧ r1 ≠ row ∧ t = positionToSquare r1 c1 := by
  intro t ht
  by_cases hb : row + dir ≥ 0 ∧ row + dir < 8 ∧ col + dc ≥ 0 ∧ col + dc < 8
  · have hnew : ∀ t ∈ moves ++ [positionToSquare (row + dir) (col + dc)],
        ∃ r1 c1 : Int, isValidSquare r1 c1 = true ∧ r1 ≠ row ∧ t = positionToSquare r1 c1 := by
      intro t ht
      rw [List.mem_append, List.mem_singleton] at ht
      rcases ht with h | h
      · exact hm t h
      · exact ⟨row + dir, col + dc, (isValidSquare_iff _ _).2 hb, by omega, h⟩
    rw [if_pos hb] at ht
    split at ht
    · split at ht
      · exact hnew t ht
      · exact hm t ht
    · split at ht
      · exact hnew t ht
      · exact hm t ht
  · rw [if_neg hb] at ht
    exact hm t ht

theorem pawn_moves_rows (board : Board) (row col : Int) (wp : Bool) :
    ∀ t ∈ generatePawnMoves board row col wp,
      ∃ r1 c1 : Int, isValidSquare r1 c1 = true ∧ r1 ≠ row ∧ t = positionToSquare r1 c1 := by
  unfold generatePawnMoves
  simp only [List.foldl_cons, List.foldl_nil]
  have hdir : (if wp = true then (-1 : Int) else 1) ≠ 0 := by split_ifs <;> omega
  apply pawn_capture_step_rows board row col wp _ 1 hdir
  apply pawn_capture_step_rows board row col wp _ (-1) hdir
  intro t ht
  have hsq : ∀ (r1 : Int), r1 ≠ row → board.getPiece r1 col = '.' →
      ∃ r2 c2 : Int, isValidSquare r2 c2 = true ∧ r2 ≠ row ∧
        positionToSquare r1 col = positionToSquare r2 c2 :=
    fun r1 hne he => ⟨r1, col, getPiece_dot_valid board _ _ he, hne, rfl⟩
  generalize (if wp = true then (-1 : Int) else 1) = dir at ht hdir
  generalize (if wp = true then (6 : Int) else 1) = sr at ht
  by_cases h1 : row + dir ≥ 0 ∧ row + dir < 8 ∧ board.getPiece (row + dir) col = '.'
  · rw [if_pos h1] at ht
    by_cases hs : row = sr
    · rw [if_pos hs] at ht
      by_cases h2 : row + 2 * dir ≥ 0 ∧ row + 2 * dir < 8 ∧
          board.getPiece (row + 2 * dir) col = '.'
      · rw [if_pos h2, List.mem_append, List.mem_singleton, List.mem_singleton] at ht
        rcases ht with h | h
        · rw [h]; exact hsq _ (by omega) h1.2.2
        · rw [h]; exact hsq _ (by omega) h2.2.2
      · rw [if_neg h2, List.mem_singleton] at ht
        rw [ht]; exact hsq _ (by omega) h1.2.2
    · rw [if_neg hs, List.mem_singleton] at ht
      rw [ht]; exact hsq _ (by omega) h1.2.2
  · rw [if_neg h1] at ht
    exact absurd ht (List.not_mem_nil _)


theorem positionToSquare_position (r c : Int) (hv : isValidSquare r c = true) :
    (positionToSquare r c).length = 2 ∧ getPosition (positionToSquare r c) = (r, c) := by
  rw [positionToSquare_eq_getSquare]
  have h := getSquare_valid r c hv
  exact ⟨(squareOK_position h.1).1, h.2⟩

/-- A legal move that `makeMove` accepts keeps the grid, adds no piece, and removes one
when it is a capture by the test of `quiescenceSearch`. -/
theorem makeMove_pieceCount (board : Board) (wp : Bool) (m : List Char)
    (hg : gridOK board.board_ = true) (h : m ∈ generateLegalMoves board wp)
    (hacc : (board.copy.makeMove m).1 = true) :
    gridOK (board.copy.makeMove m).2.board_ = true ∧
    pieceCount (board.copy.makeMove m).2.board_ ≤ pieceCount board.board_ ∧
    (isCaptureMove board m = true →
      pieceCount (board.copy.makeMove m).2.board_ < pieceCount board.board_) := by
  rw [copy_eq] at hacc ⊢
  obtain ⟨r, c, t, hr, hc, hm, ht⟩ := legal_move_shape board wp m h
  have hv : isValidSquare (r : Int) (c : Int) = true := (isValidSquare_iff _ _).2 (by omega)
  have hpos := positionToSquare_position r c hv
  have htake : m.take 2 = positionToSquare r c := by
    rw [hm, List.take_left' hpos.1]
  have hdrop : m.drop 2 = t := by
    rw [hm, List.drop_left' hpos.1]
  have hfp : getPosition (m.take 2) = ((r : Int), (c : Int)) := by rw [htake, hpos.2]
  have htrue := (makeMove_true_iff board m).1 hacc
  rw [makeMove_of_true board m hacc]
  have hfv : isValidSquare (getPosition (m.take 2)).1 (getPosition (m.take 2)).2 = true := by
    rw [hfp]; exact hv
  have hap := applyMove_pieceCount board (m.take 2) ((m.drop 2).take 2)
    (getPosition (m.take 2)) (getPosition ((m.drop 2).take 2))
    (board.getPiece (getPosition (m.take 2)).1 (getPosition (m.take 2)).2) hg hfv
    (getPiece_valid board _ _ hfv).symm htrue.2.2.2.1
  refine ⟨hap.2.2, hap.1, ?_⟩
  intro hcap
  apply hap.2.1
  · unfold isCaptureMove at hcap
    simp only [squareToPosition_eq_getPosition] at hcap
    split at hcap
    · split at hcap
      · simpa using hcap
      · exact absurd hcap (by decide)
    · exact absurd hcap (by decide)
  · intro hp
    rw [hfp] at hp ⊢
    rw [pseudo_pawn board r c hp] at ht
    obtain ⟨r1, c1, hv1, hne, ht1⟩ := pawn_moves_rows board r c _ t ht
    have hpos1 := positionToSquare_position r1 c1 hv1
    rw [hdrop, ht1, List.take_of_length_le (by rw [hpos1.1]), hpos1.2]
    intro e
    exact hne (congrArg Prod.fst e).symm

/-! ## Helper lemmas: a search whose time budget does not expire -/

theorem isTimeUp_neverExpires (e : SearchEngine) (clock : Nat → Int)
    (h : e.neverExpires clock) :
    (e.isTimeUp clock).1 = false ∧ (e.isTimeUp clock).2.neverExpires clock ∧
    (e.isTimeUp clock).2.nodes_searched_ = e.nodes_searched_ ∧
    (e.isTimeUp clock).2.max_depth_ = e.max_depth_ := by
  have hlt := h.2 e.clock_reads_
  have heq : e.isTimeUp clock = (false, { e with clock_reads_ := e.clock_reads_ + 1 }) := by
    unfold SearchEngine.isTimeUp SearchEngine.now
    simp only [h.1, Bool.false_eq_true, if_false]
    rw [decide_eq_false (by omega)]
  rw [heq]
  exact ⟨rfl, ⟨h.1, h.2⟩, rfl, rfl⟩

theorem neverExpires_nodes (e : SearchEngine) (clock : Nat → Int) (n : Int)
    (h : e.neverExpires clock) :
    SearchEngine.neverExpires { e with nodes_searched_ := n } clock := h

theorem neverExpires_store (e : SearchEngine) (clock : Nat → Int) (key : List Char)
    (score depth : Int) (type : NodeType) (bm : List Char) (h : e.neverExpires clock) :
    (e.storeTransposition key score depth type bm).neverExpires clock := h

theorem orderMoves_mem (board : Board) (moves : List (List Char)) (wp : Bool) (m : List Char) :
    m ∈ orderMoves board moves wp ↔ m ∈ moves := by
  unfold orderMoves
  constructor
  · intro h
    rw [List.mem_map] at h
    obtain ⟨a, ha, rfl⟩ := h
    rw [(List.perm_insertionSort _ _).mem_iff, List.mem_map] at ha
    obtain ⟨b, hb, rfl⟩ := ha
    exact hb
  · intro h
    rw [List.mem_map]
    refine ⟨(m, getMoveScore board m wp), ?_, rfl⟩
    rw [(List.perm_insertionSort _ _).mem_iff, List.mem_map]
    exact ⟨m, h, rfl⟩

theorem quiescenceMaxLoop_total (clock : Nat → Int)
    (child : Board → Int → Int → SearchEngine → Option (Int × SearchEngine)) (board : Board)
    (beta : Int) :
    ∀ (moves : List (List Char)),
      (∀ move ∈ moves, (board.copy.makeMove move).1 = true →
        ∀ (a be : Int) (e : SearchEngine), e.neverExpires clock →
          ∃ r, child (board.copy.makeMove move).2 a be e = some r ∧ r.2.neverExpires clock ∧
            e.nodes_searched_ ≤ r.2.nodes_searched_) →
      ∀ (alpha : Int) (e : SearchEngine), e.neverExpires clock →
        ∃ r, quiescenceMaxLoop clock child board beta moves alpha e = some r ∧
          r.2.neverExpires clock ∧ e.nodes_searched_ ≤ r.2.nodes_searched_ := by
  intro moves
  induction moves with
  | nil =>
    intro _ alpha e he
    exact ⟨_, rfl, he, le_refl _⟩
  | cons move rest ih =>
    intro hchild alpha e he
    obtain ⟨hup, he1, hn1, _⟩ := isTimeUp_neverExpires e clock he
    have ihr := ih (fun mv hmv => hchild mv (List.mem_cons_of_mem _ hmv))
    cases hmv : (board.copy.makeMove move).1 with
    | false =>
      obtain ⟨r, hr, hr1, hr2⟩ := ihr alpha _ he1
      refine ⟨r, ?_, hr1, by omega⟩
      simp only [quiescenceMaxLoop, hup, hmv, Bool.false_eq_true, if_false, Bool.not_false,
        if_true]
      exact hr
    | true =>
      obtain ⟨r1, hc, hc1, hc2⟩ := hchild move (List.mem_cons_self _ _) hmv alpha beta _ he1
      by_cases hcut : beta ≤ max alpha r1.1
      · refine ⟨(max alpha r1.1, r1.2), ?_, hc1, by simp only; omega⟩
        simp only [quiescenceMaxLoop, hup, hmv, hc, Bool.false_eq_true, if_false,
          Bool.not_true, hcut, if_true]
      · obtain ⟨r, hr, hr1, hr2⟩ := ihr (max alpha r1.1) _ hc1
        refine ⟨r, ?_, hr1, by omega⟩
        simp only [quiescenceMaxLoop, hup, hmv, hc, Bool.false_eq_true, if_false,
          Bool.not_true, hcut]
        exact hr

theorem quiescenceMinLoop_total (clock : Nat → Int)
    (child : Board → Int → Int → SearchEngine → Option (Int × SearchEngine)) (board : Board)
    (alpha : Int) :
    ∀ (moves : List (List Char)),
      (∀ move ∈ moves, (board.copy.makeMove move).1 = true →
        ∀ (a be : Int) (e : SearchEngine), e.neverExpires clock →
          ∃ r, child (board.copy.makeMove move).2 a be e = some r ∧ r.2.neverExpires clock ∧
            e.nodes_searched_ ≤ r.2.nodes_searched_) →
      ∀ (beta : Int) (e : SearchEngine), e.neverExpires clock →
        ∃ r, quiescenceMinLoop clock child board alpha moves beta e = some r ∧
          r.2.neverExpires clock ∧ e.nodes_searched_ ≤ r.2.nodes_searched_ := by
  intro moves
  induction moves with
  | nil =>
    intro _ beta e he
    exact ⟨_, rfl, he, le_refl _⟩
  | cons move rest ih =>
    intro hchild beta e he
    obtain ⟨hup, he1, hn1, _⟩ := isTimeUp_neverExpires e clock he
    have ihr := ih (fun mv hmv => hchild mv (List.mem_cons_of_mem _ hmv))
    cases hmv : (board.copy.makeMove move).1 with
    | false =>
      obtain ⟨r, hr, hr1, hr2⟩ := ihr beta _ he1
      refine ⟨r, ?_, hr1, by omega⟩
      simp only [quiescenceMinLoop, hup, hmv, Bool.false_eq_true, if_false, Bool.not_false,
        if_true]
      exact hr
    | true =>
      obtain ⟨r1, hc, hc1, hc2⟩ := hchild move (List.mem_cons_self _ _) hmv alpha beta _ he1
      by_cases hcut : min beta r1.1 ≤ alpha
      · refine ⟨(min beta r1.1, r1.2), ?_, hc1, by simp only; omega⟩
        simp only [quiescenceMinLoop, hup, hmv, hc, Bool.false_eq_true, if_false,
          Bool.not_true, hcut, if_true]
      · obtain ⟨r, hr, hr1, hr2⟩ := ihr (min beta r1.1) _ hc1
        refine ⟨r, ?_, hr1, by omega⟩
        simp only [quiescenceMinLoop, hup, hmv, hc, Bool.false_eq_true, if_false,
          Bool.not_true, hcut]
        exact hr


/-- With a time budget that does not expire, `quiescenceSearch` returns when its fuel
exceeds the number of pieces: every capture removes one. -/
theorem quiescenceSearch_total (clock : Nat → Int) :
    ∀ (fuel : Nat) (board : Board) (alpha beta : Int) (mp : Bool) (e : SearchEngine),
      gridOK board.board_ = true → pieceCount board.board_ < fuel → e.neverExpires clock →
      ∃ r, quiescenceSearch clock fuel board alpha beta mp e = some r ∧
        r.2.neverExpires clock ∧ e.nodes_searched_ < r.2.nodes_searched_ := by
  intro fuel
  induction fuel with
  | zero => intro board alpha beta mp e _ h; exact absurd h (Nat.not_lt_zero _)
  | succ fuel ih =>
    intro board alpha beta mp e hg hpc he
    obtain ⟨hup, he1, hn1, _⟩ := isTimeUp_neverExpires
      { e with nodes_searched_ := e.nodes_searched_ + 1 } clock he
    have hn2 : e.nodes_searched_ <
        (SearchEngine.isTimeUp { e with nodes_searched_ := e.nodes_searched_ + 1 }
          clock).2.nodes_searched_ := by rw [hn1]; simp
    have hchild : ∀ move ∈ orderMoves board
          ((generateLegalMoves board mp).filter (isCaptureMove board)) mp,
        (board.copy.makeMove move).1 = true →
        ∀ (a be : Int) (en : SearchEngine), en.neverExpires clock →
          ∃ r, quiescenceSearch clock fuel (board.copy.makeMove move).2 a be (!mp) en = some r ∧
            r.2.neverExpires clock ∧ en.nodes_searched_ ≤ r.2.nodes_searched_ := by
      intro move hmove hacc a be en hen
      rw [orderMoves_mem, List.mem_filter] at hmove
      have hpcm := makeMove_pieceCount board mp move hg hmove.1 hacc
      obtain ⟨r, hr, hr1, hr2⟩ := ih (board.copy.makeMove move).2 a be (!mp) en hpcm.1
        (by have := hpcm.2.2 hmove.2; omega) hen
      exact ⟨r, hr, hr1, le_of_lt hr2⟩
    simp only [quiescenceSearch, hup, Bool.false_eq_true, if_false]
    split
    · exact ⟨_, rfl, he1, hn2⟩
    · split
      · exact ⟨_, rfl, he1, hn2⟩
      · split
        · exact ⟨_, rfl, he1, hn2⟩
        · split
          · obtain ⟨r, hr, hr1, hr2⟩ := quiescenceMaxLoop_total clock
              (fun b a be en => quiescenceSearch clock fuel b a be (!mp) en) board beta _ hchild
              (max alpha (evaluate board mp)) _ he1
            exact ⟨r, hr, hr1, by omega⟩
          · obtain ⟨r, hr, hr1, hr2⟩ := quiescenceMinLoop_total clock
              (fun b a be en => quiescenceSearch clock fuel b a be (!mp) en) board alpha _ hchild
              (min beta (evaluate board mp)) _ he1
            exact ⟨r, hr, hr1, by omega⟩


theorem alphaBetaMaxLoop_total (clock : Nat → Int)
    (child : Board → Int → Int → SearchEngine → Option (Int × SearchEngine)) (board : Board) :
    ∀ (moves : List (List Char)),
      (∀ move ∈ moves, (board.copy.makeMove move).1 = true →
        ∀ (a be : Int) (e : SearchEngine), e.neverExpires clock →
          ∃ r, child (board.copy.makeMove move).2 a be e = some r ∧ r.2.neverExpires clock ∧
            e.nodes_searched_ ≤ r.2.nodes_searched_) →
      ∀ (st : LoopState), st.engine.neverExpires clock →
        ∃ st1, alphaBetaMaxLoop clock child board moves st = some st1 ∧
          st1.engine.neverExpires clock ∧
          st.engine.nodes_searched_ ≤ st1.engine.nodes_searched_ := by
  intro moves
  induction moves with
  | nil =>
    intro _ st he
    exact ⟨_, rfl, he, le_refl _⟩
  | cons move rest ih =>
    intro hchild st he
    obtain ⟨hup, he1, hn1, _⟩ := isTimeUp_neverExpires st.engine clock he
    have ihr := ih (fun mv hmv => hchild mv (List.mem_cons_of_mem _ hmv))
    cases hmv : (board.copy.makeMove move).1 with
    | false =>
      obtain ⟨r, hr, hr1, hr2⟩ := ihr { st with engine := (st.engine.isTimeUp clock).2 } he1
      refine ⟨r, ?_, hr1, by simp only at hr2; omega⟩
      simp only [alphaBetaMaxLoop, hup, hmv, Bool.false_eq_true, if_false, Bool.not_false,
        if_true]
      exact hr
    | true =>
      obtain ⟨r1, hc, hc1, hc2⟩ :=
        hchild move (List.mem_cons_self _ _) hmv st.alpha st.beta _ he1
      obtain ⟨nx, hnx⟩ : ∃ nx : LoopState, nx =
          { best_eval := if r1.1 > st.best_eval then r1.1 else st.best_eval
            best_move := if r1.1 > st.best_eval then move else st.best_move
            alpha := max st.alpha r1.1
            beta := st.beta
            engine := r1.2 } := ⟨_, rfl⟩
      have hnxe : nx.engine = r1.2 := by rw [hnx]
      have hstep : alphaBetaMaxLoop clock child board (move :: rest) st =
          if nx.beta ≤ nx.alpha then some nx else alphaBetaMaxLoop clock child board rest nx := by
        simp only [alphaBetaMaxLoop, hup, hmv, hc, Bool.false_eq_true, if_false, Bool.not_true]
        rw [hnx]
        by_cases hgt : r1.1 > st.best_eval
        · simp only [hgt, if_true]
        · simp only [hgt, if_false]
      rw [hstep]
      by_cases hcut : nx.beta ≤ nx.alpha
      · rw [if_pos hcut]
        exact ⟨nx, rfl, by rw [hnxe]; exact hc1, by rw [hnxe]; omega⟩
      · rw [if_neg hcut]
        obtain ⟨r, hr, hr1, hr2⟩ := ihr nx (by rw [hnxe]; exact hc1)
        rw [hnxe] at hr2
        exact ⟨r, hr, hr1, by omega⟩

theorem alphaBetaMinLoop_total (clock : Nat → Int)
    (child : Board → Int → Int → SearchEngine → Option (Int × SearchEngine)) (board : Board) :
    ∀ (moves : List (List Char)),
      (∀ move ∈ moves, (board.copy.makeMove move).1 = true →
        ∀ (a be : Int) (e : SearchEngine), e.neverExpires clock →
          ∃ r, child (board.copy.makeMove move).2 a be e = some r ∧ r.2.neverExpires clock ∧
            e.nodes_searched_ ≤ r.2.nodes_searched_) →
      ∀ (st : LoopState), st.engine.neverExpires clock →
        ∃ st1, alphaBetaMinLoop clock child board moves st = some st1 ∧
          st1.engine.neverExpires clock ∧
          st.engine.nodes_searched_ ≤ st1.engine.nodes_searched_ := by
  intro moves
  induction moves with
  | nil =>
    intro _ st he
    exact ⟨_, rfl, he, le_refl _⟩
  | cons move rest ih =>
    intro hchild st he
    obtain ⟨hup, he1, hn1, _⟩ := isTimeUp_neverExpires st.engine clock he
    have ihr := ih (fun mv hmv => hchild mv (List.mem_cons_of_mem _ hmv))
    cases hmv : (board.copy.makeMove move).1 with
    | false =>
      obtain ⟨r, hr, hr1, hr2⟩ := ihr { st with engine := (st.engine.isTimeUp clock).2 } he1
      refine ⟨r, ?_, hr1, by simp only at hr2; omega⟩
      simp only [alphaBetaMinLoop, hup, hmv, Bool.false_eq_true, if_false, Bool.not_false,
        if_true]
      exact hr
    | true =>
      obtain ⟨r1, hc, hc1, hc2⟩ :=
        hchild move (List.mem_cons_self _ _) hmv st.alpha st.beta _ he1
      obtain ⟨nx, hnx⟩ : ∃ nx : LoopState, nx =
          { best_eval := if r1.1 < st.best_eval then r1.1 else st.best_eval
            best_move := if r1.1 < st.best_eval then move else st.best_move
            alpha := st.alpha
            beta := min st.beta r1.1
            engine := r1.2 } := ⟨_, rfl⟩
      have hnxe : nx.engine = r1.2 := by rw [hnx]
      have hstep : alphaBetaMinLoop clock child board (move :: rest) st =
          if nx.beta ≤ nx.alpha then some nx else alphaBetaMinLoop clock child board rest nx := by
        simp only [alphaBetaMinLoop, hup, hmv, hc, Bool.false_eq_true, if_false, Bool.not_true]
        rw [hnx]
        by_cases hgt : r1.1 < st.best_eval
        · simp only [hgt, if_true]
        · simp only [hgt, if_false]
      rw [hstep]
      by_cases hcut : nx.beta ≤ nx.alpha
      · rw [if_pos hcut]
        exact ⟨nx, rfl, by rw [hnxe]; exact hc1, by rw [hnxe]; omega⟩
      · rw [if_neg hcut]
        obtain ⟨r, hr, hr1, hr2⟩ := ihr nx (by rw [hnxe]; exact hc1)
        rw [hnxe] at hr2
        exact ⟨r, hr, hr1, by omega⟩

/-- With a time budget that does not expire, `alphaBeta` returns when its fuel exceeds the
remaining depth and the quiescence fuel exceeds the number of pieces. -/
theorem alphaBeta_total (clock : Nat → Int) (qfuel : Nat) :
    ∀ (fuel : Nat) (board : Board) (depth alpha beta : Int) (mp : Bool) (e : SearchEngine),
      gridOK board.board_ = true → pieceCount board.board_ < qfuel →
      1 ≤ fuel → depth < (fuel : Int) → e.neverExpires clock →
      ∃ r, alphaBeta clock qfuel fuel board depth alpha beta mp e = some r ∧
        r.2.neverExpires clock ∧ e.nodes_searched_ < r.2.nodes_searched_ := by
  intro fuel
  induction fuel with
  | zero => intro board depth alpha beta mp e _ _ h; exact absurd h (by omega)
  | succ fuel ih =>
    intro board depth alpha beta mp e hg hpc _ hd he
    obtain ⟨hup, he1, hn1, _⟩ := isTimeUp_neverExpires
      { e with nodes_searched_ := e.nodes_searched_ + 1 } clock he
    have hn2 : e.nodes_searched_ <
        (SearchEngine.isTimeUp { e with nodes_searched_ := e.nodes_searched_ + 1 }
          clock).2.nodes_searched_ := by rw [hn1]; simp
    simp only [alphaBeta, hup, Bool.false_eq_true, false_or]
    split
    · exact ⟨_, rfl, he1, hn2⟩
    · rename_i hd0
      split
      · exact ⟨_, rfl, he1, hn2⟩
      · split
        · split
          · obtain ⟨r, hr, hr1, hr2⟩ := quiescenceSearch_total clock qfuel board alpha beta mp _
              hg hpc he1
            exact ⟨r, hr, hr1, by omega⟩
          · exact ⟨_, rfl, he1, hn2⟩
        · rename_i hst
          have hd1 : depth ≠ 0 := fun h => hst (Or.inr h)
          have hchild : ∀ move ∈ orderMoves board (generateLegalMoves board mp) mp,
              (board.copy.makeMove move).1 = true →
              ∀ (a be : Int) (en : SearchEngine), en.neverExpires clock →
                ∃ r, alphaBeta clock qfuel fuel (board.copy.makeMove move).2 (depth - 1) a be
                    (!mp) en = some r ∧
                  r.2.neverExpires clock ∧ en.nodes_searched_ ≤ r.2.nodes_searched_ := by
            intro move hmove hacc a be en hen
            rw [orderMoves_mem] at hmove
            have hpcm := makeMove_pieceCount board mp move hg hmove hacc
            obtain ⟨r, hr, hr1, hr2⟩ := ih (board.copy.makeMove move).2 (depth - 1) a be (!mp)
              en hpcm.1 (by omega) (by omega) (by omega) hen
            exact ⟨r, hr, hr1, le_of_lt hr2⟩
          have hprobe := probeTransposition_engine
            (SearchEngine.isTimeUp { e with nodes_searched_ := e.nodes_searched_ + 1 } clock).2
            (getPositionKey board) depth alpha beta
          split
          · exact ⟨_, rfl, by rw [hprobe]; exact he1, by rw [hprobe]; exact hn2⟩
          · split
            · exact ⟨_, rfl, by rw [hprobe]; exact he1, by rw [hprobe]; exact hn2⟩
            · split
              · obtain ⟨st1, hs, hs1, hs2⟩ := alphaBetaMaxLoop_total clock
                  (fun b a be en => alphaBeta clock qfuel fuel b (depth - 1) a be (!mp) en)
                  board _ hchild
                  { best_eval := -INFINITY_SCORE, best_move := [], alpha := alpha,
                    beta := beta,
                    engine := (SearchEngine.probeTransposition _ (getPositionKey board) depth
                      alpha beta).2 } (by rw [hprobe]; exact he1)
                rw [hs]
                refine ⟨_, rfl, neverExpires_store _ clock _ _ _ _ _ hs1, ?_⟩
                simp only [hprobe] at hs2
                show e.nodes_searched_ < st1.engine.nodes_searched_
                omega
              · obtain ⟨st1, hs, hs1, hs2⟩ := alphaBetaMinLoop_total clock
                  (fun b a be en => alphaBeta clock qfuel fuel b (depth - 1) a be (!mp) en)
                  board _ hchild
                  { best_eval := INFINITY_SCORE, best_move := [], alpha := alpha,
                    beta := beta,
                    engine := (SearchEngine.probeTransposition _ (getPositionKey board) depth
                      alpha beta).2 } (by rw [hprobe]; exact he1)
                rw [hs]
                refine ⟨_, rfl, neverExpires_store _ clock _ _ _ _ _ hs1, ?_⟩
                simp only [hprobe] at hs2
                show e.nodes_searched_ < st1.engine.nodes_searched_
                omega

theorem quiescence_quiet (clock : Nat → Int) (qfuel : Nat) (board : Board)
    (alpha beta : Int) (mp : Bool) (e : SearchEngine)
    (ht : (e.isTimeUp clock).1 = false)
    (hq : (generateLegalMoves board mp).filter (isCaptureMove board) = []) :
    quiescenceSearch clock (qfuel + 1) board alpha beta mp e =
      some ((if mp = true ∧ evaluate board mp ≥ beta then beta
             else if mp = false ∧ evaluate board mp ≤ alpha then alpha
             else evaluate board mp),
        { (e.isTimeUp clock).2 with nodes_searched_ := e.nodes_searched_ + 1 }) := by
  have hn := isTimeUp_nodes e clock (e.nodes_searched_ + 1)
  unfold quiescenceSearch
  simp only [hn.1, hn.2, ht, hq, Bool.false_eq_true, if_false, List.isEmpty_nil, if_true]
  by_cases h1 : mp = true ∧ evaluate board mp ≥ beta
  · rw [if_pos h1, if_pos h1]
  · rw [if_neg h1, if_neg h1]
    by_cases h2 : mp = false ∧ evaluate board mp ≤ alpha
    · rw [if_pos h2, if_pos h2]
    · rw [if_neg h2, if_neg h2]

theorem alphaBeta_depth_zero (clock : Nat → Int) (qfuel fuel : Nat) (board : Board)
    (alpha beta : Int) (mp : Bool) (e : SearchEngine)
    (ht : (e.isTimeUp clock).1 = false) (hm : board.isCheckmate mp = false) :
    alphaBeta clock qfuel (fuel + 1) board 0 alpha beta mp e =
      quiescenceSearch clock qfuel board alpha beta mp
        { (e.isTimeUp clock).2 with nodes_searched_ := e.nodes_searched_ + 1 } := by
  have hn := isTimeUp_nodes e clock (e.nodes_searched_ + 1)
  unfold alphaBeta
  simp only [hn.1, hn.2, ht, hm, Bool.false_eq_true, lt_self_iff_false, or_self, if_false,
    or_true, if_true]


theorem makeMove_accepted_ne_nil (b : Board) (m : List Char)
    (h : (b.copy.makeMove m).1 = true) : m ≠ [] := by
  rw [copy_eq] at h
  have := ((makeMove_true_iff b m).1 h).1
  intro e
  rw [e] at this
  simp at this

/-- One iteration of the move loop of `iterativeDeepening` on an accepted move. -/
theorem rootLoop_step (clock : Nat → Int)
    (child : Board → Int → Int → SearchEngine → Option (Int × SearchEngine)) (board : Board)
    (wp : Bool) (move : List Char) (rest : List (List Char)) (st : LoopState)
    (r1 : Int × SearchEngine)
    (hup : (st.engine.isTimeUp clock).1 = false) (hmv : (board.copy.makeMove move).1 = true)
    (hc : child (board.copy.makeMove move).2 st.alpha st.beta (st.engine.isTimeUp clock).2
      = some r1) (nx : LoopState)
    (hnx : nx =
      { best_eval :=
          if wp then (if r1.1 > st.best_eval then r1.1 else st.best_eval)
          else (if r1.1 < st.best_eval then r1.1 else st.best_eval)
        best_move :=
          if wp then (if r1.1 > st.best_eval then move else st.best_move)
          else (if r1.1 < st.best_eval then move else st.best_move)
        alpha := if wp then max st.alpha r1.1 else st.alpha
        beta := if wp then st.beta else min st.beta r1.1
        engine := r1.2 }) :
    rootLoop clock child board wp (move :: rest) st =
      if nx.beta ≤ nx.alpha then some nx else rootLoop clock child board wp rest nx := by
  simp only [rootLoop, hup, hmv, hc, Bool.false_eq_true, if_false, Bool.not_true]
  rw [hnx]
  cases wp with
  | true =>
    simp only [if_true]
    by_cases hgt : r1.1 > st.best_eval
    · simp only [hgt, if_true]
    · simp only [hgt, if_false]
  | false =>
    simp only [Bool.false_eq_true, if_false]
    by_cases hgt : r1.1 < st.best_eval
    · simp only [hgt, if_true]
    · simp only [hgt, if_false]

theorem rootLoop_total (clock : Nat → Int)
    (child : Board → Int → Int → SearchEngine → Option (Int × SearchEngine)) (board : Board)
    (wp : Bool) :
    ∀ (moves : List (List Char)),
      (∀ move ∈ moves, (board.copy.makeMove move).1 = true →
        ∀ (a be : Int) (e : SearchEngine), e.neverExpires clock →
          ∃ r, child (board.copy.makeMove move).2 a be e = some r ∧ r.2.neverExpires clock ∧
            e.nodes_searched_ ≤ r.2.nodes_searched_) →
      ∀ (st : LoopState), st.engine.neverExpires clock →
        ∃ st1, rootLoop clock child board wp moves st = some st1 ∧
          st1.engine.neverExpires clock ∧
          st.engine.nodes_searched_ ≤ st1.engine.nodes_searched_ ∧
          (st.best_move ≠ [] → st1.best_move ≠ []) ∧
          (st1.best_move = st.best_move ∨ st1.best_move ∈ moves) := by
  intro moves
  induction moves with
  | nil =>
    intro _ st he
    exact ⟨_, rfl, he, le_refl _, fun h => h, Or.inl rfl⟩
  | cons move rest ih =>
    intro hchild st he
    obtain ⟨hup, he1, hn1, _⟩ := isTimeUp_neverExpires st.engine clock he
    have ihr := ih (fun mv hmv => hchild mv (List.mem_cons_of_mem _ hmv))
    cases hmv : (board.copy.makeMove move).1 with
    | false =>
      obtain ⟨r, hr, hr1, hr2, hr3, hr4⟩ :=
        ihr { st with engine := (st.engine.isTimeUp clock).2 } he1
      refine ⟨r, ?_, hr1, by simp only at hr2; omega, hr3, ?_⟩
      · simp only [rootLoop, hup, hmv, Bool.false_eq_true, if_false, Bool.not_false, if_true]
        exact hr
      · rcases hr4 with h | h
        · exact Or.inl h
        · exact Or.inr (List.mem_cons_of_mem _ h)
    | true =>
      obtain ⟨r1, hc, hc1, hc2⟩ :=
        hchild move (List.mem_cons_self _ _) hmv st.alpha st.beta _ he1
      have hmne := makeMove_accepted_ne_nil board move hmv
      obtain ⟨nx, hnx⟩ : ∃ nx : LoopState, nx =
          { best_eval :=
              if wp then (if r1.1 > st.best_eval then r1.1 else st.best_eval)
              else (if r1.1 < st.best_eval then r1.1 else st.best_eval)
            best_move :=
              if wp then (if r1.1 > st.best_eval then move else st.best_move)
              else (if r1.1 < st.best_eval then move else st.best_move)
            alpha := if wp then max st.alpha r1.1 else st.alpha
            beta := if wp then st.beta else min st.beta r1.1
            engine := r1.2 } := ⟨_, rfl⟩
      have hnxe : nx.engine = r1.2 := by rw [hnx]
      have hnxm : nx.best_move = st.best_move ∨ nx.best_move = move := by
        rw [hnx]
        simp only
        split_ifs
        · exact Or.inr rfl
        · exact Or.inl rfl
        · exact Or.inr rfl
        · exact Or.inl rfl
      rw [rootLoop_step clock child board wp move rest st r1 hup hmv hc nx hnx]
      have hkeep : st.best_move ≠ [] → nx.best_move ≠ [] := by
        intro h
        rcases hnxm with e | e <;> rw [e]
        · exact h
        · exact hmne
      have hmem : nx.best_move = st.best_move ∨ nx.best_move ∈ move :: rest := by
        rcases hnxm with e | e
        · exact Or.inl e
        · exact Or.inr (e ▸ List.mem_cons_self _ _)
      by_cases hcut : nx.beta ≤ nx.alpha
      · rw [if_pos hcut]
        exact ⟨nx, rfl, by rw [hnxe]; exact hc1, by rw [hnxe]; omega, hkeep, hmem⟩
      · rw [if_neg hcut]
        obtain ⟨r, hr, hr1, hr2, hr3, hr4⟩ := ihr nx (by rw [hnxe]; exact hc1)
        rw [hnxe] at hr2
        refine ⟨r, hr, hr1, by omega, fun h => hr3 (hkeep h), ?_⟩
        rcases hr4 with h | h
        · rw [h]; exact hmem
        · exact Or.inr (List.mem_cons_of_mem _ h)


theorem rootChild_total (clock : Nat → Int) (qfuel : Nat) (board : Board) (wp : Bool)
    (hg : gridOK board.board_ = true) (hpc : pieceCount board.board_ < qfuel) (depth : Int) :
    ∀ move ∈ orderMoves board (generateLegalMoves board wp) wp,
      (board.copy.makeMove move).1 = true →
      ∀ (a be : Int) (e : SearchEngine), e.neverExpires clock →
        ∃ r, alphaBeta clock qfuel (depth.toNat + 1) (board.copy.makeMove move).2 (depth - 1)
            a be (!wp) e = some r ∧
          r.2.neverExpires clock ∧ e.nodes_searched_ ≤ r.2.nodes_searched_ := by
  intro move hmove hacc a be e he
  rw [orderMoves_mem] at hmove
  have hpcm := makeMove_pieceCount board wp move hg hmove hacc
  obtain ⟨r, hr, hr1, hr2⟩ := alphaBeta_total clock qfuel (depth.toNat + 1)
    (board.copy.makeMove move).2 (depth - 1) a be (!wp) e hpcm.1 (by omega) (by omega)
    (by omega) he
  exact ⟨r, hr, hr1, le_of_lt hr2⟩

/-- One iteration of the depth loop of `iterativeDeepening` when the time budget does not
expire. -/
theorem deepeningLoop_step (clock : Nat → Int) (qfuel : Nat) (board : Board) (wp : Bool)
    (legal_moves : List (List Char)) (fuel : Nat) (depth : Int) (best : SearchResult)
    (e : SearchEngine) (st : LoopState)
    (he : e.neverExpires clock) (hd : depth ≤ e.max_depth_)
    (hroot : rootLoop clock
        (fun b a be en => alphaBeta clock qfuel (depth.toNat + 1) b (depth - 1) a be (!wp) en)
        board wp (orderMoves board legal_moves wp)
        { best_eval := (if wp then -INFINITY_SCORE else INFINITY_SCORE), best_move := [],
          alpha := -INFINITY_SCORE, beta := INFINITY_SCORE,
          engine := (e.isTimeUp clock).2 } = some st)
    (hst : st.engine.neverExpires clock) :
    deepeningLoop clock qfuel board wp legal_moves (fuel + 1) depth best e =
      deepeningLoop clock qfuel board wp legal_moves fuel (depth + 1)
        (if st.best_move ≠ [] then
          { best with best_move := st.best_move, score := st.best_eval, depth := depth }
         else best)
        (st.engine.isTimeUp clock).2 := by
  obtain ⟨hup, _, _, _⟩ := isTimeUp_neverExpires e clock he
  obtain ⟨hup2, _, _, _⟩ := isTimeUp_neverExpires st.engine clock hst
  simp only [deepeningLoop, hd, not_true_eq_false, if_false, hup, Bool.false_eq_true, hroot,
    hup2, Bool.not_false, true_and]
  by_cases hb : st.best_move = []
  · simp [hb]
  · have : st.best_move.isEmpty = false := by
      cases hbm : st.best_move with
      | nil => exact absurd hbm hb
      | cons _ _ => rfl
    simp [hb, this]

theorem deepeningLoop_total (clock : Nat → Int) (qfuel : Nat) (board : Board) (wp : Bool)
    (hg : gridOK board.board_ = true) (hpc : pieceCount board.board_ < qfuel) :
    ∀ (fuel : Nat) (depth : Int) (best : SearchResult) (e : SearchEngine),
      e.neverExpires clock →
      best.best_move ≠ [] → best.best_move ∈ generateLegalMoves board wp →
      0 < best.depth → best.depth < depth →
      ∃ r, deepeningLoop clock qfuel board wp (generateLegalMoves board wp) fuel depth best e
          = some r ∧
        r.2.neverExpires clock ∧ e.nodes_searched_ ≤ r.2.nodes_searched_ ∧
        r.1.best_move ≠ [] ∧ r.1.best_move ∈ generateLegalMoves board wp ∧
        0 < r.1.depth ∧ r.1.depth < depth + fuel := by
  intro fuel
  induction fuel with
  | zero =>
    intro depth best e he h1 h2 h3 h4
    exact ⟨_, rfl, he, le_refl _, h1, h2, h3, by simp only [Nat.cast_zero, add_zero]; exact h4⟩
  | succ fuel ih =>
    intro depth best e he h1 h2 h3 h4
    by_cases hd : depth ≤ e.max_depth_
    · obtain ⟨hup, he1, hn1, _⟩ := isTimeUp_neverExpires e clock he
      obtain ⟨st, hst, hst1, hst2, _, hst4⟩ := rootLoop_total clock
        (fun b a be en => alphaBeta clock qfuel (depth.toNat + 1) b (depth - 1) a be (!wp) en)
        board wp _ (rootChild_total clock qfuel board wp hg hpc depth)
        { best_eval := (if wp then -INFINITY_SCORE else INFINITY_SCORE), best_move := [],
          alpha := -INFINITY_SCORE, beta := INFINITY_SCORE,
          engine := (e.isTimeUp clock).2 } he1
      obtain ⟨_, he2, hn2, _⟩ := isTimeUp_neverExpires st.engine clock hst1
      rw [deepeningLoop_step clock qfuel board wp _ fuel depth best e st he hd hst hst1]
      simp only at hst2 hst4
      by_cases hb : st.best_move = []
      · rw [if_neg (by simpa using hb)]
        obtain ⟨r, hr, hr1, hr2, hr3, hr4, hr5, hr6⟩ :=
          ih (depth + 1) best _ he2 h1 h2 h3 (by omega)
        exact ⟨r, hr, hr1, by omega, hr3, hr4, hr5, by push_cast; omega⟩
      · rw [if_pos hb]
        have hmem : st.best_move ∈ generateLegalMoves board wp := by
          rcases hst4 with h | h
          · exact absurd h hb
          · exact (orderMoves_mem board _ wp _).1 h
        obtain ⟨best1, hb1⟩ : ∃ best1 : SearchResult, best1 =
            { best with best_move := st.best_move, score := st.best_eval, depth := depth } :=
          ⟨_, rfl⟩
        rw [← hb1]
        obtain ⟨r, hr, hr1, hr2, hr3, hr4, hr5, hr6⟩ :=
          ih (depth + 1) best1 _ he2 (by rw [hb1]; exact hb) (by rw [hb1]; exact hmem)
            (by rw [hb1]; simp only; omega) (by rw [hb1]; simp only; omega)
        exact ⟨r, hr, hr1, by omega, hr3, hr4, hr5, by push_cast; omega⟩
    · refine ⟨(best, e), ?_, he, le_refl _, h1, h2, h3, by push_cast; omega⟩
      simp only [deepeningLoop, hd, not_false_eq_true, if_true]

theorem quiet_leaf_value (clock : Nat → Int) (qfuel fuel : Nat) (board : Board) (beta : Int)
    (e : SearchEngine) (he : e.neverExpires clock)
    (hm : board.isCheckmate false = false)
    (hq : (generateLegalMoves board false).filter (isCaptureMove board) = [])
    (hv : ¬evaluate board false ≤ -INFINITY_SCORE) :
    ∃ r, alphaBeta clock (qfuel + 1) (fuel + 1) board 0 (-INFINITY_SCORE) beta false e = some r ∧
      r.1 = evaluate board false ∧ r.2.neverExpires clock ∧
      e.nodes_searched_ < r.2.nodes_searched_ := by
  obtain ⟨hup, he1, hn1, _⟩ := isTimeUp_neverExpires e clock he
  have he2 : SearchEngine.neverExpires
      { (e.isTimeUp clock).2 with nodes_searched_ := e.nodes_searched_ + 1 } clock := he1
  obtain ⟨hup2, he3, hn3, _⟩ := isTimeUp_neverExpires _ clock he2
  rw [alphaBeta_depth_zero clock (qfuel + 1) fuel board _ _ false e hup hm,
    quiescence_quiet clock qfuel board _ _ false _ hup2 hq]
  refine ⟨_, rfl, ?_, he3, ?_⟩
  · simp only [Bool.false_eq_true, false_and, if_false, true_and, hv]
  · simp only
    omega

set_option maxRecDepth 1000000 in
theorem start_first_move :
    orderMoves Board.start (generateLegalMoves Board.start true) true =
      "b1a3".toList :: (orderMoves Board.start (generateLegalMoves Board.start true) true).tail ∧
    (generateLegalMoves Board.start true).length = 20 ∧
    (Board.start.copy.makeMove "b1a3".toList).1 = true ∧
    (Board.start.copy.makeMove "b1a3".toList).2.isCheckmate false = false ∧
    (generateLegalMoves (Board.start.copy.makeMove "b1a3".toList).2 false).filter
      (isCaptureMove (Board.start.copy.makeMove "b1a3".toList).2) = [] ∧
    evaluate (Board.start.copy.makeMove "b1a3".toList).2 false = 30 ∧
    gridOK Board.start.board_ = true ∧ pieceCount Board.start.board_ = 32 := by
  decide


/-! ## Claim on the search from the starting position -/

/-- C27: searching the starting position for White with maximum depth 3, on any clock on
which the time budget never expires, returns (with any quiescence fuel above 32, the
number of pieces) a result whose best move is not empty and is one of White's 20 legal
moves, whose completed depth is greater than 0 and at most 3, and whose node count is
greater than 0. -/
theorem start_position_search_finds_move (clock : Nat → Int) (max_time : Int) (qfuel : Nat)
    (hclock : ∀ n : Nat, Int.tdiv (clock n - clock 0) TICKS_PER_MS < max_time)
    (hfuel : 32 < qfuel) :
    ∃ r, findBestMove clock qfuel (SearchEngine.new 3 max_time) Board.start true = some r ∧
      r.1.best_move ≠ [] ∧ r.1.best_move ∈ generateLegalMoves Board.start true ∧
      (generateLegalMoves Board.start true).length = 20 ∧
      0 < r.1.depth ∧ r.1.depth ≤ 3 ∧ 0 < r.1.nodes_searched := by
  obtain ⟨hord, hlen, hacc, hmate, hquiet, hval, hg, hpc⟩ := start_first_move
  obtain ⟨q, rfl⟩ : ∃ q, qfuel = q + 1 := ⟨qfuel - 1, by omega⟩
  have hpc33 : pieceCount Board.start.board_ < q + 1 := by rw [hpc]; omega
  -- the engine when the depth loop starts
  obtain ⟨e0, he0def⟩ : ∃ e0 : SearchEngine, e0 =
      { ((SearchEngine.new 3 max_time).now clock).2 with
        start_time_ := ((SearchEngine.new 3 max_time).now clock).1, time_up_ := false,
        nodes_searched_ := 0 } := ⟨_, rfl⟩
  have he0 : e0.neverExpires clock := by
    rw [he0def]
    exact ⟨rfl, hclock⟩
  have he0n : e0.nodes_searched_ = 0 := by rw [he0def]
  have he0d : e0.max_depth_ = 3 := by rw [he0def]; rfl
  obtain ⟨hup0, he1, hn1, _⟩ := isTimeUp_neverExpires e0 clock he0
  obtain ⟨hup1, he2, hn2, _⟩ := isTimeUp_neverExpires _ clock he1
  -- the first move of depth 1
  obtain ⟨r1, hr1, hr1v, hr1e, hr1n⟩ := quiet_leaf_value clock q 1
    (Board.start.copy.makeMove "b1a3".toList).2 INFINITY_SCORE
    ((e0.isTimeUp clock).2.isTimeUp clock).2 he2 hmate hquiet (by rw [hval]; decide)
  obtain ⟨nx, hnx⟩ : ∃ nx : LoopState, nx =
      { best_eval := r1.1, best_move := "b1a3".toList, alpha := max (-INFINITY_SCORE) r1.1,
        beta := INFINITY_SCORE, engine := r1.2 } := ⟨_, rfl⟩
  have hgt : r1.1 > -INFINITY_SCORE := by rw [hr1v, hval]; decide
  have hr1a : alphaBeta clock (q + 1) ((1 : Int).toNat + 1)
      (Board.start.copy.makeMove "b1a3".toList).2 (1 - 1) (-INFINITY_SCORE) INFINITY_SCORE
      (!true) ((e0.isTimeUp clock).2.isTimeUp clock).2 = some r1 := by
    have h1 : (1 : Int).toNat + 1 = 1 + 1 := rfl
    have h2 : (1 : Int) - 1 = 0 := by norm_num
    have h3 : (!true) = false := rfl
    rw [h1, h2, h3]
    exact hr1
  have hstep := rootLoop_step clock
    (fun b a be en => alphaBeta clock (q + 1) ((1 : Int).toNat + 1) b (1 - 1) a be (!true) en)
    Board.start true "b1a3".toList
    (orderMoves Board.start (generateLegalMoves Board.start true) true).tail
    { best_eval := -INFINITY_SCORE, best_move := [], alpha := -INFINITY_SCORE,
      beta := INFINITY_SCORE, engine := (e0.isTimeUp clock).2 }
    r1 hup1 hacc hr1a nx (by rw [hnx]; simp only [if_true, hgt])
  rw [← hord] at hstep
  have hnocut : ¬nx.beta ≤ nx.alpha := by
    rw [hnx]
    show ¬INFINITY_SCORE ≤ max (-INFINITY_SCORE) r1.1
    rw [hr1v, hval]
    decide
  rw [if_neg hnocut] at hstep
  obtain ⟨st, hst, hst1, hst2, hst3, hst4⟩ := rootLoop_total clock
    (fun b a be en => alphaBeta clock (q + 1) ((1 : Int).toNat + 1) b (1 - 1) a be (!true) en)
    Board.start true
    (orderMoves Board.start (generateLegalMoves Board.start true) true).tail
    (fun move hmove => rootChild_total clock (q + 1) Board.start true hg hpc33 1 move
      (List.mem_of_mem_tail hmove))
    nx (by rw [hnx]; exact hr1e)
  rw [← hstep] at hst
  have hstne : st.best_move ≠ [] := hst3 (by rw [hnx]; exact List.cons_ne_nil _ _)
  have hstmem : st.best_move ∈ generateLegalMoves Board.start true := by
    rw [← orderMoves_mem Board.start _ true]
    rcases hst4 with h | h
    · rw [h, hnx, hord]
      exact List.mem_cons_self _ _
    · exact List.mem_of_mem_tail h
  have hstn : 0 < st.engine.nodes_searched_ := by
    have : nx.engine.nodes_searched_ = r1.2.nodes_searched_ := by rw [hnx]
    rw [hn2, hn1, he0n] at hr1n
    omega
  obtain ⟨_, he3, hn3, _⟩ := isTimeUp_neverExpires st.engine clock hst1
  -- the depth loop
  obtain ⟨best0, hbest0⟩ : ∃ best0 : SearchResult, best0 =
      { best_move := [], score := -INFINITY_SCORE, depth := 0, nodes_searched := 0,
        time_taken := 0 } := ⟨_, rfl⟩
  have hloop := deepeningLoop_step clock (q + 1) Board.start true
    (generateLegalMoves Board.start true) 2 1 best0 e0 st he0 (by rw [he0d]; decide) hst hst1
  rw [if_pos hstne] at hloop
  obtain ⟨best1, hb1⟩ : ∃ best1 : SearchResult, best1 =
      { best0 with best_move := st.best_move, score := st.best_eval, depth := 1 } := ⟨_, rfl⟩
  rw [← hb1] at hloop
  obtain ⟨r, hr, hre, hrn, hrm, hrl, hrd0, hrd⟩ := deepeningLoop_total clock (q + 1) Board.start true
    hg hpc33 2 (1 + 1) best1 (st.engine.isTimeUp clock).2 he3 (by rw [hb1]; exact hstne)
    (by rw [hb1]; exact hstmem) (by rw [hb1]; show (0 : Int) < 1; decide)
    (by rw [hb1]; show (1 : Int) < 1 + 1; decide)
  rw [← hloop] at hr
  -- the result
  have hne : (generateLegalMoves Board.start true).isEmpty = false := by
    cases hl : generateLegalMoves Board.start true with
    | nil => rw [hl] at hlen; exact absurd hlen (by decide)
    | cons _ _ => rfl
  have hfinal : findBestMove clock (q + 1) (SearchEngine.new 3 max_time) Board.start true =
      some ({ r.1 with
                nodes_searched := r.2.nodes_searched_
                time_taken := Int.tdiv ((r.2.now clock).1 - r.2.start_time_) TICKS_PER_MS },
            (r.2.now clock).2) := by
    unfold findBestMove iterativeDeepening
    simp only [hne, Bool.false_eq_true, if_false, hlen, OfNat.ofNat_ne_one, ← he0def, he0d,
      ← hbest0, if_true]
    have h3 : ((SearchEngine.new 3 max_time).now clock).2.max_depth_.toNat = 2 + 1 := rfl
    rw [h3, hr]
  refine ⟨_, hfinal, hrm, hrl, hlen, hrd0, by simp only; omega, ?_⟩
  simp only
  rw [hn3] at hrn
  omega

/-- Witness for C27: the clock that stands still and a budget of one second, as in the
repository's test, with quiescence fuel 33. -/
theorem start_position_search_finds_move_witness :
    (∀ n : Nat, Int.tdiv ((fun _ => (0 : Int)) n - (fun _ => (0 : Int)) 0) TICKS_PER_MS < 1000) ∧
    ∃ r, findBestMove (fun _ => 0) 33 (SearchEngine.new 3 1000) Board.start true = some r ∧
      r.1.best_move ≠ [] ∧ r.1.best_move ∈ generateLegalMoves Board.start true ∧
      (generateLegalMoves Board.start true).length = 20 ∧
      0 < r.1.depth ∧ r.1.depth ≤ 3 ∧ 0 < r.1.nodes_searched :=
  ⟨fun _ => (by decide : Int.tdiv ((0 : Int) - 0) TICKS_PER_MS < 1000),
   start_position_search_finds_move (fun _ => 0) 1000 33
     (fun _ => (by decide : Int.tdiv ((0 : Int) - 0) TICKS_PER_MS < 1000)) (by decide)⟩

/-! ## Helper lemmas: the pawn -/

theorem dot_not_opponent (wp : Bool) : isOpponentPiece '.' wp = false := by
  cases wp <;> decide

theorem pawn_capture_step_eq (board : Board) (hg : gridOK board.board_ = true)
    (hc : cellsOK board.board_ = true) (nr nc : Int) (wp : Bool) (moves : List (List Char)) :
    (if nr ≥ 0 ∧ nr < 8 ∧ nc ≥ 0 ∧ nc < 8 then
        if board.getPiece nr nc ≠ '.' then
          if isUpper (board.getPiece nr nc) ≠ wp then moves ++ [positionToSquare nr nc]
          else moves
        else if positionToSquare nr nc = board.en_passant_target_ then
          moves ++ [positionToSquare nr nc]
        else moves
      else moves) =
    moves ++ (([nc] : List Int).filter fun c =>
      isValidSquare nr c &&
      (isOpponentPiece (board.getPiece nr c) wp ||
        (decide (board.getPiece nr c = '.') &&
          decide (positionToSquare nr c = board.en_passant_target_)))).map
      fun c => positionToSquare nr c := by
  by_cases hv : nr ≥ 0 ∧ nr < 8 ∧ nc ≥ 0 ∧ nc < 8
  · have hvs : isValidSquare nr nc = true := (isValidSquare_iff nr nc).2 hv
    rw [if_pos hv]
    have hcell := cell_piece_or_dot hg hc nr nc hvs
    rw [← getPiece_valid board nr nc hvs] at hcell
    by_cases hd : board.getPiece nr nc = '.'
    · rw [if_neg (by simpa using hd)]
      by_cases hep : positionToSquare nr nc = board.en_passant_target_
      · simp [hvs, hd, hep]
      · simp [hvs, hd, hep, dot_not_opponent]
    · rw [if_pos hd]
      have hpl : board.getPiece nr nc ∈ pieceLetters := hcell.resolve_right hd
      by_cases ho : isOpponentPiece (board.getPiece nr nc) wp = true
      · rw [if_pos ((opponent_iff_case _ wp hpl).2 ho)]
        simp [hvs, ho]
      · rw [if_neg (fun h => ho ((opponent_iff_case _ wp hpl).1 h))]
        simp [hvs, ho, hd]
  · rw [if_neg hv]
    have hvs : isValidSquare nr nc = false := by
      cases h : isValidSquare nr nc with
      | false => rfl
      | true => exact absurd ((isValidSquare_iff nr nc).1 h) hv
    simp [hvs]

theorem forward_guard (board : Board) (nr col : Int) :
    (nr ≥ 0 ∧ nr < 8 ∧ board.getPiece nr col = '.') ↔ board.getPiece nr col = '.' := by
  constructor
  · exact fun h => h.2.2
  · intro h
    have := (isValidSquare_iff nr col).1 (getPiece_dot_valid board nr col h)
    exact ⟨this.1, this.2.1, h⟩

theorem forward_part {α : Type} (P Q R : Prop) [Decidable P] [Decidable Q] [Decidable R]
    (a b : List α) :
    (if P then if Q then if R then a ++ b else a else a else []) =
      (if P then a else []) ++ (if Q ∧ P ∧ R then b else []) := by
  by_cases h1 : P <;> by_cases hs : Q <;> by_cases h2 : R <;> simp [h1, hs, h2]

theorem generatePawnMoves_eq (board : Board) (hg : gridOK board.board_ = true)
    (hc : cellsOK board.board_ = true) (row col : Int) (wp : Bool) :
    generatePawnMoves board row col wp = pawnDestinations board row col wp := by
  unfold generatePawnMoves pawnDestinations
  simp only [List.foldl_cons, List.foldl_nil]
  rw [pawn_capture_step_eq board hg hc, pawn_capture_step_eq board hg hc]
  simp only [forward_guard]
  rw [List.append_assoc, ← List.map_append, ← List.filter_append]
  congr 1
  exact forward_part _ _ _ _ _

/-! ## Claim on the pawn -/

set_option maxRecDepth 1000000 in
/-- C31: on a board of 8 x 8 cells that are piece letters or `.`, for a pawn on
`(row, col)` (White when the letter is `P`), `generatePseudoLegalMoves` returns exactly:
the square one row forward (towards row 0 for White, row 7 for Black) if it is empty; then
the square two rows forward if the pawn is on its start row (6 for White, 1 for Black)
and both squares ahead are empty; then each of the two forward-diagonal squares of the
board, left before right, that holds an enemy piece or is empty and equals the
en-passant target.  So a start-row pawn with two empty squares ahead and nothing to
capture has exactly two destinations, the single step first; in the starting position
the pawn e2 has e3 and e4, the pawn e7 has e6 and e5. -/
theorem pawn_moves_as_specified (board : Board) (row col : Int)
    (hg : gridOK board.board_ = true) (hc : cellsOK board.board_ = true)
    (hp : board.getPiece row col = 'P' ∨ board.getPiece row col = 'p') :
    generatePseudoLegalMoves board row col =
      pawnDestinations board row col (decide (board.getPiece row col = 'P')) ∧
    (∀ direction : Int, direction = (if board.getPiece row col = 'P' then -1 else 1) →
      row = (if board.getPiece row col = 'P' then 6 else 1) →
      board.getPiece (row + direction) col = '.' →
      board.getPiece (row + 2 * direction) col = '.' →
      (∀ c ∈ ([col + -1, col + 1] : List Int),
        isOpponentPiece (board.getPiece (row + direction) c)
          (decide (board.getPiece row col = 'P')) = false ∧
        positionToSquare (row + direction) c ≠ board.en_passant_target_) →
      generatePseudoLegalMoves board row col =
        [positionToSquare (row + direction) col, positionToSquare (row + 2 * direction) col]) ∧
    generatePseudoLegalMoves Board.start 6 4 = ["e3".toList, "e4".toList] ∧
    generatePseudoLegalMoves Board.start 1 4 = ["e6".toList, "e5".toList] := by
  have hw : isWhitePiece (board.getPiece row col) = decide (board.getPiece row col = 'P') := by
    rcases hp with h | h <;> rw [h] <;> decide
  have hmain : generatePseudoLegalMoves board row col =
      pawnDestinations board row col (decide (board.getPiece row col = 'P')) := by
    rw [pseudo_pawn board row col hp, hw, generatePawnMoves_eq board hg hc]
  refine ⟨hmain, ?_, by decide, by decide⟩
  intro direction hdir hrow h1 h2 hcap
  rw [hmain]
  unfold pawnDestinations
  simp only [decide_eq_true_eq]
  rw [← hdir, if_pos h1, if_pos ⟨hrow, h1, h2⟩]
  have hnil : (([col + -1, col + 1] : List Int).filter fun c =>
      isValidSquare (row + direction) c &&
      (isOpponentPiece (board.getPiece (row + direction) c)
          (decide (board.getPiece row col = 'P')) ||
        (decide (board.getPiece (row + direction) c = '.') &&
          decide (positionToSquare (row + direction) c = board.en_passant_target_)))) = [] := by
    rw [List.filter_eq_nil_iff]
    intro c hcm
    have := hcap c hcm
    simp [this.1, this.2]
  rw [hnil]
  rfl

set_option maxRecDepth 1000000 in
/-- C31 at the position after 1. e4 a6 2. e5 d5: the white pawn e5 has the single step e6
and the en-passant capture on d6. -/
theorem pawn_moves_as_specified_witness :
    gridOK enPassantReady.board_ = true ∧ cellsOK enPassantReady.board_ = true ∧
    enPassantReady.getPiece 3 4 = 'P' ∧
    pawnDestinations enPassantReady 3 4 true = ["e6".toList, "d6".toList] ∧
    generatePseudoLegalMoves enPassantReady 3 4 =
      pawnDestinations enPassantReady 3 4 (decide (enPassantReady.getPiece 3 4 = 'P')) :=
  ⟨by decide, by decide, by decide, by decide,
    (pawn_moves_as_specified enPassantReady 3 4 (by decide) (by decide)
      (Or.inl (by decide))).1⟩

/-! ## Helper lemmas: the offset tables of knight and king -/

theorem friendly_iff_same_case (t : Char) (wp : Bool) (ht : t ∈ pieceLetters) :
    (isUpper t ≠ wp) ↔ isFriendlyPiece t wp = false := by
  simp only [pieceLetters, WHITE_PIECES, BLACK_PIECES, List.cons_append, List.nil_append,
    List.mem_cons, List.mem_singleton, List.not_mem_nil, or_false] at ht
  rcases ht with h | h | h | h | h | h | h | h | h | h | h | h <;> subst h <;>
    cases wp <;> decide

theorem dot_not_friendly (wp : Bool) : isFriendlyPiece '.' wp = false := by
  cases wp <;> decide

theorem stepMove_eq (board : Board) (hg : gridOK board.board_ = true)
    (hc : cellsOK board.board_ = true) (row col : Int) (wp : Bool)
    (moves : List (List Char)) (off : Int × Int) :
    stepMove board row col wp moves off =
      moves ++ offsetDestinations board row col wp [off] := by
  unfold stepMove offsetDestinations
  simp only
  by_cases hv : row + off.1 ≥ 0 ∧ row + off.1 < 8 ∧ col + off.2 ≥ 0 ∧ col + off.2 < 8
  · have hvs : isValidSquare (row + off.1) (col + off.2) = true := (isValidSquare_iff _ _).2 hv
    rw [if_pos hv]
    have hcell := cell_piece_or_dot hg hc _ _ hvs
    rw [← getPiece_valid board _ _ hvs] at hcell
    by_cases hd : board.getPiece (row + off.1) (col + off.2) = '.'
    · rw [if_pos hd]
      simp [hvs, hd, dot_not_friendly]
    · rw [if_neg hd]
      have hpl := hcell.resolve_right hd
      by_cases hf : isFriendlyPiece (board.getPiece (row + off.1) (col + off.2)) wp = false
      · rw [if_pos ((friendly_iff_same_case _ wp hpl).2 hf)]
        simp [hvs, hf]
      · rw [if_neg (fun h => hf ((friendly_iff_same_case _ wp hpl).1 h))]
        have hf1 : isFriendlyPiece (board.getPiece (row + off.1) (col + off.2)) wp = true := by
          simpa using hf
        simp [hvs, hf1]
  · rw [if_neg hv]
    have hvs : isValidSquare (row + off.1) (col + off.2) = false := by
      cases h : isValidSquare (row + off.1) (col + off.2) with
      | false => rfl
      | true => exact absurd ((isValidSquare_iff _ _).1 h) hv
    simp [hvs]

theorem stepMove_foldl_eq (board : Board) (hg : gridOK board.board_ = true)
    (hc : cellsOK board.board_ = true) (row col : Int) (wp : Bool) :
    ∀ (offs : List (Int × Int)) (moves : List (List Char)),
      offs.foldl (stepMove board row col wp) moves =
        moves ++ offsetDestinations board row col wp offs := by
  intro offs
  induction offs with
  | nil => intro moves; simp [offsetDestinations]
  | cons off offs ih =>
    intro moves
    rw [List.foldl_cons, ih, stepMove_eq board hg hc, List.append_assoc]
    congr 1
    unfold offsetDestinations
    rw [← List.map_append, ← List.filter_append]
    rfl

theorem generateKingMoves_split (board : Board) (row col : Int) (wp : Bool) :
    generateKingMoves board row col wp =
      ([(-1, -1), (-1, 0), (-1, 1), (0, -1), (0, 1), (1, -1), (1, 0), (1, 1)] :
        List (Int × Int)).foldl (stepMove board row col wp) [] ++
      castlingPart board row col wp := by
  unfold generateKingMoves castlingPart
  simp only
  by_cases hchk : (!board.isInCheck wp) = true
  · rw [if_pos hchk, if_pos hchk]
    by_cases hk : board.canCastleKingside wp = true ∧
        board.getPiece row (col + 1) = '.' ∧ board.getPiece row (col + 2) = '.'
    · rw [if_pos hk, if_pos hk]
      by_cases hq : board.canCastleQueenside wp = true ∧
          board.getPiece row (col - 1) = '.' ∧ board.getPiece row (col - 2) = '.' ∧
          board.getPiece row (col - 3) = '.'
      · rw [if_pos hq, if_pos hq]
        split_ifs <;> simp
      · rw [if_neg hq, if_neg hq]
        split_ifs <;> simp
    · rw [if_neg hk, if_neg hk]
      by_cases hq : board.canCastleQueenside wp = true ∧
          board.getPiece row (col - 1) = '.' ∧ board.getPiece row (col - 2) = '.' ∧
          board.getPiece row (col - 3) = '.'
      · rw [if_pos hq, if_pos hq]
        split_ifs <;> simp
      · rw [if_neg hq, if_neg hq]
        simp
  · rw [if_neg hchk, if_neg hchk]
    simp

theorem mem_ite_singleton {α : Type} (P Q : Prop) [Decidable P] [Decidable Q] (a t : α)
    (h : t ∈ (if P then (if Q then [a] else []) else [])) : t = a := by
  by_cases hP : P
  · rw [if_pos hP] at h
    by_cases hQ : Q
    · rw [if_pos hQ] at h
      exact List.mem_singleton.1 h
    · rw [if_neg hQ] at h
      exact absurd h (List.not_mem_nil _)
  · rw [if_neg hP] at h
    exact absurd h (List.not_mem_nil _)

theorem castlingPart_subset (board : Board) (row col : Int) (wp : Bool) :
    ∀ t ∈ castlingPart board row col wp,
      t = positionToSquare row (col + 2) ∨ t = positionToSquare row (col - 2) := by
  intro t ht
  unfold castlingPart at ht
  by_cases hchk : (!board.isInCheck wp) = true
  · rw [if_pos hchk, List.mem_append] at ht
    rcases ht with h | h
    · exact Or.inl (mem_ite_singleton _ _ _ _ h)
    · exact Or.inr (mem_ite_singleton _ _ _ _ h)
  · rw [if_neg hchk] at ht
    exact absurd ht (List.not_mem_nil _)

/-! ## Claim on knight and king steps -/

set_option maxRecDepth 1000000 in
/-- C32: on a board of 8 x 8 cells that are piece letters or `.`, the destinations of a
knight, and the one-square steps of the king, are exactly the squares at the eight fixed
offsets that lie on the board and are not occupied by a piece of the mover's colour,
listed in the order of the offset table.  For the king the steps come first in the list
of `generateKingMoves`, and whatever follows them is a two-file castling destination.
In the starting position the knight b1 has a3 and c3, the knight g1 has f3 and h3. -/
theorem knight_and_king_steps_follow_offsets (board : Board) (row col : Int)
    (hg : gridOK board.board_ = true) (hc : cellsOK board.board_ = true) :
    (∀ wp, generateKnightMoves board row col wp =
      offsetDestinations board row col wp
        [(-2, -1), (-2, 1), (-1, -2), (-1, 2), (1, -2), (1, 2), (2, -1), (2, 1)]) ∧
    (board.getPiece row col = 'N' ∨ board.getPiece row col = 'n' →
      generatePseudoLegalMoves board row col =
        offsetDestinations board row col (isWhitePiece (board.getPiece row col))
          [(-2, -1), (-2, 1), (-1, -2), (-1, 2), (1, -2), (1, 2), (2, -1), (2, 1)]) ∧
    (∀ wp, generateKingMoves board row col wp =
      offsetDestinations board row col wp
        [(-1, -1), (-1, 0), (-1, 1), (0, -1), (0, 1), (1, -1), (1, 0), (1, 1)] ++
      castlingPart board row col wp) ∧
    (∀ wp, ∀ t ∈ castlingPart board row col wp,
      t = positionToSquare row (col + 2) ∨ t = positionToSquare row (col - 2)) ∧
    (board.getPiece row col = 'K' ∨ board.getPiece row col = 'k' →
      generatePseudoLegalMoves board row col =
        offsetDestinations board row col (isWhitePiece (board.getPiece row col))
          [(-1, -1), (-1, 0), (-1, 1), (0, -1), (0, 1), (1, -1), (1, 0), (1, 1)] ++
        castlingPart board row col (isWhitePiece (board.getPiece row col))) ∧
    generatePseudoLegalMoves Board.start 7 1 = ["a3".toList, "c3".toList] ∧
    generatePseudoLegalMoves Board.start 7 6 = ["f3".toList, "h3".toList] := by
  have hkn : ∀ wp, generateKnightMoves board row col wp =
      offsetDestinations board row col wp
        [(-2, -1), (-2, 1), (-1, -2), (-1, 2), (1, -2), (1, 2), (2, -1), (2, 1)] := by
    intro wp
    unfold generateKnightMoves
    rw [stepMove_foldl_eq board hg hc, List.nil_append]
  have hki : ∀ wp, generateKingMoves board row col wp =
      offsetDestinations board row col wp
        [(-1, -1), (-1, 0), (-1, 1), (0, -1), (0, 1), (1, -1), (1, 0), (1, 1)] ++
      castlingPart board row col wp := by
    intro wp
    rw [generateKingMoves_split, stepMove_foldl_eq board hg hc, List.nil_append]
  refine ⟨hkn, ?_, hki, fun wp => castlingPart_subset board row col wp, ?_, by decide,
    by decide⟩
  · intro hp
    rw [pseudo_knight board row col hp, hkn]
  · intro hp
    rw [pseudo_king board row col hp, hki]

set_option maxRecDepth 1000000 in
/-- C32 at the starting position: the knight b1 has the destinations a3 and c3. -/
theorem knight_and_king_steps_follow_offsets_witness :
    gridOK Board.start.board_ = true ∧ cellsOK Board.start.board_ = true ∧
    generateKnightMoves Board.start 7 1 true =
      offsetDestinations Board.start 7 1 true
        [(-2, -1), (-2, 1), (-1, -2), (-1, 2), (1, -2), (1, 2), (2, -1), (2, 1)] ∧
    offsetDestinations Board.start 7 1 true
        [(-2, -1), (-2, 1), (-1, -2), (-1, 2), (1, -2), (1, 2), (2, -1), (2, 1)] =
      ["a3".toList, "c3".toList] :=
  ⟨by decide, by decide,
    (knight_and_king_steps_follow_offsets Board.start 7 1 (by decide) (by decide)).1 true,
    by decide⟩

/-! ## Helper lemmas: castling in `generateKingMoves` -/

theorem isInCheck_congr (b1 b2 : Board) (h : b1.board_ = b2.board_) (c : Bool) :
    b1.isInCheck c = b2.isInCheck c := by
  unfold Board.isInCheck Board.canPieceAttackSquare Board.isPathClear
  simp only [h]

theorem king_step_board (board : Board) (row col dc : Int) (wp : Bool)
    (hk : board.getPiece row col = (if wp then 'K' else 'k'))
    (hturn : board.white_to_move_ = wp) (hdc : dc = 1 ∨ dc = -1)
    (he : board.getPiece row (col + dc) = '.') :
    (board.copy.makeMove (positionToSquare row col ++ positionToSquare row (col + dc))).1 = true ∧
    (board.copy.makeMove (positionToSquare row col ++ positionToSquare row (col + dc))).2.board_ =
      (kingShifted board row col dc).board_ := by
  have hv : isValidSquare row col = true := by
    cases h : isValidSquare row col with
    | true => rfl
    | false =>
      rw [getPiece_invalid board row col (by simp [h])] at hk
      cases wp <;> exact absurd hk (by decide)
  have hv2 : isValidSquare row (col + dc) = true := getPiece_dot_valid board _ _ he
  have h1 := positionToSquare_position row col hv
  have h2 := positionToSquare_position row (col + dc) hv2
  have htake : (positionToSquare row col ++ positionToSquare row (col + dc)).take 2 =
      positionToSquare row col := by
    rw [List.take_append_of_le_length (by omega), List.take_of_length_le (by omega)]
  have hdrop : ((positionToSquare row col ++ positionToSquare row (col + dc)).drop 2).take 2 =
      positionToSquare row (col + dc) := by
    rw [List.drop_append_of_le_length (by omega), List.drop_of_length_le (by omega),
      List.nil_append, List.take_of_length_le (by omega)]
  have hvv := (isValidSquare_iff row col).1 hv
  have hkk : board.getPiece row col = 'K' ∨ board.getPiece row col = 'k' := by
    cases wp
    · exact Or.inr hk
    · exact Or.inl hk
  have hok : (board.copy.makeMove
      (positionToSquare row col ++ positionToSquare row (col + dc))).1 = true := by
    rw [copy_eq, makeMove_true_iff, htake, hdrop, h1.2, h2.2]
    refine ⟨by simp only [List.length_append]; omega, by simp only; omega,
      by simp only; omega, ?_, ?_⟩
    · simp only
      rw [hk]
      cases wp <;> decide
    · simp only
      rw [hk, hturn]
      cases wp <;> decide
  refine ⟨hok, ?_⟩
  rw [copy_eq] at hok ⊢
  rw [makeMove_of_true board _ hok, htake, hdrop, h1.2, h2.2,
    applyMove_board_king _ _ _ _ _ _ hkk, kingStep_board]
  · rfl
  · simp only
    rcases hdc with h | h <;> subst h <;> simp

theorem castlingPart_eq (board : Board) (row col : Int) (wp : Bool)
    (hk : board.getPiece row col = (if wp then 'K' else 'k'))
    (hturn : board.white_to_move_ = wp) :
    castlingPart board row col wp =
      (if board.isInCheck wp = false ∧ board.canCastleKingside wp = true ∧
          board.getPiece row (col + 1) = '.' ∧ board.getPiece row (col + 2) = '.' ∧
          (kingShifted board row col 1).isInCheck wp = false then
        [positionToSquare row (col + 2)] else []) ++
      (if board.isInCheck wp = false ∧ board.canCastleQueenside wp = true ∧
          board.getPiece row (col - 1) = '.' ∧ board.getPiece row (col - 2) = '.' ∧
          board.getPiece row (col - 3) = '.' ∧
          (kingShifted board row col (-1)).isInCheck wp = false then
        [positionToSquare row (col - 2)] else []) := by
  unfold castlingPart
  cases hchk : board.isInCheck wp with
  | true => simp
  | false =>
    simp only [Bool.not_false, if_true, true_and]
    congr 1
    · by_cases hc : board.canCastleKingside wp = true ∧
          board.getPiece row (col + 1) = '.' ∧ board.getPiece row (col + 2) = '.'
      · rw [if_pos hc]
        have hs := king_step_board board row col 1 wp hk hturn (Or.inl rfl) hc.2.1
        rw [isInCheck_congr _ _ hs.2]
        cases hsh : (kingShifted board row col 1).isInCheck wp with
        | true => simp
        | false => simp [hc.1, hc.2.1, hc.2.2]
      · rw [if_neg hc, if_neg (fun h => hc ⟨h.1, h.2.1, h.2.2.1⟩)]
    · by_cases hc : board.canCastleQueenside wp = true ∧
          board.getPiece row (col - 1) = '.' ∧ board.getPiece row (col - 2) = '.' ∧
          board.getPiece row (col - 3) = '.'
      · rw [if_pos hc]
        have hs := king_step_board board row col (-1) wp hk hturn (Or.inr rfl) hc.2.1
        rw [show col - 1 = col + -1 from rfl, isInCheck_congr _ _ hs.2]
        cases hsh : (kingShifted board row col (-1)).isInCheck wp with
        | true => simp
        | false =>
          have h1 : board.getPiece row (col + -1) = '.' := hc.2.1
          simp [hc.1, h1, hc.2.2.1, hc.2.2.2]
      · rw [if_neg hc, if_neg (fun h => hc ⟨h.1, h.2.1, h.2.2.1, h.2.2.2.1⟩)]

theorem step_not_two_files (board : Board) (row col : Int) (wp : Bool) (dc : Int)
    (hdc : dc = 2 ∨ dc = -2) :
    positionToSquare row (col + dc) ∉
      ([(-1, -1), (-1, 0), (-1, 1), (0, -1), (0, 1), (1, -1), (1, 0), (1, 1)] :
        List (Int × Int)).foldl (stepMove board row col wp) [] := by
  intro h
  rw [stepMove_foldl_mem] at h
  rcases h with h | ⟨off, hoff, hv, _, heq⟩
  · exact List.not_mem_nil _ h
  · have := (positionToSquare_inj _ _ _ _ hv heq.symm).2
    simp only [List.mem_cons, List.mem_singleton, List.not_mem_nil, or_false] at hoff
    rcases hoff with h | h | h | h | h | h | h | h <;> subst h <;>
      rcases hdc with h | h <;> subst h <;> simp only at this <;> omega

theorem mem_ite_list {α : Type} (P : Prop) [Decidable P] (a : α) :
    a ∈ (if P then [a] else []) ↔ P := by
  by_cases h : P
  · rw [if_pos h]
    simp [h]
  · rw [if_neg h]
    simp [h]

theorem mem_ite_other {α : Type} (P : Prop) [Decidable P] (a t : α)
    (h : t ∈ (if P then [a] else [])) : P ∧ t = a := by
  by_cases hP : P
  · rw [if_pos hP] at h
    exact ⟨hP, List.mem_singleton.1 h⟩
  · rw [if_neg hP] at h
    exact absurd h (List.not_mem_nil _)

/-! ## Claim on the castling destinations -/

set_option maxRecDepth 1000000 in
/-- C33: for a king of the side to move standing on `(row, col)`, `generateKingMoves`
offers the castling destination two files towards the kingside exactly when the king's
colour is not in check, the kingside castling right is set, the two squares next to the
king on that side are empty, and the king is not in check on the board with the king
moved one square to that side; it offers the destination two files towards the queenside
exactly when the colour is not in check, the queenside right is set, the three squares
next to the king on that side are empty, and the king is not in check after the
one-square step to that side.  A king that is in check is offered no castling move.  The
board with the king moved one square is the grid the simulated `makeMove` of the source
leaves, which accepts the step. -/
theorem castling_offered_iff (board : Board) (row col : Int) (wp : Bool)
    (hk : board.getPiece row col = (if wp then 'K' else 'k'))
    (hturn : board.white_to_move_ = wp) :
    (positionToSquare row (col + 2) ∈ generateKingMoves board row col wp ↔
      (board.isInCheck wp = false ∧ board.canCastleKingside wp = true ∧
        board.getPiece row (col + 1) = '.' ∧ board.getPiece row (col + 2) = '.' ∧
        (kingShifted board row col 1).isInCheck wp = false)) ∧
    (positionToSquare row (col - 2) ∈ generateKingMoves board row col wp ↔
      (board.isInCheck wp = false ∧ board.canCastleQueenside wp = true ∧
        board.getPiece row (col - 1) = '.' ∧ board.getPiece row (col - 2) = '.' ∧
        board.getPiece row (col - 3) = '.' ∧
        (kingShifted board row col (-1)).isInCheck wp = false)) ∧
    (board.isInCheck wp = true →
      positionToSquare row (col + 2) ∉ generateKingMoves board row col wp ∧
      positionToSquare row (col - 2) ∉ generateKingMoves board row col wp) ∧
    generatePseudoLegalMoves board row col = generateKingMoves board row col wp ∧
    (∀ dc : Int, dc = 1 ∨ dc = -1 → board.getPiece row (col + dc) = '.' →
      (board.copy.makeMove
        (positionToSquare row col ++ positionToSquare row (col + dc))).1 = true ∧
      (board.copy.makeMove
        (positionToSquare row col ++ positionToSquare row (col + dc))).2.board_ =
        (kingShifted board row col dc).board_) := by
  have hK : positionToSquare row (col + 2) ∈ generateKingMoves board row col wp ↔
      (board.isInCheck wp = false ∧ board.canCastleKingside wp = true ∧
        board.getPiece row (col + 1) = '.' ∧ board.getPiece row (col + 2) = '.' ∧
        (kingShifted board row col 1).isInCheck wp = false) := by
    rw [generateKingMoves_split, List.mem_append, castlingPart_eq board row col wp hk hturn,
      List.mem_append, mem_ite_list]
    constructor
    · rintro (h | h | h)
      · exact absurd h (step_not_two_files board row col wp 2 (Or.inl rfl))
      · exact h
      · exfalso
        obtain ⟨hc, heq⟩ := mem_ite_other _ _ _ h
        have hv := getPiece_dot_valid board _ _ hc.2.2.2.1
        have := (positionToSquare_inj _ _ _ _ hv heq.symm).2
        omega
    · exact fun h => Or.inr (Or.inl h)
  have hQ : positionToSquare row (col - 2) ∈ generateKingMoves board row col wp ↔
      (board.isInCheck wp = false ∧ board.canCastleQueenside wp = true ∧
        board.getPiece row (col - 1) = '.' ∧ board.getPiece row (col - 2) = '.' ∧
        board.getPiece row (col - 3) = '.' ∧
        (kingShifted board row col (-1)).isInCheck wp = false) := by
    rw [generateKingMoves_split, List.mem_append, castlingPart_eq board row col wp hk hturn,
      List.mem_append, mem_ite_list]
    constructor
    · rintro (h | h | h)
      · exact absurd h (step_not_two_files board row col wp (-2) (Or.inr rfl))
      · exfalso
        obtain ⟨hc, heq⟩ := mem_ite_other _ _ _ h
        have hv := getPiece_dot_valid board _ _ hc.2.2.2.1
        have := (positionToSquare_inj _ _ _ _ hv heq.symm).2
        omega
      · exact h
    · exact fun h => Or.inr (Or.inr h)
  refine ⟨hK, hQ, ?_, ?_, ?_⟩
  · intro hchk
    constructor
    · rw [hK]
      intro h
      rw [h.1] at hchk
      exact Bool.noConfusion hchk
    · rw [hQ]
      intro h
      rw [h.1] at hchk
      exact Bool.noConfusion hchk
  · have hkk : board.getPiece row col = 'K' ∨ board.getPiece row col = 'k' := by
      cases wp
      · exact Or.inr hk
      · exact Or.inl hk
    rw [pseudo_king board row col hkk, hk]
    cases wp <;> rfl
  · intro dc hdc he
    exact king_step_board board row col dc wp hk hturn hdc he

set_option maxRecDepth 1000000 in
/-- C33 at a position with both wings free: the white king e1 is offered g1 and c1. -/
theorem castling_offered_iff_witness :
    castleReady.getPiece 7 4 = (if true then 'K' else 'k') ∧
    castleReady.white_to_move_ = true ∧
    castleReady.isInCheck true = false ∧ castleReady.canCastleKingside true = true ∧
    castleReady.getPiece 7 (4 + 1) = '.' ∧ castleReady.getPiece 7 (4 + 2) = '.' ∧
    (kingShifted castleReady 7 4 1).isInCheck true = false ∧
    positionToSquare 7 (4 + 2) ∈ generateKingMoves castleReady 7 4 true :=
  ⟨by decide, by decide, by decide, by decide, by decide, by decide, by decide,
    (castling_offered_iff castleReady 7 4 true (by decide) (by decide)).1.2
      ⟨by decide, by decide, by decide, by decide, by decide⟩⟩

/-! ## Claim on the rook of a castling move -/

theorem legal_of_pseudo_safe (b : Board) (wp : Bool) (sq : Nat × Nat) (m : List Char)
    (hsq : sq ∈ rowMajorSquares) (hm : m ∈ pseudoMovesAt b wp sq)
    (hs : keepsKingSafe b wp m = true) : m ∈ generateLegalMoves b wp := by
  rw [generateLegalMoves_eq_spec]
  unfold legalMovesSpec
  rw [List.mem_flatMap]
  exact ⟨sq, hsq, List.mem_filter.2 ⟨hm, hs⟩⟩

theorem legalPlay_cons (b : Board) (sq : Nat × Nat) (m : List Char) (ms : List (List Char))
    (hsq : sq ∈ rowMajorSquares) (hm : m ∈ pseudoMovesAt b b.white_to_move_ sq)
    (hs : keepsKingSafe b b.white_to_move_ m = true)
    (hrest : Board.legalPlay (b.makeMove m).2 ms = true) :
    Board.legalPlay b (m :: ms) = true := by
  unfold Board.legalPlay
  rw [Bool.and_eq_true]
  exact ⟨decide_eq_true (legal_of_pseudo_safe b _ sq m hsq hm hs), hrest⟩

set_option maxRecDepth 1000000 in
/-- C34 (the code at the failing input): after the eight legal plies e2e3, b7b6, f1a6,
c8b7, g1h3, b7g2, a2a3, g2h1 from the starting position, White is to move, the king
stands on e1 with the kingside castling right still set, and the corner h1 holds a black
bishop, not a rook.  `generateLegalMoves` lists the two-file king move e1g1, and
`makeMove` of it puts the king on g1 and the black bishop on f1: no friendly rook stands
on the square the king crossed. -/
theorem castling_without_rook :
    Board.start.legalPlay rookCaptureLine = true ∧
    capturedRook.white_to_move_ = true ∧
    capturedRook.getPieceAt "e1".toList = 'K' ∧
    capturedRook.getPieceAt "h1".toList = 'b' ∧
    capturedRook.canCastleKingside true = true ∧
    "e1g1".toList ∈ generateLegalMoves capturedRook true ∧
    (capturedRook.makeMove "e1g1".toList).1 = true ∧
    (capturedRook.makeMove "e1g1".toList).2.getPieceAt "g1".toList = 'K' ∧
    (capturedRook.makeMove "e1g1".toList).2.getPieceAt "f1".toList = 'b' ∧
    isFriendlyPiece ((capturedRook.makeMove "e1g1".toList).2.getPieceAt "f1".toList) true
      = false := by
  refine ⟨?_, by decide, by decide, by decide, by decide, ?_, by decide, by decide,
    by decide, by decide⟩
  · unfold rookCaptureLine
    refine legalPlay_cons _ (6, 4) _ _ (by decide) (by decide) (by decide) ?_
    refine legalPlay_cons _ (1, 1) _ _ (by decide) (by decide) (by decide) ?_
    refine legalPlay_cons _ (7, 5) _ _ (by decide) (by decide) (by decide) ?_
    refine legalPlay_cons _ (0, 2) _ _ (by decide) (by decide) (by decide) ?_
    refine legalPlay_cons _ (7, 6) _ _ (by decide) (by decide) (by decide) ?_
    refine legalPlay_cons _ (1, 1) _ _ (by decide) (by decide) (by decide) ?_
    refine legalPlay_cons _ (6, 0) _ _ (by decide) (by decide) (by decide) ?_
    refine legalPlay_cons _ (6, 6) _ _ (by decide) (by decide) (by decide) ?_
    rfl
  · exact legal_of_pseudo_safe _ _ (7, 4) _ (by decide) (by decide) (by decide)

/-! ## Claim on move ordering -/

/-- C35: `orderMoves` returns a permutation of the move list it is given (every move with
the multiplicity it has in the input), arranged so that `getMoveScore` does not increase
from front to back. -/
theorem orderMoves_sorted_permutation (board : Board) (moves : List (List Char))
    (white_player : Bool) :
    (orderMoves board moves white_player).Perm moves ∧
    (∀ m, (orderMoves board moves white_player).countP (fun x => decide (x = m)) =
      moves.countP (fun x => decide (x = m))) ∧
    (orderMoves board moves white_player).length = moves.length ∧
    List.Pairwise
      (fun a b => getMoveScore board a white_player ≥ getMoveScore board b white_player)
      (orderMoves board moves white_player) := by
  haveI : IsTotal (List Char × Int) (fun a b => a.2 ≥ b.2) := ⟨fun a b => le_total b.2 a.2⟩
  haveI : IsTrans (List Char × Int) (fun a b => a.2 ≥ b.2) :=
    ⟨fun a b c hab hbc => le_trans hbc hab⟩
  have hperm := List.perm_insertionSort (fun a b : List Char × Int => a.2 ≥ b.2)
    (moves.map fun move => (move, getMoveScore board move white_player))
  have hsorted := List.sorted_insertionSort (fun a b : List Char × Int => a.2 ≥ b.2)
    (moves.map fun move => (move, getMoveScore board move white_player))
  have hp : (orderMoves board moves white_player).Perm moves := by
    unfold orderMoves
    have := hperm.map Prod.fst
    rw [List.map_map] at this
    have hcomp : (Prod.fst ∘ fun move : List Char =>
        (move, getMoveScore board move white_player)) = id := rfl
    rw [hcomp, List.map_id] at this
    exact this
  refine ⟨hp, fun m => hp.countP_eq _, hp.length_eq, ?_⟩
  unfold orderMoves
  rw [List.pairwise_map]
  refine List.Pairwise.imp_of_mem ?_ hsorted
  intro a b ha hb hab
  have hmem : ∀ x ∈ List.insertionSort (fun a b : List Char × Int => a.2 ≥ b.2)
      (moves.map fun move => (move, getMoveScore board move white_player)),
      x.2 = getMoveScore board x.1 white_player := by
    intro x hx
    rw [hperm.mem_iff, List.mem_map] at hx
    obtain ⟨mv, _, rfl⟩ := hx
    rfl
  rw [← hmem a ha, ← hmem b hb]
  exact hab

/-! ## Helper lemmas: the quiescence search on an arbitrary clock -/

theorem quiescenceMaxLoop_returns (clock : Nat → Int)
    (child : Board → Int → Int → SearchEngine → Option (Int × SearchEngine)) (board : Board)
    (beta : Int) :
    ∀ (moves : List (List Char)),
      (∀ move ∈ moves, (board.copy.makeMove move).1 = true →
        ∀ (a be : Int) (e : SearchEngine),
          ∃ r, child (board.copy.makeMove move).2 a be e = some r) →
      ∀ (alpha : Int) (e : SearchEngine),
        ∃ r, quiescenceMaxLoop clock child board beta moves alpha e = some r ∧ alpha ≤ r.1 := by
  intro moves
  induction moves with
  | nil =>
    intro _ alpha e
    exact ⟨_, rfl, le_refl _⟩
  | cons move rest ih =>
    intro hchild alpha e
    have ihr := ih (fun mv hmv => hchild mv (List.mem_cons_of_mem _ hmv))
    cases hup : (e.isTimeUp clock).1 with
    | true =>
      exact ⟨(alpha, (e.isTimeUp clock).2), by simp only [quiescenceMaxLoop, hup, if_true],
        le_refl _⟩
    | false =>
      cases hmv : (board.copy.makeMove move).1 with
      | false =>
        obtain ⟨r, hr, hr1⟩ := ihr alpha (e.isTimeUp clock).2
        refine ⟨r, ?_, hr1⟩
        simp only [quiescenceMaxLoop, hup, hmv, Bool.false_eq_true, if_false, Bool.not_false,
          if_true]
        exact hr
      | true =>
        obtain ⟨r1, hc⟩ := hchild move (List.mem_cons_self _ _) hmv alpha beta
          (e.isTimeUp clock).2
        by_cases hcut : beta ≤ max alpha r1.1
        · refine ⟨(max alpha r1.1, r1.2), ?_, le_max_left _ _⟩
          simp only [quiescenceMaxLoop, hup, hmv, hc, Bool.false_eq_true, if_false,
            Bool.not_true, hcut, if_true]
        · obtain ⟨r, hr, hr1⟩ := ihr (max alpha r1.1) r1.2
          refine ⟨r, ?_, le_trans (le_max_left _ _) hr1⟩
          simp only [quiescenceMaxLoop, hup, hmv, hc, Bool.false_eq_true, if_false,
            Bool.not_true, hcut]
          exact hr

theorem quiescenceMinLoop_returns (clock : Nat → Int)
    (child : Board → Int → Int → SearchEngine → Option (Int × SearchEngine)) (board : Board)
    (alpha : Int) :
    ∀ (moves : List (List Char)),
      (∀ move ∈ moves, (board.copy.makeMove move).1 = true →
        ∀ (a be : Int) (e : SearchEngine),
          ∃ r, child (board.copy.makeMove move).2 a be e = some r) →
      ∀ (beta : Int) (e : SearchEngine),
        ∃ r, quiescenceMinLoop clock child board alpha moves beta e = some r ∧ r.1 ≤ beta := by
  intro moves
  induction moves with
  | nil =>
    intro _ beta e
    exact ⟨_, rfl, le_refl _⟩
  | cons move rest ih =>
    intro hchild beta e
    have ihr := ih (fun mv hmv => hchild mv (List.mem_cons_of_mem _ hmv))
    cases hup : (e.isTimeUp clock).1 with
    | true =>
      exact ⟨(beta, (e.isTimeUp clock).2), by simp only [quiescenceMinLoop, hup, if_true],
        le_refl _⟩
    | false =>
      cases hmv : (board.copy.makeMove move).1 with
      | false =>
        obtain ⟨r, hr, hr1⟩ := ihr beta (e.isTimeUp clock).2
        refine ⟨r, ?_, hr1⟩
        simp only [quiescenceMinLoop, hup, hmv, Bool.false_eq_true, if_false, Bool.not_false,
          if_true]
        exact hr
      | true =>
        obtain ⟨r1, hc⟩ := hchild move (List.mem_cons_self _ _) hmv alpha beta
          (e.isTimeUp clock).2
        by_cases hcut : min beta r1.1 ≤ alpha
        · refine ⟨(min beta r1.1, r1.2), ?_, min_le_left _ _⟩
          simp only [quiescenceMinLoop, hup, hmv, hc, Bool.false_eq_true, if_false,
            Bool.not_true, hcut, if_true]
        · obtain ⟨r, hr, hr1⟩ := ihr (min beta r1.1) r1.2
          refine ⟨r, ?_, le_trans hr1 (min_le_left _ _)⟩
          simp only [quiescenceMinLoop, hup, hmv, hc, Bool.false_eq_true, if_false,
            Bool.not_true, hcut]
          exact hr

/-- On every clock `quiescenceSearch` returns when its fuel exceeds the number of pieces;
when the time budget has not expired at the poll on entry, the value returned is bounded
by the static evaluation. -/
theorem quiescenceSearch_returns (clock : Nat → Int) :
    ∀ (fuel : Nat) (board : Board) (alpha beta : Int) (mp : Bool) (e : SearchEngine),
      gridOK board.board_ = true → pieceCount board.board_ < fuel →
      ∃ r, quiescenceSearch clock fuel board alpha beta mp e = some r ∧
        ((e.isTimeUp clock).1 = true → r.1 = 0) ∧
        ((e.isTimeUp clock).1 = false →
          (mp = true → evaluate board mp ≥ beta → r.1 = beta) ∧
          (mp = true → ¬evaluate board mp ≥ beta → r.1 ≥ evaluate board mp) ∧
          (mp = false → evaluate board mp ≤ alpha → r.1 = alpha) ∧
          (mp = false → ¬evaluate board mp ≤ alpha → r.1 ≤ evaluate board mp)) := by
  intro fuel
  induction fuel with
  | zero => intro board alpha beta mp e _ h; exact absurd h (Nat.not_lt_zero _)
  | succ fuel ih =>
    intro board alpha beta mp e hg hpc
    have hn := isTimeUp_nodes e clock (e.nodes_searched_ + 1)
    have hchild : ∀ move ∈ orderMoves board
          ((generateLegalMoves board mp).filter (isCaptureMove board)) mp,
        (board.copy.makeMove move).1 = true →
        ∀ (a be : Int) (en : SearchEngine),
          ∃ r, quiescenceSearch clock fuel (board.copy.makeMove move).2 a be (!mp) en
            = some r := by
      intro move hmove hacc a be en
      rw [orderMoves_mem, List.mem_filter] at hmove
      have hpcm := makeMove_pieceCount board mp move hg hmove.1 hacc
      obtain ⟨r, hr, _⟩ := ih (board.copy.makeMove move).2 a be (!mp) en hpcm.1
        (by have := hpcm.2.2 hmove.2; omega)
      exact ⟨r, hr⟩
    cases hup : (e.isTimeUp clock).1 with
    | true =>
      refine ⟨(0, (SearchEngine.isTimeUp { e with nodes_searched_ := e.nodes_searched_ + 1 }
        clock).2), ?_, fun _ => rfl, fun h => absurd h (by decide)⟩
      simp only [quiescenceSearch, hn.1, hup, if_true]
    | false =>
      simp only [quiescenceSearch, hn.1, hn.2, hup, Bool.false_eq_true, if_false, false_implies,
        true_implies, true_and]
      by_cases h1 : mp = true ∧ evaluate board mp ≥ beta
      · rw [if_pos h1]
        refine ⟨_, rfl, fun _ _ => rfl, fun _ h => absurd h1.2 h, ?_, ?_⟩
        · intro h; rw [h1.1] at h; exact Bool.noConfusion h
        · intro h; rw [h1.1] at h; exact Bool.noConfusion h
      · rw [if_neg h1]
        by_cases h2 : mp = false ∧ evaluate board mp ≤ alpha
        · rw [if_pos h2]
          refine ⟨_, rfl, ?_, ?_, fun _ _ => rfl, fun _ h => absurd h2.2 h⟩
          · intro h; rw [h2.1] at h; exact Bool.noConfusion h
          · intro h; rw [h2.1] at h; exact Bool.noConfusion h
        · rw [if_neg h2]
          by_cases hemp : ((generateLegalMoves board mp).filter (isCaptureMove board)).isEmpty
              = true
          · rw [if_pos hemp]
            refine ⟨_, rfl, ?_, ?_, ?_, ?_⟩
            · intro hm hb; exact absurd ⟨hm, hb⟩ h1
            · intro _ _; exact le_refl _
            · intro hm hb; exact absurd ⟨hm, hb⟩ h2
            · intro _ _; exact le_refl _
          · rw [if_neg hemp]
            cases mp with
            | true =>
              simp only [if_true]
              obtain ⟨r, hr, hr1⟩ := quiescenceMaxLoop_returns clock
                (fun b a be en => quiescenceSearch clock fuel b a be (!true) en) board beta _
                hchild (max alpha (evaluate board true))
                { (e.isTimeUp clock).2 with nodes_searched_ := e.nodes_searched_ + 1 }
              refine ⟨r, hr, ?_, ?_, ?_, ?_⟩
              · intro _ hb; exact absurd ⟨rfl, hb⟩ h1
              · intro _ _; exact le_trans (le_max_right _ _) hr1
              · intro h; exact Bool.noConfusion h
              · intro h; exact Bool.noConfusion h
            | false =>
              simp only [Bool.false_eq_true, if_false]
              obtain ⟨r, hr, hr1⟩ := quiescenceMinLoop_returns clock
                (fun b a be en => quiescenceSearch clock fuel b a be (!false) en) board alpha _
                hchild (min beta (evaluate board false))
                { (e.isTimeUp clock).2 with nodes_searched_ := e.nodes_searched_ + 1 }
              refine ⟨r, hr, ?_, ?_, ?_, ?_⟩
              · intro h; exact h.elim
              · intro h; exact h.elim
              · intro _ hb; exact absurd ⟨rfl, hb⟩ h2
              · intro _ _; exact le_trans hr1 (min_le_right _ _)

/-! ## Claim on the stand-pat bound -/

/-- C36: with the time budget not expired at the poll on entry, `quiescenceSearch` (which
returns whenever its fuel exceeds the number of pieces of an 8 x 8 board) uses the static
evaluation `s = evaluate(board, maximizing_player)` as a bound: for the maximizing side it
returns `beta` when `s ≥ beta` and otherwise a value `≥ s`; for the minimizing side it
returns `alpha` when `s ≤ alpha` and otherwise a value `≤ s`; and when no legal move is a
capture and neither cutoff applies it returns `s` itself. -/
theorem quiescence_stand_pat_bounds (clock : Nat → Int) (fuel : Nat) (board : Board)
    (alpha beta : Int) (mp : Bool) (e : SearchEngine)
    (hg : gridOK board.board_ = true) (hf : pieceCount board.board_ < fuel)
    (ht : (e.isTimeUp clock).1 = false) :
    ∃ r, quiescenceSearch clock fuel board alpha beta mp e = some r ∧
      (mp = true → evaluate board mp ≥ beta → r.1 = beta) ∧
      (mp = true → evaluate board mp < beta → r.1 ≥ evaluate board mp) ∧
      (mp = false → evaluate board mp ≤ alpha → r.1 = alpha) ∧
      (mp = false → evaluate board mp > alpha → r.1 ≤ evaluate board mp) ∧
      ((∀ m ∈ generateLegalMoves board mp, isCaptureMove board m = false) →
        ¬(mp = true ∧ evaluate board mp ≥ beta) →
        ¬(mp = false ∧ evaluate board mp ≤ alpha) →
        r.1 = evaluate board mp) := by
  obtain ⟨r, hr, _, hb⟩ := quiescenceSearch_returns clock fuel board alpha beta mp e hg hf
  obtain ⟨h1, h2, h3, h4⟩ := hb ht
  refine ⟨r, hr, h1, fun hm hlt => h2 hm (by omega), h3, fun hm hgt => h4 hm (by omega), ?_⟩
  intro hq hc1 hc2
  have hnil : (generateLegalMoves board mp).filter (isCaptureMove board) = [] := by
    rw [List.filter_eq_nil_iff]
    intro m hm
    rw [hq m hm]
    exact Bool.false_ne_true
  obtain ⟨f, rfl⟩ : ∃ f, fuel = f + 1 := ⟨fuel - 1, by omega⟩
  rw [quiescence_quiet clock f board alpha beta mp e ht hnil, if_neg hc1, if_neg hc2] at hr
  rw [← Option.some.inj hr]

set_option maxRecDepth 1000000 in
/-- C36 at the position with the lone capture h1g2, White to move, full window. -/
theorem quiescence_stand_pat_bounds_witness :
    gridOK loneCapture.board_ = true ∧ pieceCount loneCapture.board_ < 4 ∧
    ((SearchEngine.new 3 1000).isTimeUp (fun _ => 0)).1 = false ∧
    ∃ r, quiescenceSearch (fun _ => 0) 4 loneCapture (-100000) 100000 true
        (SearchEngine.new 3 1000) = some r ∧
      r.1 ≥ evaluate loneCapture true :=
  ⟨by decide, by decide, by decide,
    (quiescence_stand_pat_bounds (fun _ => 0) 4 loneCapture (-100000) 100000 true
      (SearchEngine.new 3 1000) (by decide) (by decide) (by decide)).imp
      fun _ h => ⟨h.1, h.2.2.1 rfl (by decide)⟩⟩

/-! ## Helper lemmas: the search after the deadline -/

theorem alphaBeta_expired (clock : Nat → Int) (qfuel fuel : Nat) (board : Board)
    (depth alpha beta : Int) (mp : Bool) (e : SearchEngine)
    (hup : (e.isTimeUp clock).1 = true) :
    alphaBeta clock qfuel (fuel + 1) board depth alpha beta mp e =
      some (evaluate board mp,
        { (e.isTimeUp clock).2 with nodes_searched_ := e.nodes_searched_ + 1 }) := by
  have hn := isTimeUp_nodes e clock (e.nodes_searched_ + 1)
  simp only [alphaBeta, hn.1, hn.2, hup, true_or, if_true]

theorem quiescence_expired (clock : Nat → Int) (fuel : Nat) (board : Board)
    (alpha beta : Int) (mp : Bool) (e : SearchEngine)
    (hup : (e.isTimeUp clock).1 = true) :
    quiescenceSearch clock (fuel + 1) board alpha beta mp e =
      some (0, { (e.isTimeUp clock).2 with nodes_searched_ := e.nodes_searched_ + 1 }) := by
  have hn := isTimeUp_nodes e clock (e.nodes_searched_ + 1)
  simp only [quiescenceSearch, hn.1, hn.2, hup, if_true]

theorem isTimeUp_fields (e : SearchEngine) (clock : Nat → Int) :
    (e.isTimeUp clock).2.transposition_table_ = e.transposition_table_ ∧
    (e.isTimeUp clock).2.nodes_searched_ = e.nodes_searched_ ∧
    (e.isTimeUp clock).2.max_depth_ = e.max_depth_ ∧
    (e.isTimeUp clock).2.max_time_ = e.max_time_ ∧
    (e.isTimeUp clock).2.start_time_ = e.start_time_ := by
  unfold SearchEngine.isTimeUp SearchEngine.now
  by_cases h : e.time_up_ = true
  · simp [h]
  · simp [h]

theorem deepeningLoop_expired (clock : Nat → Int) (qfuel : Nat) (board : Board)
    (white_player : Bool) (legal_moves : List (List Char)) (fuel : Nat) (depth : Int)
    (best_result : SearchResult) (e : SearchEngine) (hup : (e.isTimeUp clock).1 = true) :
    ∃ r, deepeningLoop clock qfuel board white_player legal_moves fuel depth best_result e
        = some r ∧
      r.1 = best_result ∧ r.2.transposition_table_ = e.transposition_table_ ∧
      r.2.nodes_searched_ = e.nodes_searched_ := by
  cases fuel with
  | zero => exact ⟨_, rfl, rfl, rfl, rfl⟩
  | succ fuel =>
    unfold deepeningLoop
    by_cases hd : depth ≤ e.max_depth_
    · simp only [hd, not_true_eq_false, if_false, hup, if_true]
      exact ⟨_, rfl, rfl, (isTimeUp_fields e clock).1, (isTimeUp_fields e clock).2.1⟩
    · simp only [hd, not_false_eq_true, if_true]
      exact ⟨_, rfl, rfl, rfl, rfl⟩

theorem deepeningLoop_round (clock : Nat → Int) (qfuel : Nat) (board : Board) (wp : Bool)
    (legal_moves : List (List Char)) (fuel : Nat) (depth : Int) (best : SearchResult)
    (e : SearchEngine) (st : LoopState)
    (hup : (e.isTimeUp clock).1 = false) (hd : depth ≤ e.max_depth_)
    (hroot : rootLoop clock
        (fun b a be en => alphaBeta clock qfuel (depth.toNat + 1) b (depth - 1) a be (!wp) en)
        board wp (orderMoves board legal_moves wp)
        { best_eval := (if wp then -INFINITY_SCORE else INFINITY_SCORE), best_move := [],
          alpha := -INFINITY_SCORE, beta := INFINITY_SCORE,
          engine := (e.isTimeUp clock).2 } = some st) :
    deepeningLoop clock qfuel board wp legal_moves (fuel + 1) depth best e =
      deepeningLoop clock qfuel board wp legal_moves fuel (depth + 1)
        (if (st.engine.isTimeUp clock).1 = false ∧ st.best_move ≠ [] then
          { best with best_move := st.best_move, score := st.best_eval, depth := depth }
         else best)
        (st.engine.isTimeUp clock).2 := by
  simp only [deepeningLoop, hd, not_true_eq_false, if_false, hup, Bool.false_eq_true, hroot]
  cases hup2 : (st.engine.isTimeUp clock).1 with
  | true => simp
  | false =>
    by_cases hb : st.best_move = []
    · simp [hb]
    · have : st.best_move.isEmpty = false := by
        cases hbm : st.best_move with
        | nil => exact absurd hbm hb
        | cons _ _ => rfl
      simp [hb, this]

theorem iterativeDeepening_reports (clock : Nat → Int) (qfuel : Nat) (e : SearchEngine)
    (board : Board) (wp : Bool) (res : SearchResult × SearchEngine)
    (hlen : 2 ≤ (generateLegalMoves board wp).length)
    (hres : iterativeDeepening clock qfuel e board wp = some res) :
    ∃ r, deepeningLoop clock qfuel board wp (generateLegalMoves board wp) e.max_depth_.toNat 1
        { best_move := [], score := (if wp then -INFINITY_SCORE else INFINITY_SCORE),
          depth := 0, nodes_searched := 0, time_taken := 0 }
        { (e.now clock).2 with
          start_time_ := (e.now clock).1, time_up_ := false, nodes_searched_ := 0 } = some r ∧
      res.1.best_move = r.1.best_move ∧ res.1.score = r.1.score ∧ res.1.depth = r.1.depth := by
  have h1 : (generateLegalMoves board wp).isEmpty = false := by
    cases hl : generateLegalMoves board wp with
    | nil => rw [hl] at hlen; simp at hlen
    | cons _ _ => rfl
  have h2 : ¬(generateLegalMoves board wp).length = 1 := by omega
  unfold iterativeDeepening at hres
  simp only [h1, Bool.false_eq_true, if_false, h2] at hres
  split at hres
  · exact Option.noConfusion hres
  · rename_i r hr
    simp only [Option.some.injEq] at hres
    refine ⟨r, hr, ?_, ?_, ?_⟩ <;> rw [← hres]

/-! ## Claim on cancellation -/

/-- C37: cancellation is cooperative and the search never descends after the deadline.
If the time budget has expired at the poll on entry, `alphaBeta` returns the static
evaluation `evaluate(board, maximizing_player)` at once and `quiescenceSearch` returns 0
at once: the engine afterwards has counted this one node and its transposition cache is
unchanged.  If it has expired at the poll at the head of a depth, the depth loop of
`iterativeDeepening` starts no further depth and keeps `best_result`.  If it has expired
at the poll after the move loop of a depth (and at the next poll), that depth is
discarded and `best_result` is kept; a depth whose move loop ends before the deadline
with a best move is recorded as the move, score and depth of `best_result`.
`iterativeDeepening` reports the move, score and depth of `best_result`. -/
theorem expired_search_unwinds (clock : Nat → Int) (e : SearchEngine)
    (hup : (e.isTimeUp clock).1 = true) :
    (∀ (qfuel fuel : Nat) (board : Board) (depth alpha beta : Int) (mp : Bool),
      alphaBeta clock qfuel (fuel + 1) board depth alpha beta mp e =
        some (evaluate board mp,
          { (e.isTimeUp clock).2 with nodes_searched_ := e.nodes_searched_ + 1 })) ∧
    (∀ (fuel : Nat) (board : Board) (alpha beta : Int) (mp : Bool),
      quiescenceSearch clock (fuel + 1) board alpha beta mp e =
        some (0, { (e.isTimeUp clock).2 with nodes_searched_ := e.nodes_searched_ + 1 })) ∧
    (e.isTimeUp clock).2.transposition_table_ = e.transposition_table_ ∧
    (∀ (qfuel : Nat) (board : Board) (wp : Bool) (legal_moves : List (List Char)) (fuel : Nat)
        (depth : Int) (best : SearchResult),
      ∃ r, deepeningLoop clock qfuel board wp legal_moves fuel depth best e = some r ∧
        r.1 = best ∧ r.2.transposition_table_ = e.transposition_table_ ∧
        r.2.nodes_searched_ = e.nodes_searched_) ∧
    (∀ (qfuel : Nat) (board : Board) (wp : Bool) (legal_moves : List (List Char)) (fuel : Nat)
        (depth : Int) (best : SearchResult) (e0 : SearchEngine) (st : LoopState),
      (e0.isTimeUp clock).1 = false → depth ≤ e0.max_depth_ →
      rootLoop clock
        (fun b a be en => alphaBeta clock qfuel (depth.toNat + 1) b (depth - 1) a be (!wp) en)
        board wp (orderMoves board legal_moves wp)
        { best_eval := (if wp then -INFINITY_SCORE else INFINITY_SCORE), best_move := [],
          alpha := -INFINITY_SCORE, beta := INFINITY_SCORE,
          engine := (e0.isTimeUp clock).2 } = some st →
      st.engine = e → ((e.isTimeUp clock).2.isTimeUp clock).1 = true →
      ∃ r, deepeningLoop clock qfuel board wp legal_moves (fuel + 1) depth best e0 = some r ∧
        r.1 = best) ∧
    (∀ (qfuel : Nat) (board : Board) (wp : Bool) (legal_moves : List (List Char)) (fuel : Nat)
        (depth : Int) (best : SearchResult) (e0 : SearchEngine) (st : LoopState),
      (e0.isTimeUp clock).1 = false → depth ≤ e0.max_depth_ →
      rootLoop clock
        (fun b a be en => alphaBeta clock qfuel (depth.toNat + 1) b (depth - 1) a be (!wp) en)
        board wp (orderMoves board legal_moves wp)
        { best_eval := (if wp then -INFINITY_SCORE else INFINITY_SCORE), best_move := [],
          alpha := -INFINITY_SCORE, beta := INFINITY_SCORE,
          engine := (e0.isTimeUp clock).2 } = some st →
      (st.engine.isTimeUp clock).1 = false → st.best_move ≠ [] →
      deepeningLoop clock qfuel board wp legal_moves (fuel + 1) depth best e0 =
        deepeningLoop clock qfuel board wp legal_moves fuel (depth + 1)
          { best with best_move := st.best_move, score := st.best_eval, depth := depth }
          (st.engine.isTimeUp clock).2) ∧
    (∀ (qfuel : Nat) (e1 : SearchEngine) (board : Board) (wp : Bool)
        (res : SearchResult × SearchEngine),
      2 ≤ (generateLegalMoves board wp).length →
      iterativeDeepening clock qfuel e1 board wp = some res →
      ∃ r, deepeningLoop clock qfuel board wp (generateLegalMoves board wp)
          e1.max_depth_.toNat 1
          { best_move := [], score := (if wp then -INFINITY_SCORE else INFINITY_SCORE),
            depth := 0, nodes_searched := 0, time_taken := 0 }
          { (e1.now clock).2 with
            start_time_ := (e1.now clock).1, time_up_ := false, nodes_searched_ := 0 }
          = some r ∧
        res.1.best_move = r.1.best_move ∧ res.1.score = r.1.score ∧
        res.1.depth = r.1.depth) := by
  refine ⟨?_, ?_, (isTimeUp_fields e clock).1, ?_, ?_, ?_, ?_⟩
  · intro qfuel fuel board depth alpha beta mp
    exact alphaBeta_expired clock qfuel fuel board depth alpha beta mp e hup
  · intro fuel board alpha beta mp
    exact quiescence_expired clock fuel board alpha beta mp e hup
  · intro qfuel board wp legal_moves fuel depth best
    exact deepeningLoop_expired clock qfuel board wp legal_moves fuel depth best e hup
  · intro qfuel board wp legal_moves fuel depth best e0 st h0 hd hroot hst hnext
    rw [deepeningLoop_round clock qfuel board wp legal_moves fuel depth best e0 st h0 hd hroot,
      hst, if_neg (by rw [hup]; simp)]
    obtain ⟨r, hr, hr1, _⟩ := deepeningLoop_expired clock qfuel board wp legal_moves fuel
      (depth + 1) best (e.isTimeUp clock).2 hnext
    exact ⟨r, hr, hr1⟩
  · intro qfuel board wp legal_moves fuel depth best e0 st h0 hd hroot hafter hbm
    rw [deepeningLoop_round clock qfuel board wp legal_moves fuel depth best e0 st h0 hd hroot,
      if_pos ⟨hafter, hbm⟩]
  · intro qfuel e1 board wp res hlen hres
    exact iterativeDeepening_reports clock qfuel e1 board wp res hlen hres

set_option maxRecDepth 1000000 in
/-- C37 on concrete clocks.  With a budget of 1 ms and a clock that shows 1 ms, `alphaBeta`
on the starting position returns the static evaluation 40 and has counted one node.  With
the two bare kings, Black to move, maximum depth 2 and a budget of one second that runs
out at the first node of depth 2, `iterativeDeepening` reports the move a8b8, score 16
and depth 1, which is what a search of maximum depth 1 reports. -/
theorem expired_search_unwinds_witness :
    ((SearchEngine.new 3 1).isTimeUp (fun _ => 1000000)).1 = true ∧
    (alphaBeta (fun _ => 1000000) 1 1 Board.start 3 (-100000) 100000 true
        (SearchEngine.new 3 1)).map (fun r => (r.1, r.2.nodes_searched_)) = some (40, 1) ∧
    (iterativeDeepening (deadlineClock 14) 5 (SearchEngine.new 2 1000) bareKings false).map
        (fun r => (r.1.best_move, r.1.score, r.1.depth)) = some ("a8b8".toList, 16, 1) ∧
    (iterativeDeepening (fun _ => 0) 5 (SearchEngine.new 1 1000) bareKings false).map
        (fun r => (r.1.best_move, r.1.score, r.1.depth)) = some ("a8b8".toList, 16, 1) := by
  refine ⟨by decide, ?_, by decide, by decide⟩
  rw [(expired_search_unwinds (fun _ => 1000000) (SearchEngine.new 3 1) (by decide)).1 1 0
    Board.start 3 (-100000) 100000 true]
  decide

/-! ## Helper lemmas: `alphaBeta` on an arbitrary clock -/

theorem alphaBetaMaxLoop_returns (clock : Nat → Int)
    (child : Board → Int → Int → SearchEngine → Option (Int × SearchEngine)) (board : Board) :
    ∀ (moves : List (List Char)),
      (∀ move ∈ moves, (board.copy.makeMove move).1 = true →
        ∀ (a be : Int) (e : SearchEngine),
          ∃ r, child (board.copy.makeMove move).2 a be e = some r) →
      ∀ (st : LoopState), ∃ st1, alphaBetaMaxLoop clock child board moves st = some st1 := by
  intro moves
  induction moves with
  | nil =>
    intro _ st
    exact ⟨_, rfl⟩
  | cons move rest ih =>
    intro hchild st
    have ihr := ih (fun mv hmv => hchild mv (List.mem_cons_of_mem _ hmv))
    cases hup : (st.engine.isTimeUp clock).1 with
    | true =>
      exact ⟨{ st with engine := (st.engine.isTimeUp clock).2 },
        by simp only [alphaBetaMaxLoop, hup, if_true]⟩
    | false =>
      cases hmv : (board.copy.makeMove move).1 with
      | false =>
        obtain ⟨r, hr⟩ := ihr { st with engine := (st.engine.isTimeUp clock).2 }
        refine ⟨r, ?_⟩
        simp only [alphaBetaMaxLoop, hup, hmv, Bool.false_eq_true, if_false, Bool.not_false,
          if_true]
        exact hr
      | true =>
        obtain ⟨r1, hc⟩ :=
          hchild move (List.mem_cons_self _ _) hmv st.alpha st.beta (st.engine.isTimeUp clock).2
        obtain ⟨nx, hnx⟩ : ∃ nx : LoopState, nx =
            { best_eval := if r1.1 > st.best_eval then r1.1 else st.best_eval
              best_move := if r1.1 > st.best_eval then move else st.best_move
              alpha := max st.alpha r1.1
              beta := st.beta
              engine := r1.2 } := ⟨_, rfl⟩
        have hstep : alphaBetaMaxLoop clock child board (move :: rest) st =
            if nx.beta ≤ nx.alpha then some nx
            else alphaBetaMaxLoop clock child board rest nx := by
          simp only [alphaBetaMaxLoop, hup, hmv, hc, Bool.false_eq_true, if_false,
            Bool.not_true]
          rw [hnx]
          by_cases hgt : r1.1 > st.best_eval
          · simp only [hgt, if_true]
          · simp only [hgt, if_false]
        rw [hstep]
        by_cases hcut : nx.beta ≤ nx.alpha
        · rw [if_pos hcut]
          exact ⟨nx, rfl⟩
        · rw [if_neg hcut]
          exact ihr nx

theorem alphaBetaMinLoop_returns (clock : Nat → Int)
    (child : Board → Int → Int → SearchEngine → Option (Int × SearchEngine)) (board : Board) :
    ∀ (moves : List (List Char)),
      (∀ move ∈ moves, (board.copy.makeMove move).1 = true →
        ∀ (a be : Int) (e : SearchEngine),
          ∃ r, child (board.copy.makeMove move).2 a be e = some r) →
      ∀ (st : LoopState), ∃ st1, alphaBetaMinLoop clock child board moves st = some st1 := by
  intro moves
  induction moves with
  | nil =>
    intro _ st
    exact ⟨_, rfl⟩
  | cons move rest ih =>
    intro hchild st
    have ihr := ih (fun mv hmv => hchild mv (List.mem_cons_of_mem _ hmv))
    cases hup : (st.engine.isTimeUp clock).1 with
    | true =>
      exact ⟨{ st with engine := (st.engine.isTimeUp clock).2 },
        by simp only [alphaBetaMinLoop, hup, if_true]⟩
    | false =>
      cases hmv : (board.copy.makeMove move).1 with
      | false =>
        obtain ⟨r, hr⟩ := ihr { st with engine := (st.engine.isTimeUp clock).2 }
        refine ⟨r, ?_⟩
        simp only [alphaBetaMinLoop, hup, hmv, Bool.false_eq_true, if_false, Bool.not_false,
          if_true]
        exact hr
      | true =>
        obtain ⟨r1, hc⟩ :=
          hchild move (List.mem_cons_self _ _) hmv st.alpha st.beta (st.engine.isTimeUp clock).2
        obtain ⟨nx, hnx⟩ : ∃ nx : LoopState, nx =
            { best_eval := if r1.1 < st.best_eval then r1.1 else st.best_eval
              best_move := if r1.1 < st.best_eval then move else st.best_move
              alpha := st.alpha
              beta := min st.beta r1.1
              engine := r1.2 } := ⟨_, rfl⟩
        have hstep : alphaBetaMinLoop clock child board (move :: rest) st =
            if nx.beta ≤ nx.alpha then some nx
            else alphaBetaMinLoop clock child board rest nx := by
          simp only [alphaBetaMinLoop, hup, hmv, hc, Bool.false_eq_true, if_false,
            Bool.not_true]
          rw [hnx]
          by_cases hgt : r1.1 < st.best_eval
          · simp only [hgt, if_true]
          · simp only [hgt, if_false]
        rw [hstep]
        by_cases hcut : nx.beta ≤ nx.alpha
        · rw [if_pos hcut]
          exact ⟨nx, rfl⟩
        · rw [if_neg hcut]
          exact ihr nx

/-- On every clock `alphaBeta` returns when its fuel exceeds the remaining depth and the
quiescence fuel exceeds the number of pieces. -/
theorem alphaBeta_returns (clock : Nat → Int) (qfuel : Nat) :
    ∀ (fuel : Nat) (board : Board) (depth alpha beta : Int) (mp : Bool) (e : SearchEngine),
      gridOK board.board_ = true → pieceCount board.board_ < qfuel →
      1 ≤ fuel → depth < (fuel : Int) →
      ∃ r, alphaBeta clock qfuel fuel board depth alpha beta mp e = some r := by
  intro fuel
  induction fuel with
  | zero => intro board depth alpha beta mp e _ _ h; exact absurd h (by omega)
  | succ fuel ih =>
    intro board depth alpha beta mp e hg hpc _ hd
    simp only [alphaBeta]
    split
    · exact ⟨_, rfl⟩
    · split
      · exact ⟨_, rfl⟩
      · split
        · split
          · obtain ⟨r, hr, _⟩ := quiescenceSearch_returns clock qfuel board alpha beta mp
              (SearchEngine.isTimeUp { e with nodes_searched_ := e.nodes_searched_ + 1 }
                clock).2 hg hpc
            exact ⟨r, hr⟩
          · exact ⟨_, rfl⟩
        · rename_i hup hcm hst
          have hd1 : depth ≠ 0 := fun h => hst (Or.inr h)
          have hd0 : ¬depth < 0 := fun h => hup (Or.inr h)
          have hchild : ∀ move ∈ orderMoves board (generateLegalMoves board mp) mp,
              (board.copy.makeMove move).1 = true →
              ∀ (a be : Int) (en : SearchEngine),
                ∃ r, alphaBeta clock qfuel fuel (board.copy.makeMove move).2 (depth - 1) a be
                    (!mp) en = some r := by
            intro move hmove hacc a be en
            rw [orderMoves_mem] at hmove
            have hpcm := makeMove_pieceCount board mp move hg hmove hacc
            exact ih (board.copy.makeMove move).2 (depth - 1) a be (!mp)
              en hpcm.1 (by omega) (by omega) (by omega)
          split
          · exact ⟨_, rfl⟩
          · split
            · exact ⟨_, rfl⟩
            · split
              · obtain ⟨st1, hs⟩ := alphaBetaMaxLoop_returns clock
                  (fun b a be en => alphaBeta clock qfuel fuel b (depth - 1) a be (!mp) en)
                  board _ hchild
                  { best_eval := -INFINITY_SCORE, best_move := [], alpha := alpha,
                    beta := beta,
                    engine := (SearchEngine.probeTransposition _ (getPositionKey board) depth
                      alpha beta).2 }
                rw [hs]
                exact ⟨_, rfl⟩
              · obtain ⟨st1, hs⟩ := alphaBetaMinLoop_returns clock
                  (fun b a be en => alphaBeta clock qfuel fuel b (depth - 1) a be (!mp) en)
                  board _ hchild
                  { best_eval := INFINITY_SCORE, best_move := [], alpha := alpha,
                    beta := beta,
                    engine := (SearchEngine.probeTransposition _ (getPositionKey board) depth
                      alpha beta).2 }
                rw [hs]
                exact ⟨_, rfl⟩

theorem pieceCount_le (g : List (List Char)) : pieceCount g ≤ 64 := by
  unfold pieceCount
  have h : rowMajorSquares.length = 64 := by decide
  rw [← h]
  exact List.countP_le_length _

theorem isCaptureMove_target (board : Board) (m : List Char)
    (h : isCaptureMove board m = true) :
    4 ≤ m.length ∧
    board.getPiece (squareToPosition ((m.drop 2).take 2)).1
      (squareToPosition ((m.drop 2).take 2)).2 ≠ '.' := by
  unfold isCaptureMove at h
  by_cases h1 : m.length ≥ 4
  · rw [if_pos h1] at h
    simp only at h
    by_cases h2 : (squareToPosition ((m.drop 2).take 2)).1 ≥ 0 ∧
        (squareToPosition ((m.drop 2).take 2)).2 ≥ 0
    · rw [if_pos h2] at h
      exact ⟨h1, of_decide_eq_true h⟩
    · rw [if_neg h2] at h
      exact Bool.noConfusion h
  · rw [if_neg h1] at h
    exact Bool.noConfusion h

/-! ## Claim on termination of the search -/

/-- C38: the search recursion terminates on every 8 x 8 board and every clock, also one
on which the time budget never expires.  `alphaBeta` returns whenever its fuel exceeds
the remaining depth (it recurses with the depth decreased by 1, and at depth 0, the time
not expired and the side not checkmated, it is the call of `quiescenceSearch`) and the
quiescence fuel exceeds the number of pieces, which is at most 64; `quiescenceSearch`
returns whenever its fuel exceeds the number of pieces: every move it explores lands on
an occupied square, and `makeMove` of such a legal move leaves strictly fewer pieces, of
any legal move not more. -/
theorem search_recursion_terminates (clock : Nat → Int) (board : Board)
    (hg : gridOK board.board_ = true) :
    (∀ (qfuel fuel : Nat) (depth alpha beta : Int) (mp : Bool) (e : SearchEngine),
      pieceCount board.board_ < qfuel → 1 ≤ fuel → depth < (fuel : Int) →
      ∃ r, alphaBeta clock qfuel fuel board depth alpha beta mp e = some r) ∧
    (∀ (qfuel : Nat) (alpha beta : Int) (mp : Bool) (e : SearchEngine),
      pieceCount board.board_ < qfuel →
      ∃ r, quiescenceSearch clock qfuel board alpha beta mp e = some r) ∧
    pieceCount board.board_ ≤ 64 ∧
    (∀ (qfuel fuel : Nat) (alpha beta : Int) (mp : Bool) (e : SearchEngine),
      (e.isTimeUp clock).1 = false → board.isCheckmate mp = false →
      alphaBeta clock qfuel (fuel + 1) board 0 alpha beta mp e =
        quiescenceSearch clock qfuel board alpha beta mp
          { (e.isTimeUp clock).2 with nodes_searched_ := e.nodes_searched_ + 1 }) ∧
    (∀ (mp : Bool) (m : List Char),
      m ∈ orderMoves board ((generateLegalMoves board mp).filter (isCaptureMove board)) mp →
      m ∈ generateLegalMoves board mp ∧
      board.getPiece (squareToPosition ((m.drop 2).take 2)).1
        (squareToPosition ((m.drop 2).take 2)).2 ≠ '.' ∧
      ((board.copy.makeMove m).1 = true →
        gridOK (board.copy.makeMove m).2.board_ = true ∧
        pieceCount (board.copy.makeMove m).2.board_ < pieceCount board.board_)) ∧
    (∀ (mp : Bool) (m : List Char), m ∈ generateLegalMoves board mp →
      (board.copy.makeMove m).1 = true →
      gridOK (board.copy.makeMove m).2.board_ = true ∧
      pieceCount (board.copy.makeMove m).2.board_ ≤ pieceCount board.board_) := by
  refine ⟨?_, ?_, pieceCount_le _, ?_, ?_, ?_⟩
  · intro qfuel fuel depth alpha beta mp e hq hf hd
    exact alphaBeta_returns clock qfuel fuel board depth alpha beta mp e hg hq hf hd
  · intro qfuel alpha beta mp e hq
    obtain ⟨r, hr, _⟩ := quiescenceSearch_returns clock qfuel board alpha beta mp e hg hq
    exact ⟨r, hr⟩
  · intro qfuel fuel alpha beta mp e ht hm
    exact alphaBeta_depth_zero clock qfuel fuel board alpha beta mp e ht hm
  · intro mp m hm
    rw [orderMoves_mem, List.mem_filter] at hm
    refine ⟨hm.1, (isCaptureMove_target board m hm.2).2, ?_⟩
    intro hacc
    have := makeMove_pieceCount board mp m hg hm.1 hacc
    exact ⟨this.1, this.2.2 hm.2⟩
  · intro mp m hm hacc
    have := makeMove_pieceCount board mp m hg hm hacc
    exact ⟨this.1, this.2.1⟩

set_option maxRecDepth 1000000 in
/-- C38 at the starting position, on the clock that stands still: a search of remaining
depth 3 returns with fuel 4 and quiescence fuel 33. -/
theorem search_recursion_terminates_witness :
    gridOK Board.start.board_ = true ∧ pieceCount Board.start.board_ < 33 ∧
    ∃ r, alphaBeta (fun _ => 0) 33 4 Board.start 3 (-100000) 100000 true
      (SearchEngine.new 3 1000) = some r :=
  ⟨by decide, by decide,
    (search_recursion_terminates (fun _ => 0) Board.start (by decide)).1 33 4 3 (-100000)
      100000 true (SearchEngine.new 3 1000) (by decide) (by decide) (by decide)⟩

/-! ## Helper lemmas and claim: the side not to move -/

theorem black_not_white {p : Char} (h : p ∈ BLACK_PIECES) : isWhitePiece p = false := by
  simp only [BLACK_PIECES, List.mem_cons, List.mem_singleton, List.not_mem_nil, or_false] at h
  rcases h with h | h | h | h | h | h <;> subst h <;> decide

theorem white_is_white {p : Char} (h : p ∈ WHITE_PIECES) : isWhitePiece p = true := by
  unfold isWhitePiece
  exact decide_eq_true h

theorem friendly_upper {p : Char} {c : Bool} (h : isFriendlyPiece p c = true) :
    p ≠ '.' ∧ isUpper p = c := by
  unfold isFriendlyPiece isWhitePiece isBlackPiece at h
  cases c with
  | true =>
    simp only [if_true, decide_eq_true_eq] at h
    refine ⟨?_, isUpper_of_white h⟩
    rintro rfl
    revert h
    decide
  | false =>
    simp only [Bool.false_eq_true, if_false, decide_eq_true_eq] at h
    refine ⟨?_, not_isUpper_of_black h⟩
    rintro rfl
    revert h
    decide

theorem wrong_colour_rejected (b : Board) (c : Bool) (hc : c ≠ b.white_to_move_)
    (row col : Nat) (hr : row < 8) (hcol : col < 8)
    (hu : isUpper (b.getPiece row col) = c) (t : List Char)
    (ht : t ∈ generatePseudoLegalMoves b row col) :
    b.white_to_move_ ≠ isWhitePiece (b.getPiece row col) ∧
    (b.copy.makeMove (positionToSquare row col ++ t)).1 = false := by
  have hpiece : b.getPiece row col ∈ WHITE_PIECES ∨ b.getPiece row col ∈ BLACK_PIECES := by
    by_contra hn
    rw [not_or] at hn
    rw [pseudo_nil_of_not_piece b row col hn.1 hn.2] at ht
    exact List.not_mem_nil _ ht
  have hw : b.white_to_move_ ≠ isWhitePiece (b.getPiece row col) := by
    rcases hpiece with hp | hp
    · rw [white_is_white hp]
      rw [isUpper_of_white hp] at hu
      subst hu
      exact fun h => hc h.symm
    · rw [black_not_white hp]
      rw [not_isUpper_of_black hp] at hu
      subst hu
      exact fun h => hc h.symm
  refine ⟨hw, ?_⟩
  have hsq := sourceIndex_positionToSquare (row, col) (mem_rowMajorSquares row col hr hcol)
  simp only at hsq
  cases hmk : (b.copy.makeMove (positionToSquare row col ++ t)).1 with
  | false => rfl
  | true =>
    exfalso
    rw [copy_eq, makeMove_true_iff] at hmk
    have htake : (positionToSquare row col ++ t).take 2 = positionToSquare row col := by
      rw [List.take_append_of_le_length (by omega), List.take_of_length_le (by omega)]
    rw [htake, hsq.2] at hmk
    exact hw hmk.2.2.2.2

/-- C39: when `c` is not the side to move in `b`, `generateLegalMoves(b, c)` is the empty
list, whatever pieces `c` has: for every piece of colour `c` and every one of its
pseudo-legal destinations, the trial `makeMove` on the copy is rejected, the piece not
being of the colour to move.  So the mobility term of `c` is 0, and `c` is reported
stalemated exactly when it is not in check and checkmated exactly when it is. -/
theorem legal_moves_empty_for_side_not_to_move (b : Board) (c : Bool)
    (hc : c ≠ b.white_to_move_) :
    generateLegalMoves b c = [] ∧
    (∀ row col : Nat, row < 8 → col < 8 → isUpper (b.getPiece row col) = c →
      ∀ t ∈ generatePseudoLegalMoves b row col,
        b.white_to_move_ ≠ isWhitePiece (b.getPiece row col) ∧
        (b.copy.makeMove (positionToSquare row col ++ t)).1 = false) ∧
    evaluateMobility b c = 0 ∧
    b.isStalemate c = !b.isInCheck c ∧ b.isCheckmate c = b.isInCheck c := by
  have hnil : generateLegalMoves b c = [] := by
    rw [generateLegalMoves_eq_spec]
    unfold legalMovesSpec
    rw [List.flatMap_eq_nil_iff]
    intro sq hsq
    rw [List.filter_eq_nil_iff]
    intro m hm
    unfold pseudoMovesAt at hm
    by_cases hf : isFriendlyPiece (b.getPiece sq.1 sq.2) c = true
    · rw [if_pos hf, List.mem_map] at hm
      obtain ⟨t, ht, rfl⟩ := hm
      have hb := rowMajor_bound sq hsq
      have := (wrong_colour_rejected b c hc sq.1 sq.2 hb.1 hb.2 (friendly_upper hf).2 t ht).2
      unfold keepsKingSafe
      rw [this]
      simp
    · rw [if_neg hf] at hm
      exact absurd hm (List.not_mem_nil _)
  refine ⟨hnil, ?_, ?_, ?_, ?_⟩
  · intro row col hr hcol hu t ht
    exact wrong_colour_rejected b c hc row col hr hcol hu t ht
  · unfold evaluateMobility
    rw [hnil]
    rfl
  · unfold Board.isStalemate
    rw [hnil]
    cases b.isInCheck c <;> rfl
  · unfold Board.isCheckmate
    rw [hnil]
    cases b.isInCheck c <;> rfl

/-- C39 at the starting position: Black, with its sixteen pieces, has no legal move while
White is to move. -/
theorem legal_moves_empty_for_side_not_to_move_witness :
    false ≠ Board.start.white_to_move_ ∧ generateLegalMoves Board.start false = [] :=
  ⟨by decide, (legal_moves_empty_for_side_not_to_move Board.start false (by decide)).1⟩

/-! ## Claim on the sign convention of scores -/

theorem evaluate_black_perspective (board : Board) :
    evaluate board false = -evaluate board true := by
  unfold evaluate
  simp

set_option maxRecDepth 1000000 in
/-- C40 (the code at the failing input): `quiescenceSearch` scores a position from the
point of view of the side to move, not of White.  With Black to move, king a8 against
king a1 and queen b1, there is no legal capture and `evaluate(board, true)` is 888; with
the full window (-100000, 100000) and the time budget not expired `quiescenceSearch`
returns -888, and so does `alphaBeta` at remaining depth 0; whereas a checkmated White
scores -50002 at remaining depth 2, negative being bad for White there.  In general, on a
quiet position with the full window and an evaluation inside it, `quiescenceSearch`
returns `evaluate(board, true)` when White is to move and its negation when Black is. -/
theorem quiescence_scores_from_side_to_move :
    queenUp.white_to_move_ = false ∧
    (generateLegalMoves queenUp false).filter (isCaptureMove queenUp) = [] ∧
    evaluate queenUp true = 888 ∧
    (quiescenceSearch (fun _ => 0) 1 queenUp (-100000) 100000 false
      (SearchEngine.new 3 1000)).map Prod.fst = some (-888) ∧
    (alphaBeta (fun _ => 0) 1 1 queenUp 0 (-100000) 100000 false
      (SearchEngine.new 3 1000)).map Prod.fst = some (-888) ∧
    (alphaBeta (fun _ => 0) 1 1 foolsMate 2 (-100000) 100000 true
      (SearchEngine.new 3 1000)).map Prod.fst = some (-50002) ∧
    (∀ (clock : Nat → Int) (qfuel : Nat) (board : Board) (mp : Bool) (e : SearchEngine),
      (e.isTimeUp clock).1 = false →
      (generateLegalMoves board mp).filter (isCaptureMove board) = [] →
      -INFINITY_SCORE < evaluate board true → evaluate board true < INFINITY_SCORE →
      (quiescenceSearch clock (qfuel + 1) board (-INFINITY_SCORE) INFINITY_SCORE mp e).map
          Prod.fst =
        some (if mp then evaluate board true else -evaluate board true)) := by
  refine ⟨by decide, by decide, by decide, by decide, by decide, by decide, ?_⟩
  intro clock qfuel board mp e ht hq hlo hhi
  rw [quiescence_quiet clock qfuel board _ _ mp e ht hq, Option.map_some']
  cases mp with
  | true =>
    have h1 : ¬(true = true ∧ evaluate board true ≥ INFINITY_SCORE) := by
      intro h
      exact absurd h.2 (by omega)
    rw [if_neg h1, if_neg (by simp)]
    rfl
  | false =>
    rw [evaluate_black_perspective]
    have h2 : ¬(false = false ∧ -evaluate board true ≤ -INFINITY_SCORE) := by
      intro h
      exact absurd h.2 (by omega)
    rw [if_neg (by simp), if_neg h2]
    rfl

end Chess
